import Mathlib

/-!
# einsum_ir: loop engine, memory manager and TPP binary contraction of the backend

Shallow embedding of `src/backend/ContractionLoops.cpp` (`init`, `compile`, `threading`,
`contract_iter`, `contract_iter_packing`, `contract`), of `src/backend/MemoryManager.cpp`
(`reserve_memory`, `remove_reservation`, `alloc_all_memory`, `get_mem_ptr`, `increase_layer`,
`decrease_layer`) and of `BinaryContractionTpp::compile` of
`src/backend/BinaryContractionTpp.cpp`.

Conventions of the embedding:
* `int64_t` values are unbounded integers (`Int`), counts and loop indices are `Nat`;
  overflow is not modelled.
* a `std::map< int64_t, T >` is an association list, `at` / `find` are `List.lookup`;
  `at` on a missing key (an exception in the source) and an out-of-bounds read of
  `l_loop_dims` make `compile` return `none`.
* an id array together with its count (`m_num_dims_c`, `m_dim_ids_c`) is a list.
* pointers are byte addresses (`Int`), the null pointer is address `0`.
* the three pure-virtual kernels are a record of state transformers.
-/

namespace einsum_ir

/-- Dimension types of `constants.h`. -/
inductive dim_t where
  | C | M | N | K | UNDEFINED_DIM
  deriving DecidableEq, Repr

/-- Modelled from the spec: `constants.h` is not part of the sources; the kernel kinds are
those named by the spec (section 3) and used by the tests, the `CPX_` kinds are the
complex variants. -/
inductive kernel_t where
  | UNDEFINED_KTYPE | ZERO | COPY | ADD | MADD | RELU
  | CPX_ZERO | CPX_COPY | CPX_ADD | CPX_MADD
  deriving DecidableEq, Repr

/-- Modelled from the spec: `ce_cpx_op` of `constants.h` tells whether a kernel kind is a
complex (CPX) variant. -/
def ce_cpx_op : kernel_t → Bool
  | kernel_t.CPX_ZERO => true
  | kernel_t.CPX_COPY => true
  | kernel_t.CPX_ADD => true
  | kernel_t.CPX_MADD => true
  | _ => false

/-- Error codes of `constants.h` (the taxonomy of section 7 of the spec). -/
inductive err_t where
  | SUCCESS | COMPILATION_FAILED | INVALID_DIM | INVALID_SIZE | INVALID_CPX_DIM
  | CALLED_BEFORE_COMPILE | KERNEL_UNSUPPORTED | UNDEFINED_ERROR
  deriving DecidableEq, Repr

namespace binary

/-- Loop descriptor `binary::iter_property`, with the members that
`BinaryContractionTpp::compile` assigns. The type `exec_t` of the execution kinds is not part
of the sources and is the parameter `ε`. -/
structure iter_property (ε : Type) where
  dim_type : dim_t
  exec_type : ε
  size : Int
  stride_left : Int
  stride_right : Int
  stride_out_aux : Int
  stride_out : Int
  deriving DecidableEq, Repr

end binary

namespace backend

/-- First/last touch type of a loop (`ContractionLoops.h`, `touch_t`). -/
inductive touch_t where
  | NONE | BEFORE_AFTER_ITER | EVERY_ITER
  deriving DecidableEq, Repr

/-- The members of `ContractionPackingTpp` that `ContractionLoops` reads. -/
structure ContractionPackingTpp where
  m_dim_ids_extra : List Int
  m_packing_loop_offset_left : Int
  m_packing_loop_offset_right : Int
  deriving DecidableEq, Repr

/-- Modelled from the spec: the class `IterationSpaces` is not part of the sources. The record
keeps the arguments of its `init` and the per-task `firsts` / `sizes` arrays with the
realised number of tasks (section 3, "Iteration space"). -/
structure IterationSpaces where
  m_num_loops : Nat
  m_num_parallel : Nat
  m_loop_sizes : List Int
  m_num_tasks : Int
  m_firsts : List (List Int)
  m_sizes : List (List Int)
  deriving DecidableEq, Repr

namespace IterationSpaces

/-- An iteration space that was never initialised. -/
def empty : IterationSpaces := ⟨0, 0, [], 0, [], []⟩

/-- Stores the arguments like `IterationSpaces::init`. -/
def init (i_num_loops i_num_parallel : Nat) (i_sizes : List Int) (i_num_tasks : Int) :
    IterationSpaces :=
  ⟨i_num_loops, i_num_parallel, i_sizes.take i_num_loops, i_num_tasks, [], []⟩

/-- Modelled from the spec: section 4.6, the length of the contiguous prefix of parallel loops:
the smallest `p ≤ P` whose extent product reaches the targeted number of tasks, and `P` when
there is none. -/
def num_parallel_used (sizes : List Int) (P : Nat) (T : Int) : Nat :=
  match (List.range (P + 1)).find? (fun p => decide (T ≤ (sizes.take p).prod)) with
  | some p => p
  | none => P

/-- Modelled from the spec: section 4.6, first iteration of loop `l` for task `t`: the point
`(t / prod_below) % s[l]` on a parallel loop and `0` on a sequential loop. -/
def first_of (sizes : List Int) (p : Nat) (t : Nat) (l : Nat) : Int :=
  if l < p then ((t : Int) / ((sizes.take p).drop (l + 1)).prod) % sizes.getD l 1 else 0

/-- Modelled from the spec: section 4.6, number of iterations of loop `l` for a task: `1` on a
parallel loop and the full range on a sequential loop. -/
def size_of (sizes : List Int) (p : Nat) (l : Nat) : Int :=
  if l < p then 1 else sizes.getD l 0

/-- Modelled from the spec: section 4.6, `IterationSpaces::compile`: one task per point of the
chosen prefix of parallel loops; the realised task count is the extent product of the
prefix. -/
def compile (its : IterationSpaces) : err_t × IterationSpaces :=
  let p := num_parallel_used its.m_loop_sizes (min its.m_num_parallel its.m_num_loops)
    its.m_num_tasks
  let l_num_tasks := (its.m_loop_sizes.take p).prod
  let l_tasks := List.range l_num_tasks.toNat
  let l_loops := List.range its.m_num_loops
  (err_t.SUCCESS,
   { its with
     m_num_tasks := l_num_tasks
     m_firsts := l_tasks.map (fun t => l_loops.map (first_of its.m_loop_sizes p t))
     m_sizes := l_tasks.map (fun _ => l_loops.map (size_of its.m_loop_sizes p)) })

/-- The accessor `num_tasks()`. -/
def num_tasks (its : IterationSpaces) : Int := its.m_num_tasks

/-- The accessor `firsts( i_id_task )`. -/
def firsts (its : IterationSpaces) (i_id_task : Nat) : List Int := its.m_firsts.getD i_id_task []

/-- The accessor `sizes( i_id_task )`. -/
def sizes (its : IterationSpaces) (i_id_task : Nat) : List Int := its.m_sizes.getD i_id_task []

end IterationSpaces

/-- The members of `ContractionLoops` used by `init`, `compile`, `threading` and the loop
nest. -/
@[ext]
structure ContractionLoops where
  m_dim_ids_c : List Int
  m_dim_ids_m : List Int
  m_dim_ids_n : List Int
  m_dim_ids_k : List Int
  m_sizes : List (Int × Int)
  m_strides_left : List (Int × Int)
  m_strides_right : List (Int × Int)
  m_strides_out_aux : List (Int × Int)
  m_strides_out : List (Int × Int)
  m_dim_type : List (Int × dim_t)
  m_num_bytes_scalar_left : Int
  m_num_bytes_scalar_right : Int
  m_num_bytes_scalar_out : Int
  m_ktype_first_touch : kernel_t
  m_ktype_main : kernel_t
  m_ktype_last_touch : kernel_t
  m_num_tasks_targeted : Int
  m_packing : Option ContractionPackingTpp
  m_threading_first_last_touch : Bool
  m_compiled : Bool
  m_cpx_outer_c : Bool
  m_cpx_stride_in_left_bytes : Int
  m_cpx_stride_in_right_bytes : Int
  m_cpx_stride_out_aux_bytes : Int
  m_cpx_stride_out_bytes : Int
  m_num_loops : Nat
  m_loop_first_last_touch : List touch_t
  m_loop_dim_type : List dim_t
  m_loop_sizes : List Int
  m_loop_strides_left : List Int
  m_loop_strides_right : List Int
  m_loop_strides_out_aux : List Int
  m_loop_strides_out : List Int
  m_loop_sum_k_sizes : Int
  m_id_packing_loop_left : Int
  m_id_packing_loop_right : Int
  m_num_tasks : Int
  m_iter_spaces : IterationSpaces
  deriving DecidableEq, Repr

namespace ContractionLoops

/-- The method `ContractionLoops::init` on a freshly constructed object. -/
def init (i_dim_ids_c i_dim_ids_m i_dim_ids_n i_dim_ids_k : List Int)
    (i_sizes i_strides_left i_strides_right i_strides_out_aux i_strides_out : List (Int × Int))
    (i_dim_type : List (Int × dim_t))
    (i_num_bytes_scalar_left i_num_bytes_scalar_right i_num_bytes_scalar_out : Int)
    (i_ktype_first_touch i_ktype_main i_ktype_last_touch : kernel_t)
    (i_packing : Option ContractionPackingTpp) : ContractionLoops :=
  { m_dim_ids_c := i_dim_ids_c
    m_dim_ids_m := i_dim_ids_m
    m_dim_ids_n := i_dim_ids_n
    m_dim_ids_k := i_dim_ids_k
    m_sizes := i_sizes
    m_strides_left := i_strides_left
    m_strides_right := i_strides_right
    m_strides_out_aux := i_strides_out_aux
    m_strides_out := i_strides_out
    m_dim_type := i_dim_type
    m_num_bytes_scalar_left := i_num_bytes_scalar_left
    m_num_bytes_scalar_right := i_num_bytes_scalar_right
    m_num_bytes_scalar_out := i_num_bytes_scalar_out
    m_ktype_first_touch := i_ktype_first_touch
    m_ktype_main := i_ktype_main
    m_ktype_last_touch := i_ktype_last_touch
    m_num_tasks_targeted := 1
    m_packing := i_packing
    m_threading_first_last_touch := false
    m_compiled := false
    m_cpx_outer_c := false
    m_cpx_stride_in_left_bytes := 0
    m_cpx_stride_in_right_bytes := 0
    m_cpx_stride_out_aux_bytes := 0
    m_cpx_stride_out_bytes := 0
    m_num_loops := 0
    m_loop_first_last_touch := []
    m_loop_dim_type := []
    m_loop_sizes := []
    m_loop_strides_left := []
    m_loop_strides_right := []
    m_loop_strides_out_aux := []
    m_loop_strides_out := []
    m_loop_sum_k_sizes := 0
    m_id_packing_loop_left := 0
    m_id_packing_loop_right := 0
    m_num_tasks := 0
    m_iter_spaces := IterationSpaces.empty }

/-- The method `ContractionLoops::threading`. -/
def threading (obj : ContractionLoops) (i_num_tasks : Int) : err_t × ContractionLoops :=
  let l_num_parallel :=
    obj.m_dim_ids_c.length + obj.m_dim_ids_m.length + obj.m_dim_ids_n.length
  let l_num_parallel := if obj.m_cpx_outer_c then l_num_parallel - 1 else l_num_parallel
  let l_its := IterationSpaces.init obj.m_num_loops l_num_parallel obj.m_loop_sizes i_num_tasks
  let l_res := l_its.compile
  if l_res.1 ≠ err_t.SUCCESS then
    (err_t.COMPILATION_FAILED,
     { obj with m_num_tasks := i_num_tasks, m_iter_spaces := l_res.2 })
  else
    (err_t.SUCCESS,
     { obj with m_num_tasks := l_res.2.num_tasks, m_iter_spaces := l_res.2 })

/-- Ids of `i_dim_ids` that are not packing dimensions, in order (one of the four
`std::find` loops of `compile`). -/
def non_packing_dims (l_packing_dims i_dim_ids : List Int) : List Int :=
  i_dim_ids.filter (fun d => !(l_packing_dims.contains d))

/-- The loop execution order `l_loop_dims` of `compile`. -/
def loop_dims (obj : ContractionLoops) (l_dim_ids_c : List Int) : List Int :=
  let l_packing_dims : List Int :=
    match obj.m_packing with
    | some p => p.m_dim_ids_extra
    | none => []
  non_packing_dims l_packing_dims l_dim_ids_c
    ++ non_packing_dims l_packing_dims obj.m_dim_ids_m
    ++ non_packing_dims l_packing_dims obj.m_dim_ids_n
    ++ non_packing_dims l_packing_dims obj.m_dim_ids_k
    ++ l_packing_dims

/-- Local variables of the loop of `compile` that adds the data of the dimensions. -/
structure compile_locals where
  l_count_cbm : Nat
  l_count_k : Nat
  l_size_all_k : Int
  l_found_first_last_touch_loop : Bool
  deriving DecidableEq, Repr

/-- A `find` on a stride map with the default `0` of `compile`. -/
def find_stride (i_strides : List (Int × Int)) (i_dim_id : Int) : Int :=
  match i_strides.lookup i_dim_id with
  | some s => s
  | none => 0

/-- The body of the loop of `compile` that adds the data of the dimensions, for the
dimension id `l_dim_id = l_loop_dims[l_di]`. -/
def compile_add_dim (l_num_dim_cbm : Nat) (st : compile_locals × ContractionLoops)
    (l_dim_id : Int) : Option (compile_locals × ContractionLoops) := do
  let lv := st.1
  let obj := st.2
  let l_type ← obj.m_dim_type.lookup l_dim_id
  let l_size ← obj.m_sizes.lookup l_dim_id
  -- add first_last_touch to correct loop
  let res : compile_locals × touch_t × Int :=
    if l_type = dim_t.K then
      let l_count_k := lv.l_count_k + 1
      let l_size_all_k := lv.l_size_all_k + (l_size - 1)
      if lv.l_count_cbm = l_num_dim_cbm ∧ lv.l_found_first_last_touch_loop = false then
        ({ lv with l_count_k := l_count_k, l_size_all_k := l_size_all_k,
                   l_found_first_last_touch_loop := true },
         touch_t.BEFORE_AFTER_ITER, obj.m_loop_sum_k_sizes)
      else
        ({ lv with l_count_k := l_count_k, l_size_all_k := l_size_all_k },
         touch_t.NONE, obj.m_loop_sum_k_sizes)
    else
      let l_count_cbm := lv.l_count_cbm + 1
      if l_count_cbm = l_num_dim_cbm ∧ lv.l_count_k = obj.m_dim_ids_k.length then
        ({ lv with l_count_cbm := l_count_cbm, l_found_first_last_touch_loop := true },
         touch_t.EVERY_ITER, lv.l_size_all_k)
      else
        ({ lv with l_count_cbm := l_count_cbm }, touch_t.NONE, obj.m_loop_sum_k_sizes)
  -- setup loop structure
  pure (res.1,
    { obj with
      m_loop_first_last_touch := obj.m_loop_first_last_touch ++ [res.2.1]
      m_loop_sum_k_sizes := res.2.2
      m_loop_dim_type := obj.m_loop_dim_type ++ [l_type]
      m_loop_sizes := obj.m_loop_sizes ++ [l_size]
      m_loop_strides_left := obj.m_loop_strides_left ++ [find_stride obj.m_strides_left l_dim_id]
      m_loop_strides_right :=
        obj.m_loop_strides_right ++ [find_stride obj.m_strides_right l_dim_id]
      m_loop_strides_out_aux :=
        obj.m_loop_strides_out_aux ++ [find_stride obj.m_strides_out_aux l_dim_id]
      m_loop_strides_out := obj.m_loop_strides_out ++ [find_stride obj.m_strides_out l_dim_id] })

/-- The loop `for( l_di = 0; l_di < m_num_loops; l_di++ )` of `compile` that adds the data of
the dimensions; reading `l_loop_dims[l_di]` out of bounds gives `none`. -/
def compile_add_dims (l_loop_dims : List Int) (l_num_loops l_num_dim_cbm : Nat)
    (st : compile_locals × ContractionLoops) : Option (compile_locals × ContractionLoops) :=
  (List.range l_num_loops).foldlM (fun st l_di => do
    let l_dim_id ← l_loop_dims[l_di]?
    compile_add_dim l_num_dim_cbm st l_dim_id) st

/-- The dummy loop `compile` adds when there is no loop. -/
def add_dummy_loop (obj : ContractionLoops) : ContractionLoops :=
  if obj.m_num_loops = 0 then
    { obj with
      m_num_loops := 1
      m_loop_dim_type := obj.m_loop_dim_type ++ [dim_t.UNDEFINED_DIM]
      m_loop_first_last_touch := obj.m_loop_first_last_touch ++ [touch_t.EVERY_ITER]
      m_loop_sizes := obj.m_loop_sizes ++ [1]
      m_loop_strides_left := obj.m_loop_strides_left ++ [0]
      m_loop_strides_right := obj.m_loop_strides_right ++ [0]
      m_loop_strides_out_aux := obj.m_loop_strides_out_aux ++ [0]
      m_loop_strides_out := obj.m_loop_strides_out ++ [0] }
  else obj

/-- The setup of the packing loop ids in `compile`. -/
def set_packing_loops (obj : ContractionLoops) : ContractionLoops :=
  match obj.m_packing with
  | some p =>
    { obj with
      m_id_packing_loop_left := (obj.m_num_loops : Int) - p.m_packing_loop_offset_left
      m_id_packing_loop_right := (obj.m_num_loops : Int) - p.m_packing_loop_offset_right }
  | none =>
    { obj with
      m_id_packing_loop_left := (obj.m_num_loops : Int)
      m_id_packing_loop_right := (obj.m_num_loops : Int) }

/-- The scaling of the first `i_num_loops` entries of a stride vector with the size of a data
type (`for( l_lo = 0; l_lo < m_num_loops; l_lo++ )`). -/
def scale_strides (i_num_loops : Nat) (i_num_bytes : Int) (i_strides : List Int) : List Int :=
  (i_strides.take i_num_loops).map (fun s => s * i_num_bytes) ++ i_strides.drop i_num_loops

/-- The scaling of the four stride vectors with the sizes of the data types in `compile`. -/
def scale_loop_strides (obj : ContractionLoops) : ContractionLoops :=
  { obj with
    m_loop_strides_left :=
      scale_strides obj.m_num_loops obj.m_num_bytes_scalar_left obj.m_loop_strides_left
    m_loop_strides_right :=
      scale_strides obj.m_num_loops obj.m_num_bytes_scalar_right obj.m_loop_strides_right
    m_loop_strides_out_aux :=
      scale_strides obj.m_num_loops obj.m_num_bytes_scalar_out obj.m_loop_strides_out_aux
    m_loop_strides_out :=
      scale_strides obj.m_num_loops obj.m_num_bytes_scalar_out obj.m_loop_strides_out }

/-- The first statements of `compile`: determine if the outermost C dimension is complex. -/
def set_cpx_outer_c (obj : ContractionLoops) : ContractionLoops :=
  { obj with
    m_cpx_outer_c := ce_cpx_op obj.m_ktype_first_touch || ce_cpx_op obj.m_ktype_main
      || ce_cpx_op obj.m_ktype_last_touch }

/-- The second check of `compile`, `m_cpx_outer_c && m_sizes->at( m_dim_ids_c[0] ) != 2`: `true`
when `INVALID_CPX_DIM` has to be returned, `none` when `at` throws. -/
def cpx_size_invalid (obj : ContractionLoops) : Option Bool :=
  if obj.m_cpx_outer_c then do
    let l_size ← obj.m_sizes.lookup (obj.m_dim_ids_c.getD 0 0)
    pure (decide (l_size ≠ 2))
  else
    pure false

/-- The derivation of the complex strides in `compile`; `none` when an `at` throws. -/
def derive_cpx_strides (obj : ContractionLoops) : Option ContractionLoops :=
  if obj.m_cpx_outer_c then do
    let l_c0 := obj.m_dim_ids_c.getD 0 0
    let l_sl ← obj.m_strides_left.lookup l_c0
    let l_sr ← obj.m_strides_right.lookup l_c0
    let l_sa ← obj.m_strides_out_aux.lookup l_c0
    let l_so ← obj.m_strides_out.lookup l_c0
    pure { obj with
           m_cpx_stride_in_left_bytes := l_sl * obj.m_num_bytes_scalar_left
           m_cpx_stride_in_right_bytes := l_sr * obj.m_num_bytes_scalar_right
           m_cpx_stride_out_aux_bytes := l_sa * obj.m_num_bytes_scalar_out
           m_cpx_stride_out_bytes := l_so * obj.m_num_bytes_scalar_out }
  else
    pure { obj with
           m_cpx_stride_in_left_bytes := 0
           m_cpx_stride_in_right_bytes := 0
           m_cpx_stride_out_aux_bytes := 0
           m_cpx_stride_out_bytes := 0 }

/-- The C dimensions that become loops: `l_dim_ids_c` of `compile`. -/
def loop_dim_ids_c (obj : ContractionLoops) : List Int :=
  if obj.m_cpx_outer_c then obj.m_dim_ids_c.drop 1 else obj.m_dim_ids_c

/-- The value `l_num_dim_cbm` of `compile`. -/
def num_dim_cbm (obj : ContractionLoops) : Nat :=
  (loop_dim_ids_c obj).length + obj.m_dim_ids_m.length + obj.m_dim_ids_n.length

/-- The assignment of `m_num_loops` and the `clear()` calls of `compile`. -/
def clear_loops (obj : ContractionLoops) : ContractionLoops :=
  { obj with
    m_num_loops := (loop_dim_ids_c obj).length + obj.m_dim_ids_m.length + obj.m_dim_ids_n.length
      + obj.m_dim_ids_k.length
    m_loop_first_last_touch := []
    m_loop_dim_type := []
    m_loop_sizes := []
    m_loop_strides_left := []
    m_loop_strides_right := []
    m_loop_strides_out_aux := []
    m_loop_strides_out := [] }

/-- The last statements of `compile`: compile the iteration spaces and set `m_compiled`. -/
def compile_iter_spaces (obj : ContractionLoops) : err_t × ContractionLoops :=
  let l_thr := obj.threading obj.m_num_tasks_targeted
  if l_thr.1 ≠ err_t.SUCCESS then
    (err_t.COMPILATION_FAILED, l_thr.2)
  else
    (err_t.SUCCESS, { l_thr.2 with m_compiled := true })

/-- The method `ContractionLoops::compile`: the returned error code and the object after the
call; `none` when a `std::map::at` throws or `l_loop_dims` is read out of bounds. -/
def compile (obj : ContractionLoops) : Option (err_t × ContractionLoops) :=
  -- determine if the outermost C dimension is complex
  let obj := set_cpx_outer_c obj
  -- check if a complex C dimension is possible
  if obj.m_cpx_outer_c = true ∧ obj.m_dim_ids_c.length = 0 then
    some (err_t.INVALID_CPX_DIM, obj)
  else do
    let l_invalid ← cpx_size_invalid obj
    if l_invalid then
      some (err_t.INVALID_CPX_DIM, obj)
    else do
      -- derive complex strides
      let obj ← derive_cpx_strides obj
      -- derive loop parameters for C dimension, determine loop execution order
      let l_loop_dims := loop_dims obj (loop_dim_ids_c obj)
      let l_num_dim_cbm := num_dim_cbm obj
      let obj := clear_loops obj
      -- add data of dimensions
      let st ← compile_add_dims l_loop_dims obj.m_num_loops l_num_dim_cbm
        (⟨0, 0, 0, false⟩, obj)
      -- add dummy data for non-existing loops such that the inner kernel is executed
      let obj := add_dummy_loop st.2
      -- setup extra packing loops
      let obj := set_packing_loops obj
      -- scale with size of data types
      let obj := scale_loop_strides obj
      -- compile iteration spaces
      some (compile_iter_spaces obj)

/-- The three pure-virtual kernels of `ContractionLoops` acting on a program state `σ`:
`kernel_first_touch( aux, out )`, `kernel_main( left, right, out )` and
`kernel_last_touch( aux, out )`. -/
structure Kernels (σ : Type) where
  kernel_first_touch : Int → Int → σ → σ
  kernel_main : Int → Int → Int → σ → σ
  kernel_last_touch : Int → Int → σ → σ

/-- The values of `l_it` in `for( l_it = l_first; l_it < l_first + l_size; l_it++ )`. -/
def for_range (l_first l_size : Int) : List Int :=
  (List.range l_size.toNat).map (fun (j : Nat) => l_first + (j : Int))

/-- The method `ContractionLoops::contract_iter`. -/
def contract_iter {σ : Type} (obj : ContractionLoops) (kern : Kernels σ) (i_id_task : Nat)
    (i_id_loop : Nat) (i_ptr_left i_ptr_right i_ptr_out_aux i_ptr_out : Int) (s : σ) : σ :=
  -- derive first element and number of iterations
  let l_first := (obj.m_iter_spaces.firsts i_id_task).getD i_id_loop 0
  let l_size := (obj.m_iter_spaces.sizes i_id_task).getD i_id_loop 0
  let l_touch := obj.m_loop_first_last_touch.getD i_id_loop touch_t.NONE
  -- execute first touch kernel
  let s1 :=
    if l_touch = touch_t.BEFORE_AFTER_ITER then kern.kernel_first_touch i_ptr_out_aux i_ptr_out s
    else s
  -- issue loop iterations
  let s2 := (for_range l_first l_size).foldl (fun (acc : σ) (l_it : Int) =>
    let l_ptr_left := i_ptr_left + l_it * obj.m_loop_strides_left.getD i_id_loop 0
    let l_ptr_right := i_ptr_right + l_it * obj.m_loop_strides_right.getD i_id_loop 0
    let l_ptr_out_aux := i_ptr_out_aux
      + l_it * obj.m_loop_strides_out_aux.getD i_id_loop 0 * (if i_ptr_out_aux ≠ 0 then 1 else 0)
    let l_ptr_out := i_ptr_out + l_it * obj.m_loop_strides_out.getD i_id_loop 0
    let a1 :=
      if l_touch = touch_t.EVERY_ITER then kern.kernel_first_touch l_ptr_out_aux l_ptr_out acc
      else acc
    let a2 :=
      if h : i_id_loop + 1 < obj.m_num_loops then
        contract_iter obj kern i_id_task (i_id_loop + 1) l_ptr_left l_ptr_right l_ptr_out_aux
          l_ptr_out a1
      else
        -- execute main kernel
        kern.kernel_main l_ptr_left l_ptr_right l_ptr_out a1
    if l_touch = touch_t.EVERY_ITER then kern.kernel_last_touch l_ptr_out_aux l_ptr_out a2
    else a2) s1
  -- execute last touch kernel
  if l_touch = touch_t.BEFORE_AFTER_ITER then kern.kernel_last_touch i_ptr_out_aux i_ptr_out s2
  else s2
termination_by obj.m_num_loops - i_id_loop

/-- The kernels of the packing object `ContractionPackingTpp` that `contract` and
`contract_iter_packing` call: `allocate_memory()`, `kernel_pack_left( in )` and
`kernel_pack_right( in )`, the last two return the pointer to the packed data. -/
structure PackingKernels (σ : Type) where
  allocate_memory : σ → σ
  kernel_pack_left : Int → σ → Int × σ
  kernel_pack_right : Int → σ → Int × σ

/-- The method `ContractionLoops::contract_iter_packing`; the second component of the loop
state is the local counter `l_id_k_loops`. -/
def contract_iter_packing {σ : Type} (obj : ContractionLoops) (kern : Kernels σ)
    (pack : PackingKernels σ) (i_id_task : Nat) (i_id_loop : Nat) (i_id_k_loops : Int)
    (i_ptr_left i_ptr_right i_ptr_out_aux i_ptr_out : Int) (s : σ) : σ :=
  -- derive first element and number of iterations
  let l_first := (obj.m_iter_spaces.firsts i_id_task).getD i_id_loop 0
  let l_size := (obj.m_iter_spaces.sizes i_id_task).getD i_id_loop 0
  let l_touch := obj.m_loop_first_last_touch.getD i_id_loop touch_t.NONE
  -- execute first touch kernel
  let s1 :=
    if l_touch = touch_t.BEFORE_AFTER_ITER then kern.kernel_first_touch i_ptr_out_aux i_ptr_out s
    else s
  -- issue loop iterations
  let s2 := (for_range l_first l_size).foldl (fun (acc : σ × Int) (l_it : Int) =>
    let l_ptr_left := i_ptr_left + l_it * obj.m_loop_strides_left.getD i_id_loop 0
    let l_ptr_right := i_ptr_right + l_it * obj.m_loop_strides_right.getD i_id_loop 0
    let l_ptr_out_aux := i_ptr_out_aux
      + l_it * obj.m_loop_strides_out_aux.getD i_id_loop 0 * (if i_ptr_out_aux ≠ 0 then 1 else 0)
    let l_ptr_out := i_ptr_out + l_it * obj.m_loop_strides_out.getD i_id_loop 0
    let a1 :=
      if l_touch = touch_t.EVERY_ITER ∧ i_id_k_loops = 0 then
        kern.kernel_first_touch l_ptr_out_aux l_ptr_out acc.1
      else acc.1
    let l_left :=
      if obj.m_id_packing_loop_left = (i_id_loop : Int) then pack.kernel_pack_left l_ptr_left a1
      else (l_ptr_left, a1)
    let l_right :=
      if obj.m_id_packing_loop_right = (i_id_loop : Int) then
        pack.kernel_pack_right l_ptr_right l_left.2
      else (l_ptr_right, l_left.2)
    let a2 :=
      if h : i_id_loop + 1 < obj.m_num_loops then
        contract_iter_packing obj kern pack i_id_task (i_id_loop + 1) acc.2 l_left.1 l_right.1
          l_ptr_out_aux l_ptr_out l_right.2
      else
        -- execute main kernel
        kern.kernel_main l_left.1 l_right.1 l_ptr_out l_right.2
    let a3 :=
      if l_touch = touch_t.EVERY_ITER ∧ obj.m_loop_sum_k_sizes = i_id_k_loops then
        kern.kernel_last_touch l_ptr_out_aux l_ptr_out a2
      else a2
    (a3, acc.2
      + (if obj.m_loop_dim_type.getD i_id_loop dim_t.UNDEFINED_DIM = dim_t.K then 1 else 0)))
    (s1, i_id_k_loops)
  -- execute last touch kernel
  if l_touch = touch_t.BEFORE_AFTER_ITER then kern.kernel_last_touch i_ptr_out_aux i_ptr_out s2.1
  else s2.1
termination_by obj.m_num_loops - i_id_loop

/-- The method `ContractionLoops::contract`. The tasks of the parallel loop are taken one after
the other; in the branch with packing the loop state carries the parameters `i_tensor_left`
and `i_tensor_right`, which the loop body assigns. -/
def contract {σ : Type} (obj : ContractionLoops) (kern : Kernels σ) (pack : PackingKernels σ)
    (i_tensor_left i_tensor_right i_tensor_out_aux io_tensor_out : Int) (s : σ) : σ :=
  match obj.m_packing with
  | some _ =>
    ((List.range obj.m_num_tasks.toNat).foldl (fun (acc : Int × Int × σ) (l_ta : Nat) =>
      let l_left :=
        if obj.m_id_packing_loop_left = -1 then pack.kernel_pack_left acc.1 acc.2.2
        else (acc.1, acc.2.2)
      let l_right :=
        if obj.m_id_packing_loop_right = -1 then pack.kernel_pack_right acc.2.1 l_left.2
        else (acc.2.1, l_left.2)
      (l_left.1, l_right.1,
        contract_iter_packing obj kern pack l_ta 0 0 l_left.1 l_right.1 i_tensor_out_aux
          io_tensor_out l_right.2))
      (i_tensor_left, i_tensor_right, pack.allocate_memory s)).2.2
  | none =>
    (List.range obj.m_num_tasks.toNat).foldl (fun (acc : σ) (l_ta : Nat) =>
      contract_iter obj kern l_ta 0 i_tensor_left i_tensor_right i_tensor_out_aux io_tensor_out
        acc) s

/-! ## Vocabulary of the specification -/

/-- A call of one of the three kernels together with its pointer arguments. -/
inductive kernel_call where
  | first_touch (i_out_aux i_out : Int)
  | main (i_left i_right i_out : Int)
  | last_touch (i_out_aux i_out : Int)
  deriving DecidableEq, Repr

/-- Kernels that do nothing but record their calls in order. -/
def trace_kernels : Kernels (List kernel_call) :=
  { kernel_first_touch := fun a o tr => tr ++ [kernel_call.first_touch a o]
    kernel_main := fun l r o tr => tr ++ [kernel_call.main l r o]
    kernel_last_touch := fun a o tr => tr ++ [kernel_call.last_touch a o] }

/-- The sequence of kernel calls made by `contract_iter`. -/
def call_trace (obj : ContractionLoops) (i_id_task i_id_loop : Nat)
    (i_ptr_left i_ptr_right i_ptr_out_aux i_ptr_out : Int) : List kernel_call :=
  contract_iter obj trace_kernels i_id_task i_id_loop i_ptr_left i_ptr_right i_ptr_out_aux
    i_ptr_out []

/-- Executes a recorded call with the given kernels. -/
def run_call {σ : Type} (kern : Kernels σ) (s : σ) : kernel_call → σ
  | kernel_call.first_touch a o => kern.kernel_first_touch a o s
  | kernel_call.main l r o => kern.kernel_main l r o s
  | kernel_call.last_touch a o => kern.kernel_last_touch a o s

/-- The pointer arguments of a main-kernel call, `none` for a touch call. -/
def main_args : kernel_call → Option (Int × Int × Int)
  | kernel_call.main l r o => some (l, r, o)
  | _ => none

/-- The output pointer of a first-touch call, `none` for the other calls. -/
def first_touch_out : kernel_call → Option Int
  | kernel_call.first_touch _ o => some o
  | _ => none

/-- The output pointer of a last-touch call, `none` for the other calls. -/
def last_touch_out : kernel_call → Option Int
  | kernel_call.last_touch _ o => some o
  | _ => none

/-- All index tuples of the product of the ranges `[first, first + size)`, in lexicographic
order, the first range varying slowest. -/
def box : List (Int × Int) → List (List Int)
  | [] => [[]]
  | r :: rs => (for_range r.1 r.2).flatMap (fun it => (box rs).map (fun t => it :: t))

/-- The offset `sum_l i_l * stride_l` of an index tuple. -/
def dot : List Int → List Int → Int
  | it :: t, st :: ss => it * st + dot t ss
  | _, _ => 0

/-- The auxiliary pointer after descending the loops with the indices `t`: every level adds
`l_it * stride * (ptr != nullptr)`. -/
def aux_ptr (i_ptr_out_aux : Int) : List Int → List Int → Int
  | it :: t, st :: ss =>
    aux_ptr (i_ptr_out_aux + it * st * (if i_ptr_out_aux ≠ 0 then 1 else 0)) t ss
  | _, _ => i_ptr_out_aux

/-- The ranges `[first, first + size)` of a task, one per loop of the nest. -/
def task_ranges (obj : ContractionLoops) (i_id_task : Nat) : List (Int × Int) :=
  (List.range obj.m_num_loops).map (fun l =>
    ((obj.m_iter_spaces.firsts i_id_task).getD l 0, (obj.m_iter_spaces.sizes i_id_task).getD l 0))

/-- The type of a dimension id in the dimension-type map (`UNDEFINED_DIM` when missing). -/
def dim_type_of (obj : ContractionLoops) (i_dim_id : Int) : dim_t :=
  (obj.m_dim_type.lookup i_dim_id).getD dim_t.UNDEFINED_DIM

/-- The size of a dimension id in the size map (`0` when missing). -/
def dim_size_of (obj : ContractionLoops) (i_dim_id : Int) : Int :=
  (obj.m_sizes.lookup i_dim_id).getD 0

/-- The markers that the loop of `compile` gives to loops of the types `tys`, started with the
counters `l_count_cbm`, `l_count_k` and the flag `l_found_first_last_touch_loop`. -/
def marks (l_num_dim_cbm l_num_dims_k : Nat) : Nat → Nat → Bool → List dim_t → List touch_t
  | _, _, _, [] => []
  | l_count_cbm, l_count_k, l_found, ty :: tys =>
    if ty = dim_t.K then
      if l_count_cbm = l_num_dim_cbm ∧ l_found = false then
        touch_t.BEFORE_AFTER_ITER
          :: marks l_num_dim_cbm l_num_dims_k l_count_cbm (l_count_k + 1) true tys
      else
        touch_t.NONE :: marks l_num_dim_cbm l_num_dims_k l_count_cbm (l_count_k + 1) l_found tys
    else
      if l_count_cbm + 1 = l_num_dim_cbm ∧ l_count_k = l_num_dims_k then
        touch_t.EVERY_ITER :: marks l_num_dim_cbm l_num_dims_k (l_count_cbm + 1) l_count_k true tys
      else
        touch_t.NONE :: marks l_num_dim_cbm l_num_dims_k (l_count_cbm + 1) l_count_k l_found tys

/-- The number of loops before the dummy loop is added: the value given to `m_num_loops` at
the start of `compile`. -/
def num_loops_of (obj : ContractionLoops) : Nat :=
  (clear_loops (set_cpx_outer_c obj)).m_num_loops

/-- The dimension ids of the loops of the nest in loop order: the entries of `l_loop_dims`
that `compile` reads. -/
def nest_dims (obj : ContractionLoops) : List Int :=
  (loop_dims (set_cpx_outer_c obj) (loop_dim_ids_c (set_cpx_outer_c obj))).take (num_loops_of obj)

/-- The complex stride in bytes that `compile` derives from a stride map. -/
def cpx_stride_bytes (obj : ContractionLoops) (i_strides : List (Int × Int)) (i_num_bytes : Int) :
    Int :=
  if (set_cpx_outer_c obj).m_cpx_outer_c then
    (i_strides.lookup (obj.m_dim_ids_c.getD 0 0)).getD 0 * i_num_bytes
  else 0

/-- The iteration spaces that `threading` compiles for a nest. -/
def iter_spaces_of (obj : ContractionLoops) (i_num_loops : Nat) (i_loop_sizes : List Int) :
    IterationSpaces :=
  (IterationSpaces.compile (IterationSpaces.init i_num_loops
    (if (set_cpx_outer_c obj).m_cpx_outer_c then
      obj.m_dim_ids_c.length + obj.m_dim_ids_m.length + obj.m_dim_ids_n.length - 1
    else obj.m_dim_ids_c.length + obj.m_dim_ids_m.length + obj.m_dim_ids_n.length)
    i_loop_sizes obj.m_num_tasks_targeted)).2

/-- The entry of the dummy loop in a per-loop vector: present only if there is no loop. -/
def dummy_entry {α : Type} (i_num_loops : Nat) (x : α) : List α :=
  if i_num_loops = 0 then [x] else []

/-- The id of a packing loop that `compile` derives from the packing offset. -/
def packing_loop_id (i_num_loops : Nat) (i_offset : Option Int) : Int :=
  match i_offset with
  | some off => (i_num_loops : Int) - off
  | none => (i_num_loops : Int)

/-- The dimension-type map agrees with the four id lists given to `init`. -/
def types_agree (obj : ContractionLoops) : Prop :=
  (∀ d ∈ obj.m_dim_ids_c, obj.m_dim_type.lookup d = some dim_t.C)
  ∧ (∀ d ∈ obj.m_dim_ids_m, obj.m_dim_type.lookup d = some dim_t.M)
  ∧ (∀ d ∈ obj.m_dim_ids_n, obj.m_dim_type.lookup d = some dim_t.N)
  ∧ (∀ d ∈ obj.m_dim_ids_k, obj.m_dim_type.lookup d = some dim_t.K)

instance (obj : ContractionLoops) : Decidable (types_agree obj) := by
  unfold types_agree
  infer_instance

/-- The C, M and N dimensions that become loops, in loop order. -/
def non_k_dims (obj : ContractionLoops) : List Int :=
  loop_dim_ids_c (set_cpx_outer_c obj) ++ obj.m_dim_ids_m ++ obj.m_dim_ids_n

/-- Every dimension that becomes a loop has a positive size in the size map. -/
def sizes_positive (obj : ContractionLoops) : Prop :=
  ∀ d ∈ non_k_dims obj ++ obj.m_dim_ids_k, 0 < dim_size_of obj d

instance (obj : ContractionLoops) : Decidable (sizes_positive obj) := by
  unfold sizes_positive
  infer_instance

/-- The byte strides of the dimensions `dims` in a tensor: the stride of the stride map (`0`
when missing) times the size of the data type. -/
def byte_strides (i_strides : List (Int × Int)) (i_num_bytes : Int) (dims : List Int) :
    List Int :=
  dims.map (fun x => find_stride i_strides x * i_num_bytes)

/-- The full ranges `[0, size)` of the dimensions `dims`. -/
def full_ranges (obj : ContractionLoops) (dims : List Int) : List (Int × Int) :=
  dims.map (fun x => (0, dim_size_of obj x))

/-- The kernel kinds are not complex, so that `compile` keeps every C dimension as a loop. -/
def non_complex (obj : ContractionLoops) : Prop :=
  (set_cpx_outer_c obj).m_cpx_outer_c = false

instance (obj : ContractionLoops) : Decidable (non_complex obj) := by
  unfold non_complex
  infer_instance

/-- Kernels on a memory of scalars, one scalar per address: the main kernel does
`out += left * right` on one element, the first-touch kernel replaces the output element by
`ft aux_ptr old_value`, the last-touch kernel by `lt old_value`. The input tensors `left` and
`right` are read only. -/
def elementwise_kernels {R : Type} [Ring R] (left right : Int → R) (ft : Int → R → R)
    (lt : R → R) : Kernels (Int → R) :=
  { kernel_first_touch := fun pa po out => Function.update out po (ft pa (out po))
    kernel_main := fun pl pr po out => Function.update out po (out po + left pl * right pr)
    kernel_last_touch := fun _ po out => Function.update out po (lt (out po)) }

/-- Main kernel `out += left * right` on one element, first-touch and last-touch do nothing
(kernel kinds `UNDEFINED_KTYPE`, `MADD`, `UNDEFINED_KTYPE`). -/
def madd_kernels {R : Type} [Ring R] (left right : Int → R) : Kernels (Int → R) :=
  { kernel_first_touch := fun _ _ out => out
    kernel_main := fun pl pr po out => Function.update out po (out po + left pl * right pr)
    kernel_last_touch := fun _ _ out => out }

/-- First-touch sets the output element to zero, main kernel `out += left * right`, last-touch
`out := max(out, 0)` (kernel kinds `ZERO`, `MADD`, `RELU`). -/
def zero_madd_relu_kernels {R : Type} [LinearOrderedRing R] (left right : Int → R) :
    Kernels (Int → R) :=
  { kernel_first_touch := fun _ po out => Function.update out po 0
    kernel_main := fun pl pr po out => Function.update out po (out po + left pl * right pr)
    kernel_last_touch := fun _ po out => Function.update out po (max (out po) 0) }

/-- First-touch copies the aux element to the output element, main kernel
`out += left * right`, last-touch does nothing (kernel kinds `COPY`, `MADD`,
`UNDEFINED_KTYPE`). -/
def copy_madd_kernels {R : Type} [Ring R] (left right aux : Int → R) : Kernels (Int → R) :=
  { kernel_first_touch := fun pa po out => Function.update out po (aux pa)
    kernel_main := fun pl pr po out => Function.update out po (out po + left pl * right pr)
    kernel_last_touch := fun _ _ out => out }

/-- First-touch sets the output element to zero, main kernel `out += left * right`, last-touch
does nothing (kernel kinds `ZERO`, `MADD`, `UNDEFINED_KTYPE`). -/
def zero_madd_kernels {R : Type} [Ring R] (left right : Int → R) : Kernels (Int → R) :=
  { kernel_first_touch := fun _ po out => Function.update out po 0
    kernel_main := fun pl pr po out => Function.update out po (out po + left pl * right pr)
    kernel_last_touch := fun _ _ out => out }

/-- The calls around one output element: first-touch, the main-kernel calls with the given
left and right pointers, last-touch. -/
def touch_block (pa po : Int) (ms : List (Int × Int)) : List kernel_call :=
  kernel_call.first_touch pa po
    :: (ms.map (fun m => kernel_call.main m.1 m.2 po) ++ [kernel_call.last_touch pa po])

/-- The data of one loop of the nest as seen by a task. -/
structure loop_desc where
  touch : touch_t
  first : Int
  size : Int
  stride_left : Int
  stride_right : Int
  stride_out_aux : Int
  stride_out : Int
  deriving DecidableEq, Repr

/-- The data of loop `l` of the compiled nest for a task. -/
def loop_at (obj : ContractionLoops) (i_id_task : Nat) (l : Nat) : loop_desc :=
  { touch := obj.m_loop_first_last_touch.getD l touch_t.NONE
    first := (obj.m_iter_spaces.firsts i_id_task).getD l 0
    size := (obj.m_iter_spaces.sizes i_id_task).getD l 0
    stride_left := obj.m_loop_strides_left.getD l 0
    stride_right := obj.m_loop_strides_right.getD l 0
    stride_out_aux := obj.m_loop_strides_out_aux.getD l 0
    stride_out := obj.m_loop_strides_out.getD l 0 }

/-- The loops `i_id_loop, ..., m_num_loops - 1` of the nest for a task. -/
def loops_from (obj : ContractionLoops) (i_id_task i_id_loop : Nat) : List loop_desc :=
  (List.range' i_id_loop (obj.m_num_loops - i_id_loop)).map (loop_at obj i_id_task)

/-- The loop nest over an explicit list of loops: the recursion of `contract_iter` written by
recursion on the remaining loops; the empty list stands for the call of the main kernel. -/
def nest_run {σ : Type} (kern : Kernels σ) :
    List loop_desc → Int → Int → Int → Int → σ → σ
  | [], pl, pr, _, po, s => kern.kernel_main pl pr po s
  | d :: ds, pl, pr, pa, po, s =>
    let s1 := if d.touch = touch_t.BEFORE_AFTER_ITER then kern.kernel_first_touch pa po s else s
    let s2 := (for_range d.first d.size).foldl (fun (acc : σ) (l_it : Int) =>
      let pa1 := pa + l_it * d.stride_out_aux * (if pa ≠ 0 then 1 else 0)
      let po1 := po + l_it * d.stride_out
      let a1 := if d.touch = touch_t.EVERY_ITER then kern.kernel_first_touch pa1 po1 acc else acc
      let a2 := nest_run kern ds (pl + l_it * d.stride_left) (pr + l_it * d.stride_right) pa1 po1 a1
      if d.touch = touch_t.EVERY_ITER then kern.kernel_last_touch pa1 po1 a2 else a2) s1
    if d.touch = touch_t.BEFORE_AFTER_ITER then kern.kernel_last_touch pa po s2 else s2

/-- The calls of the loop nest over an explicit list of loops, as a list. -/
def nest_trace : List loop_desc → Int → Int → Int → Int → List kernel_call
  | [], pl, pr, _, po => [kernel_call.main pl pr po]
  | d :: ds, pl, pr, pa, po =>
    (if d.touch = touch_t.BEFORE_AFTER_ITER then [kernel_call.first_touch pa po] else [])
    ++ (for_range d.first d.size).flatMap (fun l_it =>
      (if d.touch = touch_t.EVERY_ITER then
        [kernel_call.first_touch (pa + l_it * d.stride_out_aux * (if pa ≠ 0 then 1 else 0))
          (po + l_it * d.stride_out)] else [])
      ++ nest_trace ds (pl + l_it * d.stride_left) (pr + l_it * d.stride_right)
          (pa + l_it * d.stride_out_aux * (if pa ≠ 0 then 1 else 0)) (po + l_it * d.stride_out)
      ++ (if d.touch = touch_t.EVERY_ITER then
        [kernel_call.last_touch (pa + l_it * d.stride_out_aux * (if pa ≠ 0 then 1 else 0))
          (po + l_it * d.stride_out)] else []))
    ++ (if d.touch = touch_t.BEFORE_AFTER_ITER then [kernel_call.last_touch pa po] else [])

/-- The index tuples of the C, M and N dimensions that become loops, each over its full range:
one tuple per output element. -/
def output_tuples (obj : ContractionLoops) : List (List Int) :=
  box (full_ranges obj (non_k_dims obj))

/-- The index tuples of the K dimensions, each over its full range. -/
def k_tuples (obj : ContractionLoops) : List (List Int) :=
  box (full_ranges obj obj.m_dim_ids_k)

/-- The byte offset in the output tensor of the element with the C, M, N indices `i`. -/
def out_offset (obj : ContractionLoops) (i : List Int) : Int :=
  dot i (byte_strides obj.m_strides_out obj.m_num_bytes_scalar_out (non_k_dims obj))

/-- The byte offset in the left tensor for the C, M, N indices `i` and the K indices `kk`. -/
def left_offset (obj : ContractionLoops) (i kk : List Int) : Int :=
  dot i (byte_strides obj.m_strides_left obj.m_num_bytes_scalar_left (non_k_dims obj))
    + dot kk (byte_strides obj.m_strides_left obj.m_num_bytes_scalar_left obj.m_dim_ids_k)

/-- The byte offset in the right tensor for the C, M, N indices `i` and the K indices `kk`. -/
def right_offset (obj : ContractionLoops) (i kk : List Int) : Int :=
  dot i (byte_strides obj.m_strides_right obj.m_num_bytes_scalar_right (non_k_dims obj))
    + dot kk (byte_strides obj.m_strides_right obj.m_num_bytes_scalar_right obj.m_dim_ids_k)

/-- The auxiliary pointer that reaches the touch kernels for the C, M, N indices `i`. -/
def aux_address (obj : ContractionLoops) (i_ptr_out_aux : Int) (i : List Int) : Int :=
  aux_ptr i_ptr_out_aux i
    (byte_strides obj.m_strides_out_aux obj.m_num_bytes_scalar_out (non_k_dims obj))

/-- The reference value of a contraction for one output element: the sum over all K index
tuples of `left * right`, the tensors read at the base pointers plus the byte offsets. -/
def k_sum {R : Type} [Ring R] (obj : ContractionLoops) (left right : Int → R)
    (i_ptr_left i_ptr_right : Int) (i : List Int) : R :=
  ((k_tuples obj).map (fun kk =>
    left (i_ptr_left + left_offset obj i kk) * right (i_ptr_right + right_offset obj i kk))).sum

/-- Distinct index tuples of the C, M and N dimensions address distinct output elements. -/
def out_strides_injective (obj : ContractionLoops) : Prop :=
  ∀ i ∈ output_tuples obj, ∀ j ∈ output_tuples obj,
    out_offset obj i = out_offset obj j → i = j

instance (obj : ContractionLoops) : Decidable (out_strides_injective obj) := by
  unfold out_strides_injective
  infer_instance

/-- The K dimensions are reduction dimensions: they are missing from the output tensor, so
that their output stride is 0. -/
def k_stride_out_zero (obj : ContractionLoops) : Prop :=
  ∀ d ∈ obj.m_dim_ids_k, find_stride obj.m_strides_out d = 0

instance (obj : ContractionLoops) : Decidable (k_stride_out_zero obj) := by
  unfold k_stride_out_zero
  infer_instance

/-- The calls of one visit of the loops inside the C, M, N loops for a task: first-touch, the
main-kernel calls of the K index tuples `ks` of the task, last-touch, all on the output
element with the C, M, N indices `i`. -/
def visit_calls (obj : ContractionLoops) (ks : List (List Int))
    (i_ptr_left i_ptr_right i_ptr_out_aux i_ptr_out : Int) (i : List Int) : List kernel_call :=
  touch_block (aux_address obj i_ptr_out_aux i) (i_ptr_out + out_offset obj i)
    (ks.map (fun kk =>
      (i_ptr_left + left_offset obj i kk, i_ptr_right + right_offset obj i kk)))

/-- Checks a sequence of calls against the touch window: a first-touch opens the window of
its output pointer (no window may be open), a main-kernel call needs the open window of its
own output pointer, a last-touch closes the open window of its output pointer, and at the end
no window is open. -/
def touch_window_ok : Option Int → List kernel_call → Bool
  | w, [] => w.isNone
  | w, kernel_call.first_touch _ o :: cs => w.isNone && touch_window_ok (some o) cs
  | w, kernel_call.main _ _ o :: cs => decide (w = some o) && touch_window_ok w cs
  | w, kernel_call.last_touch _ o :: cs => decide (w = some o) && touch_window_ok none cs

/-- Packing kernels that allocate nothing and return the pointer they are given, for objects
without packing. -/
def idle_packing {σ : Type} : PackingKernels σ :=
  { allocate_memory := fun s => s
    kernel_pack_left := fun p s => (p, s)
    kernel_pack_right := fun p s => (p, s) }

/-! ## Example configurations -/

/-- The matrix multiplication of the tests: ids left `[2,0]`, right `[1,2]`, out `[1,0]`,
sizes `{0:2, 1:3, 2:4}`, so `M = [0]`, `N = [1]`, `K = [2]`, four-byte scalars, kernel kinds
`UNDEFINED_KTYPE`, `MADD`, `UNDEFINED_KTYPE`, no packing. -/
def matmul_example : ContractionLoops :=
  init [] [0] [1] [2] [(0, 2), (1, 3), (2, 4)] [(2, 2), (0, 1)] [(1, 4), (2, 1)]
    [(1, 2), (0, 1)] [(1, 2), (0, 1)] [(0, dim_t.M), (1, dim_t.N), (2, dim_t.K)] 4 4 4
    kernel_t.UNDEFINED_KTYPE kernel_t.MADD kernel_t.UNDEFINED_KTYPE none

/-- A batched contraction with one C, M, N and K dimension of size 2 each: ids left `[3,1,0]`,
right `[2,3,0]`, out `[2,1,0]`, eight-byte scalars, kernel kinds `ZERO`, `MADD`, `RELU`, no
packing. -/
def batched_example : ContractionLoops :=
  init [0] [1] [2] [3] [(0, 2), (1, 2), (2, 2), (3, 2)] [(3, 4), (1, 2), (0, 1)]
    [(2, 4), (3, 2), (0, 1)] [(2, 4), (1, 2), (0, 1)] [(2, 4), (1, 2), (0, 1)]
    [(0, dim_t.C), (1, dim_t.M), (2, dim_t.N), (3, dim_t.K)] 8 8 8
    kernel_t.ZERO kernel_t.MADD kernel_t.RELU none

/-- The matrix multiplication with a full-tensor bias of the tests: as `matmul_example`, with
kernel kinds `COPY`, `MADD`, `UNDEFINED_KTYPE`. -/
def bias_example : ContractionLoops :=
  init [] [0] [1] [2] [(0, 2), (1, 3), (2, 4)] [(2, 2), (0, 1)] [(1, 4), (2, 1)]
    [(1, 2), (0, 1)] [(1, 2), (0, 1)] [(0, dim_t.M), (1, dim_t.N), (2, dim_t.K)] 4 4 4
    kernel_t.COPY kernel_t.MADD kernel_t.UNDEFINED_KTYPE none

/-- The matrix multiplication with zero first touch of the tests: the geometry of
`matmul_example` with eight-byte scalars and kernel kinds `ZERO`, `MADD`,
`UNDEFINED_KTYPE`. -/
def zero_example : ContractionLoops :=
  init [] [0] [1] [2] [(0, 2), (1, 3), (2, 4)] [(2, 2), (0, 1)] [(1, 4), (2, 1)]
    [(1, 2), (0, 1)] [(1, 2), (0, 1)] [(0, dim_t.M), (1, dim_t.N), (2, dim_t.K)] 8 8 8
    kernel_t.ZERO kernel_t.MADD kernel_t.UNDEFINED_KTYPE none

/-- A contraction without K dimension: `M = [0]` of size 2, `N = [1]` of size 3, the output has
ids `[1,0]`, four-byte scalars, kernel kinds `ZERO`, `MADD`, `RELU`, no packing. -/
def outer_example : ContractionLoops :=
  init [] [0] [1] [] [(0, 2), (1, 3)] [(0, 1)] [(1, 1)] [(1, 2), (0, 1)] [(1, 2), (0, 1)]
    [(0, dim_t.M), (1, dim_t.N)] 4 4 4 kernel_t.ZERO kernel_t.MADD kernel_t.RELU none

/-- A complex contraction with packing: `C = [0]` of size 2 (the complex dimension), `M = [1]`
of size 3, `K = [2]` of size 4, ids left `[2,1,0]`, right `[2,0]`, out `[1,0]`, main kernel
kind `CPX_MADD`, packing dimensions `[0, 2]`. -/
def cpx_packing_example : ContractionLoops :=
  init [0] [1] [] [2] [(0, 2), (1, 3), (2, 4)] [(2, 6), (1, 2), (0, 1)] [(2, 2), (0, 1)]
    [(1, 2), (0, 1)] [(1, 2), (0, 1)] [(0, dim_t.C), (1, dim_t.M), (2, dim_t.K)] 4 4 4
    kernel_t.UNDEFINED_KTYPE kernel_t.CPX_MADD kernel_t.UNDEFINED_KTYPE
    (some { m_dim_ids_extra := [0, 2], m_packing_loop_offset_left := 0,
            m_packing_loop_offset_right := 0 })

/-- The object after `compile` (the object itself when `compile` throws). -/
def compiled (obj : ContractionLoops) : ContractionLoops :=
  match compile obj with
  | some r => r.2
  | none => obj

/-- A contraction of scalars: no dimension at all, four-byte scalars, kernel kinds `ZERO`,
`MADD`, `RELU`, no packing. -/
def scalar_example : ContractionLoops :=
  init [] [] [] [] [] [] [] [] [] [] 4 4 4 kernel_t.ZERO kernel_t.MADD kernel_t.RELU none

/-- A complex contraction of scalars: the only dimension is the complex dimension `C = [0]` of
size 2 and stride 1 in every tensor, four-byte scalars, kernel kinds `CPX_ZERO`, `CPX_MADD`,
`UNDEFINED_KTYPE`, no packing. -/
def cpx_scalar_example : ContractionLoops :=
  init [0] [] [] [] [(0, 2)] [(0, 1)] [(0, 1)] [(0, 1)] [(0, 1)] [(0, dim_t.C)] 4 4 4
    kernel_t.CPX_ZERO kernel_t.CPX_MADD kernel_t.UNDEFINED_KTYPE none

/-- Complex mode is requested: at least one of the three kernel kinds is a complex operation
(the value that `compile` gives to `m_cpx_outer_c`). -/
def cpx_requested (obj : ContractionLoops) : Bool :=
  ce_cpx_op obj.m_ktype_first_touch || ce_cpx_op obj.m_ktype_main
    || ce_cpx_op obj.m_ktype_last_touch

/-- All dimension ids given to `init`: the C, M, N and K ids in this order. -/
def all_dims (obj : ContractionLoops) : List Int :=
  obj.m_dim_ids_c ++ obj.m_dim_ids_m ++ obj.m_dim_ids_n ++ obj.m_dim_ids_k

/-- The packing dimensions of the packing object, none without packing. -/
def packing_dims (obj : ContractionLoops) : List Int :=
  match obj.m_packing with
  | some p => p.m_dim_ids_extra
  | none => []

/-- The packing dimensions are a duplicate-free subset of the dimension ids. -/
def packing_dims_ok (obj : ContractionLoops) : Prop :=
  (packing_dims obj).Nodup ∧ ∀ d ∈ packing_dims obj, d ∈ all_dims obj

instance (obj : ContractionLoops) : Decidable (packing_dims_ok obj) := by
  unfold packing_dims_ok
  infer_instance

/-- A matrix multiplication with a packed N dimension: `M = [0]` of size 2, `N = [1]` of size
3, `K = [2]` of size 4, four-byte scalars, kernel kinds `ZERO`, `MADD`, `UNDEFINED_KTYPE`,
packing dimensions `[1]`. -/
def packing_example : ContractionLoops :=
  init [] [0] [1] [2] [(0, 2), (1, 3), (2, 4)] [(2, 2), (0, 1)] [(1, 4), (2, 1)]
    [(1, 2), (0, 1)] [(1, 2), (0, 1)] [(0, dim_t.M), (1, dim_t.N), (2, dim_t.K)] 4 4 4
    kernel_t.ZERO kernel_t.MADD kernel_t.UNDEFINED_KTYPE
    (some { m_dim_ids_extra := [1], m_packing_loop_offset_left := 0,
            m_packing_loop_offset_right := 0 })

/-- The output pointer of a kernel call. -/
def out_ptr : kernel_call → Int
  | kernel_call.first_touch _ o => o
  | kernel_call.main _ _ o => o
  | kernel_call.last_touch _ o => o

/-- The matrix multiplication of the tests with two targeted tasks: `matmul_example` with the
member `m_num_tasks_targeted`, which `compile` hands to `threading`, equal to 2. -/
def two_tasks_example : ContractionLoops :=
  { matmul_example with m_num_tasks_targeted := 2 }

end ContractionLoops

/-! ## The arithmetic of `int64_t` -/

/-- The value that an integer has as `int64_t`: the representative of `x` modulo `2^64` in the
range from `-2^63` to `2^63 - 1`, which the 64-bit two's complement arithmetic of the compiled
code leaves when the exact result of an operation is `x`. -/
def int64 (x : Int) : Int :=
  (x + 9223372036854775808) % 18446744073709551616 - 9223372036854775808

/-- The integer is representable as `int64_t`: it lies between `-2^63` and `2^63 - 1`. -/
def in_int64 (x : Int) : Prop :=
  -9223372036854775808 ≤ x ∧ x ≤ 9223372036854775807

instance (x : Int) : Decidable (in_int64 x) := by
  unfold in_int64
  infer_instance

/-! ## The memory manager -/

/-- The members of `MemoryManager` that `MemoryManager.cpp` uses. A `std::list` is a list whose
head is the front, the `std::vector` `m_tensor_offset` is a list in index order, pointers and
offsets are integers. -/
structure MemoryManager where
  m_memory_ptr : Int
  m_aligned_memory_ptr : Int
  m_alignement_line : Int
  m_alignement_page : Int
  m_last_id : Int
  m_layer_id : Int
  m_allocated_id_left : List Int
  m_allocated_offset_left : List Int
  m_allocated_id_right : List Int
  m_allocated_offset_right : List Int
  m_tensor_offset : List Int
  m_req_mem : Int
  deriving DecidableEq, Repr

namespace MemoryManager

/-- The size that `reserve_memory` allocates for the requested size `i_size`: the statement
`if( i_size % m_alignement_line != 0 ) i_size += m_alignement_line - ( i_size % m_alignement_line )`,
with the truncating remainder of C++. -/
def aligned_size (i_alignement_line i_size : Int) : Int :=
  if i_size.tmod i_alignement_line ≠ 0 then
    i_size + (i_alignement_line - i_size.tmod i_alignement_line)
  else i_size

/-- The value `list.empty() ? 0 : list.front()` that `reserve_memory` computes for both offset
lists when it checks the required memory. -/
def front_offset (i_offsets : List Int) : Int :=
  i_offsets.headD 0

/-- The start of the new block on one side: `l_offset = 0`, then
`if( !ids.empty() ) l_offset = offsets.front()`; `none` for `front()` of an empty offset list,
which is undefined in the source. -/
def start_offset (i_ids i_offsets : List Int) : Option Int :=
  if i_ids ≠ [] then i_offsets.head? else some 0

/-- The method `MemoryManager::reserve_memory`: the returned id and the object after the call;
`none` for a remainder by the alignment 0 and for `front()` of an empty offset list, which are
undefined in the source. -/
def reserve_memory (mm : MemoryManager) (i_size : Int) : Option (Int × MemoryManager) :=
  let l_last_id := mm.m_last_id + 1
  if mm.m_alignement_line = 0 then none
  else
    -- actual allocated size must be a multiple of alignement
    let l_size := aligned_size mm.m_alignement_line i_size
    -- calculate new memory offset and append to allocation
    let l_res : Option (Int × MemoryManager) :=
      if mm.m_layer_id.tmod 2 = 0 then
        (start_offset mm.m_allocated_id_left mm.m_allocated_offset_left).map (fun l_offset =>
          (l_last_id,
            { mm with
              m_last_id := l_last_id
              m_tensor_offset := mm.m_tensor_offset ++ [l_offset]
              m_allocated_id_left := l_last_id :: mm.m_allocated_id_left
              m_allocated_offset_left := (l_offset + l_size) :: mm.m_allocated_offset_left }))
      else
        (start_offset mm.m_allocated_id_right mm.m_allocated_offset_right).map (fun l_offset =>
          (-l_last_id,
            { mm with
              m_last_id := l_last_id
              m_tensor_offset := mm.m_tensor_offset ++ [l_offset - l_size]
              m_allocated_id_right := (-l_last_id) :: mm.m_allocated_id_right
              m_allocated_offset_right :=
                (l_offset - l_size) :: mm.m_allocated_offset_right }))
    -- check if more memory required
    l_res.map (fun r =>
      let l_current_mem :=
        front_offset r.2.m_allocated_offset_left - front_offset r.2.m_allocated_offset_right
      if l_current_mem > r.2.m_req_mem then (r.1, { r.2 with m_req_mem := l_current_mem })
      else r)

/-- The loop of `remove_reservation` over one side: the two iterators advance together until
the id is found, then both entries are erased; `none` when the id is not in the list or the
offset list ends before it (erasing `end()` is undefined in the source). -/
def erase_reservation (i_ids i_offsets : List Int) (i_id : Int) :
    Option (List Int × List Int) :=
  let l_pos := i_ids.indexOf i_id
  if l_pos < i_ids.length ∧ l_pos < i_offsets.length then
    some (i_ids.eraseIdx l_pos, i_offsets.eraseIdx l_pos)
  else none

/-- The method `MemoryManager::remove_reservation`. -/
def remove_reservation (mm : MemoryManager) (i_id : Int) : Option MemoryManager :=
  if i_id ≥ 0 then
    (erase_reservation mm.m_allocated_id_left mm.m_allocated_offset_left i_id).map (fun r =>
      { mm with m_allocated_id_left := r.1, m_allocated_offset_left := r.2 })
  else
    (erase_reservation mm.m_allocated_id_right mm.m_allocated_offset_right i_id).map (fun r =>
      { mm with m_allocated_id_right := r.1, m_allocated_offset_right := r.2 })

/-- The method `MemoryManager::increase_layer`. -/
def increase_layer (mm : MemoryManager) : MemoryManager :=
  { mm with m_layer_id := mm.m_layer_id + 1 }

/-- The method `MemoryManager::decrease_layer`. -/
def decrease_layer (mm : MemoryManager) : MemoryManager :=
  { mm with m_layer_id := mm.m_layer_id - 1 }

/-- A call of one of the methods that plan the memory. -/
inductive mem_op where
  | reserve (i_size : Int)
  | remove (i_id : Int)
  | increase
  | decrease
  deriving DecidableEq, Repr

/-- The object after a call; `none` when the call is undefined. -/
def apply_op (mm : MemoryManager) : mem_op → Option MemoryManager
  | mem_op.reserve i_size => (mm.reserve_memory i_size).map (fun r => r.2)
  | mem_op.remove i_id => mm.remove_reservation i_id
  | mem_op.increase => some mm.increase_layer
  | mem_op.decrease => some mm.decrease_layer

/-- The states reached by a sequence of calls, the state before the first call included. -/
def run_ops : MemoryManager → List mem_op → Option (List MemoryManager)
  | mm, [] => some [mm]
  | mm, op :: ops =>
    match apply_op mm op with
    | some mm1 =>
      match run_ops mm1 ops with
      | some states => some (mm :: states)
      | none => none
    | none => none

/-- The memory in use: left front offset minus right front offset, the front offset of an
empty list counting as 0. -/
def current_mem (mm : MemoryManager) : Int :=
  front_offset mm.m_allocated_offset_left - front_offset mm.m_allocated_offset_right

/-- No reservation is recorded in the four allocation lists. -/
def no_reservations (mm : MemoryManager) : Prop :=
  mm.m_allocated_id_left = [] ∧ mm.m_allocated_offset_left = []
    ∧ mm.m_allocated_id_right = [] ∧ mm.m_allocated_offset_right = []

instance (mm : MemoryManager) : Decidable (no_reservations mm) := by
  unfold no_reservations
  infer_instance

/-- The size of a reservation is non-negative; the other calls have no size. -/
def size_nonneg : mem_op → Prop
  | mem_op.reserve i_size => 0 ≤ i_size
  | _ => True

instance (op : mem_op) : Decidable (size_nonneg op) := by
  cases op <;> unfold size_nonneg <;> infer_instance

/-- The sizes of all reservations of a sequence of calls are non-negative. -/
def sizes_nonneg (ops : List mem_op) : Prop :=
  ∀ op ∈ ops, size_nonneg op

instance (ops : List mem_op) : Decidable (sizes_nonneg ops) := by
  unfold sizes_nonneg
  infer_instance

/-- The id list and the offset list of each side have the same length. -/
def lengths_agree (mm : MemoryManager) : Prop :=
  mm.m_allocated_id_left.length = mm.m_allocated_offset_left.length
    ∧ mm.m_allocated_id_right.length = mm.m_allocated_offset_right.length

instance (mm : MemoryManager) : Decidable (lengths_agree mm) := by
  unfold lengths_agree
  infer_instance

/-- The invariant of the allocation lists: positive alignment, id and offset lists of equal
length, left offsets non-negative and falling from the front, right offsets non-positive and
rising from the front. -/
def lists_ok (mm : MemoryManager) : Prop :=
  0 < mm.m_alignement_line
    ∧ lengths_agree mm
    ∧ mm.m_allocated_offset_left.Pairwise (fun x y => y ≤ x)
    ∧ (∀ x ∈ mm.m_allocated_offset_left, 0 ≤ x)
    ∧ mm.m_allocated_offset_right.Pairwise (fun x y => x ≤ y)
    ∧ (∀ x ∈ mm.m_allocated_offset_right, x ≤ 0)

/-- The id is live: it is in the id list of its side, the left list for `i_id >= 0` and the
right list otherwise. -/
def live (mm : MemoryManager) (i_id : Int) : Prop :=
  if i_id ≥ 0 then i_id ∈ mm.m_allocated_id_left else i_id ∈ mm.m_allocated_id_right

instance (mm : MemoryManager) (i_id : Int) : Decidable (live mm i_id) := by
  unfold live
  infer_instance

/-- The element `i_vector[ i_index ]` of a `std::vector`; `none` outside the vector, where the
access is undefined in the source. -/
def vector_at (i_vector : List Int) (i_index : Int) : Option Int :=
  if 0 ≤ i_index then i_vector[i_index.toNat]? else none

/-- The method `MemoryManager::get_mem_ptr`: the resolved address; `none` when the index
`i_id - 1` or `-i_id - 1` is outside `m_tensor_offset`. -/
def get_mem_ptr (mm : MemoryManager) (i_id : Int) : Option Int :=
  if i_id ≥ 0 then
    (vector_at mm.m_tensor_offset (i_id - 1)).map (fun l_offset =>
      mm.m_aligned_memory_ptr + l_offset)
  else
    (vector_at mm.m_tensor_offset (-i_id - 1)).map (fun l_offset =>
      mm.m_aligned_memory_ptr + mm.m_req_mem + l_offset)

/-- The method `MemoryManager::alloc_all_memory` for the address `l_data` of the array that
`new` returns: with a positive required memory the aligned pointer is the first multiple of the
page alignment at or after `l_data`; otherwise nothing is allocated and the object is
unchanged. The remainder of the unsigned address is `%` on the integers, which it is for a
positive page alignment. -/
def alloc_all_memory (mm : MemoryManager) (l_data : Nat) : MemoryManager :=
  if mm.m_req_mem > 0 then
    let l_align_offset : Int := (l_data : Int) % mm.m_alignement_page
    { mm with
      m_memory_ptr := l_data
      m_aligned_memory_ptr :=
        if l_align_offset ≠ 0 then (l_data : Int) + (mm.m_alignement_page - l_align_offset)
        else l_data }
  else mm

/-- Modelled from the spec: `MemoryManager.h`, which gives the members their initial values, is
not part of the sources. A fresh memory manager has no reservations, no recorded block offset,
the id counter 0 and the required memory 0 (section 4.7: ids are handed out from 1, the left
list grows from offset 0). -/
def is_fresh (mm : MemoryManager) : Prop :=
  no_reservations mm ∧ mm.m_tensor_offset = [] ∧ mm.m_last_id = 0 ∧ mm.m_req_mem = 0

instance (mm : MemoryManager) : Decidable (is_fresh mm) := by
  unfold is_fresh
  infer_instance

/-- The invariant of the ids: the id counter is non-negative and counts the recorded block
offsets, the left ids are positive, at most the counter and falling from the front, the right
ids are negative, at least minus the counter and rising from the front. -/
def ids_ok (mm : MemoryManager) : Prop :=
  0 ≤ mm.m_last_id
    ∧ (mm.m_tensor_offset.length : Int) = mm.m_last_id
    ∧ mm.m_allocated_id_left.Pairwise (fun x y => y < x)
    ∧ (∀ x ∈ mm.m_allocated_id_left, 0 < x ∧ x ≤ mm.m_last_id)
    ∧ mm.m_allocated_id_right.Pairwise (fun x y => x < y)
    ∧ (∀ x ∈ mm.m_allocated_id_right, -mm.m_last_id ≤ x ∧ x < 0)

/-- All offsets of the object and the required memory are multiples of the cache-line
alignment. -/
def offsets_aligned (mm : MemoryManager) : Prop :=
  (∀ x ∈ mm.m_tensor_offset, mm.m_alignement_line ∣ x)
    ∧ (∀ x ∈ mm.m_allocated_offset_left, mm.m_alignement_line ∣ x)
    ∧ (∀ x ∈ mm.m_allocated_offset_right, mm.m_alignement_line ∣ x)
    ∧ mm.m_alignement_line ∣ mm.m_req_mem

/-- The object after a sequence of calls; `none` when a call is undefined. -/
def final_state (mm : MemoryManager) (ops : List mem_op) : Option MemoryManager :=
  (run_ops mm ops).bind (fun states => states.getLast?)

/-- The object `mm` is reached from the fresh memory manager `mm0` with a positive cache-line
alignment by the calls `ops`, whose reservations have non-negative sizes. -/
def reached_by (mm0 : MemoryManager) (ops : List mem_op) (mm : MemoryManager) : Prop :=
  is_fresh mm0 ∧ 0 < mm0.m_alignement_line ∧ sizes_nonneg ops ∧ final_state mm0 ops = some mm

instance (mm0 : MemoryManager) (ops : List mem_op) (mm : MemoryManager) :
    Decidable (reached_by mm0 ops mm) := by
  unfold reached_by
  infer_instance

/-- The number of `reserve_memory` calls in a sequence of calls. -/
def num_reserves : List mem_op → Nat
  | [] => 0
  | mem_op.reserve _ :: ops => num_reserves ops + 1
  | _ :: ops => num_reserves ops

/-- The id is recorded with the offset in the allocation lists of its side, the left lists for
`i_id >= 0` and the right lists otherwise: the two entries are at the same position. -/
def recorded (mm : MemoryManager) (i_id i_offset : Int) : Prop :=
  if i_id ≥ 0 then (i_id, i_offset) ∈ mm.m_allocated_id_left.zip mm.m_allocated_offset_left
  else (i_id, i_offset) ∈ mm.m_allocated_id_right.zip mm.m_allocated_offset_right

instance (mm : MemoryManager) (i_id i_offset : Int) : Decidable (recorded mm i_id i_offset) := by
  unfold recorded
  infer_instance

/-- A memory manager without reservations: cache lines of 64 bytes, pages of 4096 bytes, the
counters at 0. -/
def example_manager : MemoryManager :=
  { m_memory_ptr := 0, m_aligned_memory_ptr := 0, m_alignement_line := 64,
    m_alignement_page := 4096, m_last_id := 0, m_layer_id := 0, m_allocated_id_left := [],
    m_allocated_offset_left := [], m_allocated_id_right := [], m_allocated_offset_right := [],
    m_tensor_offset := [], m_req_mem := 0 }

/-- A sequence of calls: two reservations on layer 0, one on layer 1, the removal of the
second reservation, and a reservation on layer 2. -/
def example_ops : List mem_op :=
  [mem_op.reserve 100, mem_op.reserve 64, mem_op.increase, mem_op.reserve 10,
   mem_op.remove 2, mem_op.increase, mem_op.reserve 1]

/-- The states reached by `example_ops` from `example_manager`. -/
def example_states : List MemoryManager :=
  (run_ops example_manager example_ops).getD []

/-- The object reached by `example_ops` from `example_manager`. -/
def example_final : MemoryManager :=
  (final_state example_manager example_ops).getD example_manager

/-- The object reached by two reservations on layer 0 and one on layer 1 from
`example_manager`. -/
def example_mid : MemoryManager :=
  (final_state example_manager (example_ops.take 4)).getD example_manager

/-- The id and the object after a reservation of 10 bytes on `example_mid`. -/
def example_reserved : Int × MemoryManager :=
  (example_mid.reserve_memory 10).getD (0, example_mid)

/-- The calls of `example_ops` after the first four. -/
def example_later_ops : List mem_op :=
  [mem_op.remove 2, mem_op.increase, mem_op.reserve 1]

/-- The object reached from `example_reserved` by `example_later_ops`. -/
def example_later : MemoryManager :=
  (final_state example_reserved.2 example_later_ops).getD example_manager

/-- The id and the object after the first reservation of `example_ops`, of 100 bytes on
layer 0. -/
def example_first : Int × MemoryManager :=
  (example_manager.reserve_memory 100).getD (0, example_manager)

/-- The object before the third reservation of `example_ops`: after the second reservation
and the change to layer 1. -/
def example_second : MemoryManager :=
  (final_state example_first.2 [mem_op.reserve 64, mem_op.increase]).getD example_manager

/-- The id and the object after the third reservation of `example_ops`, of 10 bytes on
layer 1. -/
def example_third : Int × MemoryManager :=
  (example_second.reserve_memory 10).getD (0, example_manager)

/-- The object reached from `example_third` by the remaining calls of `example_ops`. -/
def example_end : MemoryManager :=
  (final_state example_third.2 [mem_op.remove 2, mem_op.increase, mem_op.reserve 1]).getD
    example_manager

/-- The size that `reserve_memory` allocates for the requested size `i_size`, computed in
`int64_t` as in the source: the difference and the sum of
`i_size += m_alignement_line - ( i_size % m_alignement_line )` are reduced to the range of
`int64_t`. -/
def aligned_size_int64 (i_alignement_line i_size : Int) : Int :=
  if i_size.tmod i_alignement_line ≠ 0 then
    int64 (i_size + int64 (i_alignement_line - i_size.tmod i_alignement_line))
  else i_size

/-- The method `MemoryManager::reserve_memory` with the arithmetic of `int64_t`, as in the
source: the increment of the id counter, the rounding of the size, the new offset, the
negated id and the difference of the front offsets are reduced to the range of `int64_t`.
It agrees with `reserve_memory` whenever the exact results are representable. -/
def reserve_memory_int64 (mm : MemoryManager) (i_size : Int) : Option (Int × MemoryManager) :=
  let l_last_id := int64 (mm.m_last_id + 1)
  if mm.m_alignement_line = 0 then none
  else
    -- actual allocated size must be a multiple of alignement
    let l_size := aligned_size_int64 mm.m_alignement_line i_size
    -- calculate new memory offset and append to allocation
    let l_res : Option (Int × MemoryManager) :=
      if mm.m_layer_id.tmod 2 = 0 then
        (start_offset mm.m_allocated_id_left mm.m_allocated_offset_left).map (fun l_offset =>
          (l_last_id,
            { mm with
              m_last_id := l_last_id
              m_tensor_offset := mm.m_tensor_offset ++ [l_offset]
              m_allocated_id_left := l_last_id :: mm.m_allocated_id_left
              m_allocated_offset_left :=
                int64 (l_offset + l_size) :: mm.m_allocated_offset_left }))
      else
        (start_offset mm.m_allocated_id_right mm.m_allocated_offset_right).map (fun l_offset =>
          (int64 (-l_last_id),
            { mm with
              m_last_id := l_last_id
              m_tensor_offset := mm.m_tensor_offset ++ [int64 (l_offset - l_size)]
              m_allocated_id_right := int64 (-l_last_id) :: mm.m_allocated_id_right
              m_allocated_offset_right :=
                int64 (l_offset - l_size) :: mm.m_allocated_offset_right }))
    -- check if more memory required
    l_res.map (fun r =>
      let l_current_mem :=
        int64 (front_offset r.2.m_allocated_offset_left
          - front_offset r.2.m_allocated_offset_right)
      if l_current_mem > r.2.m_req_mem then (r.1, { r.2 with m_req_mem := l_current_mem })
      else r)

/-- The method `MemoryManager::increase_layer` with the increment in `int64_t`. -/
def increase_layer_int64 (mm : MemoryManager) : MemoryManager :=
  { mm with m_layer_id := int64 (mm.m_layer_id + 1) }

/-- The method `MemoryManager::decrease_layer` with the decrement in `int64_t`. -/
def decrease_layer_int64 (mm : MemoryManager) : MemoryManager :=
  { mm with m_layer_id := int64 (mm.m_layer_id - 1) }

/-- The object after a call, with the arithmetic of `int64_t`; `none` when the call is
undefined. -/
def apply_op_int64 (mm : MemoryManager) : mem_op → Option MemoryManager
  | mem_op.reserve i_size => (mm.reserve_memory_int64 i_size).map (fun r => r.2)
  | mem_op.remove i_id => mm.remove_reservation i_id
  | mem_op.increase => some mm.increase_layer_int64
  | mem_op.decrease => some mm.decrease_layer_int64

/-- The object after a sequence of calls, with the arithmetic of `int64_t`; `none` when a call
is undefined. -/
def final_state_int64 : MemoryManager → List mem_op → Option MemoryManager
  | mm, [] => some mm
  | mm, op :: ops => (apply_op_int64 mm op).bind (fun mm1 => final_state_int64 mm1 ops)

/-- The property holds of the value of an optional integer, if there is one. -/
def holds_of (o : Option Int) (p : Int → Prop) : Prop :=
  ∀ x, o = some x → p x

instance (o : Option Int) (p : Int → Prop) [DecidablePred p] : Decidable (holds_of o p) :=
  match o with
  | none => isTrue (fun _ h => by cases h)
  | some y =>
    if hp : p y then isTrue (fun x h => by cases h; exact hp)
    else isFalse (fun h => hp (h y rfl))

/-- No result of a call of `reserve_memory` overflows: the exact values of the incremented id
counter, of the new front offset of the chosen side and of the memory in use after the call,
and on an odd layer of the negated id, are representable as `int64_t`. -/
def reserve_exact (mm : MemoryManager) (i_size : Int) : Prop :=
  in_int64 (mm.m_last_id + 1)
    ∧ (mm.m_layer_id.tmod 2 = 0 →
        holds_of (start_offset mm.m_allocated_id_left mm.m_allocated_offset_left)
          (fun l_offset =>
            in_int64 (l_offset + aligned_size mm.m_alignement_line i_size)
            ∧ in_int64 (l_offset + aligned_size mm.m_alignement_line i_size
                - front_offset mm.m_allocated_offset_right)))
    ∧ (mm.m_layer_id.tmod 2 ≠ 0 →
        in_int64 (-(mm.m_last_id + 1))
        ∧ holds_of (start_offset mm.m_allocated_id_right mm.m_allocated_offset_right)
          (fun l_offset =>
            in_int64 (l_offset - aligned_size mm.m_alignement_line i_size)
            ∧ in_int64 (front_offset mm.m_allocated_offset_left
                - (l_offset - aligned_size mm.m_alignement_line i_size))))

instance (mm : MemoryManager) (i_size : Int) : Decidable (reserve_exact mm i_size) := by
  unfold reserve_exact
  infer_instance

/-- No result of a call overflows: for `reserve_memory` as in `reserve_exact`, for
`increase_layer` and `decrease_layer` the new layer id is representable as `int64_t`. -/
def op_exact (mm : MemoryManager) : mem_op → Prop
  | mem_op.reserve i_size => reserve_exact mm i_size
  | mem_op.remove _ => True
  | mem_op.increase => in_int64 (mm.m_layer_id + 1)
  | mem_op.decrease => in_int64 (mm.m_layer_id - 1)

instance (mm : MemoryManager) (op : mem_op) : Decidable (op_exact mm op) := by
  cases op <;> unfold op_exact <;> infer_instance

/-- The calls of a sequence, each with the object it is made on, along the run with the
arithmetic of `int64_t`. -/
def steps_int64 : MemoryManager → List mem_op → List (MemoryManager × mem_op)
  | _, [] => []
  | mm, op :: ops =>
    (mm, op) :: (match apply_op_int64 mm op with
      | some mm1 => steps_int64 mm1 ops
      | none => [])

/-- No result of a sequence of calls overflows: every call of the run is exact on the object
it is made on. -/
def ops_exact (mm : MemoryManager) (ops : List mem_op) : Prop :=
  ∀ p ∈ steps_int64 mm ops, op_exact p.1 p.2

instance (mm : MemoryManager) (ops : List mem_op) : Decidable (ops_exact mm ops) := by
  unfold ops_exact
  infer_instance

end MemoryManager

/-! ## The TPP binary contraction: `BinaryContractionTpp::compile` -/

/-- The members of `BinaryContractionTpp`, inherited from `BinaryContraction`, that `compile`
reads or writes. An id array with its count is a list, a map of sizes is an association list,
the pointer `m_dim_sizes_outer_out_aux` is `none` when it is null. The type `data_t` and the
class of `m_backend` are not part of the sources and are the parameters `δ` and `β`. -/
structure BinaryContractionTpp (δ β : Type) where
  m_dim_ids_left : List Int
  m_dim_ids_right : List Int
  m_dim_ids_out : List Int
  m_dim_sizes_inner : List (Int × Int)
  m_dim_sizes_outer_left : List (Int × Int)
  m_dim_sizes_outer_right : List (Int × Int)
  m_dim_sizes_outer_out : List (Int × Int)
  m_dim_sizes_outer_out_aux : Option (List (Int × Int))
  m_dim_ids_c : List Int
  m_dim_ids_m : List Int
  m_dim_ids_n : List Int
  m_dim_ids_k : List Int
  m_dim_types : List (Int × dim_t)
  m_dtype_left : δ
  m_dtype_right : δ
  m_dtype_comp : δ
  m_dtype_out : δ
  m_ktype_first_touch : kernel_t
  m_ktype_main : kernel_t
  m_ktype_last_touch : kernel_t
  m_num_threads : Int
  m_target_prim_m : Int
  m_target_prim_n : Int
  m_target_prim_k : Int
  m_backend : β
  deriving DecidableEq, Repr

namespace BinaryContractionTpp

/-- The parts that `compile` calls or names and that are not part of the sources, as
parameters: the execution kind `exec_t::SEQ`, the value-initialised `dim_t` that
`m_dim_types[ l_dim_id ]` inserts for a missing key, `BinaryContraction::compile_base`, the
helper `strides` (id list and map of outer sizes to the map of strides),
`ContractionOptimizer::init` with `optimize` (on the loops and the main kernel kind, which it
gets by pointer), and `init` and `compile` of the backend. -/
structure Collaborators (δ ε β : Type) where
  SEQ : ε
  dim_t_default : dim_t
  compile_base : BinaryContractionTpp δ β → err_t × BinaryContractionTpp δ β
  strides : List Int → List (Int × Int) → List (Int × Int)
  optimize : List (binary.iter_property ε) → kernel_t → Int → Int → Int → Int → Bool → Bool →
    List (binary.iter_property ε) × kernel_t
  backend_init : β → List (binary.iter_property ε) → δ → δ → δ → δ → kernel_t → kernel_t →
    kernel_t → Int → β
  backend_compile : β → err_t × β

variable {δ ε β : Type}

/-- Modelled from the spec: the helper `map_find_default` is not part of the sources; it is the
value of the key in the map and the default for a key that is missing (section 4.2: missing
dims get stride 0). -/
def map_find_default (i_map : List (Int × Int)) (i_key : Int) (i_default : Int) : Int :=
  (i_map.lookup i_key).getD i_default

/-- The map `l_strides_left` of `compile`. -/
def l_strides_left (x : Collaborators δ ε β) (bc : BinaryContractionTpp δ β) :
    List (Int × Int) :=
  x.strides bc.m_dim_ids_left bc.m_dim_sizes_outer_left

/-- The map `l_strides_right` of `compile`. -/
def l_strides_right (x : Collaborators δ ε β) (bc : BinaryContractionTpp δ β) :
    List (Int × Int) :=
  x.strides bc.m_dim_ids_right bc.m_dim_sizes_outer_right

/-- The map `l_strides_out` of `compile`. -/
def l_strides_out (x : Collaborators δ ε β) (bc : BinaryContractionTpp δ β) :
    List (Int × Int) :=
  x.strides bc.m_dim_ids_out bc.m_dim_sizes_outer_out

/-- The map `l_strides_out_aux` of `compile`: derived from the outer sizes of the auxiliary
tensor over the dimension ids of the output when the sizes were given, the output strides
otherwise. -/
def l_strides_out_aux (x : Collaborators δ ε β) (bc : BinaryContractionTpp δ β) :
    List (Int × Int) :=
  match bc.m_dim_sizes_outer_out_aux with
  | some l_sizes => x.strides bc.m_dim_ids_out l_sizes
  | none => l_strides_out x bc

/-- The vector `l_all_dim_ids` of `compile`: the C, M, N and K ids. -/
def l_all_dim_ids (bc : BinaryContractionTpp δ β) : List Int :=
  bc.m_dim_ids_c ++ bc.m_dim_ids_m ++ bc.m_dim_ids_n ++ bc.m_dim_ids_k

/-- The map `m_dim_types` after the read `m_dim_types[ l_dim_id ]`, which inserts the
value-initialised type for a missing key. -/
def dim_types_read (x : Collaborators δ ε β) (i_types : List (Int × dim_t)) (l_dim_id : Int) :
    List (Int × dim_t) :=
  if (i_types.lookup l_dim_id).isSome then i_types else i_types ++ [(l_dim_id, x.dim_t_default)]

/-- One pass of the lowering loop of `compile` for the dimension `l_dim_id`: the loop
descriptor; `none` when `m_dim_sizes_inner->at` throws. -/
def lower_loop (x : Collaborators δ ε β) (bc : BinaryContractionTpp δ β)
    (i_types : List (Int × dim_t)) (l_dim_id : Int) : Option (binary.iter_property ε) :=
  (bc.m_dim_sizes_inner.lookup l_dim_id).map (fun l_size =>
    { dim_type := ((dim_types_read x i_types l_dim_id).lookup l_dim_id).getD x.dim_t_default
      exec_type := x.SEQ
      size := l_size
      stride_left := map_find_default (l_strides_left x bc) l_dim_id 0
      stride_right := map_find_default (l_strides_right x bc) l_dim_id 0
      stride_out_aux := map_find_default (l_strides_out_aux x bc) l_dim_id 0
      stride_out := map_find_default (l_strides_out x bc) l_dim_id 0 })

/-- The lowering loop of `compile` over the remaining dimension ids: the loop descriptors and
the map `m_dim_types` after the reads. -/
def lower_loops (x : Collaborators δ ε β) (bc : BinaryContractionTpp δ β) :
    List (Int × dim_t) → List Int → Option (List (binary.iter_property ε) × List (Int × dim_t))
  | i_types, [] => some ([], i_types)
  | i_types, l_dim_id :: l_rest =>
    match lower_loop x bc i_types l_dim_id with
    | none => none
    | some l_loop =>
      match lower_loops x bc (dim_types_read x i_types l_dim_id) l_rest with
      | none => none
      | some (l_loops, l_types) => some (l_loop :: l_loops, l_types)

/-- The vector `l_loops` that `compile` hands to the optimizer, with `m_dim_types` after the
lowering. -/
def lowered (x : Collaborators δ ε β) (bc : BinaryContractionTpp δ β) :
    Option (List (binary.iter_property ε) × List (Int × dim_t)) :=
  lower_loops x bc bc.m_dim_types (l_all_dim_ids bc)

/-- The loops and the main kernel kind after `l_optim.init( ... )` and `l_optim.optimize()`. -/
def optimized (x : Collaborators δ ε β) (bc : BinaryContractionTpp δ β)
    (l_loops : List (binary.iter_property ε)) : List (binary.iter_property ε) × kernel_t :=
  x.optimize l_loops bc.m_ktype_main bc.m_num_threads bc.m_target_prim_m bc.m_target_prim_n
    bc.m_target_prim_k true true

/-- The backend after `m_backend.init( ... )`, before `m_backend.compile()`. -/
def backend_input (x : Collaborators δ ε β) (bc : BinaryContractionTpp δ β)
    (l_loops : List (binary.iter_property ε)) : β :=
  x.backend_init bc.m_backend (optimized x bc l_loops).1 bc.m_dtype_left bc.m_dtype_right
    bc.m_dtype_comp bc.m_dtype_out bc.m_ktype_first_touch (optimized x bc l_loops).2
    bc.m_ktype_last_touch bc.m_num_threads

/-- The part of `compile` after the lowering: optimizer, backend `init`, backend `compile` and
the returned code. -/
def compile_backend (x : Collaborators δ ε β) (bc : BinaryContractionTpp δ β)
    (l_loops : List (binary.iter_property ε)) (l_types : List (Int × dim_t)) :
    err_t × BinaryContractionTpp δ β :=
  let l_res := x.backend_compile (backend_input x bc l_loops)
  let l_obj := { bc with
    m_dim_types := l_types
    m_ktype_main := (optimized x bc l_loops).2
    m_backend := l_res.2 }
  if l_res.1 ≠ err_t.SUCCESS then (l_res.1, l_obj) else (err_t.SUCCESS, l_obj)

/-- The method `BinaryContractionTpp::compile`: the returned code and the object after the
call; `none` when `m_dim_sizes_inner->at` throws. -/
def compile (x : Collaborators δ ε β) (bc : BinaryContractionTpp δ β) :
    Option (err_t × BinaryContractionTpp δ β) :=
  let l_base := x.compile_base bc
  if l_base.1 ≠ err_t.SUCCESS then some l_base
  else (lowered x l_base.2).map (fun l_low => compile_backend x l_base.2 l_low.1 l_low.2)

/-- Modelled from the spec: the helper `strides` is not part of the sources. Section 4.2: the
stride of a dimension of a tensor is the product of the outer sizes of the dimensions to its
right in the tensor; the map has the ids of the tensor as its keys. -/
def strides : List Int → List (Int × Int) → List (Int × Int)
  | [], _ => []
  | l_id :: l_rest, i_sizes =>
    (l_id, (l_rest.map (fun l_di => (i_sizes.lookup l_di).getD 1)).prod)
      :: strides l_rest i_sizes

/-- Collaborators for the examples: `compile_base` reports `INVALID_DIM` when the output has a
repeated id and succeeds without a change otherwise, the strides are those of `strides`, the
optimizer leaves the loops as they are, the backend stores the loops and reports
`COMPILATION_FAILED` for an empty nest. -/
def example_collaborators : Collaborators Unit Unit (List (binary.iter_property Unit)) :=
  { SEQ := ()
    dim_t_default := dim_t.C
    compile_base := fun bc =>
      (if bc.m_dim_ids_out.Nodup then err_t.SUCCESS else err_t.INVALID_DIM, bc)
    strides := strides
    optimize := fun l_loops l_ktype _ _ _ _ _ _ => (l_loops, l_ktype)
    backend_init := fun _ l_loops _ _ _ _ _ _ _ _ => l_loops
    backend_compile := fun l_backend =>
      (if l_backend = [] then err_t.COMPILATION_FAILED else err_t.SUCCESS, l_backend) }

/-- The matrix product with a full-tensor bias of the test: `m` = 0 of size 2, `n` = 1 of size
3, `k` = 2 of size 4, left `km`, right `nk`, out `nm`, no outer sizes for the auxiliary
tensor. -/
def bias_contraction : BinaryContractionTpp Unit (List (binary.iter_property Unit)) :=
  { m_dim_ids_left := [2, 0], m_dim_ids_right := [1, 2], m_dim_ids_out := [1, 0],
    m_dim_sizes_inner := [(0, 2), (1, 3), (2, 4)],
    m_dim_sizes_outer_left := [(0, 2), (1, 3), (2, 4)],
    m_dim_sizes_outer_right := [(0, 2), (1, 3), (2, 4)],
    m_dim_sizes_outer_out := [(0, 2), (1, 3), (2, 4)],
    m_dim_sizes_outer_out_aux := none,
    m_dim_ids_c := [], m_dim_ids_m := [0], m_dim_ids_n := [1], m_dim_ids_k := [2],
    m_dim_types := [(0, dim_t.M), (1, dim_t.N), (2, dim_t.K)],
    m_dtype_left := (), m_dtype_right := (), m_dtype_comp := (), m_dtype_out := (),
    m_ktype_first_touch := kernel_t.COPY, m_ktype_main := kernel_t.MADD,
    m_ktype_last_touch := kernel_t.UNDEFINED_KTYPE,
    m_num_threads := 1, m_target_prim_m := 1, m_target_prim_n := 1, m_target_prim_k := 1,
    m_backend := [] }

/-- The contraction `bias_contraction` with the repeated output id 0, which the base compile
of `example_collaborators` rejects. -/
def invalid_contraction : BinaryContractionTpp Unit (List (binary.iter_property Unit)) :=
  { bias_contraction with m_dim_ids_out := [0, 0] }

/-- The contraction `bias_contraction` with outer sizes for the auxiliary tensor, in which `m`
has the outer size 1. -/
def aux_sizes_contraction : BinaryContractionTpp Unit (List (binary.iter_property Unit)) :=
  { bias_contraction with m_dim_sizes_outer_out_aux := some [(0, 1), (1, 3), (2, 4)] }

end BinaryContractionTpp

namespace ContractionLoops

/-- The loops `i_id_loop, ..., m_num_loops - 1` of the nest for a task, each with its loop id
and its dimension type, which `contract_iter_packing` reads. -/
def packing_loops_from (obj : ContractionLoops) (i_id_task i_id_loop : Nat) :
    List (Nat × dim_t × loop_desc) :=
  (List.range' i_id_loop (obj.m_num_loops - i_id_loop)).map (fun l =>
    (l, obj.m_loop_dim_type.getD l dim_t.UNDEFINED_DIM, loop_at obj i_id_task l))

/-- The loop nest with packing over an explicit list of loops: the recursion of
`contract_iter_packing` written by recursion on the remaining loops; the empty list stands for
the call of the main kernel. The arguments `i_id_left`, `i_id_right` and `i_sum_k` are the
members `m_id_packing_loop_left`, `m_id_packing_loop_right` and `m_loop_sum_k_sizes`. -/
def packing_nest_run {σ : Type} (kern : Kernels σ) (pack : PackingKernels σ)
    (i_id_left i_id_right i_sum_k : Int) :
    List (Nat × dim_t × loop_desc) → Int → Int → Int → Int → Int → σ → σ
  | [], _, pl, pr, _, po, s => kern.kernel_main pl pr po s
  | d :: ds, i_id_k_loops, pl, pr, pa, po, s =>
    let s1 :=
      if d.2.2.touch = touch_t.BEFORE_AFTER_ITER then kern.kernel_first_touch pa po s else s
    let s2 := (for_range d.2.2.first d.2.2.size).foldl (fun (acc : σ × Int) (l_it : Int) =>
      let pa1 := pa + l_it * d.2.2.stride_out_aux * (if pa ≠ 0 then 1 else 0)
      let po1 := po + l_it * d.2.2.stride_out
      let a1 :=
        if d.2.2.touch = touch_t.EVERY_ITER ∧ i_id_k_loops = 0 then
          kern.kernel_first_touch pa1 po1 acc.1
        else acc.1
      let l_left :=
        if i_id_left = (d.1 : Int) then pack.kernel_pack_left (pl + l_it * d.2.2.stride_left) a1
        else (pl + l_it * d.2.2.stride_left, a1)
      let l_right :=
        if i_id_right = (d.1 : Int) then
          pack.kernel_pack_right (pr + l_it * d.2.2.stride_right) l_left.2
        else (pr + l_it * d.2.2.stride_right, l_left.2)
      let a2 := packing_nest_run kern pack i_id_left i_id_right i_sum_k ds acc.2 l_left.1
        l_right.1 pa1 po1 l_right.2
      let a3 :=
        if d.2.2.touch = touch_t.EVERY_ITER ∧ i_sum_k = i_id_k_loops then
          kern.kernel_last_touch pa1 po1 a2
        else a2
      (a3, acc.2 + (if d.2.1 = dim_t.K then 1 else 0))) (s1, i_id_k_loops)
    if d.2.2.touch = touch_t.BEFORE_AFTER_ITER then kern.kernel_last_touch pa po s2.1 else s2.1

/-- The sequence of kernel calls made by `contract_iter_packing` from the outermost loop, with
packing kernels that return the pointer they are given. -/
def packing_call_trace (obj : ContractionLoops) (i_id_task : Nat)
    (i_ptr_left i_ptr_right i_ptr_out_aux i_ptr_out : Int) : List kernel_call :=
  contract_iter_packing obj trace_kernels idle_packing i_id_task 0 0 i_ptr_left i_ptr_right
    i_ptr_out_aux i_ptr_out []

/-- A contraction with two K dimensions of which one is packed: `M = [0]` of size 2,
`K = [1, 2]` of sizes 2 and 2, ids left `[1,0,2]`, right `[1,2]`, out `[0]`, four-byte scalars,
kernel kinds `ZERO`, `MADD`, `UNDEFINED_KTYPE`, packing dimensions `[0, 2]`. -/
def split_k_example : ContractionLoops :=
  init [] [0] [] [1, 2] [(0, 2), (1, 2), (2, 2)] [(1, 4), (0, 2), (2, 1)] [(1, 2), (2, 1)]
    [(0, 1)] [(0, 1)] [(0, dim_t.M), (1, dim_t.K), (2, dim_t.K)] 4 4 4
    kernel_t.ZERO kernel_t.MADD kernel_t.UNDEFINED_KTYPE
    (some { m_dim_ids_extra := [0, 2], m_packing_loop_offset_left := 0,
            m_packing_loop_offset_right := 0 })

/-- The auxiliary pointer and the output pointer of a first-touch or last-touch call, `none`
for a main-kernel call. -/
def touch_args : kernel_call → Option (Int × Int)
  | kernel_call.first_touch a o => some (a, o)
  | kernel_call.last_touch a o => some (a, o)
  | kernel_call.main _ _ _ => none

/-- The byte strides of the auxiliary tensor in the loops `0, ..., n - 1` of the nest. -/
def aux_strides_upto (obj : ContractionLoops) (n : Nat) : List Int :=
  (List.range n).map (fun l => obj.m_loop_strides_out_aux.getD l 0)

/-- The calls of the loop nest with packing over an explicit list of loops, as a list, for
packing kernels that return the pointer they are given. The counter `l_id_k_loops` that the
iteration `l_it` of a loop hands to the inner loops is the counter of the loop plus, for a K
loop, the number `l_it - first` of iterations done before. -/
def packing_nest_trace (i_sum_k : Int) :
    List (Nat × dim_t × loop_desc) → Int → Int → Int → Int → Int → List kernel_call
  | [], _, pl, pr, _, po => [kernel_call.main pl pr po]
  | d :: ds, i_id_k_loops, pl, pr, pa, po =>
    (if d.2.2.touch = touch_t.BEFORE_AFTER_ITER then [kernel_call.first_touch pa po] else [])
    ++ (for_range d.2.2.first d.2.2.size).flatMap (fun l_it =>
      (if d.2.2.touch = touch_t.EVERY_ITER ∧ i_id_k_loops = 0 then
        [kernel_call.first_touch (pa + l_it * d.2.2.stride_out_aux * (if pa ≠ 0 then 1 else 0))
          (po + l_it * d.2.2.stride_out)] else [])
      ++ packing_nest_trace i_sum_k ds
          (i_id_k_loops + (if d.2.1 = dim_t.K then l_it - d.2.2.first else 0))
          (pl + l_it * d.2.2.stride_left) (pr + l_it * d.2.2.stride_right)
          (pa + l_it * d.2.2.stride_out_aux * (if pa ≠ 0 then 1 else 0))
          (po + l_it * d.2.2.stride_out)
      ++ (if d.2.2.touch = touch_t.EVERY_ITER ∧ i_sum_k = i_id_k_loops then
        [kernel_call.last_touch (pa + l_it * d.2.2.stride_out_aux * (if pa ≠ 0 then 1 else 0))
          (po + l_it * d.2.2.stride_out)] else []))
    ++ (if d.2.2.touch = touch_t.BEFORE_AFTER_ITER then [kernel_call.last_touch pa po] else [])

/-- The K indices of an index tuple: the entries of the loops of type K, in loop order. -/
def k_indices : List dim_t → List Int → List Int
  | ty :: tys, it :: t => if ty = dim_t.K then it :: k_indices tys t else k_indices tys t
  | _, _ => []

/-- The non-K indices of an index tuple: the entries of the loops of the types C, M and N, in
loop order. -/
def non_k_indices : List dim_t → List Int → List Int
  | ty :: tys, it :: t => if ty = dim_t.K then non_k_indices tys t else it :: non_k_indices tys t
  | _, _ => []

/-- The last index `first + size - 1` of each range. -/
def range_lasts (rs : List (Int × Int)) : List Int :=
  rs.map (fun r => r.1 + r.2 - 1)

/-- The matrix multiplication of the tests with a packing object that packs the left tensor
before all loops and two targeted tasks: no packing dimension, left packing loop offset 4, so
that the left packing loop id is `3 - 4 = -1`. -/
def pack_all_example : ContractionLoops :=
  { init [] [0] [1] [2] [(0, 2), (1, 3), (2, 4)] [(2, 2), (0, 1)] [(1, 4), (2, 1)]
      [(1, 2), (0, 1)] [(1, 2), (0, 1)] [(0, dim_t.M), (1, dim_t.N), (2, dim_t.K)] 4 4 4
      kernel_t.ZERO kernel_t.MADD kernel_t.UNDEFINED_KTYPE
      (some { m_dim_ids_extra := [], m_packing_loop_offset_left := 4,
              m_packing_loop_offset_right := 0 })
    with m_num_tasks_targeted := 2 }

/-- Kernels on the record of the pack calls: the three kernels leave the record as it is. -/
def silent_kernels : Kernels (List Int) :=
  { kernel_first_touch := fun _ _ s => s
    kernel_main := fun _ _ _ s => s
    kernel_last_touch := fun _ _ s => s }

/-- Packing kernels that record the pointer each call of `kernel_pack_left` is given;
`kernel_pack_left` returns the address `i_buffer` of the packed data, `kernel_pack_right`
returns the pointer it is given. -/
def recording_packing (i_buffer : Int) : PackingKernels (List Int) :=
  { allocate_memory := fun s => s
    kernel_pack_left := fun p s => (i_buffer, s ++ [p])
    kernel_pack_right := fun p s => (p, s) }

/-- The value of `m_loop_sum_k_sizes` after the loop of `compile` over loops with the types and
sizes `ps`, started with the counters `l_count_cbm`, `l_count_k`, the sum `l_size_all_k` and the
value `l_sum` of the member: a K loop adds its size minus 1 to `l_size_all_k`, the loop that
gets the marker `EVERY_ITER` stores `l_size_all_k` in the member. -/
def sum_k_marks (l_num_dim_cbm l_num_dims_k : Nat) :
    Nat → Nat → Int → Int → List (dim_t × Int) → Int
  | _, _, _, l_sum, [] => l_sum
  | l_count_cbm, l_count_k, l_size_all_k, l_sum, p :: ps =>
    if p.1 = dim_t.K then
      sum_k_marks l_num_dim_cbm l_num_dims_k l_count_cbm (l_count_k + 1)
        (l_size_all_k + (p.2 - 1)) l_sum ps
    else
      if l_count_cbm + 1 = l_num_dim_cbm ∧ l_count_k = l_num_dims_k then
        sum_k_marks l_num_dim_cbm l_num_dims_k (l_count_cbm + 1) l_count_k l_size_all_k
          l_size_all_k ps
      else
        sum_k_marks l_num_dim_cbm l_num_dims_k (l_count_cbm + 1) l_count_k l_size_all_k l_sum ps

/-- The two ways a run of the loop nest with a bounded call stack and checked vector accesses
fails: no stack frame is left for a call, or a vector is read past its end. -/
inductive iter_error where
  | out_of_fuel
  | out_of_bounds
  deriving DecidableEq, Repr

/-- A checked access `v[i]` to a per-loop vector. -/
def vector_read {α : Type} (i_vector : List α) (i_index : Nat) : Except iter_error α :=
  match i_vector[i_index]? with
  | some x => Except.ok x
  | none => Except.error iter_error.out_of_bounds

/-- The method `ContractionLoops::contract_iter` on a call stack of `fuel` frames, with
checked accesses to the per-loop vectors of the object: a call needs a frame, the recursive
call gets the frames that are left, and every `operator[]` on a per-loop vector of the object
is a `vector_read` at the place where the source has it. -/
def contract_iter_checked {σ : Type} (obj : ContractionLoops) (kern : Kernels σ)
    (i_id_task : Nat) : Nat → Nat → Int → Int → Int → Int → σ → Except iter_error σ
  | 0, _, _, _, _, _, _ => Except.error iter_error.out_of_fuel
  | fuel + 1, i_id_loop, i_ptr_left, i_ptr_right, i_ptr_out_aux, i_ptr_out, s => do
    -- derive first element and number of iterations
    let l_first := (obj.m_iter_spaces.firsts i_id_task).getD i_id_loop 0
    let l_size := (obj.m_iter_spaces.sizes i_id_task).getD i_id_loop 0
    -- execute first touch kernel
    let l_touch ← vector_read obj.m_loop_first_last_touch i_id_loop
    let s1 :=
      if l_touch = touch_t.BEFORE_AFTER_ITER then
        kern.kernel_first_touch i_ptr_out_aux i_ptr_out s
      else s
    -- issue loop iterations
    let s2 ← (for_range l_first l_size).foldlM (fun (acc : σ) (l_it : Int) => do
      let l_stride_left ← vector_read obj.m_loop_strides_left i_id_loop
      let l_stride_right ← vector_read obj.m_loop_strides_right i_id_loop
      let l_stride_out_aux ← vector_read obj.m_loop_strides_out_aux i_id_loop
      let l_stride_out ← vector_read obj.m_loop_strides_out i_id_loop
      let l_ptr_left := i_ptr_left + l_it * l_stride_left
      let l_ptr_right := i_ptr_right + l_it * l_stride_right
      let l_ptr_out_aux := i_ptr_out_aux
        + l_it * l_stride_out_aux * (if i_ptr_out_aux ≠ 0 then 1 else 0)
      let l_ptr_out := i_ptr_out + l_it * l_stride_out
      let a1 :=
        if l_touch = touch_t.EVERY_ITER then kern.kernel_first_touch l_ptr_out_aux l_ptr_out acc
        else acc
      let a2 ←
        if i_id_loop + 1 < obj.m_num_loops then
          contract_iter_checked obj kern i_id_task fuel (i_id_loop + 1) l_ptr_left l_ptr_right
            l_ptr_out_aux l_ptr_out a1
        else
          -- execute main kernel
          pure (kern.kernel_main l_ptr_left l_ptr_right l_ptr_out a1)
      pure (if l_touch = touch_t.EVERY_ITER then kern.kernel_last_touch l_ptr_out_aux l_ptr_out a2
        else a2)) s1
    -- execute last touch kernel
    pure (if l_touch = touch_t.BEFORE_AFTER_ITER then
        kern.kernel_last_touch i_ptr_out_aux i_ptr_out s2
      else s2)

/-- The method `ContractionLoops::contract_iter_packing` on a call stack of `fuel` frames, with
checked accesses to the per-loop vectors of the object; the second component of the loop state
is the local counter `l_id_k_loops`. -/
def contract_iter_packing_checked {σ : Type} (obj : ContractionLoops) (kern : Kernels σ)
    (pack : PackingKernels σ) (i_id_task : Nat) :
    Nat → Nat → Int → Int → Int → Int → Int → σ → Except iter_error σ
  | 0, _, _, _, _, _, _, _ => Except.error iter_error.out_of_fuel
  | fuel + 1, i_id_loop, i_id_k_loops, i_ptr_left, i_ptr_right, i_ptr_out_aux, i_ptr_out, s => do
    -- derive first element and number of iterations
    let l_first := (obj.m_iter_spaces.firsts i_id_task).getD i_id_loop 0
    let l_size := (obj.m_iter_spaces.sizes i_id_task).getD i_id_loop 0
    -- execute first touch kernel
    let l_touch ← vector_read obj.m_loop_first_last_touch i_id_loop
    let s1 :=
      if l_touch = touch_t.BEFORE_AFTER_ITER then
        kern.kernel_first_touch i_ptr_out_aux i_ptr_out s
      else s
    -- issue loop iterations
    let s2 ← (for_range l_first l_size).foldlM (fun (acc : σ × Int) (l_it : Int) => do
      let l_stride_left ← vector_read obj.m_loop_strides_left i_id_loop
      let l_stride_right ← vector_read obj.m_loop_strides_right i_id_loop
      let l_stride_out_aux ← vector_read obj.m_loop_strides_out_aux i_id_loop
      let l_stride_out ← vector_read obj.m_loop_strides_out i_id_loop
      let l_ptr_left := i_ptr_left + l_it * l_stride_left
      let l_ptr_right := i_ptr_right + l_it * l_stride_right
      let l_ptr_out_aux := i_ptr_out_aux
        + l_it * l_stride_out_aux * (if i_ptr_out_aux ≠ 0 then 1 else 0)
      let l_ptr_out := i_ptr_out + l_it * l_stride_out
      let a1 :=
        if l_touch = touch_t.EVERY_ITER ∧ i_id_k_loops = 0 then
          kern.kernel_first_touch l_ptr_out_aux l_ptr_out acc.1
        else acc.1
      let l_left :=
        if obj.m_id_packing_loop_left = (i_id_loop : Int) then pack.kernel_pack_left l_ptr_left a1
        else (l_ptr_left, a1)
      let l_right :=
        if obj.m_id_packing_loop_right = (i_id_loop : Int) then
          pack.kernel_pack_right l_ptr_right l_left.2
        else (l_ptr_right, l_left.2)
      let a2 ←
        if i_id_loop + 1 < obj.m_num_loops then
          contract_iter_packing_checked obj kern pack i_id_task fuel (i_id_loop + 1) acc.2
            l_left.1 l_right.1 l_ptr_out_aux l_ptr_out l_right.2
        else
          -- execute main kernel
          pure (kern.kernel_main l_left.1 l_right.1 l_ptr_out l_right.2)
      let a3 :=
        if l_touch = touch_t.EVERY_ITER ∧ obj.m_loop_sum_k_sizes = i_id_k_loops then
          kern.kernel_last_touch l_ptr_out_aux l_ptr_out a2
        else a2
      let l_type ← vector_read obj.m_loop_dim_type i_id_loop
      pure (a3, acc.2 + (if l_type = dim_t.K then 1 else 0))) (s1, i_id_k_loops)
    -- execute last touch kernel
    pure (if l_touch = touch_t.BEFORE_AFTER_ITER then
        kern.kernel_last_touch i_ptr_out_aux i_ptr_out s2.1
      else s2.1)

/-- The seven per-loop vectors of the object have one entry per loop. -/
def vectors_sized (obj : ContractionLoops) : Prop :=
  obj.m_loop_first_last_touch.length = obj.m_num_loops
  ∧ obj.m_loop_dim_type.length = obj.m_num_loops
  ∧ obj.m_loop_sizes.length = obj.m_num_loops
  ∧ obj.m_loop_strides_left.length = obj.m_num_loops
  ∧ obj.m_loop_strides_right.length = obj.m_num_loops
  ∧ obj.m_loop_strides_out_aux.length = obj.m_num_loops
  ∧ obj.m_loop_strides_out.length = obj.m_num_loops

instance (obj : ContractionLoops) : Decidable (vectors_sized obj) := by
  unfold vectors_sized
  infer_instance

/-- A configuration with a repeated dimension id: `M = [0, 0]` of size 2 and the packing
dimensions `[0]`. -/
def repeated_dim_example : ContractionLoops :=
  init [] [0, 0] [] [] [(0, 2)] [(0, 1)] [] [(0, 1)] [(0, 1)] [(0, dim_t.M)] 4 4 4
    kernel_t.ZERO kernel_t.MADD kernel_t.UNDEFINED_KTYPE
    (some { m_dim_ids_extra := [0], m_packing_loop_offset_left := 0,
            m_packing_loop_offset_right := 0 })

/-- The counter `l_id_k_loops` that `contract_iter_packing` has added up after descending
loops with the given types and first indices to the index tuple `t`: every K loop adds the
number `l_it - first` of iterations it has done before. -/
def k_counter : List (dim_t × Int) → List Int → Int
  | p :: ps, it :: t => (if p.1 = dim_t.K then it - p.2 else 0) + k_counter ps t
  | _, _ => 0

/-- The calls of a loop nest written with the index tuple of the enclosing loops: `outer` are
the loops that are entered and `i` their current indices. Every call gets the base pointers
advanced by the indices of the enclosing loops, the auxiliary pointer through `aux_ptr`, which
adds `i_l * stride_out_aux[l]` level by level as long as the pointer is not null. A touch call
of a loop marked `BEFORE_AFTER_ITER` has the indices of the loops around the marked loop, a
touch call of a loop marked `EVERY_ITER` the index of the marked loop as well. -/
def indexed_trace (pl pr pa po : Int) :
    List loop_desc → List Int → List loop_desc → List kernel_call
  | outer, i, [] =>
    [kernel_call.main (pl + dot i (outer.map (fun x => x.stride_left)))
      (pr + dot i (outer.map (fun x => x.stride_right)))
      (po + dot i (outer.map (fun x => x.stride_out)))]
  | outer, i, d :: ds =>
    (if d.touch = touch_t.BEFORE_AFTER_ITER then
      [kernel_call.first_touch (aux_ptr pa i (outer.map (fun x => x.stride_out_aux)))
        (po + dot i (outer.map (fun x => x.stride_out)))] else [])
    ++ (for_range d.first d.size).flatMap (fun l_it =>
      (if d.touch = touch_t.EVERY_ITER then
        [kernel_call.first_touch
          (aux_ptr pa (i ++ [l_it]) ((outer ++ [d]).map (fun x => x.stride_out_aux)))
          (po + dot (i ++ [l_it]) ((outer ++ [d]).map (fun x => x.stride_out)))] else [])
      ++ indexed_trace pl pr pa po (outer ++ [d]) (i ++ [l_it]) ds
      ++ (if d.touch = touch_t.EVERY_ITER then
        [kernel_call.last_touch
          (aux_ptr pa (i ++ [l_it]) ((outer ++ [d]).map (fun x => x.stride_out_aux)))
          (po + dot (i ++ [l_it]) ((outer ++ [d]).map (fun x => x.stride_out)))] else []))
    ++ (if d.touch = touch_t.BEFORE_AFTER_ITER then
      [kernel_call.last_touch (aux_ptr pa i (outer.map (fun x => x.stride_out_aux)))
        (po + dot i (outer.map (fun x => x.stride_out)))] else [])

/-- The byte strides of the output tensor in the loops `0, ..., n - 1` of the nest. -/
def out_strides_upto (obj : ContractionLoops) (n : Nat) : List Int :=
  (List.range n).map (fun l => obj.m_loop_strides_out.getD l 0)

/-- The scaling of the first `i_num_loops` entries of a stride vector with the size of a data
type as the source does it, in `int64_t`: the statement
`m_loop_strides_X[l_lo] *= m_num_bytes_scalar_X` leaves the product reduced to the range of
`int64_t`. -/
def scale_strides_int64 (i_num_loops : Nat) (i_num_bytes : Int) (i_strides : List Int) :
    List Int :=
  (i_strides.take i_num_loops).map (fun s => int64 (s * i_num_bytes))
    ++ i_strides.drop i_num_loops

/-- The scaling of the four stride vectors with the sizes of the data types in `compile`, in
`int64_t`. -/
def scale_loop_strides_int64 (obj : ContractionLoops) : ContractionLoops :=
  { obj with
    m_loop_strides_left :=
      scale_strides_int64 obj.m_num_loops obj.m_num_bytes_scalar_left obj.m_loop_strides_left
    m_loop_strides_right :=
      scale_strides_int64 obj.m_num_loops obj.m_num_bytes_scalar_right obj.m_loop_strides_right
    m_loop_strides_out_aux :=
      scale_strides_int64 obj.m_num_loops obj.m_num_bytes_scalar_out obj.m_loop_strides_out_aux
    m_loop_strides_out :=
      scale_strides_int64 obj.m_num_loops obj.m_num_bytes_scalar_out obj.m_loop_strides_out }

/-- The method `ContractionLoops::compile` with the scaling of the loop strides by the sizes of
the data types done in `int64_t`, as the source does it; every other step is the step of
`compile`. The two agree whenever the products of the scaling are representable as
`int64_t`. -/
def compile_int64 (obj : ContractionLoops) : Option (err_t × ContractionLoops) :=
  -- determine if the outermost C dimension is complex
  let obj := set_cpx_outer_c obj
  -- check if a complex C dimension is possible
  if obj.m_cpx_outer_c = true ∧ obj.m_dim_ids_c.length = 0 then
    some (err_t.INVALID_CPX_DIM, obj)
  else do
    let l_invalid ← cpx_size_invalid obj
    if l_invalid then
      some (err_t.INVALID_CPX_DIM, obj)
    else do
      -- derive complex strides
      let obj ← derive_cpx_strides obj
      -- derive loop parameters for C dimension, determine loop execution order
      let l_loop_dims := loop_dims obj (loop_dim_ids_c obj)
      let l_num_dim_cbm := num_dim_cbm obj
      let obj := clear_loops obj
      -- add data of dimensions
      let st ← compile_add_dims l_loop_dims obj.m_num_loops l_num_dim_cbm
        (⟨0, 0, 0, false⟩, obj)
      -- add dummy data for non-existing loops such that the inner kernel is executed
      let obj := add_dummy_loop st.2
      -- setup extra packing loops
      let obj := set_packing_loops obj
      -- scale with size of data types
      let obj := scale_loop_strides_int64 obj
      -- compile iteration spaces
      some (compile_iter_spaces obj)

/-- A configuration whose scaled stride is not representable: one M dimension of size 2 with
the stride `2^61` in the left tensor and 8-byte scalars, kernel kinds `ZERO`, `MADD`,
`UNDEFINED_KTYPE`, no packing. -/
def wide_stride_example : ContractionLoops :=
  init [] [0] [] [] [(0, 2)] [(0, 2305843009213693952)] [] [(0, 1)] [(0, 1)] [(0, dim_t.M)]
    8 8 8 kernel_t.ZERO kernel_t.MADD kernel_t.UNDEFINED_KTYPE none

/-! ## The loop nest as a recursion over the remaining loops -/

theorem loops_from_lt (obj : ContractionLoops) (t i : Nat) (h : i < obj.m_num_loops) :
    loops_from obj t i = loop_at obj t i :: loops_from obj t (i + 1) := by
  unfold loops_from
  have e : obj.m_num_loops - i = (obj.m_num_loops - (i + 1)) + 1 := by omega
  rw [e, List.range'_succ, List.map_cons]

theorem loops_from_ge (obj : ContractionLoops) (t i : Nat) (h : obj.m_num_loops ≤ i) :
    loops_from obj t i = [] := by
  unfold loops_from
  have e : obj.m_num_loops - i = 0 := by omega
  rw [e]; rfl

theorem contract_iter_eq_nest_run {σ : Type} (obj : ContractionLoops) (kern : Kernels σ)
    (t : Nat) (n : Nat) :
    ∀ (i : Nat), i + n + 1 = obj.m_num_loops → ∀ (pl pr pa po : Int) (s : σ),
      contract_iter obj kern t i pl pr pa po s = nest_run kern (loops_from obj t i) pl pr pa po s := by
  induction n with
  | zero =>
    intro i hi pl pr pa po s
    have h1 : ¬ (i + 1 < obj.m_num_loops) := by omega
    rw [contract_iter, loops_from_lt obj t i (by omega), loops_from_ge obj t (i + 1) (by omega)]
    simp only [h1, dite_false, nest_run, loop_at]
  | succ n ih =>
    intro i hi pl pr pa po s
    have h1 : i + 1 < obj.m_num_loops := by omega
    rw [contract_iter, loops_from_lt obj t i (by omega)]
    simp only [h1, dite_true, nest_run, loop_at]
    simp only [ih (i + 1) (by omega), loop_at]

theorem foldl_flatMap_eq {α β γ : Type} (f : γ → β → γ) (g : α → List β) (l : List α) :
    ∀ (s : γ), (l.flatMap g).foldl f s = l.foldl (fun acc x => (g x).foldl f acc) s := by
  induction l with
  | nil => intro s; rfl
  | cons x xs ih =>
    intro s
    rw [List.flatMap_cons, List.foldl_append, List.foldl_cons, ih]

theorem nest_run_eq_foldl {σ : Type} (kern : Kernels σ) (ds : List loop_desc) :
    ∀ (pl pr pa po : Int) (s : σ),
      nest_run kern ds pl pr pa po s = (nest_trace ds pl pr pa po).foldl (run_call kern) s := by
  induction ds with
  | nil => intro pl pr pa po s; rfl
  | cons d ds ih =>
    intro pl pr pa po s
    simp only [nest_run, nest_trace, List.foldl_append, foldl_flatMap_eq]
    have hbody : ∀ (acc : σ) (l_it : Int),
        (if d.touch = touch_t.EVERY_ITER then
          kern.kernel_last_touch (pa + l_it * d.stride_out_aux * (if pa ≠ 0 then 1 else 0))
            (po + l_it * d.stride_out)
            (nest_run kern ds (pl + l_it * d.stride_left) (pr + l_it * d.stride_right)
              (pa + l_it * d.stride_out_aux * (if pa ≠ 0 then 1 else 0))
              (po + l_it * d.stride_out)
              (if d.touch = touch_t.EVERY_ITER then
                kern.kernel_first_touch
                  (pa + l_it * d.stride_out_aux * (if pa ≠ 0 then 1 else 0))
                  (po + l_it * d.stride_out) acc
              else acc))
        else
          nest_run kern ds (pl + l_it * d.stride_left) (pr + l_it * d.stride_right)
              (pa + l_it * d.stride_out_aux * (if pa ≠ 0 then 1 else 0))
              (po + l_it * d.stride_out)
              (if d.touch = touch_t.EVERY_ITER then
                kern.kernel_first_touch
                  (pa + l_it * d.stride_out_aux * (if pa ≠ 0 then 1 else 0))
                  (po + l_it * d.stride_out) acc
              else acc))
        = List.foldl (run_call kern)
            (List.foldl (run_call kern)
              (List.foldl (run_call kern) acc
                (if d.touch = touch_t.EVERY_ITER then
                  [kernel_call.first_touch
                    (pa + l_it * d.stride_out_aux * (if pa ≠ 0 then 1 else 0))
                    (po + l_it * d.stride_out)] else []))
              (nest_trace ds (pl + l_it * d.stride_left) (pr + l_it * d.stride_right)
                (pa + l_it * d.stride_out_aux * (if pa ≠ 0 then 1 else 0))
                (po + l_it * d.stride_out)))
            (if d.touch = touch_t.EVERY_ITER then
              [kernel_call.last_touch
                (pa + l_it * d.stride_out_aux * (if pa ≠ 0 then 1 else 0))
                (po + l_it * d.stride_out)] else []) := by
      intro acc l_it
      rw [ih]
      by_cases he : d.touch = touch_t.EVERY_ITER
      · simp only [he, if_true, List.foldl_cons, List.foldl_nil, run_call]
      · simp only [he, if_false, List.foldl_nil]
    simp only [hbody]
    by_cases hb : d.touch = touch_t.BEFORE_AFTER_ITER
    · simp only [hb, if_true, List.foldl_cons, List.foldl_nil, run_call]
    · simp only [hb, if_false, List.foldl_nil]

theorem foldl_run_call_trace (l : List kernel_call) :
    ∀ (tr : List kernel_call), l.foldl (run_call trace_kernels) tr = tr ++ l := by
  induction l with
  | nil => intro tr; simp
  | cons c cs ih =>
    intro tr
    rw [List.foldl_cons, ih]
    cases c <;> simp [run_call, trace_kernels]

/-- The calls of `contract_iter` from loop `i` on are the calls of the nest over the loops
`i, ..., m_num_loops - 1`. -/
theorem call_trace_eq_nest_trace (obj : ContractionLoops) (t i : Nat) (h : i < obj.m_num_loops)
    (pl pr pa po : Int) :
    call_trace obj t i pl pr pa po = nest_trace (loops_from obj t i) pl pr pa po := by
  unfold call_trace
  rw [contract_iter_eq_nest_run obj trace_kernels t (obj.m_num_loops - i - 1) i (by omega),
    nest_run_eq_foldl, foldl_run_call_trace, List.nil_append]

/-- Running `contract_iter` with any kernels is running the recorded calls in order. -/
theorem contract_iter_eq_foldl {σ : Type} (obj : ContractionLoops) (kern : Kernels σ)
    (t i : Nat) (h : i < obj.m_num_loops) (pl pr pa po : Int) (s : σ) :
    contract_iter obj kern t i pl pr pa po s
      = (call_trace obj t i pl pr pa po).foldl (run_call kern) s := by
  rw [call_trace_eq_nest_trace obj t i h,
    contract_iter_eq_nest_run obj kern t (obj.m_num_loops - i - 1) i (by omega),
    nest_run_eq_foldl]

/-! ## Index tuples and offsets -/

theorem mem_for_range (f sz it : Int) : it ∈ for_range f sz ↔ f ≤ it ∧ it < f + sz := by
  unfold for_range
  simp only [List.mem_map, List.mem_range]
  constructor
  · rintro ⟨j, hj, rfl⟩
    omega
  · intro h
    exact ⟨(it - f).toNat, by omega, by omega⟩

theorem pairwise_lt_for_range (f sz : Int) : (for_range f sz).Pairwise (fun a b => a < b) := by
  unfold for_range
  rw [List.pairwise_map]
  exact (List.pairwise_lt_range _).imp (by intro a b h; omega)

theorem nodup_for_range (f sz : Int) : (for_range f sz).Nodup :=
  (pairwise_lt_for_range f sz).imp (by intro a b h; omega)

/-- The tuples of `box` are exactly the tuples with one index per range, each inside its
range. -/
theorem mem_box (rs : List (Int × Int)) :
    ∀ (t : List Int),
      t ∈ box rs ↔ List.Forall₂ (fun (it : Int) (r : Int × Int) => r.1 ≤ it ∧ it < r.1 + r.2) t rs := by
  induction rs with
  | nil =>
    intro t
    simp [box]
  | cons r rs ih =>
    intro t
    simp only [box, List.mem_flatMap, List.mem_map, mem_for_range]
    constructor
    · rintro ⟨it, hit, t1, ht1, rfl⟩
      exact List.Forall₂.cons hit ((ih t1).1 ht1)
    · intro h
      cases h with
      | cons hit hrest => exact ⟨_, hit, _, (ih _).2 hrest, rfl⟩

theorem length_of_mem_box (rs : List (Int × Int)) (t : List Int) (h : t ∈ box rs) :
    t.length = rs.length :=
  ((mem_box rs t).1 h).length_eq

/-- The tuples of `box` are listed in strictly increasing lexicographic order. -/
theorem box_pairwise_lex (rs : List (Int × Int)) :
    (box rs).Pairwise (List.Lex (fun (a b : Int) => a < b)) := by
  induction rs with
  | nil => simp [box]
  | cons r rs ih =>
    simp only [box]
    rw [List.pairwise_flatMap]
    refine ⟨?_, ?_⟩
    · intro it _
      rw [List.pairwise_map]
      exact ih.imp (fun h => List.Lex.cons h)
    · refine (pairwise_lt_for_range r.1 r.2).imp ?_
      intro a b hab x hx y hy
      rw [List.mem_map] at hx hy
      obtain ⟨x1, _, rfl⟩ := hx
      obtain ⟨y1, _, rfl⟩ := hy
      exact List.Lex.rel hab

theorem box_nodup (rs : List (Int × Int)) : (box rs).Nodup := by
  refine (box_pairwise_lex rs).imp ?_
  intro a b h hab
  subst hab
  exact (List.Lex.isAsymm.aux (fun (a b : Int) => a < b) a a h) h

theorem dot_nil_left (ss : List Int) : dot [] ss = 0 := by
  cases ss <;> rfl

theorem dot_nil_right (t : List Int) : dot t [] = 0 := by
  cases t <;> rfl

theorem dot_cons (it st : Int) (t ss : List Int) : dot (it :: t) (st :: ss) = it * st + dot t ss :=
  rfl

theorem filterMap_main_args_first (c : Prop) [Decidable c] (a o : Int) :
    (if c then [kernel_call.first_touch a o] else []).filterMap main_args = [] := by
  split <;> rfl

theorem filterMap_main_args_last (c : Prop) [Decidable c] (a o : Int) :
    (if c then [kernel_call.last_touch a o] else []).filterMap main_args = [] := by
  split <;> rfl

theorem nest_trace_main_args (ds : List loop_desc) :
    ∀ (pl pr pa po : Int),
      (nest_trace ds pl pr pa po).filterMap main_args
        = (box (ds.map (fun d => (d.first, d.size)))).map (fun t =>
            (pl + dot t (ds.map (fun d => d.stride_left)),
             pr + dot t (ds.map (fun d => d.stride_right)),
             po + dot t (ds.map (fun d => d.stride_out)))) := by
  induction ds with
  | nil => intro pl pr pa po; simp [nest_trace, box, main_args, dot]
  | cons d ds ih =>
    intro pl pr pa po
    simp only [nest_trace, List.filterMap_append, List.filterMap_flatMap,
      filterMap_main_args_first, filterMap_main_args_last, List.nil_append, List.append_nil, ih,
      List.map_cons, box, List.map_flatMap, List.map_map]
    congr 1
    funext it
    apply List.map_congr_left
    intro t _
    simp only [Function.comp, dot_cons, add_assoc]

/-- The stages of a `compile` call that returns `SUCCESS`. -/
theorem compile_success_stages (obj obj' : ContractionLoops)
    (h : compile obj = some (err_t.SUCCESS, obj')) :
    ∃ (o1 : ContractionLoops) (st : compile_locals × ContractionLoops),
      ¬ ((set_cpx_outer_c obj).m_cpx_outer_c = true ∧ obj.m_dim_ids_c.length = 0)
      ∧ cpx_size_invalid (set_cpx_outer_c obj) = some false
      ∧ derive_cpx_strides (set_cpx_outer_c obj) = some o1
      ∧ compile_add_dims (loop_dims o1 (loop_dim_ids_c o1)) (clear_loops o1).m_num_loops
          (num_dim_cbm o1) (⟨0, 0, 0, false⟩, clear_loops o1) = some st
      ∧ compile_iter_spaces (scale_loop_strides (set_packing_loops (add_dummy_loop st.2)))
          = (err_t.SUCCESS, obj') := by
  unfold compile at h
  by_cases h0 : (set_cpx_outer_c obj).m_cpx_outer_c = true ∧ (set_cpx_outer_c obj).m_dim_ids_c.length = 0
  · simp only [h0, and_self, if_true] at h
    cases h
  · simp only [h0, if_false] at h
    cases hinv : cpx_size_invalid (set_cpx_outer_c obj) with
    | none => simp [hinv] at h
    | some b =>
      cases b with
      | true => simp [hinv] at h
      | false =>
        cases hd : derive_cpx_strides (set_cpx_outer_c obj) with
        | none => simp [hinv, hd] at h
        | some o1 =>
          cases hf : compile_add_dims (loop_dims o1 (loop_dim_ids_c o1)) (clear_loops o1).m_num_loops
              (num_dim_cbm o1) (⟨0, 0, 0, false⟩, clear_loops o1) with
          | none => simp [hinv, hd, hf] at h
          | some st =>
            simp only [hinv, hd, hf, Option.bind_eq_bind, Option.some_bind, Bool.false_eq_true,
              if_false, Option.some.injEq] at h
            exact ⟨o1, st, h0, rfl, rfl, hf, h⟩

theorem compile_add_dim_spec (cbm : Nat) (lv : compile_locals) (o : ContractionLoops) (d : Int)
    (tys : List dim_t)
    (st : compile_locals × ContractionLoops) (h : compile_add_dim cbm (lv, o) d = some st) :
    (o.m_dim_type.lookup d).isSome = true ∧ (o.m_sizes.lookup d).isSome = true
    ∧ ∃ (sk : Int) (ck cc : Nat) (fd : Bool) (mk : touch_t),
        marks cbm o.m_dim_ids_k.length lv.l_count_cbm lv.l_count_k
            lv.l_found_first_last_touch_loop (dim_type_of o d :: tys)
          = mk :: marks cbm o.m_dim_ids_k.length cc ck fd tys
        ∧ st.1.l_count_cbm = cc ∧ st.1.l_count_k = ck ∧ st.1.l_found_first_last_touch_loop = fd
        ∧ st.2 = { o with
            m_loop_first_last_touch := o.m_loop_first_last_touch ++ [mk]
            m_loop_sum_k_sizes := sk
            m_loop_dim_type := o.m_loop_dim_type ++ [dim_type_of o d]
            m_loop_sizes := o.m_loop_sizes ++ [dim_size_of o d]
            m_loop_strides_left := o.m_loop_strides_left ++ [find_stride o.m_strides_left d]
            m_loop_strides_right := o.m_loop_strides_right ++ [find_stride o.m_strides_right d]
            m_loop_strides_out_aux :=
              o.m_loop_strides_out_aux ++ [find_stride o.m_strides_out_aux d]
            m_loop_strides_out := o.m_loop_strides_out ++ [find_stride o.m_strides_out d] } := by
  unfold compile_add_dim at h
  cases hty : o.m_dim_type.lookup d with
  | none => simp [hty] at h
  | some ty =>
    cases hsz : o.m_sizes.lookup d with
    | none => simp [hty, hsz] at h
    | some sz =>
      simp only [hty, hsz, Option.bind_eq_bind, Option.some_bind, Option.pure_def,
        Option.some.injEq] at h
      subst h
      refine ⟨rfl, rfl, ?_⟩
      simp only [dim_type_of, dim_size_of, hty, hsz, Option.getD_some, marks]
      by_cases hk : ty = dim_t.K
      · by_cases hc : lv.l_count_cbm = cbm ∧ lv.l_found_first_last_touch_loop = false
        · exact ⟨_, _, _, _, _, by simp only [hk, hc, and_self, if_true]; rfl, rfl, rfl, rfl,
            by simp only [hk, hc, and_self, if_true]; rfl⟩
        · exact ⟨_, _, _, _, _, by simp only [hk, hc, if_true, if_false]; rfl, rfl, rfl, rfl,
            by simp only [hk, hc, if_true, if_false]; rfl⟩
      · by_cases hc : lv.l_count_cbm + 1 = cbm ∧ lv.l_count_k = o.m_dim_ids_k.length
        · exact ⟨_, _, _, _, _, by simp only [hk, hc, and_self, if_true, if_false]; rfl, rfl, rfl,
            rfl, by simp only [hk, hc, and_self, if_true, if_false]; rfl⟩
        · exact ⟨_, _, _, _, _, by simp only [hk, hc, if_false]; rfl, rfl, rfl, rfl,
            by simp only [hk, hc, if_false]; rfl⟩

theorem foldlM_add_dim_spec (cbm : Nat) (ds : List Int) :
    ∀ (lv : compile_locals) (o : ContractionLoops) (st : compile_locals × ContractionLoops),
      ds.foldlM (compile_add_dim cbm) (lv, o) = some st →
      (∀ d ∈ ds, (o.m_dim_type.lookup d).isSome = true ∧ (o.m_sizes.lookup d).isSome = true)
      ∧ ∃ (sk : Int),
        st.2 = { o with
          m_loop_first_last_touch := o.m_loop_first_last_touch
            ++ marks cbm o.m_dim_ids_k.length lv.l_count_cbm lv.l_count_k
                lv.l_found_first_last_touch_loop (ds.map (dim_type_of o))
          m_loop_sum_k_sizes := sk
          m_loop_dim_type := o.m_loop_dim_type ++ ds.map (dim_type_of o)
          m_loop_sizes := o.m_loop_sizes ++ ds.map (dim_size_of o)
          m_loop_strides_left := o.m_loop_strides_left ++ ds.map (find_stride o.m_strides_left)
          m_loop_strides_right := o.m_loop_strides_right ++ ds.map (find_stride o.m_strides_right)
          m_loop_strides_out_aux :=
            o.m_loop_strides_out_aux ++ ds.map (find_stride o.m_strides_out_aux)
          m_loop_strides_out := o.m_loop_strides_out ++ ds.map (find_stride o.m_strides_out) } := by
  induction ds with
  | nil =>
    intro lv o st h
    simp only [List.foldlM_nil, Option.pure_def, Option.some.injEq] at h
    subst h
    refine ⟨by simp, o.m_loop_sum_k_sizes, ?_⟩
    simp [marks]
  | cons d ds ih =>
    intro lv o st h
    rw [List.foldlM_cons] at h
    cases h1 : compile_add_dim cbm (lv, o) d with
    | none => simp [h1] at h
    | some st1 =>
      simp only [h1, Option.bind_eq_bind, Option.some_bind] at h
      obtain ⟨hty, hsz, sk1, ck, cc, fd, mk, hmk, hcc, hck, hfd, hst1⟩ :=
        compile_add_dim_spec cbm lv o d (ds.map (dim_type_of o)) st1 h1
      obtain ⟨hall, sk, hst⟩ := ih st1.1 st1.2 st h
      have hty1 : dim_type_of st1.2 = dim_type_of o := by
        funext x; simp only [dim_type_of, hst1]
      have hsz1 : dim_size_of st1.2 = dim_size_of o := by
        funext x; simp only [dim_size_of, hst1]
      refine ⟨?_, sk, ?_⟩
      · intro x hx
        rcases List.mem_cons.1 hx with rfl | hx
        · exact ⟨hty, hsz⟩
        · have := hall x hx
          rw [hst1] at this
          exact this
      · rw [hst, hty1, hsz1, hcc, hck, hfd]
        rw [List.map_cons, hmk]
        rw [hst1]
        simp

theorem compile_add_dims_succ (dims : List Int) (n cbm : Nat)
    (st : compile_locals × ContractionLoops) :
    compile_add_dims dims (n + 1) cbm st
      = (compile_add_dims dims n cbm st).bind (fun st1 =>
          (dims[n]?).bind (fun d => compile_add_dim cbm st1 d)) := by
  unfold compile_add_dims
  rw [List.range_succ, List.foldlM_append]
  simp only [List.foldlM_cons, List.foldlM_nil, Option.bind_eq_bind, Option.pure_def]
  congr 1
  funext st1
  cases dims[n]? <;> simp

/-- The loop of `compile` over the indices `0, ..., n - 1` succeeds only if it stays inside
`l_loop_dims`, and then it is the iteration over the first `n` loop dimensions. -/
theorem compile_add_dims_eq_some (dims : List Int) (cbm : Nat)
    (st0 : compile_locals × ContractionLoops) (n : Nat) :
    ∀ (st : compile_locals × ContractionLoops),
      compile_add_dims dims n cbm st0 = some st →
      n ≤ dims.length ∧ (dims.take n).foldlM (compile_add_dim cbm) st0 = some st := by
  induction n with
  | zero =>
    intro st h
    simpa [compile_add_dims] using h
  | succ n ih =>
    intro st h
    rw [compile_add_dims_succ] at h
    cases h1 : compile_add_dims dims n cbm st0 with
    | none => simp [h1] at h
    | some st1 =>
      obtain ⟨hn, hf⟩ := ih st1 h1
      cases h2 : dims[n]? with
      | none => simp [h1, h2] at h
      | some d =>
        simp only [h1, h2, Option.some_bind] at h
        have hlt : n < dims.length := by
          rcases List.getElem?_eq_some_iff.1 h2 with ⟨hlt, _⟩
          exact hlt
        refine ⟨hlt, ?_⟩
        rw [List.take_succ, h2, List.foldlM_append, hf]
        simpa using h

theorem compile_add_dims_of_le (dims : List Int) (cbm : Nat)
    (st0 : compile_locals × ContractionLoops) (n : Nat) (hn : n ≤ dims.length) :
    compile_add_dims dims n cbm st0 = (dims.take n).foldlM (compile_add_dim cbm) st0 := by
  induction n with
  | zero => simp [compile_add_dims]
  | succ n ih =>
    have hlt : n < dims.length := hn
    rw [compile_add_dims_succ, ih (by omega), List.take_succ, List.getElem?_eq_getElem hlt,
      List.foldlM_append]
    simp

theorem foldlM_add_dim_isSome (cbm : Nat) (ds : List Int) :
    ∀ (lv : compile_locals) (o : ContractionLoops),
      (∀ d ∈ ds, (o.m_dim_type.lookup d).isSome = true ∧ (o.m_sizes.lookup d).isSome = true) →
      ∃ st, ds.foldlM (compile_add_dim cbm) (lv, o) = some st := by
  induction ds with
  | nil => intro lv o _; exact ⟨(lv, o), rfl⟩
  | cons d ds ih =>
    intro lv o hall
    obtain ⟨hty, hsz⟩ := hall d (List.mem_cons_self _ _)
    obtain ⟨ty, hty⟩ := Option.isSome_iff_exists.1 hty
    obtain ⟨sz, hsz⟩ := Option.isSome_iff_exists.1 hsz
    have h1 : ∃ st1, compile_add_dim cbm (lv, o) d = some st1 := by
      unfold compile_add_dim
      simp only [hty, hsz, Option.bind_eq_bind, Option.some_bind, Option.pure_def]
      exact ⟨_, rfl⟩
    obtain ⟨st1, h1⟩ := h1
    obtain ⟨_, _, sk1, ck, cc, fd, mk, _, _, _, _, hst1⟩ :=
      compile_add_dim_spec cbm lv o d [] st1 h1
    have hall1 : ∀ x ∈ ds, (st1.2.m_dim_type.lookup x).isSome = true
        ∧ (st1.2.m_sizes.lookup x).isSome = true := by
      intro x hx
      rw [hst1]
      exact hall x (List.mem_cons_of_mem _ hx)
    obtain ⟨st, hst⟩ := ih st1.1 st1.2 hall1
    exact ⟨st, by rw [List.foldlM_cons, h1]; exact hst⟩

theorem derive_cpx_strides_spec (o o1 : ContractionLoops) (h : derive_cpx_strides o = some o1) :
    ∃ (a b c d : Int), o1 = { o with
      m_cpx_stride_in_left_bytes := a
      m_cpx_stride_in_right_bytes := b
      m_cpx_stride_out_aux_bytes := c
      m_cpx_stride_out_bytes := d } := by
  unfold derive_cpx_strides at h
  by_cases hc : o.m_cpx_outer_c = true
  · rw [if_pos hc] at h
    generalize o.m_dim_ids_c.getD 0 0 = c0 at h
    dsimp only at h
    cases h1 : o.m_strides_left.lookup c0 with
    | none => rw [h1] at h; cases h
    | some a =>
      cases h2 : o.m_strides_right.lookup c0 with
      | none => rw [h1, h2] at h; cases h
      | some b =>
        cases h3 : o.m_strides_out_aux.lookup c0 with
        | none => rw [h1, h2, h3] at h; cases h
        | some c =>
          cases h4 : o.m_strides_out.lookup c0 with
          | none => rw [h1, h2, h3, h4] at h; cases h
          | some d =>
            rw [h1, h2, h3, h4] at h
            simp only [Option.bind_eq_bind, Option.some_bind, Option.pure_def,
              Option.some.injEq] at h
            exact ⟨_, _, _, _, h.symm⟩
  · rw [if_neg hc] at h
    simp only [Option.pure_def, Option.some.injEq] at h
    exact ⟨_, _, _, _, h.symm⟩

theorem threading_eq (o : ContractionLoops) (T : Int) :
    o.threading T = (err_t.SUCCESS, { o with
      m_num_tasks := (IterationSpaces.compile (IterationSpaces.init o.m_num_loops
        (if o.m_cpx_outer_c then
          o.m_dim_ids_c.length + o.m_dim_ids_m.length + o.m_dim_ids_n.length - 1
        else o.m_dim_ids_c.length + o.m_dim_ids_m.length + o.m_dim_ids_n.length)
        o.m_loop_sizes T)).2.m_num_tasks
      m_iter_spaces := (IterationSpaces.compile (IterationSpaces.init o.m_num_loops
        (if o.m_cpx_outer_c then
          o.m_dim_ids_c.length + o.m_dim_ids_m.length + o.m_dim_ids_n.length - 1
        else o.m_dim_ids_c.length + o.m_dim_ids_m.length + o.m_dim_ids_n.length)
        o.m_loop_sizes T)).2 }) := by
  unfold threading
  simp [IterationSpaces.compile, IterationSpaces.num_tasks]

theorem compile_iter_spaces_eq (o : ContractionLoops) :
    compile_iter_spaces o = (err_t.SUCCESS,
      { (o.threading o.m_num_tasks_targeted).2 with m_compiled := true }) := by
  unfold compile_iter_spaces
  rw [threading_eq]
  simp

theorem scale_strides_length (n : Nat) (b : Int) (xs : List Int) (h : xs.length = n) :
    scale_strides n b xs = xs.map (fun s => s * b) := by
  unfold scale_strides
  rw [← h, List.take_length, List.drop_length, List.append_nil]

theorem set_packing_loops_eq (o : ContractionLoops) :
    set_packing_loops o = { o with
      m_id_packing_loop_left :=
        packing_loop_id o.m_num_loops (o.m_packing.map (fun p => p.m_packing_loop_offset_left))
      m_id_packing_loop_right :=
        packing_loop_id o.m_num_loops (o.m_packing.map (fun p => p.m_packing_loop_offset_right)) } := by
  unfold set_packing_loops
  cases o.m_packing <;> rfl

theorem add_dummy_loop_eq (o : ContractionLoops) :
    add_dummy_loop o = { o with
      m_num_loops := if o.m_num_loops = 0 then 1 else o.m_num_loops
      m_loop_dim_type := o.m_loop_dim_type ++ dummy_entry o.m_num_loops dim_t.UNDEFINED_DIM
      m_loop_first_last_touch :=
        o.m_loop_first_last_touch ++ dummy_entry o.m_num_loops touch_t.EVERY_ITER
      m_loop_sizes := o.m_loop_sizes ++ dummy_entry o.m_num_loops 1
      m_loop_strides_left := o.m_loop_strides_left ++ dummy_entry o.m_num_loops 0
      m_loop_strides_right := o.m_loop_strides_right ++ dummy_entry o.m_num_loops 0
      m_loop_strides_out_aux := o.m_loop_strides_out_aux ++ dummy_entry o.m_num_loops 0
      m_loop_strides_out := o.m_loop_strides_out ++ dummy_entry o.m_num_loops 0 } := by
  unfold add_dummy_loop dummy_entry
  by_cases h : o.m_num_loops = 0
  · simp only [h, if_true]
  · simp only [h, if_false, List.append_nil]

theorem dummy_entry_length {α : Type} (n : Nat) (x : α) :
    (dummy_entry n x).length = if n = 0 then 1 else 0 := by
  unfold dummy_entry
  split <;> rfl

theorem scale_strides_dummy (n : Nat) (b : Int) (xs : List Int) (h : xs.length = n) :
    scale_strides (if n = 0 then 1 else n) b (xs ++ dummy_entry n 0)
      = xs.map (fun s => s * b) ++ dummy_entry n 0 := by
  rw [scale_strides_length]
  · unfold dummy_entry
    split <;> simp
  · rw [List.length_append, dummy_entry_length, h]
    split <;> omega

/-- The object left by a `compile` call that returns `SUCCESS`. -/
theorem compile_success_spec (obj obj' : ContractionLoops)
    (h : compile obj = some (err_t.SUCCESS, obj')) :
    ¬ ((set_cpx_outer_c obj).m_cpx_outer_c = true ∧ obj.m_dim_ids_c.length = 0)
    ∧ num_loops_of obj
        ≤ (loop_dims (set_cpx_outer_c obj) (loop_dim_ids_c (set_cpx_outer_c obj))).length
    ∧ (∀ d ∈ nest_dims obj,
        (obj.m_dim_type.lookup d).isSome = true ∧ (obj.m_sizes.lookup d).isSome = true)
    ∧ ∃ (a b c d sk : Int), obj' = { obj with
        m_cpx_outer_c := (set_cpx_outer_c obj).m_cpx_outer_c
        m_cpx_stride_in_left_bytes := a
        m_cpx_stride_in_right_bytes := b
        m_cpx_stride_out_aux_bytes := c
        m_cpx_stride_out_bytes := d
        m_num_loops := if num_loops_of obj = 0 then 1 else num_loops_of obj
        m_loop_first_last_touch :=
          marks (num_dim_cbm (set_cpx_outer_c obj)) obj.m_dim_ids_k.length 0 0 false
            ((nest_dims obj).map (dim_type_of obj))
          ++ dummy_entry (num_loops_of obj) touch_t.EVERY_ITER
        m_loop_dim_type := (nest_dims obj).map (dim_type_of obj)
          ++ dummy_entry (num_loops_of obj) dim_t.UNDEFINED_DIM
        m_loop_sizes := (nest_dims obj).map (dim_size_of obj) ++ dummy_entry (num_loops_of obj) 1
        m_loop_strides_left :=
          (nest_dims obj).map (fun x => find_stride obj.m_strides_left x * obj.m_num_bytes_scalar_left)
          ++ dummy_entry (num_loops_of obj) 0
        m_loop_strides_right :=
          (nest_dims obj).map
            (fun x => find_stride obj.m_strides_right x * obj.m_num_bytes_scalar_right)
          ++ dummy_entry (num_loops_of obj) 0
        m_loop_strides_out_aux :=
          (nest_dims obj).map
            (fun x => find_stride obj.m_strides_out_aux x * obj.m_num_bytes_scalar_out)
          ++ dummy_entry (num_loops_of obj) 0
        m_loop_strides_out :=
          (nest_dims obj).map (fun x => find_stride obj.m_strides_out x * obj.m_num_bytes_scalar_out)
          ++ dummy_entry (num_loops_of obj) 0
        m_loop_sum_k_sizes := sk
        m_id_packing_loop_left :=
          packing_loop_id (if num_loops_of obj = 0 then 1 else num_loops_of obj)
            (obj.m_packing.map (fun p => p.m_packing_loop_offset_left))
        m_id_packing_loop_right :=
          packing_loop_id (if num_loops_of obj = 0 then 1 else num_loops_of obj)
            (obj.m_packing.map (fun p => p.m_packing_loop_offset_right))
        m_num_tasks :=
          (iter_spaces_of obj (if num_loops_of obj = 0 then 1 else num_loops_of obj)
            ((nest_dims obj).map (dim_size_of obj) ++ dummy_entry (num_loops_of obj) 1)).m_num_tasks
        m_iter_spaces :=
          iter_spaces_of obj (if num_loops_of obj = 0 then 1 else num_loops_of obj)
            ((nest_dims obj).map (dim_size_of obj) ++ dummy_entry (num_loops_of obj) 1)
        m_compiled := true } := by
  obtain ⟨o1, st, h0, _, hd, hf, hfin⟩ := compile_success_stages obj obj' h
  obtain ⟨a, b, c, d, ho1⟩ := derive_cpx_strides_spec _ _ hd
  subst ho1
  obtain ⟨hle, hfold⟩ := compile_add_dims_eq_some _ _ _ _ _ hf
  obtain ⟨hall, sk, hst⟩ := foldlM_add_dim_spec _ _ _ _ _ hfold
  refine ⟨h0, hle, hall, a, b, c, d, sk, ?_⟩
  rw [compile_iter_spaces_eq, threading_eq] at hfin
  simp only [Prod.mk.injEq, true_and] at hfin
  rw [← hfin, set_packing_loops_eq, add_dummy_loop_eq, hst]
  have hlen : ∀ (f : Int → Int), ((nest_dims obj).map f).length = num_loops_of obj := by
    intro f
    rw [List.length_map]
    exact List.length_take_of_le hle
  have e1 := scale_strides_dummy (num_loops_of obj) obj.m_num_bytes_scalar_left _
    (hlen (find_stride obj.m_strides_left))
  have e2 := scale_strides_dummy (num_loops_of obj) obj.m_num_bytes_scalar_right _
    (hlen (find_stride obj.m_strides_right))
  have e3 := scale_strides_dummy (num_loops_of obj) obj.m_num_bytes_scalar_out _
    (hlen (find_stride obj.m_strides_out_aux))
  have e4 := scale_strides_dummy (num_loops_of obj) obj.m_num_bytes_scalar_out _
    (hlen (find_stride obj.m_strides_out))
  simp only [List.map_map] at e1 e2 e3 e4
  ext1 <;> first | rfl | exact e1 | exact e2 | exact e3 | exact e4

theorem compile_succeeds (obj : ContractionLoops)
    (hc : (set_cpx_outer_c obj).m_cpx_outer_c = false)
    (hle : num_loops_of obj
        ≤ (loop_dims (set_cpx_outer_c obj) (loop_dim_ids_c (set_cpx_outer_c obj))).length)
    (hall : ∀ d ∈ nest_dims obj,
        (obj.m_dim_type.lookup d).isSome = true ∧ (obj.m_sizes.lookup d).isSome = true) :
    ∃ obj', compile obj = some (err_t.SUCCESS, obj') := by
  have h1 : cpx_size_invalid (set_cpx_outer_c obj) = some false := by
    unfold cpx_size_invalid
    rw [hc]; rfl
  have h2 : ∃ o1, derive_cpx_strides (set_cpx_outer_c obj) = some o1 := by
    unfold derive_cpx_strides
    rw [hc]; exact ⟨_, rfl⟩
  obtain ⟨o1, h2⟩ := h2
  obtain ⟨a, b, c, d, ho1⟩ := derive_cpx_strides_spec _ _ h2
  have h3 : ∃ st, compile_add_dims (loop_dims o1 (loop_dim_ids_c o1)) (clear_loops o1).m_num_loops
      (num_dim_cbm o1) (⟨0, 0, 0, false⟩, clear_loops o1) = some st := by
    subst ho1
    obtain ⟨st, hst⟩ := foldlM_add_dim_isSome (num_dim_cbm (set_cpx_outer_c obj))
      (nest_dims obj) ⟨0, 0, 0, false⟩ (clear_loops { set_cpx_outer_c obj with
        m_cpx_stride_in_left_bytes := a
        m_cpx_stride_in_right_bytes := b
        m_cpx_stride_out_aux_bytes := c
        m_cpx_stride_out_bytes := d }) hall
    exact ⟨st, (compile_add_dims_of_le _ _ _ _ hle).trans hst⟩
  obtain ⟨st, h3⟩ := h3
  refine ⟨{ ((scale_loop_strides (set_packing_loops (add_dummy_loop st.2))).threading
    (scale_loop_strides (set_packing_loops (add_dummy_loop st.2))).m_num_tasks_targeted).2
      with m_compiled := true }, ?_⟩
  unfold compile
  have h0 : ¬ ((set_cpx_outer_c obj).m_cpx_outer_c = true
      ∧ (set_cpx_outer_c obj).m_dim_ids_c.length = 0) := by
    rw [hc]; simp
  simp only [h0, if_false, h1, h2, h3, Option.bind_eq_bind, Option.some_bind,
    Bool.false_eq_true, compile_iter_spaces_eq]

theorem non_packing_dims_nil (xs : List Int) : non_packing_dims [] xs = xs := by
  unfold non_packing_dims
  simp

theorem loop_dims_no_packing (o : ContractionLoops) (hp : o.m_packing = none) (cs : List Int) :
    loop_dims o cs = cs ++ o.m_dim_ids_m ++ o.m_dim_ids_n ++ o.m_dim_ids_k := by
  unfold loop_dims
  rw [hp]
  simp [non_packing_dims_nil]

theorem num_loops_of_eq (obj : ContractionLoops) :
    num_loops_of obj = (loop_dim_ids_c (set_cpx_outer_c obj)).length + obj.m_dim_ids_m.length
      + obj.m_dim_ids_n.length + obj.m_dim_ids_k.length := rfl

/-- Without packing the loops of the nest are the C dimensions that become loops, then the M,
the N and the K dimensions. -/
theorem nest_dims_no_packing (obj : ContractionLoops) (hp : obj.m_packing = none) :
    nest_dims obj = loop_dim_ids_c (set_cpx_outer_c obj) ++ obj.m_dim_ids_m ++ obj.m_dim_ids_n
      ++ obj.m_dim_ids_k := by
  unfold nest_dims
  rw [loop_dims_no_packing (set_cpx_outer_c obj) hp]
  show List.take (num_loops_of obj) (loop_dim_ids_c (set_cpx_outer_c obj) ++ obj.m_dim_ids_m
    ++ obj.m_dim_ids_n ++ obj.m_dim_ids_k) = _
  apply List.take_of_length_le
  rw [num_loops_of_eq]
  simp only [List.length_append]
  exact le_refl _

theorem marks_non_k (cbm numk : Nat) (A : List dim_t) :
    ∀ (j : Nat) (f : Bool) (rest : List dim_t), (∀ ty ∈ A, ty ≠ dim_t.K) →
      (numk ≠ 0 ∨ j + A.length < cbm) →
      marks cbm numk j 0 f (A ++ rest)
        = List.replicate A.length touch_t.NONE ++ marks cbm numk (j + A.length) 0 f rest := by
  induction A with
  | nil => intro j f rest _ _; simp
  | cons ty A ih =>
    intro j f rest hA hc
    have hty : ty ≠ dim_t.K := hA ty (List.mem_cons_self _ _)
    have hcond : ¬ (j + 1 = cbm ∧ 0 = numk) := by
      rintro ⟨h1, h2⟩
      rcases hc with hc | hc
      · exact hc h2.symm
      · simp only [List.length_cons] at hc; omega
    rw [List.cons_append, marks]
    simp only [hty, if_false, hcond]
    rw [ih (j + 1) f rest (fun t ht => hA t (List.mem_cons_of_mem _ ht))
      (by rcases hc with hc | hc
          · exact Or.inl hc
          · right; simp only [List.length_cons] at hc; omega)]
    simp only [List.length_cons, List.replicate_succ, List.cons_append]
    congr 3
    omega

theorem marks_k_found (cbm numk : Nat) (B : List dim_t) :
    ∀ (j ck : Nat), (∀ ty ∈ B, ty = dim_t.K) →
      marks cbm numk j ck true B = List.replicate B.length touch_t.NONE := by
  induction B with
  | nil => intro j ck _; rfl
  | cons ty B ih =>
    intro j ck hB
    have hty : ty = dim_t.K := hB ty (List.mem_cons_self _ _)
    rw [marks]
    simp only [hty, if_true, Bool.true_eq_false, and_false, if_false]
    rw [ih j (ck + 1) (fun t ht => hB t (List.mem_cons_of_mem _ ht))]
    rfl

theorem marks_k_first (cbm numk : Nat) (ty : dim_t) (B : List dim_t) (ck : Nat)
    (hty : ty = dim_t.K) (hB : ∀ t ∈ B, t = dim_t.K) :
    marks cbm numk cbm ck false (ty :: B)
      = touch_t.BEFORE_AFTER_ITER :: List.replicate B.length touch_t.NONE := by
  rw [marks]
  simp only [hty, if_true, and_self]
  rw [marks_k_found cbm numk B cbm (ck + 1) hB]

theorem marks_every (cbm : Nat) (j : Nat) (f : Bool) (ty : dim_t) (hty : ty ≠ dim_t.K)
    (hj : j + 1 = cbm) :
    marks cbm 0 j 0 f [ty] = [touch_t.EVERY_ITER] := by
  rw [marks]
  simp only [hty, if_false, hj, and_self, if_true, marks]

theorem num_dim_cbm_eq (obj : ContractionLoops) :
    num_dim_cbm (set_cpx_outer_c obj) = (non_k_dims obj).length := by
  simp only [num_dim_cbm, non_k_dims, List.length_append]
  rfl

theorem num_loops_of_eq_add (obj : ContractionLoops) :
    num_loops_of obj = (non_k_dims obj).length + obj.m_dim_ids_k.length := by
  rw [num_loops_of_eq]
  simp only [non_k_dims, List.length_append]

theorem nest_dims_eq_append (obj : ContractionLoops) (hp : obj.m_packing = none) :
    nest_dims obj = non_k_dims obj ++ obj.m_dim_ids_k := by
  rw [nest_dims_no_packing obj hp]
  rfl

theorem loop_dim_ids_c_subset (obj : ContractionLoops) (d : Int)
    (h : d ∈ loop_dim_ids_c (set_cpx_outer_c obj)) : d ∈ obj.m_dim_ids_c := by
  unfold loop_dim_ids_c at h
  split at h
  · exact List.mem_of_mem_drop h
  · exact h

theorem type_non_k_dims (obj : ContractionLoops) (ha : types_agree obj) (d : Int)
    (h : d ∈ non_k_dims obj) : dim_type_of obj d ≠ dim_t.K := by
  unfold non_k_dims at h
  unfold dim_type_of
  rcases List.mem_append.1 h with h | h
  · rcases List.mem_append.1 h with h | h
    · rw [ha.1 d (loop_dim_ids_c_subset obj d h)]; simp
    · rw [ha.2.1 d h]; simp
  · rw [ha.2.2.1 d h]; simp

theorem type_k_dims (obj : ContractionLoops) (ha : types_agree obj) (d : Int)
    (h : d ∈ obj.m_dim_ids_k) : dim_type_of obj d = dim_t.K := by
  unfold dim_type_of
  rw [ha.2.2.2 d h]; rfl

/-- The markers of a nest compiled without packing from a configuration whose type map agrees
with the id lists. -/
theorem markers_no_packing (obj : ContractionLoops) (hp : obj.m_packing = none)
    (ha : types_agree obj) :
    marks (num_dim_cbm (set_cpx_outer_c obj)) obj.m_dim_ids_k.length 0 0 false
        ((nest_dims obj).map (dim_type_of obj))
      ++ dummy_entry (num_loops_of obj) touch_t.EVERY_ITER
    = if obj.m_dim_ids_k = [] then
        List.replicate ((non_k_dims obj).length - 1) touch_t.NONE ++ [touch_t.EVERY_ITER]
      else
        List.replicate (non_k_dims obj).length touch_t.NONE
          ++ touch_t.BEFORE_AFTER_ITER :: List.replicate (obj.m_dim_ids_k.length - 1) touch_t.NONE := by
  rw [nest_dims_eq_append obj hp, num_dim_cbm_eq, num_loops_of_eq_add, List.map_append]
  have hA : ∀ ty ∈ (non_k_dims obj).map (dim_type_of obj), ty ≠ dim_t.K := by
    intro ty hty
    obtain ⟨d, hd, rfl⟩ := List.mem_map.1 hty
    exact type_non_k_dims obj ha d hd
  have hB : ∀ ty ∈ obj.m_dim_ids_k.map (dim_type_of obj), ty = dim_t.K := by
    intro ty hty
    obtain ⟨d, hd, rfl⟩ := List.mem_map.1 hty
    exact type_k_dims obj ha d hd
  cases hk : obj.m_dim_ids_k with
  | nil =>
    simp only [List.map_nil, List.append_nil, List.length_nil, Nat.add_zero, if_true]
    rcases List.eq_nil_or_concat (non_k_dims obj) with hn | ⟨A, x, hn⟩
    · rw [hn]
      rfl
    · rw [hn, List.concat_eq_append] at hA ⊢
      simp only [List.map_append, List.map_cons, List.map_nil] at hA ⊢
      rw [marks_non_k _ 0 (A.map (dim_type_of obj)) 0 false [dim_type_of obj x]
          (fun ty hty => hA ty (List.mem_append_left _ hty))
          (Or.inr (by simp))]
      rw [marks_every _ _ _ _ (hA _ (by simp)) (by simp)]
      simp [dummy_entry]
  | cons k0 ks =>
    rw [hk] at hB
    simp only [List.map_cons] at hB ⊢
    rw [marks_non_k _ _ ((non_k_dims obj).map (dim_type_of obj)) 0 false _ hA
        (Or.inl (by simp))]
    simp only [List.length_map, Nat.zero_add]
    rw [marks_k_first _ _ _ _ 0 (hB _ (List.mem_cons_self _ _))
        (fun t ht => hB t (List.mem_cons_of_mem _ ht))]
    simp [dummy_entry]

/-! ## The calls of a nest with the markers placed by `compile` -/

theorem box_append (rs1 rs2 : List (Int × Int)) :
    box (rs1 ++ rs2) = (box rs1).flatMap (fun t => (box rs2).map (fun u => t ++ u)) := by
  induction rs1 with
  | nil => simp [box]
  | cons r rs1 ih =>
    rw [List.cons_append]
    simp only [box]
    rw [ih]
    simp only [List.flatMap_assoc, List.map_flatMap, List.flatMap_map, List.map_map]
    rfl

theorem dot_append (t1 s1 : List Int) (h : t1.length = s1.length) (t2 s2 : List Int) :
    dot (t1 ++ t2) (s1 ++ s2) = dot t1 s1 + dot t2 s2 := by
  induction t1 generalizing s1 with
  | nil =>
    cases s1 with
    | nil => simp [dot]
    | cons _ _ => simp at h
  | cons it t1 ih =>
    cases s1 with
    | nil => simp at h
    | cons st s1 =>
      simp only [List.cons_append, dot_cons]
      rw [ih s1 (by simpa using h)]
      ring

theorem aux_ptr_append (t1 s1 : List Int) (h : t1.length = s1.length) (t2 s2 : List Int) :
    ∀ (pa : Int), aux_ptr pa (t1 ++ t2) (s1 ++ s2) = aux_ptr (aux_ptr pa t1 s1) t2 s2 := by
  induction t1 generalizing s1 with
  | nil =>
    cases s1 with
    | nil => intro pa; simp [aux_ptr]
    | cons _ _ => simp at h
  | cons it t1 ih =>
    cases s1 with
    | nil => simp at h
    | cons st s1 =>
      intro pa
      simp only [List.cons_append, aux_ptr]
      exact ih s1 (by simpa using h) _

/-- Loops without marker only advance the pointers: the calls of the nest are the calls of the
inner loops for every index tuple of the outer loops, in order. -/
theorem nest_trace_none_append (ds1 ds2 : List loop_desc)
    (h1 : ∀ d ∈ ds1, d.touch = touch_t.NONE) :
    ∀ (pl pr pa po : Int),
      nest_trace (ds1 ++ ds2) pl pr pa po
        = (box (ds1.map (fun d => (d.first, d.size)))).flatMap (fun t =>
            nest_trace ds2 (pl + dot t (ds1.map (fun d => d.stride_left)))
              (pr + dot t (ds1.map (fun d => d.stride_right)))
              (aux_ptr pa t (ds1.map (fun d => d.stride_out_aux)))
              (po + dot t (ds1.map (fun d => d.stride_out)))) := by
  induction ds1 with
  | nil => intro pl pr pa po; simp [box, dot, aux_ptr]
  | cons d ds1 ih =>
    intro pl pr pa po
    have hd : d.touch = touch_t.NONE := h1 d (List.mem_cons_self _ _)
    have ih1 := ih (fun x hx => h1 x (List.mem_cons_of_mem _ hx))
    rw [List.cons_append]
    simp only [nest_trace, hd, reduceCtorEq, if_false, List.nil_append, List.append_nil]
    simp only [ih1, List.map_cons, box, List.flatMap_assoc, List.flatMap_map, dot_cons, aux_ptr,
      add_assoc]

theorem nest_trace_none (ds : List loop_desc) (h : ∀ d ∈ ds, d.touch = touch_t.NONE)
    (pl pr pa po : Int) :
    nest_trace ds pl pr pa po
      = (box (ds.map (fun d => (d.first, d.size)))).map (fun t =>
          kernel_call.main (pl + dot t (ds.map (fun d => d.stride_left)))
            (pr + dot t (ds.map (fun d => d.stride_right)))
            (po + dot t (ds.map (fun d => d.stride_out)))) := by
  have := nest_trace_none_append ds [] h pl pr pa po
  rw [List.append_nil] at this
  rw [this]
  simp only [nest_trace]
  exact (List.map_eq_flatMap _ _).symm

/-- A loop marked `BEFORE_AFTER_ITER` whose inner loops have no marker: one first-touch, the
main-kernel calls of all index tuples, one last-touch. -/
theorem nest_trace_before_after (d0 : loop_desc) (ds : List loop_desc)
    (h0 : d0.touch = touch_t.BEFORE_AFTER_ITER) (h : ∀ d ∈ ds, d.touch = touch_t.NONE)
    (pl pr pa po : Int) :
    nest_trace (d0 :: ds) pl pr pa po
      = kernel_call.first_touch pa po
        :: ((box ((d0 :: ds).map (fun d => (d.first, d.size)))).map (fun t =>
            kernel_call.main (pl + dot t ((d0 :: ds).map (fun d => d.stride_left)))
              (pr + dot t ((d0 :: ds).map (fun d => d.stride_right)))
              (po + dot t ((d0 :: ds).map (fun d => d.stride_out))))
          ++ [kernel_call.last_touch pa po]) := by
  simp only [nest_trace, h0, if_true, reduceCtorEq, if_false, List.nil_append, List.append_nil,
    nest_trace_none ds h, List.map_cons, box, List.map_flatMap, List.map_map, dot_cons, add_assoc,
    List.singleton_append, Function.comp_def]
  rfl

/-- An innermost loop marked `EVERY_ITER`: first-touch, main kernel and last-touch in every
iteration. -/
theorem nest_trace_every (d : loop_desc) (hd : d.touch = touch_t.EVERY_ITER)
    (pl pr pa po : Int) :
    nest_trace [d] pl pr pa po
      = (for_range d.first d.size).flatMap (fun l_it =>
          [kernel_call.first_touch (pa + l_it * d.stride_out_aux * (if pa ≠ 0 then 1 else 0))
             (po + l_it * d.stride_out),
           kernel_call.main (pl + l_it * d.stride_left) (pr + l_it * d.stride_right)
             (po + l_it * d.stride_out),
           kernel_call.last_touch (pa + l_it * d.stride_out_aux * (if pa ≠ 0 then 1 else 0))
             (po + l_it * d.stride_out)]) := by
  simp only [nest_trace, hd, if_true, reduceCtorEq, if_false, List.nil_append, List.append_nil,
    List.singleton_append, List.cons_append]

/-- Loops without marker around one loop marked `BEFORE_AFTER_ITER` whose inner loops have no
marker: for every index tuple of the outer loops one first-touch, the main-kernel calls of
the marked loop and its inner loops, one last-touch. -/
theorem nest_trace_outer_before_after (A : List loop_desc) (d0 : loop_desc)
    (B : List loop_desc) (hA : ∀ d ∈ A, d.touch = touch_t.NONE)
    (h0 : d0.touch = touch_t.BEFORE_AFTER_ITER) (hB : ∀ d ∈ B, d.touch = touch_t.NONE)
    (pl pr pa po : Int) :
    nest_trace (A ++ d0 :: B) pl pr pa po
      = (box (A.map (fun d => (d.first, d.size)))).flatMap (fun i =>
          kernel_call.first_touch (aux_ptr pa i (A.map (fun d => d.stride_out_aux)))
            (po + dot i (A.map (fun d => d.stride_out)))
          :: ((box ((d0 :: B).map (fun d => (d.first, d.size)))).map (fun kk =>
              kernel_call.main
                (pl + dot i (A.map (fun d => d.stride_left))
                  + dot kk ((d0 :: B).map (fun d => d.stride_left)))
                (pr + dot i (A.map (fun d => d.stride_right))
                  + dot kk ((d0 :: B).map (fun d => d.stride_right)))
                (po + dot i (A.map (fun d => d.stride_out))
                  + dot kk ((d0 :: B).map (fun d => d.stride_out))))
            ++ [kernel_call.last_touch (aux_ptr pa i (A.map (fun d => d.stride_out_aux)))
                  (po + dot i (A.map (fun d => d.stride_out)))])) := by
  rw [nest_trace_none_append A (d0 :: B) hA]
  apply List.flatMap_congr
  intro i _
  rw [nest_trace_before_after d0 B h0 hB]

/-- Loops without marker around an innermost loop marked `EVERY_ITER`: first-touch, main
kernel and last-touch for every index tuple of all loops. -/
theorem nest_trace_outer_every (A : List loop_desc) (d : loop_desc)
    (hA : ∀ x ∈ A, x.touch = touch_t.NONE) (hd : d.touch = touch_t.EVERY_ITER)
    (pl pr pa po : Int) :
    nest_trace (A ++ [d]) pl pr pa po
      = (box ((A ++ [d]).map (fun d => (d.first, d.size)))).flatMap (fun i =>
          [kernel_call.first_touch (aux_ptr pa i ((A ++ [d]).map (fun d => d.stride_out_aux)))
             (po + dot i ((A ++ [d]).map (fun d => d.stride_out))),
           kernel_call.main (pl + dot i ((A ++ [d]).map (fun d => d.stride_left)))
             (pr + dot i ((A ++ [d]).map (fun d => d.stride_right)))
             (po + dot i ((A ++ [d]).map (fun d => d.stride_out))),
           kernel_call.last_touch (aux_ptr pa i ((A ++ [d]).map (fun d => d.stride_out_aux)))
             (po + dot i ((A ++ [d]).map (fun d => d.stride_out)))]) := by
  rw [nest_trace_none_append A [d] hA]
  simp only [List.map_append, List.map_cons, List.map_nil, box_append, List.flatMap_assoc,
    List.flatMap_map]
  apply List.flatMap_congr
  intro t ht
  have hlen : t.length = A.length := by
    have := length_of_mem_box _ _ ht
    simpa using this
  rw [nest_trace_every d hd]
  simp only [box, List.map_cons, List.map_nil, List.flatMap_assoc, List.flatMap_cons,
    List.flatMap_nil, List.append_nil]
  apply List.flatMap_congr
  intro it _
  rw [dot_append t _ (by simpa using hlen), dot_append t _ (by simpa using hlen),
    dot_append t _ (by simpa using hlen), aux_ptr_append t _ (by simpa using hlen)]
  simp only [dot, aux_ptr, add_zero, add_assoc]

/-! ## The loops of a compiled nest -/

theorem map_range_getD {α : Type} (xs : List α) (d : α) (n : Nat) (h : xs.length = n) :
    (List.range n).map (fun l => xs.getD l d) = xs := by
  apply List.ext_getElem
  · simp [h]
  · intro i h1 h2
    simp [List.getD_eq_getElem?_getD, List.getElem?_eq_getElem h2]

theorem loops_from_zero (obj : ContractionLoops) (t : Nat) :
    loops_from obj t 0 = (List.range obj.m_num_loops).map (loop_at obj t) := by
  unfold loops_from
  rw [List.range_eq_range']
  rfl

theorem loops_from_length (obj : ContractionLoops) (t : Nat) :
    (loops_from obj t 0).length = obj.m_num_loops := by
  rw [loops_from_zero]; simp

theorem loops_from_ranges (obj : ContractionLoops) (t : Nat) :
    (loops_from obj t 0).map (fun d => (d.first, d.size)) = task_ranges obj t := by
  rw [loops_from_zero, List.map_map]
  rfl

theorem loops_from_touch (obj : ContractionLoops) (t : Nat)
    (h : obj.m_loop_first_last_touch.length = obj.m_num_loops) :
    (loops_from obj t 0).map (fun d => d.touch) = obj.m_loop_first_last_touch := by
  rw [loops_from_zero, List.map_map]
  exact map_range_getD _ _ _ h

theorem loops_from_stride_left (obj : ContractionLoops) (t : Nat)
    (h : obj.m_loop_strides_left.length = obj.m_num_loops) :
    (loops_from obj t 0).map (fun d => d.stride_left) = obj.m_loop_strides_left := by
  rw [loops_from_zero, List.map_map]
  exact map_range_getD _ _ _ h

theorem loops_from_stride_right (obj : ContractionLoops) (t : Nat)
    (h : obj.m_loop_strides_right.length = obj.m_num_loops) :
    (loops_from obj t 0).map (fun d => d.stride_right) = obj.m_loop_strides_right := by
  rw [loops_from_zero, List.map_map]
  exact map_range_getD _ _ _ h

theorem loops_from_stride_out_aux (obj : ContractionLoops) (t : Nat)
    (h : obj.m_loop_strides_out_aux.length = obj.m_num_loops) :
    (loops_from obj t 0).map (fun d => d.stride_out_aux) = obj.m_loop_strides_out_aux := by
  rw [loops_from_zero, List.map_map]
  exact map_range_getD _ _ _ h

theorem loops_from_stride_out (obj : ContractionLoops) (t : Nat)
    (h : obj.m_loop_strides_out.length = obj.m_num_loops) :
    (loops_from obj t 0).map (fun d => d.stride_out) = obj.m_loop_strides_out := by
  rw [loops_from_zero, List.map_map]
  exact map_range_getD _ _ _ h

theorem dummy_entry_of_ne {α : Type} (n : Nat) (x : α) (h : n ≠ 0) : dummy_entry n x = [] := by
  unfold dummy_entry
  rw [if_neg h]

/-- The per-loop vectors and the iteration spaces left by a `compile` call that returns
`SUCCESS`. -/
theorem compile_success_fields (obj obj' : ContractionLoops)
    (h : compile obj = some (err_t.SUCCESS, obj')) :
    obj'.m_num_loops = (if num_loops_of obj = 0 then 1 else num_loops_of obj)
    ∧ obj'.m_loop_first_last_touch
        = marks (num_dim_cbm (set_cpx_outer_c obj)) obj.m_dim_ids_k.length 0 0 false
            ((nest_dims obj).map (dim_type_of obj))
          ++ dummy_entry (num_loops_of obj) touch_t.EVERY_ITER
    ∧ obj'.m_loop_dim_type = (nest_dims obj).map (dim_type_of obj)
          ++ dummy_entry (num_loops_of obj) dim_t.UNDEFINED_DIM
    ∧ obj'.m_loop_sizes = (nest_dims obj).map (dim_size_of obj) ++ dummy_entry (num_loops_of obj) 1
    ∧ obj'.m_loop_strides_left
        = byte_strides obj.m_strides_left obj.m_num_bytes_scalar_left (nest_dims obj)
          ++ dummy_entry (num_loops_of obj) 0
    ∧ obj'.m_loop_strides_right
        = byte_strides obj.m_strides_right obj.m_num_bytes_scalar_right (nest_dims obj)
          ++ dummy_entry (num_loops_of obj) 0
    ∧ obj'.m_loop_strides_out_aux
        = byte_strides obj.m_strides_out_aux obj.m_num_bytes_scalar_out (nest_dims obj)
          ++ dummy_entry (num_loops_of obj) 0
    ∧ obj'.m_loop_strides_out
        = byte_strides obj.m_strides_out obj.m_num_bytes_scalar_out (nest_dims obj)
          ++ dummy_entry (num_loops_of obj) 0
    ∧ obj'.m_iter_spaces
        = iter_spaces_of obj (if num_loops_of obj = 0 then 1 else num_loops_of obj)
            ((nest_dims obj).map (dim_size_of obj) ++ dummy_entry (num_loops_of obj) 1)
    ∧ obj'.m_num_tasks
        = (iter_spaces_of obj (if num_loops_of obj = 0 then 1 else num_loops_of obj)
            ((nest_dims obj).map (dim_size_of obj) ++ dummy_entry (num_loops_of obj) 1)).m_num_tasks
    ∧ (nest_dims obj).length = num_loops_of obj := by
  obtain ⟨_, hle, _, a, b, c, d, sk, hobj⟩ := compile_success_spec obj obj' h
  subst hobj
  exact ⟨rfl, rfl, rfl, rfl, rfl, rfl, rfl, rfl, rfl, rfl, List.length_take_of_le hle⟩

/-- A successful `compile` leaves the configuration given to `init` unchanged. -/
theorem compile_packing_eq (obj obj' : ContractionLoops)
    (h : compile obj = some (err_t.SUCCESS, obj')) : obj'.m_packing = obj.m_packing := by
  obtain ⟨_, _, _, a, b, c, d, sk, hobj⟩ := compile_success_spec obj obj' h
  subst hobj
  rfl

theorem num_parallel_used_one (sizes : List Int) (P : Nat) :
    IterationSpaces.num_parallel_used sizes P 1 = 0 := by
  unfold IterationSpaces.num_parallel_used
  rw [List.range_succ_eq_map, List.find?_cons_of_pos]
  simp

/-- For one targeted task the iteration spaces consist of a single task that covers the full
range of every loop. -/
theorem iter_spaces_of_one (obj : ContractionLoops) (hT : obj.m_num_tasks_targeted = 1)
    (L : Nat) (sizes : List Int) (hlen : sizes.length = L) :
    (iter_spaces_of obj L sizes).m_num_tasks = 1
    ∧ (iter_spaces_of obj L sizes).m_firsts = [(List.range L).map (fun _ => 0)]
    ∧ (iter_spaces_of obj L sizes).m_sizes = [sizes] := by
  have hr1 : List.range 1 = [0] := rfl
  have h1 : List.take L sizes = sizes := by rw [← hlen, List.take_length]
  have hf : ∀ (l : Nat), IterationSpaces.first_of sizes 0 0 l = 0 := by
    intro l; simp [IterationSpaces.first_of]
  have hs : ∀ (l : Nat), IterationSpaces.size_of sizes 0 l = sizes.getD l 0 := by
    intro l; simp [IterationSpaces.size_of]
  unfold iter_spaces_of IterationSpaces.compile IterationSpaces.init
  simp only [hT, num_parallel_used_one, List.take_zero, List.prod_nil, h1, Int.toNat_one, hr1,
    List.map_cons, List.map_nil]
  have e1 : List.map (IterationSpaces.first_of sizes 0 0) (List.range L)
      = List.map (fun _ => 0) (List.range L) := List.map_congr_left (fun l _ => hf l)
  have e2 : List.map (IterationSpaces.size_of sizes 0) (List.range L) = sizes :=
    (List.map_congr_left (fun l _ => hs l)).trans (map_range_getD sizes 0 L hlen)
  rw [e1, e2]
  exact ⟨trivial, rfl, rfl⟩

theorem getD_map_range_zero (L l : Nat) :
    ((List.range L).map (fun _ => (0 : Int))).getD l 0 = 0 := by
  rw [List.getD_eq_getElem?_getD]
  by_cases h : l < L
  · rw [List.getElem?_eq_getElem (by simpa using h)]
    simp
  · rw [List.getElem?_eq_none (by simpa using h)]
    rfl

/-- After a successful `compile` with one targeted task (the value set by `init`) there is one
task and its ranges are the full ranges of the loops. -/
theorem compiled_full_task (obj obj' : ContractionLoops)
    (h : compile obj = some (err_t.SUCCESS, obj')) (hT : obj.m_num_tasks_targeted = 1) :
    obj'.m_num_tasks = 1 ∧ task_ranges obj' 0 = obj'.m_loop_sizes.map (fun s => (0, s)) := by
  obtain ⟨hL, _, _, hsz, _, _, _, _, hits, hnt, hlen⟩ := compile_success_fields obj obj' h
  have hlen2 : ((nest_dims obj).map (dim_size_of obj) ++ dummy_entry (num_loops_of obj) 1).length
      = (if num_loops_of obj = 0 then 1 else num_loops_of obj) := by
    rw [List.length_append, List.length_map, dummy_entry_length, hlen]
    split <;> omega
  obtain ⟨h1, h2, h3⟩ := iter_spaces_of_one obj hT _ _ hlen2
  refine ⟨by rw [hnt, h1], ?_⟩
  unfold task_ranges IterationSpaces.firsts IterationSpaces.sizes
  rw [hits, h2, h3, hL, hsz]
  simp only [List.getD_cons_zero, getD_map_range_zero]
  have := map_range_getD ((nest_dims obj).map (dim_size_of obj)
    ++ dummy_entry (num_loops_of obj) 1) 0 _ hlen2
  conv_rhs => rw [← this]
  rw [List.map_map]
  rfl

theorem split_before_after (loops : List loop_desc) (n m : Nat)
    (h : loops.map (fun d => d.touch)
      = List.replicate n touch_t.NONE
        ++ touch_t.BEFORE_AFTER_ITER :: List.replicate m touch_t.NONE) :
    ∃ (A : List loop_desc) (d0 : loop_desc) (B : List loop_desc),
      loops = A ++ d0 :: B ∧ A.length = n ∧ (∀ d ∈ A, d.touch = touch_t.NONE)
      ∧ d0.touch = touch_t.BEFORE_AFTER_ITER ∧ (∀ d ∈ B, d.touch = touch_t.NONE) := by
  obtain ⟨A, B0, hl, hA, hB0⟩ := List.map_eq_append_iff.1 h
  obtain ⟨d0, B, hB0', h0, hB⟩ := List.map_eq_cons_iff.1 hB0
  refine ⟨A, d0, B, by rw [hl, hB0'], ?_, ?_, h0, ?_⟩
  · have := congrArg List.length hA
    simpa using this
  · intro d hd
    have : d.touch ∈ List.replicate n touch_t.NONE := by
      rw [← hA]; exact List.mem_map_of_mem _ hd
    exact (List.mem_replicate.1 this).2
  · intro d hd
    have : d.touch ∈ List.replicate m touch_t.NONE := by
      rw [← hB]; exact List.mem_map_of_mem _ hd
    exact (List.mem_replicate.1 this).2

theorem split_every (loops : List loop_desc) (n : Nat)
    (h : loops.map (fun d => d.touch)
      = List.replicate n touch_t.NONE ++ [touch_t.EVERY_ITER]) :
    ∃ (A : List loop_desc) (d : loop_desc),
      loops = A ++ [d] ∧ (∀ x ∈ A, x.touch = touch_t.NONE) ∧ d.touch = touch_t.EVERY_ITER := by
  obtain ⟨A, B0, hl, hA, hB0⟩ := List.map_eq_append_iff.1 h
  obtain ⟨d0, B, hB0', h0, hB⟩ := List.map_eq_cons_iff.1 hB0
  have hBnil : B = [] := List.map_eq_nil_iff.1 hB
  refine ⟨A, d0, by rw [hl, hB0', hBnil], ?_, h0⟩
  intro d hd
  have : d.touch ∈ List.replicate n touch_t.NONE := by
    rw [← hA]; exact List.mem_map_of_mem _ hd
  exact (List.mem_replicate.1 this).2

theorem map_take_of_append {α β : Type} (g : α → β) (loops A B : List α)
    (h : loops = A ++ B) : A.map g = (loops.map g).take A.length := by
  rw [h, List.map_append, List.take_left' (by simp)]

theorem map_drop_of_append {α β : Type} (g : α → β) (loops A B : List α)
    (h : loops = A ++ B) : B.map g = (loops.map g).drop A.length := by
  rw [h, List.map_append, List.drop_left' (by simp)]

theorem byte_strides_append (s : List (Int × Int)) (b : Int) (xs ys : List Int) :
    byte_strides s b (xs ++ ys) = byte_strides s b xs ++ byte_strides s b ys := by
  simp [byte_strides]

theorem byte_strides_length (s : List (Int × Int)) (b : Int) (xs : List Int) :
    (byte_strides s b xs).length = xs.length := by
  simp [byte_strides]

/-- The per-loop data of a nest compiled without packing that has at least one loop. -/
theorem compiled_loops_no_packing (obj obj' : ContractionLoops) (hp : obj.m_packing = none)
    (ha : types_agree obj) (h : compile obj = some (err_t.SUCCESS, obj'))
    (hne : num_loops_of obj ≠ 0) (t : Nat) :
    0 < obj'.m_num_loops
    ∧ (loops_from obj' t 0).length = (non_k_dims obj).length + obj.m_dim_ids_k.length
    ∧ (loops_from obj' t 0).map (fun d => d.touch)
        = (if obj.m_dim_ids_k = [] then
            List.replicate ((non_k_dims obj).length - 1) touch_t.NONE ++ [touch_t.EVERY_ITER]
          else
            List.replicate (non_k_dims obj).length touch_t.NONE
              ++ touch_t.BEFORE_AFTER_ITER
                :: List.replicate (obj.m_dim_ids_k.length - 1) touch_t.NONE)
    ∧ (loops_from obj' t 0).map (fun d => d.stride_left)
        = byte_strides obj.m_strides_left obj.m_num_bytes_scalar_left (non_k_dims obj)
          ++ byte_strides obj.m_strides_left obj.m_num_bytes_scalar_left obj.m_dim_ids_k
    ∧ (loops_from obj' t 0).map (fun d => d.stride_right)
        = byte_strides obj.m_strides_right obj.m_num_bytes_scalar_right (non_k_dims obj)
          ++ byte_strides obj.m_strides_right obj.m_num_bytes_scalar_right obj.m_dim_ids_k
    ∧ (loops_from obj' t 0).map (fun d => d.stride_out_aux)
        = byte_strides obj.m_strides_out_aux obj.m_num_bytes_scalar_out (non_k_dims obj)
          ++ byte_strides obj.m_strides_out_aux obj.m_num_bytes_scalar_out obj.m_dim_ids_k
    ∧ (loops_from obj' t 0).map (fun d => d.stride_out)
        = byte_strides obj.m_strides_out obj.m_num_bytes_scalar_out (non_k_dims obj)
          ++ byte_strides obj.m_strides_out obj.m_num_bytes_scalar_out obj.m_dim_ids_k := by
  obtain ⟨hL, hmk, _, _, hsl, hsr, hsa, hso, _, _, hlen⟩ := compile_success_fields obj obj' h
  rw [if_neg hne] at hL
  rw [markers_no_packing obj hp ha] at hmk
  rw [dummy_entry_of_ne _ _ hne, List.append_nil, nest_dims_eq_append obj hp,
    byte_strides_append] at hsl hsr hsa hso
  have hLadd := num_loops_of_eq_add obj
  have hlen_mk : obj'.m_loop_first_last_touch.length = obj'.m_num_loops := by
    rw [hmk, hL, hLadd]
    split
    · rename_i hk
      have hk0 : obj.m_dim_ids_k.length = 0 := by rw [hk]; rfl
      simp only [List.length_append, List.length_replicate, List.length_cons, List.length_nil]
      omega
    · rename_i hk
      have : obj.m_dim_ids_k.length ≠ 0 := fun h0 => hk (List.length_eq_zero.1 h0)
      simp only [List.length_append, List.length_replicate, List.length_cons]
      omega
  refine ⟨by omega, by rw [loops_from_length, hL, hLadd], ?_, ?_, ?_, ?_, ?_⟩
  · rw [loops_from_touch obj' t hlen_mk, hmk]
  · rw [loops_from_stride_left obj' t (by
      rw [hsl, hL, hLadd, List.length_append, byte_strides_length, byte_strides_length]), hsl]
  · rw [loops_from_stride_right obj' t (by
      rw [hsr, hL, hLadd, List.length_append, byte_strides_length, byte_strides_length]), hsr]
  · rw [loops_from_stride_out_aux obj' t (by
      rw [hsa, hL, hLadd, List.length_append, byte_strides_length, byte_strides_length]), hsa]
  · rw [loops_from_stride_out obj' t (by
      rw [hso, hL, hLadd, List.length_append, byte_strides_length, byte_strides_length]), hso]

/-- The calls of `contract_iter` on a nest compiled without packing that has at least one
loop, for any task: for every index tuple of the C, M and N loops one first-touch, the
main-kernel calls of all index tuples of the K loops, one last-touch. -/
theorem compiled_trace (obj obj' : ContractionLoops) (hp : obj.m_packing = none)
    (ha : types_agree obj) (h : compile obj = some (err_t.SUCCESS, obj'))
    (hne : num_loops_of obj ≠ 0) (t : Nat) (pl pr pa po : Int) :
    call_trace obj' t 0 pl pr pa po
      = (box ((task_ranges obj' t).take (non_k_dims obj).length)).flatMap (fun i =>
          kernel_call.first_touch
            (aux_ptr pa i
              (byte_strides obj.m_strides_out_aux obj.m_num_bytes_scalar_out (non_k_dims obj)))
            (po + dot i
              (byte_strides obj.m_strides_out obj.m_num_bytes_scalar_out (non_k_dims obj)))
          :: ((box ((task_ranges obj' t).drop (non_k_dims obj).length)).map (fun kk =>
              kernel_call.main
                (pl + dot i
                    (byte_strides obj.m_strides_left obj.m_num_bytes_scalar_left (non_k_dims obj))
                  + dot kk
                    (byte_strides obj.m_strides_left obj.m_num_bytes_scalar_left obj.m_dim_ids_k))
                (pr + dot i
                    (byte_strides obj.m_strides_right obj.m_num_bytes_scalar_right
                      (non_k_dims obj))
                  + dot kk
                    (byte_strides obj.m_strides_right obj.m_num_bytes_scalar_right
                      obj.m_dim_ids_k))
                (po + dot i
                    (byte_strides obj.m_strides_out obj.m_num_bytes_scalar_out (non_k_dims obj))
                  + dot kk
                    (byte_strides obj.m_strides_out obj.m_num_bytes_scalar_out obj.m_dim_ids_k)))
            ++ [kernel_call.last_touch
                  (aux_ptr pa i
                    (byte_strides obj.m_strides_out_aux obj.m_num_bytes_scalar_out
                      (non_k_dims obj)))
                  (po + dot i
                    (byte_strides obj.m_strides_out obj.m_num_bytes_scalar_out
                      (non_k_dims obj)))])) := by
  obtain ⟨hpos, hlen, htouch, hsl, hsr, hsa, hso⟩ :=
    compiled_loops_no_packing obj obj' hp ha h hne t
  have hrg := loops_from_ranges obj' t
  rw [call_trace_eq_nest_trace obj' t 0 hpos]
  by_cases hk : obj.m_dim_ids_k = []
  · rw [if_pos hk] at htouch
    obtain ⟨A, d, hAd, hA, hd⟩ := split_every _ _ htouch
    have hk0 : obj.m_dim_ids_k.length = 0 := by rw [hk]; rfl
    have hlen' : (task_ranges obj' t).length = (non_k_dims obj).length := by
      rw [← hrg, List.length_map, hlen, hk0, Nat.add_zero]
    rw [hAd, nest_trace_outer_every A d hA hd, ← hAd, hrg, hsl, hsr, hsa, hso]
    rw [List.take_of_length_le (le_of_eq hlen'), List.drop_of_length_le (le_of_eq hlen'), hk]
    apply List.flatMap_congr
    intro i _
    simp only [byte_strides, List.map_nil, List.append_nil, box, List.map_cons, dot, add_zero,
      List.singleton_append]
  · rw [if_neg hk] at htouch
    obtain ⟨A, d0, B, hAB, hAlen, hA, h0, hB⟩ := split_before_after _ _ _ htouch
    have e1 : ∀ {β : Type} (g : loop_desc → β),
        A.map g = ((loops_from obj' t 0).map g).take (non_k_dims obj).length := by
      intro β g
      rw [map_take_of_append g _ A (d0 :: B) hAB, hAlen]
    have e2 : ∀ {β : Type} (g : loop_desc → β),
        (d0 :: B).map g = ((loops_from obj' t 0).map g).drop (non_k_dims obj).length := by
      intro β g
      rw [map_drop_of_append g _ A (d0 :: B) hAB, hAlen]
    have tk : ∀ (s : List (Int × Int)) (b : Int),
        (byte_strides s b (non_k_dims obj) ++ byte_strides s b obj.m_dim_ids_k).take
          (non_k_dims obj).length = byte_strides s b (non_k_dims obj) := by
      intro s b
      rw [List.take_left' (byte_strides_length _ _ _)]
    have dk : ∀ (s : List (Int × Int)) (b : Int),
        (byte_strides s b (non_k_dims obj) ++ byte_strides s b obj.m_dim_ids_k).drop
          (non_k_dims obj).length = byte_strides s b obj.m_dim_ids_k := by
      intro s b
      rw [List.drop_left' (byte_strides_length _ _ _)]
    rw [hAB, nest_trace_outer_before_after A d0 B hA h0 hB]
    simp only [e1, e2, hrg, hsl, hsr, hsa, hso, tk, dk]

theorem full_ranges_append (obj : ContractionLoops) (xs ys : List Int) :
    full_ranges obj (xs ++ ys) = full_ranges obj xs ++ full_ranges obj ys := by
  simp [full_ranges]

theorem full_ranges_length (obj : ContractionLoops) (xs : List Int) :
    (full_ranges obj xs).length = xs.length := by
  simp [full_ranges]

/-- The calls of `contract_iter` for the single task of a nest compiled without packing for one
targeted task: for every index tuple of the C, M and N dimensions one first-touch, the
main-kernel calls of all index tuples of the K dimensions, one last-touch. -/
theorem compiled_trace_full (obj obj' : ContractionLoops) (hp : obj.m_packing = none)
    (ha : types_agree obj) (h : compile obj = some (err_t.SUCCESS, obj'))
    (hT : obj.m_num_tasks_targeted = 1) (pl pr pa po : Int) :
    call_trace obj' 0 0 pl pr pa po
      = (box (full_ranges obj (non_k_dims obj))).flatMap (fun i =>
          kernel_call.first_touch
            (aux_ptr pa i
              (byte_strides obj.m_strides_out_aux obj.m_num_bytes_scalar_out (non_k_dims obj)))
            (po + dot i
              (byte_strides obj.m_strides_out obj.m_num_bytes_scalar_out (non_k_dims obj)))
          :: ((box (full_ranges obj obj.m_dim_ids_k)).map (fun kk =>
              kernel_call.main
                (pl + dot i
                    (byte_strides obj.m_strides_left obj.m_num_bytes_scalar_left (non_k_dims obj))
                  + dot kk
                    (byte_strides obj.m_strides_left obj.m_num_bytes_scalar_left obj.m_dim_ids_k))
                (pr + dot i
                    (byte_strides obj.m_strides_right obj.m_num_bytes_scalar_right
                      (non_k_dims obj))
                  + dot kk
                    (byte_strides obj.m_strides_right obj.m_num_bytes_scalar_right
                      obj.m_dim_ids_k))
                (po + dot i
                    (byte_strides obj.m_strides_out obj.m_num_bytes_scalar_out (non_k_dims obj))
                  + dot kk
                    (byte_strides obj.m_strides_out obj.m_num_bytes_scalar_out obj.m_dim_ids_k)))
            ++ [kernel_call.last_touch
                  (aux_ptr pa i
                    (byte_strides obj.m_strides_out_aux obj.m_num_bytes_scalar_out
                      (non_k_dims obj)))
                  (po + dot i
                    (byte_strides obj.m_strides_out obj.m_num_bytes_scalar_out
                      (non_k_dims obj)))])) := by
  obtain ⟨hL, hmk, _, hsz, hsl, hsr, hsa, hso, _, _, hlen⟩ := compile_success_fields obj obj' h
  obtain ⟨_, hfull⟩ := compiled_full_task obj obj' h hT
  by_cases hne : num_loops_of obj = 0
  · have hnd : nest_dims obj = [] := List.length_eq_zero.1 (hlen.trans hne)
    have hadd := num_loops_of_eq_add obj
    have hnk : non_k_dims obj = [] := List.length_eq_zero.1 (by omega)
    have hk : obj.m_dim_ids_k = [] := List.length_eq_zero.1 (by omega)
    rw [if_pos hne] at hL
    rw [hnd, hne] at hmk hsz hsl hsr hsa hso
    have hpos : 0 < obj'.m_num_loops := by omega
    have hr1 : List.range 1 = [0] := rfl
    rw [call_trace_eq_nest_trace obj' 0 0 hpos, loops_from_zero, hL]
    have hd : (loop_at obj' 0 0).touch = touch_t.EVERY_ITER := by
      simp only [loop_at, hmk]; rfl
    have hrange : ((loop_at obj' 0 0).first, (loop_at obj' 0 0).size) = (0, 1) := by
      have := hfull
      unfold task_ranges at this
      rw [hL, hsz, hr1] at this
      simp only [List.map_nil, List.nil_append, dummy_entry, if_true, List.map_cons,
        List.cons.injEq, and_true] at this
      exact this
    have hfirst : (loop_at obj' 0 0).first = 0 := congrArg Prod.fst hrange
    have hsize : (loop_at obj' 0 0).size = 1 := congrArg Prod.snd hrange
    have h1 : (loop_at obj' 0 0).stride_left = 0 := by simp only [loop_at, hsl]; rfl
    have h2 : (loop_at obj' 0 0).stride_right = 0 := by simp only [loop_at, hsr]; rfl
    have h3 : (loop_at obj' 0 0).stride_out_aux = 0 := by simp only [loop_at, hsa]; rfl
    have h4 : (loop_at obj' 0 0).stride_out = 0 := by simp only [loop_at, hso]; rfl
    rw [hr1, List.map_cons, List.map_nil, nest_trace_every _ hd, hfirst, hsize, h1, h2, h3, h4,
      hnk, hk]
    simp [for_range, full_ranges, box, byte_strides, dot, aux_ptr, hr1]
  · rw [compiled_trace obj obj' hp ha h hne 0 pl pr pa po, hfull, hsz,
      dummy_entry_of_ne _ _ hne, List.append_nil, nest_dims_eq_append obj hp]
    have e : List.map (fun s => ((0 : Int), s))
        (List.map (dim_size_of obj) (non_k_dims obj ++ obj.m_dim_ids_k))
        = full_ranges obj (non_k_dims obj) ++ full_ranges obj obj.m_dim_ids_k := by
      simp only [full_ranges, List.map_append, List.map_map]
      rfl
    rw [e, List.take_left' (full_ranges_length _ _), List.drop_left' (full_ranges_length _ _)]

/-! ## Running the calls on a memory of scalars -/

theorem elementwise_of_madd {R : Type} [Ring R] (left right : Int → R) :
    madd_kernels left right = elementwise_kernels left right (fun _ v => v) (fun v => v) := by
  unfold madd_kernels elementwise_kernels
  simp only [Function.update_eq_self]

theorem elementwise_of_zero_madd_relu {R : Type} [LinearOrderedRing R] (left right : Int → R) :
    zero_madd_relu_kernels left right
      = elementwise_kernels left right (fun _ _ => 0) (fun v => max v 0) := rfl

theorem elementwise_of_copy_madd {R : Type} [Ring R] (left right aux : Int → R) :
    copy_madd_kernels left right aux
      = elementwise_kernels left right (fun pa _ => aux pa) (fun v => v) := by
  unfold copy_madd_kernels elementwise_kernels
  simp only [Function.update_eq_self]

theorem elementwise_of_zero_madd {R : Type} [Ring R] (left right : Int → R) :
    zero_madd_kernels left right
      = elementwise_kernels left right (fun _ _ => 0) (fun v => v) := by
  unfold zero_madd_kernels elementwise_kernels
  simp only [Function.update_eq_self]

theorem run_mains {R : Type} [Ring R] (left right : Int → R) (ft : Int → R → R) (lt : R → R)
    (po : Int) (out : Int → R) (ms : List (Int × Int)) :
    ∀ (v : R),
      (ms.map (fun m => kernel_call.main m.1 m.2 po)).foldl
          (run_call (elementwise_kernels left right ft lt)) (Function.update out po v)
        = Function.update out po (v + (ms.map (fun m => left m.1 * right m.2)).sum) := by
  induction ms with
  | nil => intro v; simp
  | cons m ms ih =>
    intro v
    simp only [List.map_cons, List.foldl_cons, run_call, elementwise_kernels,
      Function.update_same, Function.update_idem, List.sum_cons]
    have := ih (v + left m.1 * right m.2)
    simp only [elementwise_kernels] at this
    rw [this, add_assoc]

/-- The calls around one output element replace it by
`lt (ft aux_ptr old_value + sum of left * right)` and change nothing else. -/
theorem run_touch_block {R : Type} [Ring R] (left right : Int → R) (ft : Int → R → R)
    (lt : R → R) (pa po : Int) (ms : List (Int × Int)) (out : Int → R) :
    (touch_block pa po ms).foldl (run_call (elementwise_kernels left right ft lt)) out
      = Function.update out po
          (lt (ft pa (out po) + (ms.map (fun m => left m.1 * right m.2)).sum)) := by
  unfold touch_block
  rw [List.foldl_cons, List.foldl_append]
  have h1 : run_call (elementwise_kernels left right ft lt) out (kernel_call.first_touch pa po)
      = Function.update out po (ft pa (out po)) := rfl
  rw [h1, run_mains]
  simp only [List.foldl_cons, List.foldl_nil, run_call, elementwise_kernels,
    Function.update_same, Function.update_idem]

/-- Blocks of calls on pairwise distinct output elements: every element of a block gets the
value of its block computed from its initial value, every other address keeps its value. -/
theorem run_touch_blocks {R : Type} [Ring R] {ι : Type} (left right : Int → R)
    (ft : Int → R → R) (lt : R → R) (pa po : ι → Int) (ms : ι → List (Int × Int))
    (I : List ι) :
    (I.map po).Nodup → ∀ (out : Int → R),
      (∀ i ∈ I,
        (I.flatMap (fun i => touch_block (pa i) (po i) (ms i))).foldl
            (run_call (elementwise_kernels left right ft lt)) out (po i)
          = lt (ft (pa i) (out (po i)) + ((ms i).map (fun m => left m.1 * right m.2)).sum))
      ∧ (∀ (a : Int), a ∉ I.map po →
        (I.flatMap (fun i => touch_block (pa i) (po i) (ms i))).foldl
            (run_call (elementwise_kernels left right ft lt)) out a = out a) := by
  induction I with
  | nil => intro _ out; simp
  | cons i0 I ih =>
    intro hnd out
    rw [List.map_cons, List.nodup_cons] at hnd
    obtain ⟨hnot, hnd'⟩ := hnd
    simp only [List.flatMap_cons, List.foldl_append, run_touch_block]
    obtain ⟨ih1, ih2⟩ := ih hnd' (Function.update out (po i0)
      (lt (ft (pa i0) (out (po i0)) + ((ms i0).map (fun m => left m.1 * right m.2)).sum)))
    constructor
    · intro i hi
      rcases List.mem_cons.1 hi with rfl | hi
      · rw [ih2 _ hnot, Function.update_same]
      · have hne : po i ≠ po i0 := by
          intro e
          exact hnot (e ▸ List.mem_map_of_mem _ hi)
        rw [ih1 i hi, Function.update_noteq hne]
    · intro a ha
      rw [List.map_cons, List.mem_cons, not_or] at ha
      rw [ih2 a ha.2, Function.update_noteq ha.1]

/-! ## The result of a compiled contraction -/

theorem dot_zeros (t ss : List Int) (h : ∀ s ∈ ss, s = 0) : dot t ss = 0 := by
  induction t generalizing ss with
  | nil => exact dot_nil_left ss
  | cons it t ih =>
    cases ss with
    | nil => rfl
    | cons s ss =>
      rw [dot_cons, h s (List.mem_cons_self _ _), ih ss (fun x hx => h x (List.mem_cons_of_mem _ hx))]
      simp

theorem dot_byte_strides_zero (s : List (Int × Int)) (b : Int) (dims t : List Int)
    (h : ∀ d ∈ dims, find_stride s d = 0) : dot t (byte_strides s b dims) = 0 := by
  apply dot_zeros
  intro x hx
  unfold byte_strides at hx
  obtain ⟨d, hd, rfl⟩ := List.mem_map.1 hx
  rw [h d hd, zero_mul]

theorem compile_succeeds_no_packing (obj : ContractionLoops) (hp : obj.m_packing = none)
    (hc : non_complex obj) (ha : types_agree obj) (hs : sizes_positive obj) :
    ∃ obj', compile obj = some (err_t.SUCCESS, obj') := by
  apply compile_succeeds obj hc
  · rw [loop_dims_no_packing (set_cpx_outer_c obj) hp, num_loops_of_eq]
    simp only [List.length_append]
    exact le_refl _
  · intro d hd
    rw [nest_dims_eq_append obj hp] at hd
    constructor
    · rcases List.mem_append.1 hd with hd | hd
      · unfold non_k_dims at hd
        rcases List.mem_append.1 hd with hd | hd
        · rcases List.mem_append.1 hd with hd | hd
          · rw [ha.1 d (loop_dim_ids_c_subset obj d hd)]; rfl
          · rw [ha.2.1 d hd]; rfl
        · rw [ha.2.2.1 d hd]; rfl
      · rw [ha.2.2.2 d hd]; rfl
    · have := hs d hd
      unfold dim_size_of at this
      cases hl : obj.m_sizes.lookup d with
      | none => rw [hl] at this; simp at this
      | some _ => rfl

theorem contract_one_task {σ : Type} (obj : ContractionLoops) (kern : Kernels σ)
    (pack : PackingKernels σ) (hp : obj.m_packing = none) (h1 : obj.m_num_tasks = 1)
    (pl pr pa po : Int) (s : σ) :
    contract obj kern pack pl pr pa po s = contract_iter obj kern 0 0 pl pr pa po s := by
  unfold contract
  rw [hp, h1]
  rfl

/-- The result of `contract` on a nest compiled without packing for one targeted task, for
elementwise kernels: every output element is replaced by the last-touch of its first-touch
value plus the sum over all K index tuples of `left * right`, every other address keeps its
value. -/
theorem compiled_result {R : Type} [Ring R] (obj : ContractionLoops) (left right : Int → R)
    (ft : Int → R → R) (lt : R → R) (pack : PackingKernels (Int → R)) (pl pr pa po : Int)
    (out : Int → R)
    (hT : obj.m_num_tasks_targeted = 1) (hp : obj.m_packing = none) (hc : non_complex obj)
    (ha : types_agree obj) (hs : sizes_positive obj)
    (hk0 : ∀ d ∈ obj.m_dim_ids_k, find_stride obj.m_strides_out d = 0)
    (hinj : ∀ i ∈ box (full_ranges obj (non_k_dims obj)),
      ∀ j ∈ box (full_ranges obj (non_k_dims obj)),
        dot i (byte_strides obj.m_strides_out obj.m_num_bytes_scalar_out (non_k_dims obj))
          = dot j (byte_strides obj.m_strides_out obj.m_num_bytes_scalar_out (non_k_dims obj)) →
        i = j) :
    ∃ obj', compile obj = some (err_t.SUCCESS, obj')
      ∧ (∀ i ∈ box (full_ranges obj (non_k_dims obj)),
          contract obj' (elementwise_kernels left right ft lt) pack pl pr pa po out
              (po + dot i
                (byte_strides obj.m_strides_out obj.m_num_bytes_scalar_out (non_k_dims obj)))
            = lt (ft
                (aux_ptr pa i
                  (byte_strides obj.m_strides_out_aux obj.m_num_bytes_scalar_out
                    (non_k_dims obj)))
                (out (po + dot i
                  (byte_strides obj.m_strides_out obj.m_num_bytes_scalar_out (non_k_dims obj))))
              + ((box (full_ranges obj obj.m_dim_ids_k)).map (fun kk =>
                  left (pl + dot i
                      (byte_strides obj.m_strides_left obj.m_num_bytes_scalar_left
                        (non_k_dims obj))
                    + dot kk
                      (byte_strides obj.m_strides_left obj.m_num_bytes_scalar_left
                        obj.m_dim_ids_k))
                  * right (pr + dot i
                      (byte_strides obj.m_strides_right obj.m_num_bytes_scalar_right
                        (non_k_dims obj))
                    + dot kk
                      (byte_strides obj.m_strides_right obj.m_num_bytes_scalar_right
                        obj.m_dim_ids_k)))).sum))
      ∧ (∀ (a : Int),
          (∀ i ∈ box (full_ranges obj (non_k_dims obj)),
            a ≠ po + dot i
              (byte_strides obj.m_strides_out obj.m_num_bytes_scalar_out (non_k_dims obj))) →
          contract obj' (elementwise_kernels left right ft lt) pack pl pr pa po out a = out a) := by
  obtain ⟨obj', h⟩ := compile_succeeds_no_packing obj hp hc ha hs
  refine ⟨obj', h, ?_⟩
  obtain ⟨hnt, _⟩ := compiled_full_task obj obj' h hT
  obtain ⟨hL, _⟩ := compile_success_fields obj obj' h
  have hpos : 0 < obj'.m_num_loops := by
    rw [hL]; split <;> omega
  have htrace := compiled_trace_full obj obj' hp ha h hT pl pr pa po
  have hblocks : call_trace obj' 0 0 pl pr pa po
      = (box (full_ranges obj (non_k_dims obj))).flatMap (fun i =>
          touch_block
            (aux_ptr pa i
              (byte_strides obj.m_strides_out_aux obj.m_num_bytes_scalar_out (non_k_dims obj)))
            (po + dot i
              (byte_strides obj.m_strides_out obj.m_num_bytes_scalar_out (non_k_dims obj)))
            ((box (full_ranges obj obj.m_dim_ids_k)).map (fun kk =>
              (pl + dot i
                  (byte_strides obj.m_strides_left obj.m_num_bytes_scalar_left (non_k_dims obj))
                + dot kk
                  (byte_strides obj.m_strides_left obj.m_num_bytes_scalar_left obj.m_dim_ids_k),
               pr + dot i
                  (byte_strides obj.m_strides_right obj.m_num_bytes_scalar_right
                    (non_k_dims obj))
                + dot kk
                  (byte_strides obj.m_strides_right obj.m_num_bytes_scalar_right
                    obj.m_dim_ids_k))))) := by
    rw [htrace]
    apply List.flatMap_congr
    intro i _
    unfold touch_block
    simp only [List.map_map, Function.comp_def,
      dot_byte_strides_zero obj.m_strides_out obj.m_num_bytes_scalar_out obj.m_dim_ids_k _ hk0,
      add_zero]
  have hnd : ((box (full_ranges obj (non_k_dims obj))).map (fun i =>
      po + dot i
        (byte_strides obj.m_strides_out obj.m_num_bytes_scalar_out (non_k_dims obj)))).Nodup := by
    apply List.Nodup.map_on _ (box_nodup _)
    intro i hi j hj hij
    exact hinj i hi j hj (by linarith)
  have hrun := run_touch_blocks left right ft lt
    (fun i => aux_ptr pa i
      (byte_strides obj.m_strides_out_aux obj.m_num_bytes_scalar_out (non_k_dims obj)))
    (fun i => po + dot i
      (byte_strides obj.m_strides_out obj.m_num_bytes_scalar_out (non_k_dims obj)))
    (fun i => (box (full_ranges obj obj.m_dim_ids_k)).map (fun kk =>
      (pl + dot i
          (byte_strides obj.m_strides_left obj.m_num_bytes_scalar_left (non_k_dims obj))
        + dot kk
          (byte_strides obj.m_strides_left obj.m_num_bytes_scalar_left obj.m_dim_ids_k),
       pr + dot i
          (byte_strides obj.m_strides_right obj.m_num_bytes_scalar_right (non_k_dims obj))
        + dot kk
          (byte_strides obj.m_strides_right obj.m_num_bytes_scalar_right obj.m_dim_ids_k))))
    (box (full_ranges obj (non_k_dims obj))) hnd out
  have hp' : obj'.m_packing = none := (compile_packing_eq obj obj' h).trans hp
  rw [contract_one_task obj' _ pack hp' hnt, contract_iter_eq_foldl obj' _ 0 0 hpos, hblocks]
  constructor
  · intro i hi
    have := hrun.1 i hi
    simp only [List.map_map, Function.comp_def] at this
    exact this
  · intro a hna
    apply hrun.2 a
    intro hmem
    obtain ⟨i, hi, rfl⟩ := List.mem_map.1 hmem
    exact hna i hi rfl

theorem marks_length (cbm numk : Nat) (tys : List dim_t) :
    ∀ (a b : Nat) (f : Bool), (marks cbm numk a b f tys).length = tys.length := by
  induction tys with
  | nil => intro a b f; rfl
  | cons ty tys ih =>
    intro a b f
    rw [marks]
    split
    · split <;> simp [ih]
    · split <;> simp [ih]

/-- After a successful `compile` the nest has at least one loop and each per-loop vector has
one entry per loop. -/
theorem compiled_lengths (obj obj' : ContractionLoops)
    (h : compile obj = some (err_t.SUCCESS, obj')) :
    0 < obj'.m_num_loops
    ∧ obj'.m_loop_first_last_touch.length = obj'.m_num_loops
    ∧ obj'.m_loop_strides_left.length = obj'.m_num_loops
    ∧ obj'.m_loop_strides_right.length = obj'.m_num_loops
    ∧ obj'.m_loop_strides_out_aux.length = obj'.m_num_loops
    ∧ obj'.m_loop_strides_out.length = obj'.m_num_loops := by
  obtain ⟨hL, hmk, _, _, hsl, hsr, hsa, hso, _, _, hlen⟩ := compile_success_fields obj obj' h
  have hd : ∀ {α : Type} (x : α), (dummy_entry (num_loops_of obj) x).length + num_loops_of obj
      = obj'.m_num_loops := by
    intro α x
    rw [dummy_entry_length, hL]
    split <;> omega
  refine ⟨by rw [hL]; split <;> omega, ?_, ?_, ?_, ?_, ?_⟩
  · rw [hmk, List.length_append, marks_length, List.length_map, hlen, ← hd touch_t.EVERY_ITER]
    omega
  · rw [hsl, List.length_append, byte_strides_length, hlen, ← hd (0 : Int)]; omega
  · rw [hsr, List.length_append, byte_strides_length, hlen, ← hd (0 : Int)]; omega
  · rw [hsa, List.length_append, byte_strides_length, hlen, ← hd (0 : Int)]; omega
  · rw [hso, List.length_append, byte_strides_length, hlen, ← hd (0 : Int)]; omega

/-! ## Touch calls per output element -/

/-- The calls of `contract_iter` on a nest compiled without packing that has at least one
loop, for K dimensions of output stride 0: one block of first-touch, main-kernel calls and
last-touch per index tuple of the C, M and N loops, all calls of a block with the same output
pointer. -/
theorem compiled_trace_blocks (obj obj' : ContractionLoops) (hp : obj.m_packing = none)
    (ha : types_agree obj) (h : compile obj = some (err_t.SUCCESS, obj'))
    (hne : num_loops_of obj ≠ 0)
    (hk0 : ∀ d ∈ obj.m_dim_ids_k, find_stride obj.m_strides_out d = 0)
    (t : Nat) (pl pr pa po : Int) :
    call_trace obj' t 0 pl pr pa po
      = (box ((task_ranges obj' t).take (non_k_dims obj).length)).flatMap (fun i =>
          touch_block
            (aux_ptr pa i
              (byte_strides obj.m_strides_out_aux obj.m_num_bytes_scalar_out (non_k_dims obj)))
            (po + dot i
              (byte_strides obj.m_strides_out obj.m_num_bytes_scalar_out (non_k_dims obj)))
            ((box ((task_ranges obj' t).drop (non_k_dims obj).length)).map (fun kk =>
              (pl + dot i
                  (byte_strides obj.m_strides_left obj.m_num_bytes_scalar_left (non_k_dims obj))
                + dot kk
                  (byte_strides obj.m_strides_left obj.m_num_bytes_scalar_left obj.m_dim_ids_k),
               pr + dot i
                  (byte_strides obj.m_strides_right obj.m_num_bytes_scalar_right
                    (non_k_dims obj))
                + dot kk
                  (byte_strides obj.m_strides_right obj.m_num_bytes_scalar_right
                    obj.m_dim_ids_k))))) := by
  rw [compiled_trace obj obj' hp ha h hne t pl pr pa po]
  apply List.flatMap_congr
  intro i _
  unfold touch_block
  simp only [List.map_map, Function.comp_def,
    dot_byte_strides_zero obj.m_strides_out obj.m_num_bytes_scalar_out obj.m_dim_ids_k _ hk0,
    add_zero]

theorem touch_block_first_touch (pa po : Int) (ms : List (Int × Int)) :
    (touch_block pa po ms).filterMap first_touch_out = [po] := by
  unfold touch_block
  rw [List.filterMap_cons, List.filterMap_append, List.filterMap_map]
  simp [first_touch_out, Function.comp_def]

theorem touch_block_last_touch (pa po : Int) (ms : List (Int × Int)) :
    (touch_block pa po ms).filterMap last_touch_out = [po] := by
  unfold touch_block
  rw [List.filterMap_cons, List.filterMap_append, List.filterMap_map]
  simp [last_touch_out, Function.comp_def]

theorem touch_blocks_first_touch {ι : Type} (pa po : ι → Int) (ms : ι → List (Int × Int))
    (I : List ι) :
    (I.flatMap (fun i => touch_block (pa i) (po i) (ms i))).filterMap first_touch_out
      = I.map po := by
  rw [List.filterMap_flatMap]
  simp only [touch_block_first_touch]
  exact (List.map_eq_flatMap po I).symm

theorem touch_blocks_last_touch {ι : Type} (pa po : ι → Int) (ms : ι → List (Int × Int))
    (I : List ι) :
    (I.flatMap (fun i => touch_block (pa i) (po i) (ms i))).filterMap last_touch_out
      = I.map po := by
  rw [List.filterMap_flatMap]
  simp only [touch_block_last_touch]
  exact (List.map_eq_flatMap po I).symm

theorem touch_blocks_main_mem {ι : Type} (pa po : ι → Int) (ms : ι → List (Int × Int))
    (I : List ι) (l r o : Int)
    (h : kernel_call.main l r o ∈ I.flatMap (fun i => touch_block (pa i) (po i) (ms i))) :
    o ∈ I.map po := by
  obtain ⟨i, hi, hmem⟩ := List.mem_flatMap.1 h
  unfold touch_block at hmem
  rcases List.mem_cons.1 hmem with hc | hmem
  · cases hc
  · rcases List.mem_append.1 hmem with hmem | hmem
    · obtain ⟨m, _, hm⟩ := List.mem_map.1 hmem
      cases hm
      exact List.mem_map_of_mem _ hi
    · simp at hmem

/-- The ranges of a task that covers the full range of every loop, split into the ranges of
the C, M, N loops and of the K loops. -/
theorem full_task_ranges_split (obj obj' : ContractionLoops) (hp : obj.m_packing = none)
    (h : compile obj = some (err_t.SUCCESS, obj')) (hne : num_loops_of obj ≠ 0) (t : Nat)
    (hfull : task_ranges obj' t = obj'.m_loop_sizes.map (fun s => (0, s))) :
    (task_ranges obj' t).take (non_k_dims obj).length = full_ranges obj (non_k_dims obj)
    ∧ (task_ranges obj' t).drop (non_k_dims obj).length = full_ranges obj obj.m_dim_ids_k := by
  obtain ⟨_, _, _, hsz, _⟩ := compile_success_fields obj obj' h
  rw [hfull, hsz, dummy_entry_of_ne _ _ hne, List.append_nil, nest_dims_eq_append obj hp]
  have e : List.map (fun s => ((0 : Int), s))
      (List.map (dim_size_of obj) (non_k_dims obj ++ obj.m_dim_ids_k))
      = full_ranges obj (non_k_dims obj) ++ full_ranges obj obj.m_dim_ids_k := by
    simp only [full_ranges, List.map_append, List.map_map]
    rfl
  rw [e, List.take_left' (full_ranges_length _ _), List.drop_left' (full_ranges_length _ _)]
  exact ⟨rfl, rfl⟩

theorem num_loops_of_ne_zero_of_k (obj : ContractionLoops) (hk : obj.m_dim_ids_k ≠ []) :
    num_loops_of obj ≠ 0 := by
  rw [num_loops_of_eq_add]
  have : obj.m_dim_ids_k.length ≠ 0 := fun h0 => hk (List.length_eq_zero.1 h0)
  omega

theorem touch_window_mains (po : Int) (ms : List (Int × Int)) (rest : List kernel_call) :
    touch_window_ok (some po) (ms.map (fun m => kernel_call.main m.1 m.2 po) ++ rest)
      = touch_window_ok (some po) rest := by
  induction ms with
  | nil => rfl
  | cons m ms ih =>
    rw [List.map_cons, List.cons_append, touch_window_ok, ih]
    simp

theorem touch_window_block (pa po : Int) (ms : List (Int × Int)) (rest : List kernel_call) :
    touch_window_ok none (touch_block pa po ms ++ rest) = touch_window_ok none rest := by
  unfold touch_block
  rw [List.cons_append, touch_window_ok, List.append_assoc, touch_window_mains,
    List.singleton_append, touch_window_ok]
  simp

theorem touch_window_blocks {ι : Type} (pa po : ι → Int) (ms : ι → List (Int × Int))
    (I : List ι) :
    touch_window_ok none (I.flatMap (fun i => touch_block (pa i) (po i) (ms i))) = true := by
  induction I with
  | nil => rfl
  | cons i I ih => rw [List.flatMap_cons, touch_window_block, ih]

theorem before_after_of_mem (obj obj' : ContractionLoops) (hp : obj.m_packing = none)
    (ha : types_agree obj) (h : compile obj = some (err_t.SUCCESS, obj'))
    (hBA : touch_t.BEFORE_AFTER_ITER ∈ obj'.m_loop_first_last_touch) :
    obj.m_dim_ids_k ≠ [] := by
  obtain ⟨_, hmk, _⟩ := compile_success_fields obj obj' h
  rw [markers_no_packing obj hp ha] at hmk
  intro hk
  rw [hmk, if_pos hk] at hBA
  rcases List.mem_append.1 hBA with hm | hm
  · exact absurd (List.mem_replicate.1 hm).2 (by decide)
  · simp at hm

/-! ## The auxiliary pointer of a non-null tensor -/

theorem zeros_mem_box (rs : List (Int × Int)) (h : ∀ r ∈ rs, r.1 = 0 ∧ 0 < r.2) :
    rs.map (fun _ => (0 : Int)) ∈ box rs := by
  rw [mem_box]
  induction rs with
  | nil => exact List.Forall₂.nil
  | cons r rs ih =>
    obtain ⟨h1, h2⟩ := h r (List.mem_cons_self _ _)
    have hr : r.1 ≤ (0 : Int) ∧ (0 : Int) < r.1 + r.2 := by constructor <;> omega
    exact List.Forall₂.cons hr (ih (fun x hx => h x (List.mem_cons_of_mem _ hx)))

theorem dot_zeros_left {α : Type} (l : List α) : ∀ (ss : List Int),
    dot (l.map (fun _ => (0 : Int))) ss = 0 := by
  induction l with
  | nil => intro ss; exact dot_nil_left ss
  | cons a l ih =>
    intro ss
    cases ss with
    | nil => rfl
    | cons s ss => rw [List.map_cons, dot_cons, ih ss]; simp

/-- When every element address of the auxiliary tensor is non-null, the pointer that
`contract_iter` passes down is the base plus the offset of the index tuple. -/
theorem aux_ptr_eq_add_dot (rs : List (Int × Int)) (h : ∀ r ∈ rs, r.1 = 0 ∧ 0 < r.2) :
    ∀ (ss : List Int) (pa : Int) (t : List Int), t ∈ box rs →
      (∀ u ∈ box rs, pa + dot u ss ≠ 0) → aux_ptr pa t ss = pa + dot t ss := by
  induction rs with
  | nil =>
    intro ss pa t ht _
    simp only [box, List.mem_singleton] at ht
    subst ht
    cases ss <;> simp [aux_ptr, dot]
  | cons r rs ih =>
    intro ss pa t ht hnn
    simp only [box, List.mem_flatMap, List.mem_map] at ht
    obtain ⟨it, hit, t1, ht1, rfl⟩ := ht
    have hrs : ∀ x ∈ rs, x.1 = 0 ∧ 0 < x.2 := fun x hx => h x (List.mem_cons_of_mem _ hx)
    cases ss with
    | nil => simp [aux_ptr, dot]
    | cons st ss =>
      have hmem : ∀ u1 ∈ box rs, it :: u1 ∈ box (r :: rs) := by
        intro u1 hu1
        simp only [box, List.mem_flatMap, List.mem_map]
        exact ⟨it, hit, u1, hu1, rfl⟩
      have hz : (0 : Int) :: rs.map (fun _ => (0 : Int)) ∈ box (r :: rs) := by
        have := zeros_mem_box (r :: rs) h
        simpa using this
      have hpa : pa ≠ 0 := by
        have := hnn _ hz
        rw [dot_cons, dot_zeros_left] at this
        simpa using this
      rw [aux_ptr, if_pos hpa, mul_one, dot_cons]
      rw [ih hrs ss (pa + it * st) t1 ht1 (by
        intro u1 hu1
        have := hnn _ (hmem u1 hu1)
        rw [dot_cons] at this
        intro e
        exact this (by linarith))]
      ring

theorem full_ranges_pos (obj : ContractionLoops) (hs : sizes_positive obj) :
    ∀ r ∈ full_ranges obj (non_k_dims obj), r.1 = 0 ∧ 0 < r.2 := by
  intro r hr
  unfold full_ranges at hr
  obtain ⟨d, hd, rfl⟩ := List.mem_map.1 hr
  exact ⟨rfl, hs d (List.mem_append_left _ hd)⟩

/-! ## The result of a compiled contraction in terms of the output elements -/

/-- The result of `contract` on a nest compiled without packing for one targeted task, for
elementwise kernels, stated per output element. -/
theorem contract_elementwise {R : Type} [Ring R] (obj : ContractionLoops)
    (left right : Int → R) (ft : Int → R → R) (lt : R → R) (pack : PackingKernels (Int → R))
    (pl pr pa po : Int) (out : Int → R)
    (hT : obj.m_num_tasks_targeted = 1) (hp : obj.m_packing = none) (hc : non_complex obj)
    (ha : types_agree obj) (hs : sizes_positive obj) (hk0 : k_stride_out_zero obj)
    (hinj : out_strides_injective obj) :
    ∃ obj', compile obj = some (err_t.SUCCESS, obj')
      ∧ (∀ i ∈ output_tuples obj,
          contract obj' (elementwise_kernels left right ft lt) pack pl pr pa po out
              (po + out_offset obj i)
            = lt (ft (aux_address obj pa i) (out (po + out_offset obj i))
                + k_sum obj left right pl pr i))
      ∧ (∀ (a : Int), (∀ i ∈ output_tuples obj, a ≠ po + out_offset obj i) →
          contract obj' (elementwise_kernels left right ft lt) pack pl pr pa po out a = out a) := by
  obtain ⟨obj', hcomp, h1, h2⟩ := compiled_result obj left right ft lt pack pl pr pa po out hT hp
    hc ha hs hk0 hinj
  refine ⟨obj', hcomp, ?_, h2⟩
  intro i hi
  have := h1 i hi
  simp only [k_sum, k_tuples, left_offset, right_offset, ← add_assoc]
  exact this

/-- The calls of `contract_iter` on a nest compiled without packing that has at least one
loop, for K dimensions of output stride 0: one visit per index tuple of the C, M, N ranges of
the task, in order. -/
theorem call_trace_visits (obj obj' : ContractionLoops) (hp : obj.m_packing = none)
    (ha : types_agree obj) (h : compile obj = some (err_t.SUCCESS, obj'))
    (hne : num_loops_of obj ≠ 0) (hk0 : k_stride_out_zero obj) (t : Nat) (pl pr pa po : Int) :
    call_trace obj' t 0 pl pr pa po
      = (box ((task_ranges obj' t).take (non_k_dims obj).length)).flatMap
          (visit_calls obj (box ((task_ranges obj' t).drop (non_k_dims obj).length))
            pl pr pa po) := by
  rw [compiled_trace_blocks obj obj' hp ha h hne hk0 t pl pr pa po]
  apply List.flatMap_congr
  intro i _
  simp only [visit_calls, aux_address, out_offset, left_offset, right_offset, ← add_assoc]

/-! ## The nest of a configuration without loops -/

theorem iter_spaces_of_dummy (obj : ContractionLoops) (hz : num_loops_of obj = 0) :
    (iter_spaces_of obj 1 [1]).m_firsts = [[0]] ∧ (iter_spaces_of obj 1 [1]).m_sizes = [[1]]
    ∧ (iter_spaces_of obj 1 [1]).m_num_tasks = 1 := by
  have hadd := num_loops_of_eq_add obj
  have hnk : (non_k_dims obj).length = 0 := by omega
  have hpar : (if (set_cpx_outer_c obj).m_cpx_outer_c then
      obj.m_dim_ids_c.length + obj.m_dim_ids_m.length + obj.m_dim_ids_n.length - 1
    else obj.m_dim_ids_c.length + obj.m_dim_ids_m.length + obj.m_dim_ids_n.length) = 0 := by
    have hcc : (set_cpx_outer_c obj).m_dim_ids_c = obj.m_dim_ids_c := rfl
    unfold non_k_dims loop_dim_ids_c at hnk
    rw [hcc] at hnk
    cases hc : (set_cpx_outer_c obj).m_cpx_outer_c with
    | true =>
      simp only [hc, if_true, List.length_append, List.length_drop] at hnk ⊢
      omega
    | false =>
      simp only [hc, Bool.false_eq_true, if_false, List.length_append] at hnk ⊢
      omega
  have hr1 : List.range 1 = [0] := rfl
  have hp : IterationSpaces.num_parallel_used [1] 0 obj.m_num_tasks_targeted = 0 := by
    unfold IterationSpaces.num_parallel_used
    simp only [Nat.zero_add, hr1]
    cases h : List.find? (fun p => decide (obj.m_num_tasks_targeted ≤ (List.take p [(1:Int)]).prod)) [0] with
    | none => rfl
    | some p =>
      have := List.mem_of_find?_eq_some h
      simpa using this
  unfold iter_spaces_of IterationSpaces.compile IterationSpaces.init
  simp only [hpar, Nat.zero_min, List.take_succ_cons, List.take_zero, hp, List.prod_nil,
    Int.toNat_one, hr1, List.map_cons, List.map_nil, IterationSpaces.first_of,
    IterationSpaces.size_of, Nat.lt_irrefl, if_false, List.getD_cons_zero, and_self]

/-! ## The checks of the complex dimension -/

theorem cpx_size_invalid_eq_true (o : ContractionLoops) :
    cpx_size_invalid o = some true
      ↔ o.m_cpx_outer_c = true
        ∧ ∃ s, o.m_sizes.lookup (o.m_dim_ids_c.getD 0 0) = some s ∧ s ≠ 2 := by
  unfold cpx_size_invalid
  cases hc : o.m_cpx_outer_c with
  | false => simp
  | true =>
    simp only [if_true, true_and]
    cases hs : o.m_sizes.lookup (o.m_dim_ids_c.getD 0 0) with
    | none => simp
    | some s => simp

/-- The code returned by `compile` when the complex checks pass is never
`INVALID_CPX_DIM`. -/
theorem compile_code_of_valid (obj : ContractionLoops) (r : err_t × ContractionLoops)
    (h0 : ¬ ((set_cpx_outer_c obj).m_cpx_outer_c = true ∧ obj.m_dim_ids_c.length = 0))
    (hinv : cpx_size_invalid (set_cpx_outer_c obj) ≠ some true)
    (h : compile obj = some r) : r.1 = err_t.SUCCESS := by
  unfold compile at h
  have h0' : ¬ ((set_cpx_outer_c obj).m_cpx_outer_c = true
      ∧ (set_cpx_outer_c obj).m_dim_ids_c.length = 0) := h0
  simp only [h0', if_false] at h
  cases hi : cpx_size_invalid (set_cpx_outer_c obj) with
  | none => simp [hi] at h
  | some b =>
    cases b with
    | true => exact absurd hi hinv
    | false =>
      cases hd : derive_cpx_strides (set_cpx_outer_c obj) with
      | none => simp [hi, hd] at h
      | some o1 =>
        cases hf : compile_add_dims (loop_dims o1 (loop_dim_ids_c o1)) (clear_loops o1).m_num_loops
            (num_dim_cbm o1) (⟨0, 0, 0, false⟩, clear_loops o1) with
        | none => simp [hi, hd, hf] at h
        | some st =>
          simp only [hi, hd, hf, Option.bind_eq_bind, Option.some_bind, Bool.false_eq_true,
            if_false, Option.some.injEq] at h
          rw [← h, compile_iter_spaces_eq]

/-! ## The complex strides recorded by `compile` -/

theorem derive_cpx_strides_eq (o o1 : ContractionLoops) (h : derive_cpx_strides o = some o1) :
    o1 = { o with
      m_cpx_stride_in_left_bytes :=
        if o.m_cpx_outer_c then
          (o.m_strides_left.lookup (o.m_dim_ids_c.getD 0 0)).getD 0 * o.m_num_bytes_scalar_left
        else 0
      m_cpx_stride_in_right_bytes :=
        if o.m_cpx_outer_c then
          (o.m_strides_right.lookup (o.m_dim_ids_c.getD 0 0)).getD 0 * o.m_num_bytes_scalar_right
        else 0
      m_cpx_stride_out_aux_bytes :=
        if o.m_cpx_outer_c then
          (o.m_strides_out_aux.lookup (o.m_dim_ids_c.getD 0 0)).getD 0 * o.m_num_bytes_scalar_out
        else 0
      m_cpx_stride_out_bytes :=
        if o.m_cpx_outer_c then
          (o.m_strides_out.lookup (o.m_dim_ids_c.getD 0 0)).getD 0 * o.m_num_bytes_scalar_out
        else 0 } := by
  unfold derive_cpx_strides at h
  by_cases hc : o.m_cpx_outer_c = true
  · rw [if_pos hc] at h
    generalize o.m_dim_ids_c.getD 0 0 = c0 at h ⊢
    dsimp only at h
    cases h1 : o.m_strides_left.lookup c0 with
    | none => rw [h1] at h; cases h
    | some a =>
      cases h2 : o.m_strides_right.lookup c0 with
      | none => rw [h1, h2] at h; cases h
      | some b =>
        cases h3 : o.m_strides_out_aux.lookup c0 with
        | none => rw [h1, h2, h3] at h; cases h
        | some c =>
          cases h4 : o.m_strides_out.lookup c0 with
          | none => rw [h1, h2, h3, h4] at h; cases h
          | some d =>
            rw [h1, h2, h3, h4] at h
            simp only [Option.bind_eq_bind, Option.some_bind, Option.pure_def,
              Option.some.injEq] at h
            rw [← h]
            ext1 <;> simp only [hc, if_true, Option.getD_some]
  · rw [if_neg hc] at h
    simp only [Option.pure_def, Option.some.injEq] at h
    rw [← h]
    ext1 <;> simp only [hc, Bool.false_eq_true, if_false]

/-- The members that a successful `compile` takes over unchanged from the object after the
derivation of the complex strides (`o1`) and from the object after the loop over the
dimensions (`st`). -/
theorem compile_success_frame (obj obj' : ContractionLoops)
    (h : compile obj = some (err_t.SUCCESS, obj')) :
    ∃ (o1 : ContractionLoops) (st : compile_locals × ContractionLoops),
      cpx_size_invalid (set_cpx_outer_c obj) = some false
      ∧ derive_cpx_strides (set_cpx_outer_c obj) = some o1
      ∧ (nest_dims obj).foldlM (compile_add_dim (num_dim_cbm (set_cpx_outer_c obj)))
          (⟨0, 0, 0, false⟩, clear_loops o1) = some st
      ∧ obj'.m_cpx_outer_c = o1.m_cpx_outer_c
      ∧ obj'.m_cpx_stride_in_left_bytes = o1.m_cpx_stride_in_left_bytes
      ∧ obj'.m_cpx_stride_in_right_bytes = o1.m_cpx_stride_in_right_bytes
      ∧ obj'.m_cpx_stride_out_aux_bytes = o1.m_cpx_stride_out_aux_bytes
      ∧ obj'.m_cpx_stride_out_bytes = o1.m_cpx_stride_out_bytes
      ∧ obj'.m_loop_sum_k_sizes = st.2.m_loop_sum_k_sizes := by
  obtain ⟨o1, st, h0, hinv, hd, hf, hfin⟩ := compile_success_stages obj obj' h
  have ho1 := derive_cpx_strides_eq _ _ hd
  obtain ⟨hle, hfold⟩ := compile_add_dims_eq_some _ _ _ _ _ hf
  obtain ⟨hall, sk, hst⟩ := foldlM_add_dim_spec _ _ _ _ _ hfold
  have hfold' : (nest_dims obj).foldlM (compile_add_dim (num_dim_cbm (set_cpx_outer_c obj)))
      (⟨0, 0, 0, false⟩, clear_loops o1) = some st := by
    rw [← hfold, ho1]
    rfl
  refine ⟨o1, st, hinv, hd, hfold', ?_⟩
  rw [compile_iter_spaces_eq, threading_eq] at hfin
  simp only [Prod.mk.injEq, true_and] at hfin
  rw [← hfin, set_packing_loops_eq, add_dummy_loop_eq, hst]
  exact ⟨rfl, rfl, rfl, rfl, rfl, rfl⟩

/-- The complex flag and the four complex strides after a successful `compile`. -/
theorem compile_success_cpx (obj obj' : ContractionLoops)
    (h : compile obj = some (err_t.SUCCESS, obj')) :
    obj'.m_cpx_outer_c = cpx_requested obj
    ∧ obj'.m_cpx_stride_in_left_bytes
        = cpx_stride_bytes obj obj.m_strides_left obj.m_num_bytes_scalar_left
    ∧ obj'.m_cpx_stride_in_right_bytes
        = cpx_stride_bytes obj obj.m_strides_right obj.m_num_bytes_scalar_right
    ∧ obj'.m_cpx_stride_out_aux_bytes
        = cpx_stride_bytes obj obj.m_strides_out_aux obj.m_num_bytes_scalar_out
    ∧ obj'.m_cpx_stride_out_bytes
        = cpx_stride_bytes obj obj.m_strides_out obj.m_num_bytes_scalar_out := by
  obtain ⟨o1, st, _, hd, _, e0, e1, e2, e3, e4, _⟩ := compile_success_frame obj obj' h
  have ho1 := derive_cpx_strides_eq _ _ hd
  rw [e0, e1, e2, e3, e4, ho1]
  exact ⟨rfl, rfl, rfl, rfl, rfl⟩

/-! ## The dimensions of the nest with packing dimensions -/

theorem loop_dims_eq_filter (o : ContractionLoops) (cs : List Int) :
    loop_dims o cs
      = (cs ++ o.m_dim_ids_m ++ o.m_dim_ids_n ++ o.m_dim_ids_k).filter
          (fun d => !((packing_dims o).contains d)) ++ packing_dims o := by
  unfold loop_dims non_packing_dims packing_dims
  cases o.m_packing <;> simp only [List.filter_append]

theorem filter_append_perm_of_subset (P L : List Int) (hP : P.Nodup) (hL : L.Nodup)
    (hsub : ∀ d ∈ P, d ∈ L) : (L.filter (fun d => !(P.contains d)) ++ P).Perm L := by
  have h1 : P.Perm (L.filter (fun d => P.contains d)) := by
    rw [List.perm_ext_iff_of_nodup hP (hL.filter _)]
    intro a
    have hm : P.contains a = true ↔ a ∈ P := by simp
    rw [List.mem_filter, hm]
    exact ⟨fun h => ⟨hsub a h, h⟩, fun h => h.2⟩
  have h2 := List.filter_append_perm (fun d => P.contains d) L
  refine List.Perm.trans ?_ h2
  refine List.Perm.trans List.perm_append_comm ?_
  exact List.Perm.append h1 (List.Perm.refl _)

/-- For a non-complex configuration with pairwise distinct dimension ids and packing dimensions
that are a duplicate-free subset of them, the dimensions of the nest are a permutation of all
dimension ids. -/
theorem nest_dims_perm (obj : ContractionLoops) (hc : non_complex obj)
    (hnd : (all_dims obj).Nodup) (hpk : packing_dims_ok obj) :
    (nest_dims obj).Perm (all_dims obj) := by
  have hC : loop_dim_ids_c (set_cpx_outer_c obj) = obj.m_dim_ids_c := by
    unfold loop_dim_ids_c
    rw [hc]
    rfl
  have hperm := filter_append_perm_of_subset (packing_dims obj) (all_dims obj) hpk.1 hnd hpk.2
  have hld : loop_dims (set_cpx_outer_c obj) (loop_dim_ids_c (set_cpx_outer_c obj))
      = (all_dims obj).filter (fun d => !((packing_dims obj).contains d))
        ++ packing_dims obj := by
    rw [loop_dims_eq_filter, hC]
    rfl
  have hn : num_loops_of obj = (all_dims obj).length := by
    rw [num_loops_of_eq, hC]
    unfold all_dims
    simp only [List.length_append]
  unfold nest_dims
  rw [hld, hn, ← hperm.length_eq, List.take_length]
  exact hperm

/-! ## A second call of `compile` -/

theorem compile_add_dim_sum_k (cbm : Nat) (lv : compile_locals) (a b : ContractionLoops)
    (d : Int) (hty : a.m_dim_type = b.m_dim_type) (hsz : a.m_sizes = b.m_sizes)
    (hk : a.m_dim_ids_k = b.m_dim_ids_k) (sa sb : compile_locals × ContractionLoops)
    (ha : compile_add_dim cbm (lv, a) d = some sa)
    (hb : compile_add_dim cbm (lv, b) d = some sb) :
    sa.1 = sb.1 ∧ sa.2.m_dim_type = sb.2.m_dim_type ∧ sa.2.m_sizes = sb.2.m_sizes
    ∧ sa.2.m_dim_ids_k = sb.2.m_dim_ids_k
    ∧ (sb.2.m_loop_sum_k_sizes = sa.2.m_loop_sum_k_sizes
      ∨ (sb.2.m_loop_sum_k_sizes = b.m_loop_sum_k_sizes
        ∧ sa.2.m_loop_sum_k_sizes = a.m_loop_sum_k_sizes)) := by
  unfold compile_add_dim at ha hb
  simp only [← hty, ← hsz, ← hk] at hb
  cases h1 : a.m_dim_type.lookup d with
  | none => simp [h1] at ha
  | some ty =>
    cases h2 : a.m_sizes.lookup d with
    | none => simp [h1, h2] at ha
    | some sz =>
      simp only [h1, h2, Option.bind_eq_bind, Option.some_bind, Option.pure_def,
        Option.some.injEq] at ha hb
      subst ha
      subst hb
      by_cases hK : ty = dim_t.K
      · by_cases hc : lv.l_count_cbm = cbm ∧ lv.l_found_first_last_touch_loop = false
        · simp only [hK, hc, and_self, if_true]
          simp [hty, hsz, hk]
        · simp only [hK, hc, if_true, if_false]
          simp [hty, hsz, hk]
      · by_cases hc : lv.l_count_cbm + 1 = cbm ∧ lv.l_count_k = a.m_dim_ids_k.length
        · simp only [hK, hc, and_self, if_true, if_false]
          simp [hty, hsz, hk]
        · simp only [hK, hc, if_false]
          simp [hty, hsz, hk]

theorem foldlM_add_dim_sum_k (cbm : Nat) (ds : List Int) :
    ∀ (lv : compile_locals) (a b : ContractionLoops)
      (sa sb : compile_locals × ContractionLoops),
      a.m_dim_type = b.m_dim_type → a.m_sizes = b.m_sizes → a.m_dim_ids_k = b.m_dim_ids_k →
      ds.foldlM (compile_add_dim cbm) (lv, a) = some sa →
      ds.foldlM (compile_add_dim cbm) (lv, b) = some sb →
      (sb.2.m_loop_sum_k_sizes = sa.2.m_loop_sum_k_sizes
        ∨ (sb.2.m_loop_sum_k_sizes = b.m_loop_sum_k_sizes
          ∧ sa.2.m_loop_sum_k_sizes = a.m_loop_sum_k_sizes)) := by
  induction ds with
  | nil =>
    intro lv a b sa sb _ _ _ ha hb
    simp only [List.foldlM_nil, Option.pure_def, Option.some.injEq] at ha hb
    subst ha
    subst hb
    exact Or.inr ⟨rfl, rfl⟩
  | cons d ds ih =>
    intro lv a b sa sb hty hsz hk ha hb
    rw [List.foldlM_cons] at ha hb
    cases h1 : compile_add_dim cbm (lv, a) d with
    | none => simp [h1] at ha
    | some s1 =>
      cases h2 : compile_add_dim cbm (lv, b) d with
      | none => simp [h2] at hb
      | some s2 =>
        simp only [h1, h2, Option.bind_eq_bind, Option.some_bind] at ha hb
        obtain ⟨e1, hty', hsz', hk', hor⟩ := compile_add_dim_sum_k cbm lv a b d hty hsz hk s1 s2 h1 h2
        have hb' : ds.foldlM (compile_add_dim cbm) (s1.1, s2.2) = some sb := by
          rw [e1]; exact hb
        rcases ih s1.1 s1.2 s2.2 sa sb hty' hsz' hk' ha hb' with h | ⟨h3, h4⟩
        · exact Or.inl h
        · rcases hor with h5 | ⟨h5, h6⟩
          · exact Or.inl (by rw [h3, h4, h5])
          · exact Or.inr ⟨h3.trans h5, h4.trans h6⟩

theorem compile_of_stages (obj o1 : ContractionLoops) (st : compile_locals × ContractionLoops)
    (h0 : ¬ ((set_cpx_outer_c obj).m_cpx_outer_c = true ∧ obj.m_dim_ids_c.length = 0))
    (hinv : cpx_size_invalid (set_cpx_outer_c obj) = some false)
    (hd : derive_cpx_strides (set_cpx_outer_c obj) = some o1)
    (hf : compile_add_dims (loop_dims o1 (loop_dim_ids_c o1)) (clear_loops o1).m_num_loops
      (num_dim_cbm o1) (⟨0, 0, 0, false⟩, clear_loops o1) = some st) :
    compile obj = some (compile_iter_spaces
      (scale_loop_strides (set_packing_loops (add_dummy_loop st.2)))) := by
  unfold compile
  have h0' : ¬ ((set_cpx_outer_c obj).m_cpx_outer_c = true
      ∧ (set_cpx_outer_c obj).m_dim_ids_c.length = 0) := h0
  simp only [h0', if_false, hinv, hd, hf, Option.bind_eq_bind, Option.some_bind,
    Bool.false_eq_true]

theorem derive_cpx_strides_congr (o o2 o1 : ContractionLoops)
    (h : derive_cpx_strides o = some o1) (e0 : o2.m_cpx_outer_c = o.m_cpx_outer_c)
    (e1 : o2.m_dim_ids_c = o.m_dim_ids_c) (e2 : o2.m_strides_left = o.m_strides_left)
    (e3 : o2.m_strides_right = o.m_strides_right)
    (e4 : o2.m_strides_out_aux = o.m_strides_out_aux)
    (e5 : o2.m_strides_out = o.m_strides_out) :
    ∃ o3, derive_cpx_strides o2 = some o3 := by
  unfold derive_cpx_strides at h ⊢
  rw [e0, e1, e2, e3, e4, e5]
  by_cases hc : o.m_cpx_outer_c = true
  · rw [if_pos hc] at h ⊢
    generalize o.m_dim_ids_c.getD 0 0 = c0 at h ⊢
    dsimp only at h ⊢
    cases h1 : o.m_strides_left.lookup c0 with
    | none => rw [h1] at h; cases h
    | some a =>
      cases h2 : o.m_strides_right.lookup c0 with
      | none => rw [h1, h2] at h; cases h
      | some b =>
        cases h3 : o.m_strides_out_aux.lookup c0 with
        | none => rw [h1, h2, h3] at h; cases h
        | some c =>
          cases h4 : o.m_strides_out.lookup c0 with
          | none => rw [h1, h2, h3, h4] at h; cases h
          | some d => exact ⟨_, rfl⟩
  · rw [if_neg hc]
    exact ⟨_, rfl⟩

/-- A second call of `compile` after a successful one succeeds as well. -/
theorem compile_twice_succeeds (obj obj' : ContractionLoops)
    (h : compile obj = some (err_t.SUCCESS, obj')) :
    ∃ obj'', compile obj' = some (err_t.SUCCESS, obj'') := by
  obtain ⟨o1, st, h0, hinv, hd, _, _⟩ := compile_success_stages obj obj' h
  obtain ⟨_, hle, hall, a, b, c, d, sk, hobj⟩ := compile_success_spec obj obj' h
  have h0' : ¬ ((set_cpx_outer_c obj').m_cpx_outer_c = true ∧ obj'.m_dim_ids_c.length = 0) := by
    rw [hobj]; exact h0
  have hinv' : cpx_size_invalid (set_cpx_outer_c obj') = some false := by
    rw [hobj]; exact hinv
  have hle' : num_loops_of obj'
      ≤ (loop_dims (set_cpx_outer_c obj') (loop_dim_ids_c (set_cpx_outer_c obj'))).length := by
    rw [hobj]; exact hle
  have hall' : ∀ x ∈ nest_dims obj',
      (obj'.m_dim_type.lookup x).isSome = true ∧ (obj'.m_sizes.lookup x).isSome = true := by
    rw [hobj]; exact hall
  obtain ⟨o2, hd2⟩ := derive_cpx_strides_congr (set_cpx_outer_c obj) (set_cpx_outer_c obj') o1 hd
    (by rw [hobj]; rfl) (by rw [hobj]; rfl) (by rw [hobj]; rfl) (by rw [hobj]; rfl)
    (by rw [hobj]; rfl) (by rw [hobj]; rfl)
  obtain ⟨a2, b2, c2, d2, ho2⟩ := derive_cpx_strides_spec _ _ hd2
  have h3 : ∃ st2, compile_add_dims (loop_dims o2 (loop_dim_ids_c o2))
      (clear_loops o2).m_num_loops (num_dim_cbm o2) (⟨0, 0, 0, false⟩, clear_loops o2)
        = some st2 := by
    have hle2 : (clear_loops o2).m_num_loops ≤ (loop_dims o2 (loop_dim_ids_c o2)).length := by
      rw [ho2]; exact hle'
    have hall2 : ∀ x ∈ (loop_dims o2 (loop_dim_ids_c o2)).take (clear_loops o2).m_num_loops,
        ((clear_loops o2).m_dim_type.lookup x).isSome = true
          ∧ ((clear_loops o2).m_sizes.lookup x).isSome = true := by
      rw [ho2]; exact hall'
    obtain ⟨st2, hst2⟩ := foldlM_add_dim_isSome (num_dim_cbm o2) _ ⟨0, 0, 0, false⟩
      (clear_loops o2) hall2
    exact ⟨st2, (compile_add_dims_of_le _ _ _ _ hle2).trans hst2⟩
  obtain ⟨st2, h3⟩ := h3
  have hcomp := compile_of_stages obj' o2 st2 h0' hinv' hd2 h3
  rw [compile_iter_spaces_eq] at hcomp
  exact ⟨_, hcomp⟩

/-- After a successful `compile` a second call returns `SUCCESS` and leaves the object as it
is. -/
theorem compile_twice_success (obj obj' : ContractionLoops)
    (h : compile obj = some (err_t.SUCCESS, obj')) :
    compile obj' = some (err_t.SUCCESS, obj') := by
  obtain ⟨obj'', h2⟩ := compile_twice_succeeds obj obj' h
  obtain ⟨_, _, _, a, b, c, d, sk, hobj⟩ := compile_success_spec obj obj' h
  obtain ⟨_, _, _, a2, b2, c2, d2, sk2, hobj2⟩ := compile_success_spec obj' obj'' h2
  obtain ⟨_, hl, hr, ha, ho⟩ := compile_success_cpx obj obj' h
  obtain ⟨_, hl2, hr2, ha2, ho2⟩ := compile_success_cpx obj' obj'' h2
  have el : obj''.m_cpx_stride_in_left_bytes = obj'.m_cpx_stride_in_left_bytes := by
    rw [hl2, hl, hobj]; rfl
  have er : obj''.m_cpx_stride_in_right_bytes = obj'.m_cpx_stride_in_right_bytes := by
    rw [hr2, hr, hobj]; rfl
  have ea : obj''.m_cpx_stride_out_aux_bytes = obj'.m_cpx_stride_out_aux_bytes := by
    rw [ha2, ha, hobj]; rfl
  have eo : obj''.m_cpx_stride_out_bytes = obj'.m_cpx_stride_out_bytes := by
    rw [ho2, ho, hobj]; rfl
  have esk : obj''.m_loop_sum_k_sizes = obj'.m_loop_sum_k_sizes := by
    obtain ⟨p1, pst, _, phd, pfold, _, _, _, _, _, psk⟩ := compile_success_frame obj obj' h
    obtain ⟨q1, qst, _, qhd, qfold, _, _, _, _, _, qsk⟩ := compile_success_frame obj' obj'' h2
    obtain ⟨_, _, _, _, hp1⟩ := derive_cpx_strides_spec _ _ phd
    obtain ⟨_, _, _, _, hq1⟩ := derive_cpx_strides_spec _ _ qhd
    have hnd : nest_dims obj' = nest_dims obj := by rw [hobj]; rfl
    have hcbm : num_dim_cbm (set_cpx_outer_c obj') = num_dim_cbm (set_cpx_outer_c obj) := by
      rw [hobj]; rfl
    rw [hnd, hcbm] at qfold
    have hty : (clear_loops p1).m_dim_type = (clear_loops q1).m_dim_type := by
      rw [hp1, hq1, hobj]; rfl
    have hsz : (clear_loops p1).m_sizes = (clear_loops q1).m_sizes := by
      rw [hp1, hq1, hobj]; rfl
    have hk : (clear_loops p1).m_dim_ids_k = (clear_loops q1).m_dim_ids_k := by
      rw [hp1, hq1, hobj]; rfl
    have hq : (clear_loops q1).m_loop_sum_k_sizes = obj'.m_loop_sum_k_sizes := by
      rw [hq1]; rfl
    rw [qsk]
    rcases foldlM_add_dim_sum_k _ _ _ _ _ pst qst hty hsz hk pfold qfold with h3 | ⟨h3, _⟩
    · rw [h3, psk]
    · rw [h3, hq]
  have e2 : obj'' = obj' := by
    have fl : a2 = obj'.m_cpx_stride_in_left_bytes := by rw [← el, hobj2]
    have fr : b2 = obj'.m_cpx_stride_in_right_bytes := by rw [← er, hobj2]
    have fa : c2 = obj'.m_cpx_stride_out_aux_bytes := by rw [← ea, hobj2]
    have fo : d2 = obj'.m_cpx_stride_out_bytes := by rw [← eo, hobj2]
    have fk : sk2 = obj'.m_loop_sum_k_sizes := by rw [← esk, hobj2]
    rw [hobj2, fl, fr, fa, fo, fk, hobj]
    rfl
  rw [h2, e2]

/-! ## Output pointers of the tasks -/

theorem out_ptr_of_mem_touch_block (pa po : Int) (ms : List (Int × Int)) (c : kernel_call)
    (h : c ∈ touch_block pa po ms) : out_ptr c = po := by
  unfold touch_block at h
  rcases List.mem_cons.1 h with rfl | h
  · rfl
  · rcases List.mem_append.1 h with h | h
    · obtain ⟨m, _, rfl⟩ := List.mem_map.1 h
      rfl
    · rw [List.mem_singleton] at h
      subst h
      rfl

/-- Every call of a task on a nest compiled without packing has the output pointer of an index
tuple of the C, M, N ranges of the task. -/
theorem out_ptr_of_mem_call_trace (obj obj' : ContractionLoops) (hp : obj.m_packing = none)
    (ha : types_agree obj) (h : compile obj = some (err_t.SUCCESS, obj'))
    (hne : num_loops_of obj ≠ 0) (hk0 : k_stride_out_zero obj) (t : Nat) (pl pr pa po : Int)
    (c : kernel_call) (hc : c ∈ call_trace obj' t 0 pl pr pa po) :
    ∃ i ∈ box ((task_ranges obj' t).take (non_k_dims obj).length),
      out_ptr c = po + out_offset obj i := by
  rw [call_trace_visits obj obj' hp ha h hne hk0] at hc
  obtain ⟨i, hi, hmem⟩ := List.mem_flatMap.1 hc
  unfold visit_calls at hmem
  exact ⟨i, hi, out_ptr_of_mem_touch_block _ _ _ c hmem⟩

/-! ## The loop nest with packing as a recursion over the remaining loops -/

theorem packing_loops_from_lt (obj : ContractionLoops) (t i : Nat) (h : i < obj.m_num_loops) :
    packing_loops_from obj t i
      = (i, obj.m_loop_dim_type.getD i dim_t.UNDEFINED_DIM, loop_at obj t i)
        :: packing_loops_from obj t (i + 1) := by
  unfold packing_loops_from
  have e : obj.m_num_loops - i = (obj.m_num_loops - (i + 1)) + 1 := by omega
  rw [e, List.range'_succ, List.map_cons]

theorem packing_loops_from_ge (obj : ContractionLoops) (t i : Nat)
    (h : obj.m_num_loops ≤ i) : packing_loops_from obj t i = [] := by
  unfold packing_loops_from
  have e : obj.m_num_loops - i = 0 := by omega
  rw [e]; rfl

/-- The method `contract_iter_packing` from loop `i` on is the nest with packing over the
loops `i, ..., m_num_loops - 1`. -/
theorem contract_iter_packing_eq_nest_run {σ : Type} (obj : ContractionLoops)
    (kern : Kernels σ) (pack : PackingKernels σ) (t : Nat) (n : Nat) :
    ∀ (i : Nat), i + n + 1 = obj.m_num_loops → ∀ (k pl pr pa po : Int) (s : σ),
      contract_iter_packing obj kern pack t i k pl pr pa po s
        = packing_nest_run kern pack obj.m_id_packing_loop_left obj.m_id_packing_loop_right
            obj.m_loop_sum_k_sizes (packing_loops_from obj t i) k pl pr pa po s := by
  induction n with
  | zero =>
    intro i hi k pl pr pa po s
    have h1 : ¬ (i + 1 < obj.m_num_loops) := by omega
    rw [contract_iter_packing, packing_loops_from_lt obj t i (by omega),
      packing_loops_from_ge obj t (i + 1) (by omega)]
    simp only [h1, dite_false, packing_nest_run, loop_at]
  | succ n ih =>
    intro i hi k pl pr pa po s
    have h1 : i + 1 < obj.m_num_loops := by omega
    rw [contract_iter_packing, packing_loops_from_lt obj t i (by omega)]
    simp only [h1, dite_true, packing_nest_run, loop_at]
    simp only [ih (i + 1) (by omega), loop_at]

/-- The calls of `contract_iter_packing` from the outermost loop, by the nest over the list of
loops. -/
theorem packing_call_trace_eq (obj : ContractionLoops) (t : Nat) (h : 0 < obj.m_num_loops)
    (pl pr pa po : Int) :
    packing_call_trace obj t pl pr pa po
      = packing_nest_run trace_kernels idle_packing obj.m_id_packing_loop_left
          obj.m_id_packing_loop_right obj.m_loop_sum_k_sizes (packing_loops_from obj t 0) 0
          pl pr pa po [] := by
  unfold packing_call_trace
  exact contract_iter_packing_eq_nest_run obj trace_kernels idle_packing t
    (obj.m_num_loops - 1) 0 (by omega) 0 pl pr pa po []

/-! ## The loops marked `EVERY_ITER` -/

/-- A loop that the loop of `compile` marks `EVERY_ITER` is not a K loop, and the K loops
counted before it are as many as there are K dimensions. -/
theorem marks_every_iter_count (cbm numk : Nat) (tys : List dim_t) :
    ∀ (a b : Nat) (f : Bool) (l : Nat),
      (marks cbm numk a b f tys)[l]? = some touch_t.EVERY_ITER →
      (∃ ty, tys[l]? = some ty ∧ ty ≠ dim_t.K)
      ∧ b + (tys.take l).count dim_t.K = numk := by
  induction tys with
  | nil =>
    intro a b f l h
    simp [marks] at h
  | cons ty tys ih =>
    intro a b f l h
    rw [marks] at h
    by_cases hty : ty = dim_t.K
    · rw [if_pos hty] at h
      cases l with
      | zero =>
        exfalso
        split at h <;> simp at h
      | succ l =>
        have h1 : (marks cbm numk a (b + 1) (if a = cbm ∧ f = false then true else f)
            tys)[l]? = some touch_t.EVERY_ITER := by
          split at h
          · rename_i hc
            rw [if_pos hc]
            simpa using h
          · rename_i hc
            rw [if_neg hc]
            simpa using h
        obtain ⟨hx, hcnt⟩ := ih _ _ _ _ h1
        refine ⟨by simpa using hx, ?_⟩
        rw [List.take_succ_cons, List.count_cons, hty]
        simp only [beq_self_eq_true, if_true]
        omega
    · rw [if_neg hty] at h
      cases l with
      | zero =>
        refine ⟨⟨ty, by simp, hty⟩, ?_⟩
        split at h
        · rename_i hc
          simp only [List.take_zero, List.count_nil, Nat.add_zero]
          exact hc.2
        · simp at h
      | succ l =>
        have h1 : (marks cbm numk (a + 1) b
            (if a + 1 = cbm ∧ b = numk then true else f) tys)[l]?
            = some touch_t.EVERY_ITER := by
          split at h
          · rename_i hc
            rw [if_pos hc]
            simpa using h
          · rename_i hc
            rw [if_neg hc]
            simpa using h
        obtain ⟨hx, hcnt⟩ := ih _ _ _ _ h1
        refine ⟨by simpa using hx, ?_⟩
        rw [List.take_succ_cons, List.count_cons]
        have hne : (ty == dim_t.K) = false := by simpa using hty
        rw [hne]
        simpa using hcnt

/-- When the type map agrees with the id lists and the dimensions of the nest are a
permutation of the C, M, N dimensions that become loops and the K dimensions, the nest has as
many K loops as there are K dimensions. -/
theorem count_k_nest (obj : ContractionLoops) (ha : types_agree obj)
    (hperm : (nest_dims obj).Perm (non_k_dims obj ++ obj.m_dim_ids_k)) :
    ((nest_dims obj).map (dim_type_of obj)).count dim_t.K = obj.m_dim_ids_k.length := by
  rw [(hperm.map (dim_type_of obj)).count_eq, List.map_append, List.count_append]
  have h1 : ((non_k_dims obj).map (dim_type_of obj)).count dim_t.K = 0 := by
    rw [List.count_eq_zero]
    intro hm
    obtain ⟨d, hd, he⟩ := List.mem_map.1 hm
    exact type_non_k_dims obj ha d hd he
  have h2 : (obj.m_dim_ids_k.map (dim_type_of obj)).count dim_t.K
      = (obj.m_dim_ids_k.map (dim_type_of obj)).length := by
    rw [List.count_eq_length]
    intro ty hty
    obtain ⟨d, hd, rfl⟩ := List.mem_map.1 hty
    exact (type_k_dims obj ha d hd).symm
  rw [h1, h2, List.length_map, Nat.zero_add]

/-- No K occurs at or after a position before which all K of a list are counted. -/
theorem no_k_from (tys : List dim_t) (l : Nat)
    (h : (tys.take l).count dim_t.K = tys.count dim_t.K) :
    ∀ j, l ≤ j → tys[j]? ≠ some dim_t.K := by
  intro j hj hk
  have hsplit : tys.count dim_t.K
      = (tys.take l).count dim_t.K + (tys.drop l).count dim_t.K := by
    rw [← List.count_append, List.take_append_drop]
  have h0 : (tys.drop l).count dim_t.K = 0 := by omega
  rw [List.count_eq_zero] at h0
  apply h0
  have hd : (tys.drop l)[j - l]? = some dim_t.K := by
    rw [List.getElem?_drop]
    have : l + (j - l) = j := by omega
    rw [this]
    exact hk
  exact List.getElem?_mem hd

/-! ## The loop order with packing dimensions -/

/-- The loop order of `compile` for packing dimensions that are a duplicate-free subset of the
dimensions that become loops: the other dimensions in the order C, M, N, K, then the packing
dimensions. -/
theorem nest_dims_packing_order (obj : ContractionLoops) (hP : (packing_dims obj).Nodup)
    (hsub : ∀ d ∈ packing_dims obj, d ∈ non_k_dims obj ++ obj.m_dim_ids_k) :
    nest_dims obj
      = (non_k_dims obj ++ obj.m_dim_ids_k).filter (fun d => !((packing_dims obj).contains d))
        ++ packing_dims obj := by
  have hld : loop_dims (set_cpx_outer_c obj) (loop_dim_ids_c (set_cpx_outer_c obj))
      = (non_k_dims obj ++ obj.m_dim_ids_k).filter
          (fun d => !((packing_dims obj).contains d)) ++ packing_dims obj := by
    rw [loop_dims_eq_filter]
    rfl
  have hn : num_loops_of obj = (non_k_dims obj ++ obj.m_dim_ids_k).length := by
    rw [num_loops_of_eq_add, List.length_append]
  have hsp : (packing_dims obj).Subperm
      ((non_k_dims obj ++ obj.m_dim_ids_k).filter (fun d => (packing_dims obj).contains d)) := by
    apply List.subperm_of_subset hP
    intro d hd
    rw [List.mem_filter]
    exact ⟨hsub d hd, by simpa using hd⟩
  have hlen := hsp.length_le
  have hsplit := (List.filter_append_perm (fun d => (packing_dims obj).contains d)
    (non_k_dims obj ++ obj.m_dim_ids_k)).length_eq
  rw [List.length_append] at hsplit
  unfold nest_dims
  rw [hld, hn]
  apply List.take_of_length_le
  rw [List.length_append]
  omega

/-! ## The auxiliary pointer of the touch calls -/

/-- A null auxiliary pointer stays null down the loops. -/
theorem aux_ptr_null (t : List Int) : ∀ (ss : List Int), aux_ptr 0 t ss = 0 := by
  induction t with
  | nil => intro ss; cases ss <;> rfl
  | cons it t ih =>
    intro ss
    cases ss with
    | nil => rfl
    | cons st ss =>
      rw [aux_ptr]
      simp only [ne_eq, not_true_eq_false, if_false, mul_zero, add_zero]
      exact ih ss

/-- With strides 0 the auxiliary pointer stays the base pointer. -/
theorem aux_ptr_zero_strides (t : List Int) :
    ∀ (ss : List Int) (pa : Int), (∀ s ∈ ss, s = 0) → aux_ptr pa t ss = pa := by
  induction t with
  | nil => intro ss pa _; cases ss <;> rfl
  | cons it t ih =>
    intro ss pa h
    cases ss with
    | nil => rfl
    | cons st ss =>
      rw [aux_ptr, h st (List.mem_cons_self _ _)]
      simp only [mul_zero, zero_mul, add_zero]
      exact ih ss pa (fun s hs => h s (List.mem_cons_of_mem _ hs))

/-- When the pointer handed down is not null before any of the loops, the auxiliary pointer is
the base pointer plus the offset of the indices. -/
theorem aux_ptr_of_nonnull (t : List Int) :
    ∀ (ss : List Int) (pa : Int),
      (∀ m, m < t.length → pa + dot (t.take m) (ss.take m) ≠ 0) →
      aux_ptr pa t ss = pa + dot t ss := by
  induction t with
  | nil => intro ss pa _; cases ss <;> simp [aux_ptr, dot]
  | cons it t ih =>
    intro ss pa h
    cases ss with
    | nil => simp [aux_ptr, dot]
    | cons st ss =>
      have hpa : pa ≠ 0 := by
        have := h 0 (by simp)
        simpa [dot] using this
      rw [aux_ptr, if_pos hpa, mul_one, dot_cons]
      rw [ih ss (pa + it * st) (by
        intro m hm
        have := h (m + 1) (by simp only [List.length_cons]; omega)
        rw [List.take_succ_cons, List.take_succ_cons, dot_cons] at this
        intro e
        exact this (by linarith))]
      ring

/-- Every touch call of a nest belongs to a marked loop `j` and has the pointers reached with
the indices of the loops around the call: the loops before `j` for `BEFORE_AFTER_ITER`, the
loops up to `j` for `EVERY_ITER`. -/
theorem nest_trace_touch (ds : List loop_desc) :
    ∀ (pl pr pa po : Int) (c : kernel_call), c ∈ nest_trace ds pl pr pa po →
      ∀ (a o : Int), touch_args c = some (a, o) →
      ∃ (j n : Nat) (i : List Int) (d : loop_desc), ds[j]? = some d
        ∧ ((d.touch = touch_t.BEFORE_AFTER_ITER ∧ n = j)
            ∨ (d.touch = touch_t.EVERY_ITER ∧ n = j + 1))
        ∧ i ∈ box ((ds.take n).map (fun x => (x.first, x.size)))
        ∧ a = aux_ptr pa i ((ds.take n).map (fun x => x.stride_out_aux))
        ∧ o = po + dot i ((ds.take n).map (fun x => x.stride_out)) := by
  induction ds with
  | nil =>
    intro pl pr pa po c hc a o ht
    simp only [nest_trace, List.mem_singleton] at hc
    rw [hc] at ht
    cases ht
  | cons d ds ih =>
    intro pl pr pa po c hc a o ht
    have hbox1 : ∀ it, it ∈ for_range d.first d.size →
        [it] ∈ box (((d :: ds).take 1).map (fun x => (x.first, x.size))) := by
      intro it hit
      simpa [box] using hit
    have hbase : ∀ (hb : d.touch = touch_t.BEFORE_AFTER_ITER), (a, o) = (pa, po) →
        ∃ (j n : Nat) (i : List Int) (d1 : loop_desc), (d :: ds)[j]? = some d1
        ∧ ((d1.touch = touch_t.BEFORE_AFTER_ITER ∧ n = j)
            ∨ (d1.touch = touch_t.EVERY_ITER ∧ n = j + 1))
        ∧ i ∈ box (((d :: ds).take n).map (fun x => (x.first, x.size)))
        ∧ a = aux_ptr pa i (((d :: ds).take n).map (fun x => x.stride_out_aux))
        ∧ o = po + dot i (((d :: ds).take n).map (fun x => x.stride_out)) := by
      intro hb he
      simp only [Prod.mk.injEq] at he
      refine ⟨0, 0, [], d, by simp, Or.inl ⟨hb, rfl⟩, ?_, ?_, ?_⟩
      · simp [box]
      · rw [he.1]; simp [aux_ptr]
      · rw [he.2]; simp [dot]
    have hevery : ∀ (hb : d.touch = touch_t.EVERY_ITER) (it : Int),
        it ∈ for_range d.first d.size →
        (a, o) = (pa + it * d.stride_out_aux * (if pa ≠ 0 then 1 else 0),
          po + it * d.stride_out) →
        ∃ (j n : Nat) (i : List Int) (d1 : loop_desc), (d :: ds)[j]? = some d1
        ∧ ((d1.touch = touch_t.BEFORE_AFTER_ITER ∧ n = j)
            ∨ (d1.touch = touch_t.EVERY_ITER ∧ n = j + 1))
        ∧ i ∈ box (((d :: ds).take n).map (fun x => (x.first, x.size)))
        ∧ a = aux_ptr pa i (((d :: ds).take n).map (fun x => x.stride_out_aux))
        ∧ o = po + dot i (((d :: ds).take n).map (fun x => x.stride_out)) := by
      intro hb it hit he
      simp only [Prod.mk.injEq] at he
      refine ⟨0, 1, [it], d, by simp, Or.inr ⟨hb, rfl⟩, hbox1 it hit, ?_, ?_⟩
      · rw [he.1]; simp [aux_ptr]
      · rw [he.2]; simp [dot]
    simp only [nest_trace, List.mem_append, List.mem_flatMap] at hc
    rcases hc with (hc | ⟨it, hit, hc⟩) | hc
    · by_cases hb : d.touch = touch_t.BEFORE_AFTER_ITER
      · rw [if_pos hb, List.mem_singleton] at hc
        rw [hc] at ht
        simp only [touch_args, Option.some.injEq] at ht
        exact hbase hb ht.symm
      · rw [if_neg hb] at hc
        cases hc
    · rcases hc with (hc | hc) | hc
      · by_cases hb : d.touch = touch_t.EVERY_ITER
        · rw [if_pos hb, List.mem_singleton] at hc
          rw [hc] at ht
          simp only [touch_args, Option.some.injEq] at ht
          exact hevery hb it hit ht.symm
        · rw [if_neg hb] at hc
          cases hc
      · obtain ⟨j, n, i, d1, hj, hmark, hi, ha, ho⟩ := ih _ _ _ _ c hc a o ht
        refine ⟨j + 1, n + 1, it :: i, d1, by simpa using hj, ?_, ?_, ?_, ?_⟩
        · rcases hmark with ⟨h1, h2⟩ | ⟨h1, h2⟩
          · exact Or.inl ⟨h1, by omega⟩
          · exact Or.inr ⟨h1, by omega⟩
        · simp only [List.take_succ_cons, List.map_cons, box, List.mem_flatMap, List.mem_map]
          exact ⟨it, hit, i, hi, rfl⟩
        · rw [ha]
          simp only [List.take_succ_cons, List.map_cons, aux_ptr]
        · rw [ho]
          simp only [List.take_succ_cons, List.map_cons, dot_cons]
          ring
      · by_cases hb : d.touch = touch_t.EVERY_ITER
        · rw [if_pos hb, List.mem_singleton] at hc
          rw [hc] at ht
          simp only [touch_args, Option.some.injEq] at ht
          exact hevery hb it hit ht.symm
        · rw [if_neg hb] at hc
          cases hc
    · by_cases hb : d.touch = touch_t.BEFORE_AFTER_ITER
      · rw [if_pos hb, List.mem_singleton] at hc
        rw [hc] at ht
        simp only [touch_args, Option.some.injEq] at ht
        exact hbase hb ht.symm
      · rw [if_neg hb] at hc
        cases hc

theorem loops_from_take_aux (obj : ContractionLoops) (t n : Nat) (hn : n ≤ obj.m_num_loops) :
    ((loops_from obj t 0).take n).map (fun x => x.stride_out_aux) = aux_strides_upto obj n := by
  rw [loops_from_zero, ← List.map_take, List.take_range, Nat.min_eq_left hn, List.map_map]
  rfl

theorem loops_from_take_ranges (obj : ContractionLoops) (t n : Nat) :
    ((loops_from obj t 0).take n).map (fun x => (x.first, x.size))
      = (task_ranges obj t).take n := by
  rw [← loops_from_ranges, List.map_take]

/-! ## The calls of the nest with packing -/

theorem contract_iter_packing_zero {σ : Type} (obj : ContractionLoops) (kern : Kernels σ)
    (pack : PackingKernels σ) (h : 0 < obj.m_num_loops) :
    ∀ (t : Nat) (k pl pr pa po : Int) (s : σ),
      contract_iter_packing obj kern pack t 0 k pl pr pa po s
        = packing_nest_run kern pack obj.m_id_packing_loop_left obj.m_id_packing_loop_right
            obj.m_loop_sum_k_sizes (packing_loops_from obj t 0) k pl pr pa po s := by
  intro t k pl pr pa po s
  exact contract_iter_packing_eq_nest_run obj kern pack t (obj.m_num_loops - 1) 0 (by omega)
    k pl pr pa po s

/-- A fold whose state carries a counter that every step raises by `c`. -/
theorem foldl_counter (H : Int → Int → List kernel_call) (c f : Int) :
    ∀ (n : Nat) (tr : List kernel_call) (k : Int),
      ((List.range n).map (fun (j : Nat) => f + (j : Int))).foldl
          (fun (acc : List kernel_call × Int) (l_it : Int) =>
            (acc.1 ++ H acc.2 l_it, acc.2 + c)) (tr, k)
        = (tr ++ ((List.range n).map (fun (j : Nat) => f + (j : Int))).flatMap
            (fun l_it => H (k + c * (l_it - f)) l_it), k + c * n) := by
  intro n
  induction n with
  | zero => intro tr k; simp
  | succ n ih =>
    intro tr k
    rw [List.range_succ, List.map_append, List.foldl_append, ih, List.flatMap_append]
    simp only [List.map_cons, List.map_nil, List.foldl_cons, List.foldl_nil,
      List.flatMap_cons, List.flatMap_nil, List.append_nil, Prod.mk.injEq]
    refine ⟨?_, ?_⟩
    · rw [List.append_assoc]
      congr 3
      ring
    · push_cast
      ring

/-- With recording kernels and packing kernels that return their argument the nest with
packing appends its calls to the record. -/
theorem packing_nest_run_trace (il ir sumk : Int) (ds : List (Nat × dim_t × loop_desc)) :
    ∀ (k pl pr pa po : Int) (tr : List kernel_call),
      packing_nest_run trace_kernels idle_packing il ir sumk ds k pl pr pa po tr
        = tr ++ packing_nest_trace sumk ds k pl pr pa po := by
  induction ds with
  | nil =>
    intro k pl pr pa po tr
    rfl
  | cons d ds ih =>
    intro k pl pr pa po tr
    have hbody : ∀ (acc : List kernel_call × Int) (l_it : Int),
        ((if d.2.2.touch = touch_t.EVERY_ITER ∧ sumk = k then
            trace_kernels.kernel_last_touch
              (pa + l_it * d.2.2.stride_out_aux * (if pa ≠ 0 then 1 else 0))
              (po + l_it * d.2.2.stride_out)
              (packing_nest_run trace_kernels idle_packing il ir sumk ds acc.2
                (pl + l_it * d.2.2.stride_left) (pr + l_it * d.2.2.stride_right)
                (pa + l_it * d.2.2.stride_out_aux * (if pa ≠ 0 then 1 else 0))
                (po + l_it * d.2.2.stride_out)
                (if d.2.2.touch = touch_t.EVERY_ITER ∧ k = 0 then
                  trace_kernels.kernel_first_touch
                    (pa + l_it * d.2.2.stride_out_aux * (if pa ≠ 0 then 1 else 0))
                    (po + l_it * d.2.2.stride_out) acc.1
                else acc.1))
          else
            packing_nest_run trace_kernels idle_packing il ir sumk ds acc.2
              (pl + l_it * d.2.2.stride_left) (pr + l_it * d.2.2.stride_right)
              (pa + l_it * d.2.2.stride_out_aux * (if pa ≠ 0 then 1 else 0))
              (po + l_it * d.2.2.stride_out)
              (if d.2.2.touch = touch_t.EVERY_ITER ∧ k = 0 then
                trace_kernels.kernel_first_touch
                  (pa + l_it * d.2.2.stride_out_aux * (if pa ≠ 0 then 1 else 0))
                  (po + l_it * d.2.2.stride_out) acc.1
              else acc.1)) : List kernel_call)
        = acc.1 ++
          ((if d.2.2.touch = touch_t.EVERY_ITER ∧ k = 0 then
              [kernel_call.first_touch
                (pa + l_it * d.2.2.stride_out_aux * (if pa ≠ 0 then 1 else 0))
                (po + l_it * d.2.2.stride_out)] else [])
            ++ packing_nest_trace sumk ds acc.2
                (pl + l_it * d.2.2.stride_left) (pr + l_it * d.2.2.stride_right)
                (pa + l_it * d.2.2.stride_out_aux * (if pa ≠ 0 then 1 else 0))
                (po + l_it * d.2.2.stride_out)
            ++ (if d.2.2.touch = touch_t.EVERY_ITER ∧ sumk = k then
              [kernel_call.last_touch
                (pa + l_it * d.2.2.stride_out_aux * (if pa ≠ 0 then 1 else 0))
                (po + l_it * d.2.2.stride_out)] else [])) := by
      intro acc l_it
      rw [ih]
      by_cases he : d.2.2.touch = touch_t.EVERY_ITER
      · simp only [he, true_and]
        split_ifs <;> simp [trace_kernels]
      · simp only [he, false_and, if_false, List.nil_append, List.append_nil]
    have hpl : ∀ (p : Int) (s : List kernel_call),
        (idle_packing : PackingKernels (List kernel_call)).kernel_pack_left p s = (p, s) :=
      fun _ _ => rfl
    have hpr : ∀ (p : Int) (s : List kernel_call),
        (idle_packing : PackingKernels (List kernel_call)).kernel_pack_right p s = (p, s) :=
      fun _ _ => rfl
    simp only [packing_nest_run, packing_nest_trace, hpl, hpr, ite_self, hbody]
    unfold for_range
    rw [foldl_counter (fun c l_it =>
      ((if d.2.2.touch = touch_t.EVERY_ITER ∧ k = 0 then
          [kernel_call.first_touch
            (pa + l_it * d.2.2.stride_out_aux * (if pa ≠ 0 then 1 else 0))
            (po + l_it * d.2.2.stride_out)] else [])
        ++ packing_nest_trace sumk ds c
            (pl + l_it * d.2.2.stride_left) (pr + l_it * d.2.2.stride_right)
            (pa + l_it * d.2.2.stride_out_aux * (if pa ≠ 0 then 1 else 0))
            (po + l_it * d.2.2.stride_out)
        ++ (if d.2.2.touch = touch_t.EVERY_ITER ∧ sumk = k then
          [kernel_call.last_touch
            (pa + l_it * d.2.2.stride_out_aux * (if pa ≠ 0 then 1 else 0))
            (po + l_it * d.2.2.stride_out)] else []))) (if d.2.1 = dim_t.K then 1 else 0)]
    have hcount : ∀ l_it : Int, k + (if d.2.1 = dim_t.K then (1 : Int) else 0)
        * (l_it - d.2.2.first) = k + (if d.2.1 = dim_t.K then l_it - d.2.2.first else 0) := by
      intro l_it
      split <;> simp
    simp only [hcount]
    by_cases hb : d.2.2.touch = touch_t.BEFORE_AFTER_ITER
    · simp only [hb, if_true, trace_kernels, List.append_assoc]
    · simp only [hb, if_false, List.append_nil, List.nil_append]

/-- The calls of `contract_iter_packing` from the outermost loop, as the calls of the nest
with packing over the list of loops. -/
theorem packing_call_trace_eq_nest_trace (obj : ContractionLoops) (t : Nat)
    (h : 0 < obj.m_num_loops) (pl pr pa po : Int) :
    packing_call_trace obj t pl pr pa po
      = packing_nest_trace obj.m_loop_sum_k_sizes (packing_loops_from obj t 0) 0 pl pr pa po := by
  rw [packing_call_trace_eq obj t h, packing_nest_run_trace, List.nil_append]

/-! ## The sum of the K sizes stored by `compile` -/

theorem compile_add_dim_locals (cbm : Nat) (lv : compile_locals) (o : ContractionLoops)
    (d : Int) (st : compile_locals × ContractionLoops)
    (h : compile_add_dim cbm (lv, o) d = some st) :
    st.2.m_dim_type = o.m_dim_type ∧ st.2.m_sizes = o.m_sizes
    ∧ st.2.m_dim_ids_k = o.m_dim_ids_k
    ∧ ∀ (ps : List (dim_t × Int)),
        sum_k_marks cbm o.m_dim_ids_k.length lv.l_count_cbm lv.l_count_k lv.l_size_all_k
            o.m_loop_sum_k_sizes ((dim_type_of o d, dim_size_of o d) :: ps)
          = sum_k_marks cbm o.m_dim_ids_k.length st.1.l_count_cbm st.1.l_count_k
              st.1.l_size_all_k st.2.m_loop_sum_k_sizes ps := by
  unfold compile_add_dim at h
  cases hty : o.m_dim_type.lookup d with
  | none => simp [hty] at h
  | some ty =>
    cases hsz : o.m_sizes.lookup d with
    | none => simp [hty, hsz] at h
    | some sz =>
      simp only [hty, hsz, Option.bind_eq_bind, Option.some_bind, Option.pure_def,
        Option.some.injEq] at h
      subst h
      refine ⟨rfl, rfl, rfl, ?_⟩
      intro ps
      simp only [dim_type_of, dim_size_of, hty, hsz, Option.getD_some]
      rw [sum_k_marks]
      by_cases hk : ty = dim_t.K
      · by_cases hc : lv.l_count_cbm = cbm ∧ lv.l_found_first_last_touch_loop = false
        · simp only [hk, hc, and_self, if_true]
        · simp only [hk, hc, if_true, if_false]
      · by_cases hc : lv.l_count_cbm + 1 = cbm ∧ lv.l_count_k = o.m_dim_ids_k.length
        · simp only [hk, hc, and_self, if_true, if_false]
        · simp only [hk, hc, if_false]

theorem foldlM_add_dim_sum_k_marks (cbm : Nat) (ds : List Int) :
    ∀ (lv : compile_locals) (o : ContractionLoops) (st : compile_locals × ContractionLoops),
      ds.foldlM (compile_add_dim cbm) (lv, o) = some st →
      st.2.m_loop_sum_k_sizes
        = sum_k_marks cbm o.m_dim_ids_k.length lv.l_count_cbm lv.l_count_k lv.l_size_all_k
            o.m_loop_sum_k_sizes (ds.map (fun d => (dim_type_of o d, dim_size_of o d))) := by
  induction ds with
  | nil =>
    intro lv o st h
    simp only [List.foldlM_nil, Option.pure_def, Option.some.injEq] at h
    subst h
    rfl
  | cons d ds ih =>
    intro lv o st h
    rw [List.foldlM_cons] at h
    cases h1 : compile_add_dim cbm (lv, o) d with
    | none => simp [h1] at h
    | some st1 =>
      simp only [h1, Option.bind_eq_bind, Option.some_bind] at h
      obtain ⟨e1, e2, e3, hs⟩ := compile_add_dim_locals cbm lv o d st1 h1
      have hih := ih st1.1 st1.2 st h
      have hty : ∀ x, dim_type_of st1.2 x = dim_type_of o x := by
        intro x; unfold dim_type_of; rw [e1]
      have hsz : ∀ x, dim_size_of st1.2 x = dim_size_of o x := by
        intro x; unfold dim_size_of; rw [e2]
      simp only [hty, hsz, e3] at hih
      rw [hih, List.map_cons, hs]

/-- The member `m_loop_sum_k_sizes` after a successful `compile`. -/
theorem compile_success_sum_k (obj obj' : ContractionLoops)
    (h : compile obj = some (err_t.SUCCESS, obj')) :
    obj'.m_loop_sum_k_sizes
      = sum_k_marks (num_dim_cbm (set_cpx_outer_c obj)) obj.m_dim_ids_k.length 0 0 0
          obj.m_loop_sum_k_sizes
          ((nest_dims obj).map (fun d => (dim_type_of obj d, dim_size_of obj d))) := by
  obtain ⟨o1, st, _, hd, hfold, _, _, _, _, _, hsum⟩ := compile_success_frame obj obj' h
  have ho1 := derive_cpx_strides_eq _ _ hd
  have hs := foldlM_add_dim_sum_k_marks _ _ _ _ _ hfold
  rw [hsum, hs, ho1]
  rfl

/-- Over loops that are not K loops the stored sum is the sum `l_size_all_k` the loop starts
with when a loop gets the marker `EVERY_ITER`, and the old value of the member otherwise. -/
theorem sum_k_marks_non_k (cbm numk : Nat) (ps : List (dim_t × Int)) :
    ∀ (c k : Nat) (f : Bool) (sz cur : Int), (∀ p ∈ ps, p.1 ≠ dim_t.K) →
      sum_k_marks cbm numk c k sz cur ps
        = if touch_t.EVERY_ITER ∈ marks cbm numk c k f (ps.map Prod.fst) then sz else cur := by
  induction ps with
  | nil => intro c k f sz cur _; simp [sum_k_marks, marks]
  | cons p ps ih =>
    intro c k f sz cur hp
    have hp1 : p.1 ≠ dim_t.K := hp p (List.mem_cons_self _ _)
    have hps : ∀ q ∈ ps, q.1 ≠ dim_t.K := fun q hq => hp q (List.mem_cons_of_mem _ hq)
    rw [sum_k_marks, List.map_cons, marks, if_neg hp1, if_neg hp1]
    by_cases hc : c + 1 = cbm ∧ k = numk
    · rw [if_pos hc, if_pos hc, ih (c + 1) k true sz sz hps]
      simp
    · rw [if_neg hc, if_neg hc, ih (c + 1) k f sz cur hps]
      simp

/-! ## The nest with packing on a nest in plain order -/

theorem foldl_pair_fst {σ α : Type} (I : Int → Prop) (F : σ × Int → α → σ × Int)
    (G : σ → α → σ)
    (hF : ∀ (a : σ) (k : Int) (x : α), I k → (F (a, k) x).1 = G a x ∧ I (F (a, k) x).2)
    (l : List α) :
    ∀ (s : σ) (k : Int), I k → (l.foldl F (s, k)).1 = l.foldl G s := by
  induction l with
  | nil => intro s k _; rfl
  | cons x xs ih =>
    intro s k hk
    rw [List.foldl_cons, List.foldl_cons]
    obtain ⟨h1, h2⟩ := hF s k x hk
    have he : F (s, k) x = (G s x, (F (s, k) x).2) := by
      rw [← h1]
    rw [he]
    exact ih (G s x) _ h2

/-- When no packing loop id is the id of a loop and the guards of the K counter cannot fail,
because no loop has the marker `EVERY_ITER` or because the counter and the stored sum are 0
and no loop is a K loop, the nest with packing is the nest without packing. -/
theorem packing_nest_run_eq_nest_run {σ : Type} (kern : Kernels σ) (pack : PackingKernels σ)
    (il ir sumk : Int) (ds : List (Nat × dim_t × loop_desc)) :
    ∀ (k pl pr pa po : Int) (s : σ), (∀ d ∈ ds, il ≠ (d.1 : Int) ∧ ir ≠ (d.1 : Int)) →
      ((∀ d ∈ ds, d.2.2.touch ≠ touch_t.EVERY_ITER)
        ∨ (k = 0 ∧ sumk = 0 ∧ ∀ d ∈ ds, d.2.1 ≠ dim_t.K)) →
      packing_nest_run kern pack il ir sumk ds k pl pr pa po s
        = nest_run kern (ds.map (fun d => d.2.2)) pl pr pa po s := by
  induction ds with
  | nil => intro k pl pr pa po s _ _; rfl
  | cons d ds ih =>
    intro k pl pr pa po s hid hc
    obtain ⟨hil, hir⟩ := hid d (List.mem_cons_self _ _)
    have hids : ∀ x ∈ ds, il ≠ (x.1 : Int) ∧ ir ≠ (x.1 : Int) :=
      fun x hx => hid x (List.mem_cons_of_mem _ hx)
    have hguard : (d.2.2.touch = touch_t.EVERY_ITER ∧ k = 0 ↔ d.2.2.touch = touch_t.EVERY_ITER)
        ∧ (d.2.2.touch = touch_t.EVERY_ITER ∧ sumk = k
            ↔ d.2.2.touch = touch_t.EVERY_ITER) := by
      rcases hc with h1 | ⟨h1, h2, _⟩
      · have := h1 d (List.mem_cons_self _ _)
        exact ⟨⟨fun h => h.1, fun h => absurd h this⟩, ⟨fun h => h.1, fun h => absurd h this⟩⟩
      · exact ⟨⟨fun h => h.1, fun h => ⟨h, h1⟩⟩, ⟨fun h => h.1, fun h => ⟨h, by rw [h1, h2]⟩⟩⟩
    simp only [packing_nest_run, nest_run, List.map_cons, hil, hir, if_false]
    have hfold : ∀ (s1 : σ),
        ((for_range d.2.2.first d.2.2.size).foldl (fun (acc : σ × Int) (l_it : Int) =>
          ((if d.2.2.touch = touch_t.EVERY_ITER ∧ sumk = k then
              kern.kernel_last_touch
                (pa + l_it * d.2.2.stride_out_aux * (if pa ≠ 0 then 1 else 0))
                (po + l_it * d.2.2.stride_out)
                (packing_nest_run kern pack il ir sumk ds acc.2
                  (pl + l_it * d.2.2.stride_left) (pr + l_it * d.2.2.stride_right)
                  (pa + l_it * d.2.2.stride_out_aux * (if pa ≠ 0 then 1 else 0))
                  (po + l_it * d.2.2.stride_out)
                  (if d.2.2.touch = touch_t.EVERY_ITER ∧ k = 0 then
                    kern.kernel_first_touch
                      (pa + l_it * d.2.2.stride_out_aux * (if pa ≠ 0 then 1 else 0))
                      (po + l_it * d.2.2.stride_out) acc.1
                  else acc.1))
            else
              packing_nest_run kern pack il ir sumk ds acc.2
                (pl + l_it * d.2.2.stride_left) (pr + l_it * d.2.2.stride_right)
                (pa + l_it * d.2.2.stride_out_aux * (if pa ≠ 0 then 1 else 0))
                (po + l_it * d.2.2.stride_out)
                (if d.2.2.touch = touch_t.EVERY_ITER ∧ k = 0 then
                  kern.kernel_first_touch
                    (pa + l_it * d.2.2.stride_out_aux * (if pa ≠ 0 then 1 else 0))
                    (po + l_it * d.2.2.stride_out) acc.1
                else acc.1)),
            acc.2 + (if d.2.1 = dim_t.K then 1 else 0))) (s1, k)).1
        = (for_range d.2.2.first d.2.2.size).foldl (fun (acc : σ) (l_it : Int) =>
            if d.2.2.touch = touch_t.EVERY_ITER then
              kern.kernel_last_touch
                (pa + l_it * d.2.2.stride_out_aux * (if pa ≠ 0 then 1 else 0))
                (po + l_it * d.2.2.stride_out)
                (nest_run kern (ds.map (fun d => d.2.2)) (pl + l_it * d.2.2.stride_left)
                  (pr + l_it * d.2.2.stride_right)
                  (pa + l_it * d.2.2.stride_out_aux * (if pa ≠ 0 then 1 else 0))
                  (po + l_it * d.2.2.stride_out)
                  (if d.2.2.touch = touch_t.EVERY_ITER then
                    kern.kernel_first_touch
                      (pa + l_it * d.2.2.stride_out_aux * (if pa ≠ 0 then 1 else 0))
                      (po + l_it * d.2.2.stride_out) acc
                  else acc))
            else
              nest_run kern (ds.map (fun d => d.2.2)) (pl + l_it * d.2.2.stride_left)
                (pr + l_it * d.2.2.stride_right)
                (pa + l_it * d.2.2.stride_out_aux * (if pa ≠ 0 then 1 else 0))
                (po + l_it * d.2.2.stride_out)
                (if d.2.2.touch = touch_t.EVERY_ITER then
                  kern.kernel_first_touch
                    (pa + l_it * d.2.2.stride_out_aux * (if pa ≠ 0 then 1 else 0))
                    (po + l_it * d.2.2.stride_out) acc
                else acc)) s1 := by
      intro s1
      apply foldl_pair_fst (fun c => (∀ x ∈ ds, x.2.2.touch ≠ touch_t.EVERY_ITER)
        ∨ (c = 0 ∧ sumk = 0 ∧ ∀ x ∈ ds, x.2.1 ≠ dim_t.K))
      · intro a c l_it hI
        refine ⟨?_, ?_⟩
        · simp only [hguard.1, hguard.2]
          simp only [ih c _ _ _ _ _ hids hI]
        · rcases hI with h1 | ⟨h1, h2, h3⟩
          · exact Or.inl h1
          · rcases hc with h4 | ⟨_, _, h4⟩
            · exact Or.inl (fun x hx => h4 x (List.mem_cons_of_mem _ hx))
            · have hk : d.2.1 ≠ dim_t.K := h4 d (List.mem_cons_self _ _)
              right
              refine ⟨?_, h2, h3⟩
              simp [hk, h1]
      · rcases hc with h1 | ⟨h1, h2, h3⟩
        · exact Or.inl (fun x hx => h1 x (List.mem_cons_of_mem _ hx))
        · exact Or.inr ⟨h1, h2, fun x hx => h3 x (List.mem_cons_of_mem _ hx)⟩
    rw [hfold]

theorem nest_dims_plain (obj : ContractionLoops) (hp : packing_dims obj = []) :
    nest_dims obj = non_k_dims obj ++ obj.m_dim_ids_k := by
  have h := nest_dims_packing_order obj (by rw [hp]; exact List.nodup_nil)
    (by rw [hp]; intro d hd; cases hd)
  rw [h, hp]
  simp

/-- The markers of a nest in plain order, also with a packing object that has no packing
dimension. -/
theorem markers_plain (obj : ContractionLoops) (hp : packing_dims obj = [])
    (ha : types_agree obj) :
    marks (num_dim_cbm (set_cpx_outer_c obj)) obj.m_dim_ids_k.length 0 0 false
        ((nest_dims obj).map (dim_type_of obj))
      ++ dummy_entry (num_loops_of obj) touch_t.EVERY_ITER
    = if obj.m_dim_ids_k = [] then
        List.replicate ((non_k_dims obj).length - 1) touch_t.NONE ++ [touch_t.EVERY_ITER]
      else
        List.replicate (non_k_dims obj).length touch_t.NONE
          ++ touch_t.BEFORE_AFTER_ITER
            :: List.replicate (obj.m_dim_ids_k.length - 1) touch_t.NONE := by
  have h2 := markers_no_packing { obj with m_packing := none } rfl ha
  have hn : nest_dims { obj with m_packing := none } = nest_dims obj := by
    rw [nest_dims_plain obj hp, nest_dims_eq_append { obj with m_packing := none } rfl]
    rfl
  rw [hn] at h2
  exact h2

theorem getD_ne_of_forall {α : Type} (l : List α) (i : Nat) (d x : α) (hd : d ≠ x)
    (h : ∀ y ∈ l, y ≠ x) : l.getD i d ≠ x := by
  rw [List.getD_eq_getElem?_getD]
  cases hi : l[i]? with
  | none => exact hd
  | some y => exact h y (List.getElem?_mem hi)

theorem packing_loops_from_map (obj : ContractionLoops) (t i : Nat) :
    (packing_loops_from obj t i).map (fun d => d.2.2) = loops_from obj t i := by
  unfold packing_loops_from loops_from
  rw [List.map_map]
  rfl

theorem packing_loops_from_mem (obj : ContractionLoops) (t : Nat)
    (d : Nat × dim_t × loop_desc) (h : d ∈ packing_loops_from obj t 0) :
    d.1 < obj.m_num_loops
    ∧ d.2.1 = obj.m_loop_dim_type.getD d.1 dim_t.UNDEFINED_DIM
    ∧ d.2.2.touch = obj.m_loop_first_last_touch.getD d.1 touch_t.NONE := by
  unfold packing_loops_from at h
  obtain ⟨l, hl, rfl⟩ := List.mem_map.1 h
  rw [List.mem_range'_1] at hl
  exact ⟨by omega, rfl, rfl⟩

/-! ## The loop nest on a bounded call stack with checked vector accesses -/

theorem vector_read_lt {α : Type} (v : List α) (i : Nat) (d : α) (h : i < v.length) :
    vector_read v i = Except.ok (v.getD i d) := by
  unfold vector_read
  rw [List.getD_eq_getElem?_getD, List.getElem?_eq_getElem h]
  rfl

theorem foldlM_except_ok {ε α β : Type} (f : β → α → Except ε β) (g : β → α → β) :
    ∀ (l : List α), (∀ b a, a ∈ l → f b a = Except.ok (g b a)) →
      ∀ s, l.foldlM f s = Except.ok (l.foldl g s) := by
  intro l
  induction l with
  | nil => intro _ s; rfl
  | cons a l ih =>
    intro h s
    rw [List.foldlM_cons, h s a (List.mem_cons_self _ _)]
    exact ih (fun b x hx => h b x (List.mem_cons_of_mem _ hx)) (g s a)

theorem foldlM_except_error {ε α β : Type} (f : β → α → Except ε β) (e : ε) (a : α)
    (l : List α) (s : β) (h : f s a = Except.error e) :
    (a :: l).foldlM f s = Except.error e := by
  rw [List.foldlM_cons, h]
  rfl

theorem foldlM_except_ne {ε α β : Type} (f : β → α → Except ε β) (e : ε) :
    ∀ (l : List α), (∀ b a, a ∈ l → f b a ≠ Except.error e) →
      ∀ s, l.foldlM f s ≠ Except.error e := by
  intro l
  induction l with
  | nil => intro _ s hc; cases hc
  | cons a l ih =>
    intro h s
    rw [List.foldlM_cons]
    cases hf : f s a with
    | error e2 =>
      intro hc
      apply h s a (List.mem_cons_self _ _)
      rw [hf]
      exact hc
    | ok b =>
      exact ih (fun b x hx => h b x (List.mem_cons_of_mem _ hx)) b

/-- With a frame for every loop from `i` on, the checked run gives the state of
`contract_iter`. -/
theorem contract_iter_checked_ok {σ : Type} (obj : ContractionLoops) (kern : Kernels σ)
    (t : Nat) (hv : vectors_sized obj) :
    ∀ (fuel i : Nat), i < obj.m_num_loops → obj.m_num_loops - i ≤ fuel →
      ∀ (pl pr pa po : Int) (s : σ),
        contract_iter_checked obj kern t fuel i pl pr pa po s
          = Except.ok (contract_iter obj kern t i pl pr pa po s) := by
  obtain ⟨h1, _, _, h2, h3, h4, h5⟩ := hv
  intro fuel
  induction fuel with
  | zero => intro i hi hf; omega
  | succ fuel ih =>
    intro i hi hf pl pr pa po s
    rw [contract_iter_checked, contract_iter,
      vector_read_lt _ i touch_t.NONE (by omega)]
    simp only [vector_read_lt _ i (0 : Int) (show i < obj.m_loop_strides_left.length by omega),
      vector_read_lt _ i (0 : Int) (show i < obj.m_loop_strides_right.length by omega),
      vector_read_lt _ i (0 : Int) (show i < obj.m_loop_strides_out_aux.length by omega),
      vector_read_lt _ i (0 : Int) (show i < obj.m_loop_strides_out.length by omega),
      bind, Except.bind, pure, Except.pure]
    rw [foldlM_except_ok _ (fun (acc : σ) (l_it : Int) =>
      if obj.m_loop_first_last_touch.getD i touch_t.NONE = touch_t.EVERY_ITER then
        kern.kernel_last_touch
          (pa + l_it * obj.m_loop_strides_out_aux.getD i 0 * (if pa ≠ 0 then 1 else 0))
          (po + l_it * obj.m_loop_strides_out.getD i 0)
          (if h : i + 1 < obj.m_num_loops then
            contract_iter obj kern t (i + 1) (pl + l_it * obj.m_loop_strides_left.getD i 0)
              (pr + l_it * obj.m_loop_strides_right.getD i 0)
              (pa + l_it * obj.m_loop_strides_out_aux.getD i 0 * (if pa ≠ 0 then 1 else 0))
              (po + l_it * obj.m_loop_strides_out.getD i 0)
              (if obj.m_loop_first_last_touch.getD i touch_t.NONE = touch_t.EVERY_ITER then
                kern.kernel_first_touch
                  (pa + l_it * obj.m_loop_strides_out_aux.getD i 0 * (if pa ≠ 0 then 1 else 0))
                  (po + l_it * obj.m_loop_strides_out.getD i 0) acc else acc)
          else kern.kernel_main (pl + l_it * obj.m_loop_strides_left.getD i 0)
              (pr + l_it * obj.m_loop_strides_right.getD i 0)
              (po + l_it * obj.m_loop_strides_out.getD i 0)
              (if obj.m_loop_first_last_touch.getD i touch_t.NONE = touch_t.EVERY_ITER then
                kern.kernel_first_touch
                  (pa + l_it * obj.m_loop_strides_out_aux.getD i 0 * (if pa ≠ 0 then 1 else 0))
                  (po + l_it * obj.m_loop_strides_out.getD i 0) acc else acc))
      else
          (if h : i + 1 < obj.m_num_loops then
            contract_iter obj kern t (i + 1) (pl + l_it * obj.m_loop_strides_left.getD i 0)
              (pr + l_it * obj.m_loop_strides_right.getD i 0)
              (pa + l_it * obj.m_loop_strides_out_aux.getD i 0 * (if pa ≠ 0 then 1 else 0))
              (po + l_it * obj.m_loop_strides_out.getD i 0)
              (if obj.m_loop_first_last_touch.getD i touch_t.NONE = touch_t.EVERY_ITER then
                kern.kernel_first_touch
                  (pa + l_it * obj.m_loop_strides_out_aux.getD i 0 * (if pa ≠ 0 then 1 else 0))
                  (po + l_it * obj.m_loop_strides_out.getD i 0) acc else acc)
          else kern.kernel_main (pl + l_it * obj.m_loop_strides_left.getD i 0)
              (pr + l_it * obj.m_loop_strides_right.getD i 0)
              (po + l_it * obj.m_loop_strides_out.getD i 0)
              (if obj.m_loop_first_last_touch.getD i touch_t.NONE = touch_t.EVERY_ITER then
                kern.kernel_first_touch
                  (pa + l_it * obj.m_loop_strides_out_aux.getD i 0 * (if pa ≠ 0 then 1 else 0))
                  (po + l_it * obj.m_loop_strides_out.getD i 0) acc else acc)))]
    · intro b a _
      by_cases hc : i + 1 < obj.m_num_loops
      · simp only [hc, if_true, dite_true]
        rw [ih (i + 1) hc (by omega)]
      · simp only [hc, if_false, dite_false]

theorem for_range_pos (l_first l_size : Int) (h : 0 < l_size) :
    ∃ l, for_range l_first l_size = l_first :: l := by
  unfold for_range
  obtain ⟨n, hn⟩ : ∃ n, l_size.toNat = n + 1 := ⟨l_size.toNat - 1, by omega⟩
  rw [hn, List.range_succ_eq_map, List.map_cons]
  refine ⟨((List.range n).map Nat.succ).map (fun (j : Nat) => l_first + (j : Int)), ?_⟩
  simp

/-- With less frames than loops from `i` on, and the ranges of the loops that get a frame not
empty, the checked run ends without a frame for a call. -/
theorem contract_iter_checked_out_of_fuel {σ : Type} (obj : ContractionLoops)
    (kern : Kernels σ) (t : Nat) (hv : vectors_sized obj) :
    ∀ (fuel i : Nat), i + fuel < obj.m_num_loops →
      (∀ l, i ≤ l → l < i + fuel → 0 < (obj.m_iter_spaces.sizes t).getD l 0) →
      ∀ (pl pr pa po : Int) (s : σ),
        contract_iter_checked obj kern t fuel i pl pr pa po s
          = Except.error iter_error.out_of_fuel := by
  obtain ⟨h1, _, _, h2, h3, h4, h5⟩ := hv
  intro fuel
  induction fuel with
  | zero => intro i _ _ pl pr pa po s; rfl
  | succ fuel ih =>
    intro i hi hr pl pr pa po s
    obtain ⟨l, hl⟩ := for_range_pos ((obj.m_iter_spaces.firsts t).getD i 0)
      ((obj.m_iter_spaces.sizes t).getD i 0) (hr i (le_refl _) (by omega))
    have hc : i + 1 < obj.m_num_loops := by omega
    rw [contract_iter_checked, vector_read_lt _ i touch_t.NONE (by omega), hl]
    simp only [vector_read_lt _ i (0 : Int) (show i < obj.m_loop_strides_left.length by omega),
      vector_read_lt _ i (0 : Int) (show i < obj.m_loop_strides_right.length by omega),
      vector_read_lt _ i (0 : Int) (show i < obj.m_loop_strides_out_aux.length by omega),
      vector_read_lt _ i (0 : Int) (show i < obj.m_loop_strides_out.length by omega),
      bind, Except.bind, pure, Except.pure, hc, if_true, List.foldlM_cons]
    rw [ih (i + 1) (by omega) (fun l h1 h2 => hr l (by omega) (by omega))]

/-- For a loop of the nest the checked run reads no per-loop vector past its end, whatever
the number of frames. -/
theorem contract_iter_checked_in_bounds {σ : Type} (obj : ContractionLoops)
    (kern : Kernels σ) (t : Nat) (hv : vectors_sized obj) :
    ∀ (fuel i : Nat), i < obj.m_num_loops → ∀ (pl pr pa po : Int) (s : σ),
      contract_iter_checked obj kern t fuel i pl pr pa po s
        ≠ Except.error iter_error.out_of_bounds := by
  obtain ⟨h1, _, _, h2, h3, h4, h5⟩ := hv
  intro fuel
  induction fuel with
  | zero => intro i _ pl pr pa po s hc; cases hc
  | succ fuel ih =>
    intro i hi pl pr pa po s
    rw [contract_iter_checked, vector_read_lt _ i touch_t.NONE (by omega)]
    simp only [vector_read_lt _ i (0 : Int) (show i < obj.m_loop_strides_left.length by omega),
      vector_read_lt _ i (0 : Int) (show i < obj.m_loop_strides_right.length by omega),
      vector_read_lt _ i (0 : Int) (show i < obj.m_loop_strides_out_aux.length by omega),
      vector_read_lt _ i (0 : Int) (show i < obj.m_loop_strides_out.length by omega),
      bind, Except.bind, pure, Except.pure]
    split
    · rename_i e heq
      intro hc
      injection hc with hc
      subst hc
      refine foldlM_except_ne _ _ _ ?_ _ heq
      intro b a _
      by_cases hc : i + 1 < obj.m_num_loops
      · simp only [hc, if_true]
        split
        · rename_i e2 heq2
          intro hc2
          injection hc2 with hc2
          subst hc2
          exact ih (i + 1) hc _ _ _ _ _ heq2
        · intro hc2; cases hc2
      · simp only [hc, if_false]
        intro hc2; cases hc2
    · intro hc; cases hc

theorem except_bind_ok {ε α β : Type} (a : α) (f : α → Except ε β) :
    Except.bind (Except.ok a) f = f a := rfl

theorem except_bind_foldlM {ε α β γ : Type} (f : β → α → Except ε β) (g : β → α → β)
    (l : List α) (s : β) (F : β → γ) (h : ∀ b a, a ∈ l → f b a = Except.ok (g b a)) :
    Except.bind (l.foldlM f s) (fun s2 => Except.ok (F s2)) = Except.ok (F (l.foldl g s)) := by
  rw [foldlM_except_ok f g l h s]
  rfl

/-- With a frame for every loop from `i` on, the checked run gives the state of
`contract_iter_packing`. -/
theorem contract_iter_packing_checked_ok {σ : Type} (obj : ContractionLoops)
    (kern : Kernels σ) (pack : PackingKernels σ) (t : Nat) (hv : vectors_sized obj) :
    ∀ (fuel i : Nat), i < obj.m_num_loops → obj.m_num_loops - i ≤ fuel →
      ∀ (k pl pr pa po : Int) (s : σ),
        contract_iter_packing_checked obj kern pack t fuel i k pl pr pa po s
          = Except.ok (contract_iter_packing obj kern pack t i k pl pr pa po s) := by
  obtain ⟨h1, h6, _, h2, h3, h4, h5⟩ := hv
  intro fuel
  induction fuel with
  | zero => intro i hi hf; omega
  | succ fuel ih =>
    intro i hi hf k pl pr pa po s
    rw [contract_iter_packing_checked, contract_iter_packing,
      vector_read_lt _ i touch_t.NONE (by omega)]
    simp only [vector_read_lt _ i (0 : Int) (show i < obj.m_loop_strides_left.length by omega),
      vector_read_lt _ i (0 : Int) (show i < obj.m_loop_strides_right.length by omega),
      vector_read_lt _ i (0 : Int) (show i < obj.m_loop_strides_out_aux.length by omega),
      vector_read_lt _ i (0 : Int) (show i < obj.m_loop_strides_out.length by omega),
      vector_read_lt _ i dim_t.UNDEFINED_DIM (show i < obj.m_loop_dim_type.length by omega),
      bind, pure, Except.pure, except_bind_ok]
    refine except_bind_foldlM _ _ _ _ _ ?_
    intro b a _
    by_cases hc : i + 1 < obj.m_num_loops
    · simp only [hc, if_true, dite_true]
      rw [ih (i + 1) hc (by omega)]
      rfl
    · simp only [hc, if_false, dite_false]

/-- For a loop of the nest the checked run of `contract_iter_packing` reads no per-loop vector
past its end, whatever the number of frames. -/
theorem contract_iter_packing_checked_in_bounds {σ : Type} (obj : ContractionLoops)
    (kern : Kernels σ) (pack : PackingKernels σ) (t : Nat) (hv : vectors_sized obj) :
    ∀ (fuel i : Nat), i < obj.m_num_loops → ∀ (k pl pr pa po : Int) (s : σ),
      contract_iter_packing_checked obj kern pack t fuel i k pl pr pa po s
        ≠ Except.error iter_error.out_of_bounds := by
  obtain ⟨h1, h6, _, h2, h3, h4, h5⟩ := hv
  intro fuel
  induction fuel with
  | zero => intro i _ k pl pr pa po s hc; cases hc
  | succ fuel ih =>
    intro i hi k pl pr pa po s
    rw [contract_iter_packing_checked, vector_read_lt _ i touch_t.NONE (by omega)]
    simp only [vector_read_lt _ i (0 : Int) (show i < obj.m_loop_strides_left.length by omega),
      vector_read_lt _ i (0 : Int) (show i < obj.m_loop_strides_right.length by omega),
      vector_read_lt _ i (0 : Int) (show i < obj.m_loop_strides_out_aux.length by omega),
      vector_read_lt _ i (0 : Int) (show i < obj.m_loop_strides_out.length by omega),
      vector_read_lt _ i dim_t.UNDEFINED_DIM (show i < obj.m_loop_dim_type.length by omega),
      bind, Except.bind, pure, Except.pure]
    split
    · rename_i e heq
      intro hc
      injection hc with hc
      subst hc
      refine foldlM_except_ne _ _ _ ?_ _ heq
      intro b a _
      by_cases hc : i + 1 < obj.m_num_loops
      · simp only [hc, if_true]
        split
        · rename_i e2 heq2
          intro hc2
          injection hc2 with hc2
          subst hc2
          exact ih (i + 1) hc _ _ _ _ _ _ heq2
        · intro hc2; cases hc2
      · simp only [hc, if_false]
        intro hc2; cases hc2
    · intro hc; cases hc

/-- After a successful `compile` the seven per-loop vectors have one entry per loop. -/
theorem compiled_vectors_sized (obj obj' : ContractionLoops)
    (h : compile obj = some (err_t.SUCCESS, obj')) : vectors_sized obj' := by
  obtain ⟨_, h1, h2, h3, h4, h5⟩ := compiled_lengths obj obj' h
  obtain ⟨hn, _, hty, hsz, _, _, _, _, _, _, hlen⟩ := compile_success_fields obj obj' h
  refine ⟨h1, ?_, ?_, h2, h3, h4, h5⟩
  · rw [hty, hn, List.length_append, List.length_map, hlen]
    unfold dummy_entry
    split_ifs <;> simp_all
  · rw [hsz, hn, List.length_append, List.length_map, hlen]
    unfold dummy_entry
    split_ifs <;> simp_all

/-- The list of loop dimension ids of `compile` has an entry for every loop when the
dimension ids of the loops are pairwise distinct, for any list of packing dimensions. -/
theorem loop_dims_length (obj : ContractionLoops)
    (hnd : (non_k_dims obj ++ obj.m_dim_ids_k).Nodup) :
    num_loops_of obj
      ≤ (loop_dims (set_cpx_outer_c obj) (loop_dim_ids_c (set_cpx_outer_c obj))).length := by
  have hsplit : ∀ (P L : List Int), L.Nodup →
      L.length ≤ (non_packing_dims P L).length + P.length := by
    intro P L hL
    unfold non_packing_dims
    have h1 : L.length = (L.filter (fun d => !(P.contains d))).length
        + (L.filter (fun d => P.contains d)).length := by
      have := List.length_eq_length_filter_add (l := L) (fun d => !(P.contains d))
      simpa using this
    have h2 : (L.filter (fun d => P.contains d)).length ≤ P.length := by
      apply List.Subperm.length_le
      apply List.subperm_of_subset (hL.filter _)
      intro d hd
      have := (List.mem_filter.1 hd).2
      simpa using this
    omega
  have hf : ∀ (P A B : List Int), non_packing_dims P (A ++ B)
      = non_packing_dims P A ++ non_packing_dims P B := by
    intro P A B
    unfold non_packing_dims
    rw [List.filter_append]
  have key : ∀ (P : List Int), num_loops_of obj
      ≤ (non_packing_dims P (loop_dim_ids_c (set_cpx_outer_c obj))
          ++ non_packing_dims P obj.m_dim_ids_m ++ non_packing_dims P obj.m_dim_ids_n
          ++ non_packing_dims P obj.m_dim_ids_k ++ P).length := by
    intro P
    have := hsplit P _ hnd
    unfold non_k_dims at this
    rw [hf, hf, hf] at this
    simp only [List.length_append] at this ⊢
    have hn : num_loops_of obj = (loop_dim_ids_c (set_cpx_outer_c obj)).length
        + obj.m_dim_ids_m.length + obj.m_dim_ids_n.length + obj.m_dim_ids_k.length := rfl
    omega
  unfold loop_dims
  exact key _

/-! ## The calls of the nest with packing around an innermost loop marked `EVERY_ITER` -/

theorem k_counter_append (ps1 : List (dim_t × Int)) (t1 : List Int)
    (h : t1.length = ps1.length) (ps2 : List (dim_t × Int)) (t2 : List Int) :
    k_counter (ps1 ++ ps2) (t1 ++ t2) = k_counter ps1 t1 + k_counter ps2 t2 := by
  induction t1 generalizing ps1 with
  | nil =>
    cases ps1 with
    | nil => simp [k_counter]
    | cons _ _ => simp at h
  | cons it t1 ih =>
    cases ps1 with
    | nil => simp at h
    | cons p ps1 =>
      have e := ih ps1 (by simpa using h)
      show (if p.1 = dim_t.K then it - p.2 else 0) + k_counter (ps1 ++ ps2) (t1 ++ t2)
        = (if p.1 = dim_t.K then it - p.2 else 0) + k_counter ps1 t1 + k_counter ps2 t2
      rw [e]
      ring

/-- Loops without marker only advance the pointers and the counter: the calls of the nest with
packing are the calls of the inner loops for every index tuple of the outer loops, in
order. -/
theorem packing_nest_trace_none_append (sumk : Int) (ds1 ds2 : List (Nat × dim_t × loop_desc))
    (h1 : ∀ d ∈ ds1, d.2.2.touch = touch_t.NONE) :
    ∀ (k pl pr pa po : Int),
      packing_nest_trace sumk (ds1 ++ ds2) k pl pr pa po
        = (box (ds1.map (fun d => (d.2.2.first, d.2.2.size)))).flatMap (fun t =>
            packing_nest_trace sumk ds2
              (k + k_counter (ds1.map (fun d => (d.2.1, d.2.2.first))) t)
              (pl + dot t (ds1.map (fun d => d.2.2.stride_left)))
              (pr + dot t (ds1.map (fun d => d.2.2.stride_right)))
              (aux_ptr pa t (ds1.map (fun d => d.2.2.stride_out_aux)))
              (po + dot t (ds1.map (fun d => d.2.2.stride_out)))) := by
  induction ds1 with
  | nil => intro k pl pr pa po; simp [box, dot, aux_ptr, k_counter]
  | cons d ds1 ih =>
    intro k pl pr pa po
    have hd : d.2.2.touch = touch_t.NONE := h1 d (List.mem_cons_self _ _)
    have ih1 := ih (fun x hx => h1 x (List.mem_cons_of_mem _ hx))
    rw [List.cons_append]
    simp only [packing_nest_trace, hd, reduceCtorEq, if_false, false_and, List.nil_append,
      List.append_nil]
    simp only [ih1, List.map_cons, box, List.flatMap_assoc, List.flatMap_map, dot_cons, aux_ptr,
      k_counter, add_assoc]

/-- An innermost loop marked `EVERY_ITER`: in every iteration the main kernel, before it the
first-touch kernel when the counter is 0 and after it the last-touch kernel when the counter
is the stored sum. -/
theorem packing_nest_trace_every (sumk : Int) (d : Nat × dim_t × loop_desc)
    (hd : d.2.2.touch = touch_t.EVERY_ITER) (k pl pr pa po : Int) :
    packing_nest_trace sumk [d] k pl pr pa po
      = (for_range d.2.2.first d.2.2.size).flatMap (fun l_it =>
          (if k = 0 then
            [kernel_call.first_touch
              (pa + l_it * d.2.2.stride_out_aux * (if pa ≠ 0 then 1 else 0))
              (po + l_it * d.2.2.stride_out)] else [])
          ++ [kernel_call.main (pl + l_it * d.2.2.stride_left) (pr + l_it * d.2.2.stride_right)
             (po + l_it * d.2.2.stride_out)]
          ++ (if sumk = k then
            [kernel_call.last_touch
              (pa + l_it * d.2.2.stride_out_aux * (if pa ≠ 0 then 1 else 0))
              (po + l_it * d.2.2.stride_out)] else [])) := by
  simp only [packing_nest_trace, hd, true_and, reduceCtorEq, if_false, List.nil_append,
    List.append_nil]

/-- Loops without marker around an innermost loop marked `EVERY_ITER` that is not a K loop:
for every index tuple of all loops the main kernel, before it the first-touch kernel when the
counter of the tuple is 0, after it the last-touch kernel when the counter is the stored
sum. -/
theorem packing_nest_trace_outer_every (sumk : Int) (A : List (Nat × dim_t × loop_desc))
    (d : Nat × dim_t × loop_desc) (hA : ∀ x ∈ A, x.2.2.touch = touch_t.NONE)
    (hd : d.2.2.touch = touch_t.EVERY_ITER) (hk : d.2.1 ≠ dim_t.K) (k pl pr pa po : Int) :
    packing_nest_trace sumk (A ++ [d]) k pl pr pa po
      = (box ((A ++ [d]).map (fun d => (d.2.2.first, d.2.2.size)))).flatMap (fun i =>
          (if k + k_counter ((A ++ [d]).map (fun d => (d.2.1, d.2.2.first))) i = 0 then
            [kernel_call.first_touch
              (aux_ptr pa i ((A ++ [d]).map (fun d => d.2.2.stride_out_aux)))
              (po + dot i ((A ++ [d]).map (fun d => d.2.2.stride_out)))] else [])
          ++ [kernel_call.main (pl + dot i ((A ++ [d]).map (fun d => d.2.2.stride_left)))
             (pr + dot i ((A ++ [d]).map (fun d => d.2.2.stride_right)))
             (po + dot i ((A ++ [d]).map (fun d => d.2.2.stride_out)))]
          ++ (if sumk = k + k_counter ((A ++ [d]).map (fun d => (d.2.1, d.2.2.first))) i then
            [kernel_call.last_touch
              (aux_ptr pa i ((A ++ [d]).map (fun d => d.2.2.stride_out_aux)))
              (po + dot i ((A ++ [d]).map (fun d => d.2.2.stride_out)))] else [])) := by
  rw [packing_nest_trace_none_append sumk A [d] hA]
  simp only [List.map_append, List.map_cons, List.map_nil, box_append, List.flatMap_assoc,
    List.flatMap_map]
  apply List.flatMap_congr
  intro t ht
  have hlen : t.length = A.length := by
    have := length_of_mem_box _ _ ht
    simpa using this
  rw [packing_nest_trace_every sumk d hd]
  simp only [box, List.map_cons, List.map_nil, List.flatMap_assoc, List.flatMap_cons,
    List.flatMap_nil, List.append_nil]
  apply List.flatMap_congr
  intro it _
  rw [dot_append t _ (by simpa using hlen), dot_append t _ (by simpa using hlen),
    dot_append t _ (by simpa using hlen), aux_ptr_append t _ (by simpa using hlen),
    k_counter_append _ t (by simpa using hlen)]
  simp only [dot, aux_ptr, k_counter, hk, if_false, add_zero, add_assoc]

/-! ## The loop marked `EVERY_ITER` is the innermost loop -/

/-- A loop that the loop of `compile` marks `EVERY_ITER` is the last of as many loops as there
are C, M, N and K dimensions, and the loops before it get no marker. -/
theorem marks_every_iter_last (cbm numk : Nat) (tys : List dim_t) :
    ∀ (a b : Nat) (f : Bool) (l : Nat),
      (marks cbm numk a b f tys)[l]? = some touch_t.EVERY_ITER →
      a + b + l + 1 = cbm + numk ∧ a < cbm
      ∧ ∀ j, j < l → (marks cbm numk a b f tys)[j]? = some touch_t.NONE := by
  induction tys with
  | nil =>
    intro a b f l h
    simp [marks] at h
  | cons ty tys ih =>
    intro a b f l h
    rw [marks] at h ⊢
    by_cases hty : ty = dim_t.K
    · rw [if_pos hty] at h ⊢
      cases l with
      | zero =>
        exfalso
        split at h <;> simp at h
      | succ l =>
        have h1 : (marks cbm numk a (b + 1) (if a = cbm ∧ f = false then true else f)
            tys)[l]? = some touch_t.EVERY_ITER := by
          split at h
          · rename_i hc
            rw [if_pos hc]
            simpa using h
          · rename_i hc
            rw [if_neg hc]
            simpa using h
        obtain ⟨hs, hlt, hn⟩ := ih _ _ _ _ h1
        have hc : ¬ (a = cbm ∧ f = false) := by
          intro hc
          omega
        rw [if_neg hc] at hn ⊢
        refine ⟨by omega, hlt, ?_⟩
        intro j hj
        cases j with
        | zero => simp
        | succ j =>
          simpa using hn j (by omega)
    · rw [if_neg hty] at h ⊢
      cases l with
      | zero =>
        split at h
        · rename_i hc
          refine ⟨by omega, by omega, ?_⟩
          intro j hj
          omega
        · simp at h
      | succ l =>
        have h1 : (marks cbm numk (a + 1) b
            (if a + 1 = cbm ∧ b = numk then true else f) tys)[l]?
            = some touch_t.EVERY_ITER := by
          split at h
          · rename_i hc
            rw [if_pos hc]
            simpa using h
          · rename_i hc
            rw [if_neg hc]
            simpa using h
        obtain ⟨hs, hlt, hn⟩ := ih _ _ _ _ h1
        have hc : ¬ (a + 1 = cbm ∧ b = numk) := by
          intro hc
          omega
        rw [if_neg hc] at hn ⊢
        refine ⟨by omega, by omega, ?_⟩
        intro j hj
        cases j with
        | zero => simp
        | succ j =>
          simpa using hn j (by omega)

/-- When the last of the loops gets the marker `EVERY_ITER`, the sum stored by `compile` is
the sum the loop starts with plus the size minus 1 of every K loop. -/
theorem sum_k_marks_every_last (cbm numk : Nat) (ps : List (dim_t × Int)) :
    ∀ (a b : Nat) (f : Bool) (sz cur : Int) (l : Nat),
      (marks cbm numk a b f (ps.map Prod.fst))[l]? = some touch_t.EVERY_ITER →
      l + 1 = ps.length →
      sum_k_marks cbm numk a b sz cur ps
        = sz + ((ps.filter (fun p => decide (p.1 = dim_t.K))).map (fun p => p.2 - 1)).sum := by
  induction ps with
  | nil =>
    intro a b f sz cur l h
    simp [marks] at h
  | cons p ps ih =>
    intro a b f sz cur l h hl
    rw [List.map_cons, marks] at h
    rw [sum_k_marks]
    by_cases hty : p.1 = dim_t.K
    · rw [if_pos hty] at h
      rw [if_pos hty]
      cases l with
      | zero =>
        exfalso
        split at h <;> simp at h
      | succ l =>
        have h1 : (marks cbm numk a (b + 1) (if a = cbm ∧ f = false then true else f)
            (ps.map Prod.fst))[l]? = some touch_t.EVERY_ITER := by
          split at h
          · rename_i hc
            rw [if_pos hc]
            simpa using h
          · rename_i hc
            rw [if_neg hc]
            simpa using h
        rw [ih _ _ _ _ _ l h1 (by simpa using hl)]
        simp only [List.filter_cons, hty, decide_True, if_true, List.map_cons, List.sum_cons]
        ring
    · rw [if_neg hty] at h
      rw [if_neg hty]
      have hf : (List.filter (fun p => decide (p.1 = dim_t.K)) (p :: ps))
          = List.filter (fun p => decide (p.1 = dim_t.K)) ps := by
        simp [List.filter_cons, hty]
      rw [hf]
      cases l with
      | zero =>
        have hps : ps = [] := by
          cases ps with
          | nil => rfl
          | cons _ _ => simp at hl
        subst hps
        split at h
        · rename_i hc
          rw [if_pos hc]
          simp [sum_k_marks]
        · simp at h
      | succ l =>
        have h1 : (marks cbm numk (a + 1) b
            (if a + 1 = cbm ∧ b = numk then true else f) (ps.map Prod.fst))[l]?
            = some touch_t.EVERY_ITER := by
          split at h
          · rename_i hc
            rw [if_pos hc]
            simpa using h
          · rename_i hc
            rw [if_neg hc]
            simpa using h
        by_cases hc : a + 1 = cbm ∧ b = numk
        · rw [if_pos hc]
          exact ih _ _ _ _ _ l h1 (by simpa using hl)
        · rw [if_neg hc]
          exact ih _ _ _ _ _ l h1 (by simpa using hl)

/-! ## The K indices of the index tuples of a task -/

theorem k_indices_cons_k (tys : List dim_t) (it : Int) (t : List Int) :
    k_indices (dim_t.K :: tys) (it :: t) = it :: k_indices tys t := by
  simp [k_indices]

theorem k_indices_cons_ne (ty : dim_t) (h : ty ≠ dim_t.K) (tys : List dim_t) (it : Int)
    (t : List Int) : k_indices (ty :: tys) (it :: t) = k_indices tys t := by
  simp [k_indices, h]

theorem non_k_indices_cons_k (tys : List dim_t) (it : Int) (t : List Int) :
    non_k_indices (dim_t.K :: tys) (it :: t) = non_k_indices tys t := by
  simp [non_k_indices]

theorem non_k_indices_cons_ne (ty : dim_t) (h : ty ≠ dim_t.K) (tys : List dim_t) (it : Int)
    (t : List Int) : non_k_indices (ty :: tys) (it :: t) = it :: non_k_indices tys t := by
  simp [non_k_indices, h]

/-- With K loops that start at 0 the counter of an index tuple is the sum of its K
indices. -/
theorem k_counter_eq_sum (ps : List (dim_t × Int)) (h : ∀ p ∈ ps, p.1 = dim_t.K → p.2 = 0) :
    ∀ (t : List Int), k_counter ps t = (k_indices (ps.map Prod.fst) t).sum := by
  induction ps with
  | nil => intro t; cases t <;> simp [k_counter, k_indices]
  | cons p ps ih =>
    intro t
    cases t with
    | nil => simp [k_counter, k_indices]
    | cons it t =>
      have ih1 := ih (fun q hq => h q (List.mem_cons_of_mem _ hq)) t
      rw [List.map_cons, k_counter, ih1]
      by_cases hk : p.1 = dim_t.K
      · have h0 := h p (List.mem_cons_self _ _) hk
        rw [hk, k_indices_cons_k, List.sum_cons, if_pos rfl, h0]
        ring
      · rw [k_indices_cons_ne _ hk, if_neg hk]
        ring

/-- The K indices of an index tuple of the ranges lie between the K entries of the first and
of the last indices of the ranges. -/
theorem k_indices_between (rs : List (Int × Int)) :
    ∀ (tys : List dim_t) (i : List Int), i ∈ box rs →
      List.Forall₂ (fun (a b : Int) => a ≤ b) (k_indices tys (rs.map Prod.fst)) (k_indices tys i)
      ∧ List.Forall₂ (fun (a b : Int) => a ≤ b) (k_indices tys i)
          (k_indices tys (range_lasts rs)) := by
  induction rs with
  | nil =>
    intro tys i hi
    simp only [box, List.mem_singleton] at hi
    subst hi
    cases tys <;> simp [k_indices, range_lasts]
  | cons r rs ih =>
    intro tys i hi
    simp only [box, List.mem_flatMap, List.mem_map, mem_for_range] at hi
    obtain ⟨it, hit, i1, hi1, rfl⟩ := hi
    cases tys with
    | nil => simp [k_indices]
    | cons ty tys =>
      obtain ⟨h1, h2⟩ := ih tys i1 hi1
      by_cases hk : ty = dim_t.K
      · subst hk
        simp only [List.map_cons, range_lasts, k_indices_cons_k]
        exact ⟨List.Forall₂.cons hit.1 h1, List.Forall₂.cons (by omega) h2⟩
      · simp only [List.map_cons, range_lasts, k_indices_cons_ne _ hk]
        exact ⟨h1, h2⟩

theorem sum_le_of_forall2_le (xs ys : List Int)
    (h : List.Forall₂ (fun (a b : Int) => a ≤ b) xs ys) :
    xs.sum ≤ ys.sum ∧ (xs.sum = ys.sum → xs = ys) := by
  induction h with
  | nil => simp
  | cons hab _ ih =>
    rename_i a b l1 l2 _
    simp only [List.sum_cons]
    refine ⟨by omega, ?_⟩
    intro he
    have h1 : a = b := by omega
    have h2 : l1 = l2 := ih.2 (by omega)
    rw [h1, h2]

theorem sum_eq_iff_of_forall2_le (xs ys : List Int)
    (h : List.Forall₂ (fun (a b : Int) => a ≤ b) xs ys) : ys.sum = xs.sum ↔ xs = ys := by
  constructor
  · intro he
    exact (sum_le_of_forall2_le xs ys h).2 he.symm
  · intro he
    rw [he]

theorem all_zero_of_forall2_le (xs ys : List Int)
    (h : List.Forall₂ (fun (a b : Int) => a ≤ b) xs ys) (h0 : ∀ x ∈ xs, x = 0)
    (hs : ys.sum = 0) : ∀ y ∈ ys, y = 0 := by
  have hx : xs.sum = 0 := List.sum_eq_zero h0
  have he : xs = ys := (sum_le_of_forall2_le xs ys h).2 (by omega)
  rw [← he]
  exact h0

/-- The K entries of the first indices are 0 when every K loop starts at 0. -/
theorem k_indices_firsts_zero (tys : List dim_t) :
    ∀ (rs : List (Int × Int)),
      (∀ (j : Nat), tys[j]? = some dim_t.K → ∀ (r : Int × Int), rs[j]? = some r → r.1 = 0) →
      ∀ x ∈ k_indices tys (rs.map Prod.fst), x = 0 := by
  induction tys with
  | nil => intro rs _ x hx; cases rs <;> simp [k_indices] at hx
  | cons ty tys ih =>
    intro rs h x hx
    cases rs with
    | nil => simp [k_indices] at hx
    | cons r rs =>
      have h1 := ih rs (fun j hj r hr => h (j + 1)
        (by rw [List.getElem?_cons_succ]; exact hj) r
        (by rw [List.getElem?_cons_succ]; exact hr))
      by_cases hk : ty = dim_t.K
      · subst hk
        rw [List.map_cons, k_indices_cons_k, List.mem_cons] at hx
        rcases hx with rfl | hx
        · exact h 0 (by simp) r (by simp)
        · exact h1 x hx
      · rw [List.map_cons, k_indices_cons_ne _ hk] at hx
        exact h1 x hx

/-- The sum of the K entries of the last indices for K loops over the full range from 0 is the
sum of the sizes minus 1 of the K loops. -/
theorem k_indices_lasts_sum (tys : List dim_t) :
    ∀ (szs : List Int) (rs : List (Int × Int)), tys.length = szs.length →
      rs.length = tys.length →
      (∀ (j : Nat), tys[j]? = some dim_t.K →
        ∃ (s : Int), szs[j]? = some s ∧ rs[j]? = some ((0 : Int), s)) →
      (k_indices tys (range_lasts rs)).sum
        = (((tys.zip szs).filter (fun p => decide (p.1 = dim_t.K))).map (fun p => p.2 - 1)).sum := by
  induction tys with
  | nil => intro szs rs _ _ _; cases rs <;> simp [k_indices, range_lasts]
  | cons ty tys ih =>
    intro szs rs h1 h2 h
    cases szs with
    | nil => simp at h1
    | cons s szs =>
      cases rs with
      | nil => simp at h2
      | cons r rs =>
        have ih1 := ih szs rs (by simpa using h1) (by simpa using h2)
          (fun j hj => by
            obtain ⟨s1, e1, e2⟩ := h (j + 1) (by rw [List.getElem?_cons_succ]; exact hj)
            rw [List.getElem?_cons_succ] at e1 e2
            exact ⟨s1, e1, e2⟩)
        unfold range_lasts at ih1 ⊢
        by_cases hk : ty = dim_t.K
        · subst hk
          obtain ⟨s1, e1, e2⟩ := h 0 (by simp)
          simp only [List.getElem?_cons_zero, Option.some.injEq] at e1 e2
          subst e1
          subst e2
          simp only [List.map_cons, k_indices_cons_k, List.sum_cons, List.zip_cons_cons,
            List.filter_cons, decide_True, if_true, ih1]
          ring
        · have hf : List.filter (fun p => decide (p.1 = dim_t.K)) ((ty, s) :: tys.zip szs)
              = List.filter (fun p => decide (p.1 = dim_t.K)) (tys.zip szs) := by
            simp [List.filter_cons, hk]
          rw [List.map_cons, k_indices_cons_ne _ hk, List.zip_cons_cons, hf]
          exact ih1

/-! ## The iterations of one tuple of the non-K loops, in the order of execution -/

theorem for_range_split_first (f sz it : Int) (h : it ∈ for_range f sz) :
    ∃ l, for_range f sz = f :: l ∧ f ∉ l := by
  have hpos : 0 < sz := by
    rw [mem_for_range] at h
    omega
  obtain ⟨l, hl⟩ := for_range_pos f sz hpos
  have hnd := nodup_for_range f sz
  rw [hl] at hnd
  exact ⟨l, hl, (List.nodup_cons.1 hnd).1⟩

theorem for_range_split_last (f sz it : Int) (h : it ∈ for_range f sz) :
    ∃ l, for_range f sz = l ++ [f + sz - 1] ∧ f + sz - 1 ∉ l := by
  have hpos : 0 < sz := by
    rw [mem_for_range] at h
    omega
  obtain ⟨n, hn⟩ : ∃ n, sz.toNat = n + 1 := ⟨sz.toNat - 1, by omega⟩
  have hl : for_range f sz
      = (List.range n).map (fun (j : Nat) => f + (j : Int)) ++ [f + sz - 1] := by
    unfold for_range
    rw [hn, List.range_succ, List.map_append, List.map_cons, List.map_nil]
    have e : f + (n : Int) = f + sz - 1 := by omega
    rw [e]
  have hnd := nodup_for_range f sz
  rw [hl] at hnd
  refine ⟨_, hl, ?_⟩
  intro hm
  exact (List.disjoint_of_nodup_append hnd) hm (List.mem_singleton_self _)

theorem for_range_split_mem (f sz it : Int) (h : it ∈ for_range f sz) :
    ∃ pre post, for_range f sz = pre ++ it :: post ∧ it ∉ pre ∧ it ∉ post := by
  obtain ⟨pre, post, hs⟩ := List.append_of_mem h
  have hnd := nodup_for_range f sz
  rw [hs, List.nodup_middle, List.nodup_cons, List.mem_append] at hnd
  exact ⟨pre, post, hs, fun hm => hnd.1 (Or.inl hm), fun hm => hnd.1 (Or.inr hm)⟩

/-- Among the index tuples of the ranges, in the order of execution, the tuple that agrees
with a given tuple in the non-K loops and has the first index in every K loop comes before
every other tuple that agrees with it in the non-K loops. -/
theorem box_split_first (rs : List (Int × Int)) :
    ∀ (tys : List dim_t) (i : List Int), tys.length = rs.length → i ∈ box rs →
      ∃ A z B, box rs = A ++ z :: B
        ∧ non_k_indices tys z = non_k_indices tys i
        ∧ k_indices tys z = k_indices tys (rs.map Prod.fst)
        ∧ (∀ j ∈ A, non_k_indices tys j ≠ non_k_indices tys i)
        ∧ (∀ j ∈ B, non_k_indices tys j = non_k_indices tys i →
            k_indices tys j ≠ k_indices tys (rs.map Prod.fst)) := by
  induction rs with
  | nil =>
    intro tys i hlen hi
    simp only [box, List.mem_singleton] at hi
    subst hi
    refine ⟨[], [], [], rfl, rfl, ?_, ?_, ?_⟩
    · cases tys <;> rfl
    · intro j hj; cases hj
    · intro j hj; cases hj
  | cons r rs ih =>
    intro tys i hlen hi
    cases tys with
    | nil => simp at hlen
    | cons ty tys =>
      simp only [box, List.mem_flatMap, List.mem_map] at hi
      obtain ⟨it, hit, i1, hi1, rfl⟩ := hi
      obtain ⟨A1, z1, B1, hb, hn, hkz, hA, hB⟩ := ih tys i1 (by simpa using hlen) hi1
      by_cases hk : ty = dim_t.K
      · subst hk
        obtain ⟨l, hl, hnl⟩ := for_range_split_first r.1 r.2 it hit
        refine ⟨A1.map (fun t => r.1 :: t), r.1 :: z1,
          B1.map (fun t => r.1 :: t) ++ l.flatMap (fun x => (box rs).map (fun t => x :: t)),
          ?_, ?_, ?_, ?_, ?_⟩
        · simp only [box, hl, List.flatMap_cons, hb, List.map_append, List.map_cons,
            List.append_assoc, List.cons_append]
        · rw [non_k_indices_cons_k, non_k_indices_cons_k, hn]
        · rw [List.map_cons, k_indices_cons_k, k_indices_cons_k, hkz]
        · intro j hj
          obtain ⟨j1, hj1, rfl⟩ := List.mem_map.1 hj
          rw [non_k_indices_cons_k, non_k_indices_cons_k]
          exact hA j1 hj1
        · intro j hj hsame he
          rw [List.mem_append] at hj
          rcases hj with hj | hj
          · obtain ⟨j1, hj1, rfl⟩ := List.mem_map.1 hj
            rw [non_k_indices_cons_k, non_k_indices_cons_k] at hsame
            rw [List.map_cons, k_indices_cons_k, k_indices_cons_k] at he
            exact hB j1 hj1 hsame (List.cons.inj he).2
          · obtain ⟨x, hx, hj2⟩ := List.mem_flatMap.1 hj
            obtain ⟨j1, _, rfl⟩ := List.mem_map.1 hj2
            rw [List.map_cons, k_indices_cons_k, k_indices_cons_k] at he
            have hx1 : x = r.1 := (List.cons.inj he).1
            rw [hx1] at hx
            exact hnl hx
      · obtain ⟨pre, post, hs, hpre, hpost⟩ := for_range_split_mem r.1 r.2 it hit
        refine ⟨pre.flatMap (fun x => (box rs).map (fun t => x :: t))
            ++ A1.map (fun t => it :: t), it :: z1,
          B1.map (fun t => it :: t) ++ post.flatMap (fun x => (box rs).map (fun t => x :: t)),
          ?_, ?_, ?_, ?_, ?_⟩
        · simp only [box, hs, List.flatMap_append, List.flatMap_cons, hb, List.map_append,
            List.map_cons, List.append_assoc, List.cons_append]
        · rw [non_k_indices_cons_ne _ hk, non_k_indices_cons_ne _ hk, hn]
        · rw [List.map_cons, k_indices_cons_ne _ hk, k_indices_cons_ne _ hk, hkz]
        · intro j hj hsame
          rw [List.mem_append] at hj
          rcases hj with hj | hj
          · obtain ⟨x, hx, hj2⟩ := List.mem_flatMap.1 hj
            obtain ⟨j1, _, rfl⟩ := List.mem_map.1 hj2
            rw [non_k_indices_cons_ne _ hk, non_k_indices_cons_ne _ hk] at hsame
            have hx1 : x = it := (List.cons.inj hsame).1
            rw [hx1] at hx
            exact hpre hx
          · obtain ⟨j1, hj1, rfl⟩ := List.mem_map.1 hj
            rw [non_k_indices_cons_ne _ hk, non_k_indices_cons_ne _ hk] at hsame
            exact hA j1 hj1 (List.cons.inj hsame).2
        · intro j hj hsame he
          rw [List.mem_append] at hj
          rcases hj with hj | hj
          · obtain ⟨j1, hj1, rfl⟩ := List.mem_map.1 hj
            rw [non_k_indices_cons_ne _ hk, non_k_indices_cons_ne _ hk] at hsame
            rw [List.map_cons, k_indices_cons_ne _ hk, k_indices_cons_ne _ hk] at he
            exact hB j1 hj1 (List.cons.inj hsame).2 he
          · obtain ⟨x, hx, hj2⟩ := List.mem_flatMap.1 hj
            obtain ⟨j1, _, rfl⟩ := List.mem_map.1 hj2
            rw [non_k_indices_cons_ne _ hk, non_k_indices_cons_ne _ hk] at hsame
            have hx1 : x = it := (List.cons.inj hsame).1
            rw [hx1] at hx
            exact hpost hx

/-- Among the index tuples of the ranges, in the order of execution, the tuple that agrees
with a given tuple in the non-K loops and has the last index in every K loop comes after
every other tuple that agrees with it in the non-K loops. -/
theorem box_split_last (rs : List (Int × Int)) :
    ∀ (tys : List dim_t) (i : List Int), tys.length = rs.length → i ∈ box rs →
      ∃ A w B, box rs = A ++ w :: B
        ∧ non_k_indices tys w = non_k_indices tys i
        ∧ k_indices tys w = k_indices tys (range_lasts rs)
        ∧ (∀ j ∈ B, non_k_indices tys j ≠ non_k_indices tys i)
        ∧ (∀ j ∈ A, non_k_indices tys j = non_k_indices tys i →
            k_indices tys j ≠ k_indices tys (range_lasts rs)) := by
  induction rs with
  | nil =>
    intro tys i hlen hi
    simp only [box, List.mem_singleton] at hi
    subst hi
    refine ⟨[], [], [], rfl, rfl, ?_, ?_, ?_⟩
    · cases tys <;> rfl
    · intro j hj; cases hj
    · intro j hj; cases hj
  | cons r rs ih =>
    intro tys i hlen hi
    cases tys with
    | nil => simp at hlen
    | cons ty tys =>
      simp only [box, List.mem_flatMap, List.mem_map] at hi
      obtain ⟨it, hit, i1, hi1, rfl⟩ := hi
      obtain ⟨A1, w1, B1, hb, hn, hkw, hB, hA⟩ := ih tys i1 (by simpa using hlen) hi1
      have hlast : range_lasts (r :: rs) = (r.1 + r.2 - 1) :: range_lasts rs := rfl
      by_cases hk : ty = dim_t.K
      · subst hk
        obtain ⟨l, hl, hnl⟩ := for_range_split_last r.1 r.2 it hit
        refine ⟨l.flatMap (fun x => (box rs).map (fun t => x :: t))
            ++ A1.map (fun t => (r.1 + r.2 - 1) :: t), (r.1 + r.2 - 1) :: w1,
          B1.map (fun t => (r.1 + r.2 - 1) :: t), ?_, ?_, ?_, ?_, ?_⟩
        · simp only [box, hl, List.flatMap_append, List.flatMap_cons, List.flatMap_nil, hb,
            List.map_append, List.map_cons, List.append_assoc, List.cons_append,
            List.append_nil]
        · rw [non_k_indices_cons_k, non_k_indices_cons_k, hn]
        · rw [hlast, k_indices_cons_k, k_indices_cons_k, hkw]
        · intro j hj
          obtain ⟨j1, hj1, rfl⟩ := List.mem_map.1 hj
          rw [non_k_indices_cons_k, non_k_indices_cons_k]
          exact hB j1 hj1
        · intro j hj hsame he
          rw [List.mem_append] at hj
          rcases hj with hj | hj
          · obtain ⟨x, hx, hj2⟩ := List.mem_flatMap.1 hj
            obtain ⟨j1, _, rfl⟩ := List.mem_map.1 hj2
            rw [hlast, k_indices_cons_k, k_indices_cons_k] at he
            have hx1 : x = r.1 + r.2 - 1 := (List.cons.inj he).1
            rw [hx1] at hx
            exact hnl hx
          · obtain ⟨j1, hj1, rfl⟩ := List.mem_map.1 hj
            rw [non_k_indices_cons_k, non_k_indices_cons_k] at hsame
            rw [hlast, k_indices_cons_k, k_indices_cons_k] at he
            exact hA j1 hj1 hsame (List.cons.inj he).2
      · obtain ⟨pre, post, hs, hpre, hpost⟩ := for_range_split_mem r.1 r.2 it hit
        refine ⟨pre.flatMap (fun x => (box rs).map (fun t => x :: t))
            ++ A1.map (fun t => it :: t), it :: w1,
          B1.map (fun t => it :: t) ++ post.flatMap (fun x => (box rs).map (fun t => x :: t)),
          ?_, ?_, ?_, ?_, ?_⟩
        · simp only [box, hs, List.flatMap_append, List.flatMap_cons, hb, List.map_append,
            List.map_cons, List.append_assoc, List.cons_append]
        · rw [non_k_indices_cons_ne _ hk, non_k_indices_cons_ne _ hk, hn]
        · rw [hlast, k_indices_cons_ne _ hk, k_indices_cons_ne _ hk, hkw]
        · intro j hj hsame
          rw [List.mem_append] at hj
          rcases hj with hj | hj
          · obtain ⟨j1, hj1, rfl⟩ := List.mem_map.1 hj
            rw [non_k_indices_cons_ne _ hk, non_k_indices_cons_ne _ hk] at hsame
            exact hB j1 hj1 (List.cons.inj hsame).2
          · obtain ⟨x, hx, hj2⟩ := List.mem_flatMap.1 hj
            obtain ⟨j1, _, rfl⟩ := List.mem_map.1 hj2
            rw [non_k_indices_cons_ne _ hk, non_k_indices_cons_ne _ hk] at hsame
            have hx1 : x = it := (List.cons.inj hsame).1
            rw [hx1] at hx
            exact hpost hx
        · intro j hj hsame he
          rw [List.mem_append] at hj
          rcases hj with hj | hj
          · obtain ⟨x, hx, hj2⟩ := List.mem_flatMap.1 hj
            obtain ⟨j1, _, rfl⟩ := List.mem_map.1 hj2
            rw [non_k_indices_cons_ne _ hk, non_k_indices_cons_ne _ hk] at hsame
            have hx1 : x = it := (List.cons.inj hsame).1
            rw [hx1] at hx
            exact hpre hx
          · obtain ⟨j1, hj1, rfl⟩ := List.mem_map.1 hj
            rw [non_k_indices_cons_ne _ hk, non_k_indices_cons_ne _ hk] at hsame
            rw [hlast, k_indices_cons_ne _ hk, k_indices_cons_ne _ hk] at he
            exact hA j1 hj1 (List.cons.inj hsame).2 he

/-- The iterations of one tuple of the non-K loops in the order of execution start with the
one whose K indices add up to 0, when every K loop starts at 0, and no other has this sum. -/
theorem box_filter_first (rs : List (Int × Int)) (tys : List dim_t) (i : List Int)
    (hlen : tys.length = rs.length) (hi : i ∈ box rs)
    (h0 : ∀ x ∈ k_indices tys (rs.map Prod.fst), x = 0) :
    ∃ z B, (box rs).filter (fun j => decide (non_k_indices tys j = non_k_indices tys i))
        = z :: B
      ∧ (k_indices tys z).sum = 0 ∧ ∀ j ∈ B, (k_indices tys j).sum ≠ 0 := by
  obtain ⟨A, z, B, hb, hn, hkz, hA, hB⟩ := box_split_first rs tys i hlen hi
  refine ⟨z, B.filter (fun j => decide (non_k_indices tys j = non_k_indices tys i)), ?_, ?_, ?_⟩
  · rw [hb, List.filter_append]
    have hfa : A.filter (fun j => decide (non_k_indices tys j = non_k_indices tys i)) = [] := by
      rw [List.filter_eq_nil_iff]
      intro j hj
      simpa using hA j hj
    rw [hfa, List.nil_append, List.filter_cons]
    simp [hn]
  · rw [hkz]
    exact List.sum_eq_zero h0
  · intro j hj hs
    rw [List.mem_filter] at hj
    have hjb : j ∈ box rs := by
      rw [hb]
      exact List.mem_append_right _ (List.mem_cons_of_mem _ hj.1)
    have hle := (k_indices_between rs tys j hjb).1
    have hz : (k_indices tys (rs.map Prod.fst)).sum = 0 := List.sum_eq_zero h0
    have he := (sum_le_of_forall2_le _ _ hle).2 (by omega)
    exact hB j hj.1 (by simpa using hj.2) he.symm

/-- The iterations of one tuple of the non-K loops in the order of execution end with the one
whose K indices add up to the sum of the last K indices, and no other has this sum. -/
theorem box_filter_last (rs : List (Int × Int)) (tys : List dim_t) (i : List Int)
    (hlen : tys.length = rs.length) (hi : i ∈ box rs) :
    ∃ A w, (box rs).filter (fun j => decide (non_k_indices tys j = non_k_indices tys i))
        = A ++ [w]
      ∧ (k_indices tys (range_lasts rs)).sum = (k_indices tys w).sum
      ∧ ∀ j ∈ A, (k_indices tys (range_lasts rs)).sum ≠ (k_indices tys j).sum := by
  obtain ⟨A, w, B, hb, hn, hkw, hB, hA⟩ := box_split_last rs tys i hlen hi
  refine ⟨A.filter (fun j => decide (non_k_indices tys j = non_k_indices tys i)), w, ?_, ?_, ?_⟩
  · rw [hb, List.filter_append]
    have hfb : B.filter (fun j => decide (non_k_indices tys j = non_k_indices tys i)) = [] := by
      rw [List.filter_eq_nil_iff]
      intro j hj
      simpa using hB j hj
    rw [List.filter_cons, hfb]
    simp [hn]
  · rw [hkw]
  · intro j hj hs
    rw [List.mem_filter] at hj
    have hjb : j ∈ box rs := by
      rw [hb]
      exact List.mem_append_left _ hj.1
    have hle := (k_indices_between rs tys j hjb).2
    have he := (sum_le_of_forall2_le _ _ hle).2 hs.symm
    exact hA j hj.1 (by simpa using hj.2) he

theorem packing_loops_from_zero (obj : ContractionLoops) (t : Nat) :
    packing_loops_from obj t 0
      = (List.range obj.m_num_loops).map (fun l =>
          (l, obj.m_loop_dim_type.getD l dim_t.UNDEFINED_DIM, loop_at obj t l)) := by
  unfold packing_loops_from
  rw [List.range_eq_range']
  rfl

theorem packing_loops_from_types (obj : ContractionLoops) (t : Nat)
    (h : obj.m_loop_dim_type.length = obj.m_num_loops) :
    (packing_loops_from obj t 0).map (fun d => d.2.1) = obj.m_loop_dim_type := by
  rw [packing_loops_from_zero, List.map_map]
  exact map_range_getD _ _ _ h

theorem task_ranges_length (obj : ContractionLoops) (t : Nat) :
    (task_ranges obj t).length = obj.m_num_loops := by
  unfold task_ranges
  simp

/-- The calls of `contract_iter_packing` for a nest whose innermost loop is not a K loop and
carries the marker `EVERY_ITER`, the other loops being without marker, with K loops that start
at 0: for every index tuple the main kernel, before it the first-touch kernel when the K
indices add up to 0, after it the last-touch kernel when they add up to the stored sum. -/
theorem packing_call_trace_every (obj : ContractionLoops) (t l : Nat)
    (hv : vectors_sized obj) (hl : l + 1 = obj.m_num_loops)
    (hn : ∀ j, j < l → obj.m_loop_first_last_touch[j]? = some touch_t.NONE)
    (he : obj.m_loop_first_last_touch[l]? = some touch_t.EVERY_ITER)
    (hty : obj.m_loop_dim_type[l]? ≠ some dim_t.K)
    (h0 : ∀ (j : Nat), obj.m_loop_dim_type[j]? = some dim_t.K →
      ∀ (r : Int × Int), (task_ranges obj t)[j]? = some r → r.1 = 0)
    (pl pr pa po : Int) :
    packing_call_trace obj t pl pr pa po
      = (box (task_ranges obj t)).flatMap (fun i =>
          (if (k_indices obj.m_loop_dim_type i).sum = 0 then
            [kernel_call.first_touch (aux_ptr pa i obj.m_loop_strides_out_aux)
              (po + dot i obj.m_loop_strides_out)] else [])
          ++ [kernel_call.main (pl + dot i obj.m_loop_strides_left)
              (pr + dot i obj.m_loop_strides_right) (po + dot i obj.m_loop_strides_out)]
          ++ (if obj.m_loop_sum_k_sizes = (k_indices obj.m_loop_dim_type i).sum then
            [kernel_call.last_touch (aux_ptr pa i obj.m_loop_strides_out_aux)
              (po + dot i obj.m_loop_strides_out)] else [])) := by
  obtain ⟨h1, h6, _, h2, h3, h4, h5⟩ := hv
  have hsplit : packing_loops_from obj t 0
      = (List.range l).map (fun j =>
          (j, obj.m_loop_dim_type.getD j dim_t.UNDEFINED_DIM, loop_at obj t j))
        ++ [(l, obj.m_loop_dim_type.getD l dim_t.UNDEFINED_DIM, loop_at obj t l)] := by
    rw [packing_loops_from_zero, ← hl, List.range_succ, List.map_append]
    rfl
  have hA : ∀ x ∈ (List.range l).map (fun j =>
      (j, obj.m_loop_dim_type.getD j dim_t.UNDEFINED_DIM, loop_at obj t j)),
      x.2.2.touch = touch_t.NONE := by
    intro x hx
    obtain ⟨j, hj, rfl⟩ := List.mem_map.1 hx
    rw [List.mem_range] at hj
    show obj.m_loop_first_last_touch.getD j touch_t.NONE = touch_t.NONE
    rw [List.getD_eq_getElem?_getD, hn j hj]
    rfl
  have hd : (loop_at obj t l).touch = touch_t.EVERY_ITER := by
    show obj.m_loop_first_last_touch.getD l touch_t.NONE = touch_t.EVERY_ITER
    rw [List.getD_eq_getElem?_getD, he]
    rfl
  have hk : obj.m_loop_dim_type.getD l dim_t.UNDEFINED_DIM ≠ dim_t.K := by
    rw [List.getD_eq_getElem?_getD]
    cases hc : obj.m_loop_dim_type[l]? with
    | none => simp
    | some ty =>
      rw [hc] at hty
      simpa using hty
  have hps : ∀ p ∈ (packing_loops_from obj t 0).map (fun d => (d.2.1, d.2.2.first)),
      p.1 = dim_t.K → p.2 = 0 := by
    intro p hp hpk
    rw [packing_loops_from_zero, List.map_map] at hp
    obtain ⟨j, hj, rfl⟩ := List.mem_map.1 hp
    rw [List.mem_range] at hj
    have hjt : obj.m_loop_dim_type[j]? = some dim_t.K := by
      have hpk1 : obj.m_loop_dim_type.getD j dim_t.UNDEFINED_DIM = dim_t.K := hpk
      rw [List.getD_eq_getElem?_getD, List.getElem?_eq_getElem (by omega)] at hpk1
      rw [List.getElem?_eq_getElem (by omega)]
      simpa using hpk1
    have hr : (task_ranges obj t)[j]?
        = some ((obj.m_iter_spaces.firsts t).getD j 0, (obj.m_iter_spaces.sizes t).getD j 0) := by
      unfold task_ranges
      rw [List.getElem?_map, List.getElem?_range hj]
      rfl
    exact h0 j hjt _ hr
  have hcnt := k_counter_eq_sum _ hps
  have hfst : List.map Prod.fst
      ((packing_loops_from obj t 0).map (fun d => (d.2.1, d.2.2.first)))
      = obj.m_loop_dim_type := by
    rw [List.map_map, ← packing_loops_from_types obj t h6]
    rfl
  rw [hfst] at hcnt
  have hr : (packing_loops_from obj t 0).map (fun d => (d.2.2.first, d.2.2.size))
      = task_ranges obj t := by
    rw [← loops_from_ranges, ← packing_loops_from_map, List.map_map]
    rfl
  have hsl : (packing_loops_from obj t 0).map (fun d => d.2.2.stride_left)
      = obj.m_loop_strides_left := by
    rw [← loops_from_stride_left obj t h2, ← packing_loops_from_map, List.map_map]
    rfl
  have hsr : (packing_loops_from obj t 0).map (fun d => d.2.2.stride_right)
      = obj.m_loop_strides_right := by
    rw [← loops_from_stride_right obj t h3, ← packing_loops_from_map, List.map_map]
    rfl
  have hsa : (packing_loops_from obj t 0).map (fun d => d.2.2.stride_out_aux)
      = obj.m_loop_strides_out_aux := by
    rw [← loops_from_stride_out_aux obj t h4, ← packing_loops_from_map, List.map_map]
    rfl
  have hso : (packing_loops_from obj t 0).map (fun d => d.2.2.stride_out)
      = obj.m_loop_strides_out := by
    rw [← loops_from_stride_out obj t h5, ← packing_loops_from_map, List.map_map]
    rfl
  rw [packing_call_trace_eq_nest_trace obj t (by omega), hsplit,
    packing_nest_trace_outer_every _ _ _ hA hd hk, ← hsplit, hr, hsl, hsr, hsa, hso]
  simp only [zero_add, hcnt]

/-! ## The calls of a nest with the indices of the enclosing loops -/

/-- The calls of the nest from the pointers reached with the indices `i` of the loops `outer`
are the calls written with the index tuples. -/
theorem nest_trace_indexed (pl pr pa po : Int) (ds : List loop_desc) :
    ∀ (outer : List loop_desc) (i : List Int), i.length = outer.length →
      nest_trace ds (pl + dot i (outer.map (fun x => x.stride_left)))
          (pr + dot i (outer.map (fun x => x.stride_right)))
          (aux_ptr pa i (outer.map (fun x => x.stride_out_aux)))
          (po + dot i (outer.map (fun x => x.stride_out)))
        = indexed_trace pl pr pa po outer i ds := by
  induction ds with
  | nil => intro outer i _; rfl
  | cons d ds ih =>
    intro outer i hlen
    have hl : ∀ (f : loop_desc → Int), i.length = (outer.map f).length := by
      intro f; rw [List.length_map]; exact hlen
    have hstep : ∀ (it : Int),
        nest_trace ds (pl + dot i (outer.map (fun x => x.stride_left)) + it * d.stride_left)
          (pr + dot i (outer.map (fun x => x.stride_right)) + it * d.stride_right)
          (aux_ptr pa i (outer.map (fun x => x.stride_out_aux)) + it * d.stride_out_aux
            * (if aux_ptr pa i (outer.map (fun x => x.stride_out_aux)) ≠ 0 then 1 else 0))
          (po + dot i (outer.map (fun x => x.stride_out)) + it * d.stride_out)
        = indexed_trace pl pr pa po (outer ++ [d]) (i ++ [it]) ds := by
      intro it
      rw [← ih (outer ++ [d]) (i ++ [it]) (by simp [hlen])]
      simp only [List.map_append, List.map_cons, List.map_nil]
      rw [dot_append i _ (hl _), dot_append i _ (hl _), dot_append i _ (hl _),
        aux_ptr_append i _ (hl _)]
      simp only [dot, aux_ptr, add_zero, add_assoc]
    have haux : ∀ (it : Int),
        aux_ptr pa (i ++ [it]) ((outer ++ [d]).map (fun x => x.stride_out_aux))
          = aux_ptr pa i (outer.map (fun x => x.stride_out_aux)) + it * d.stride_out_aux
            * (if aux_ptr pa i (outer.map (fun x => x.stride_out_aux)) ≠ 0 then 1 else 0) := by
      intro it
      simp only [List.map_append, List.map_cons, List.map_nil]
      rw [aux_ptr_append i _ (hl _)]
      simp only [aux_ptr]
    have hout : ∀ (it : Int),
        po + dot (i ++ [it]) ((outer ++ [d]).map (fun x => x.stride_out))
          = po + dot i (outer.map (fun x => x.stride_out)) + it * d.stride_out := by
      intro it
      simp only [List.map_append, List.map_cons, List.map_nil]
      rw [dot_append i _ (hl _)]
      simp only [dot, add_zero, add_assoc]
    rw [nest_trace, indexed_trace]
    simp only [hstep, haux, hout]

/-- The calls of `contract_iter` from the outermost loop, written with the index tuples of the
enclosing loops. -/
theorem call_trace_indexed (obj : ContractionLoops) (t : Nat) (hpos : 0 < obj.m_num_loops)
    (pl pr pa po : Int) :
    call_trace obj t 0 pl pr pa po
      = indexed_trace pl pr pa po [] [] (loops_from obj t 0) := by
  rw [call_trace_eq_nest_trace obj t 0 hpos, ← nest_trace_indexed pl pr pa po _ [] [] rfl]
  simp [dot, aux_ptr]

theorem loops_from_take_out (obj : ContractionLoops) (t n : Nat) (hn : n ≤ obj.m_num_loops) :
    ((loops_from obj t 0).take n).map (fun x => x.stride_out) = out_strides_upto obj n := by
  rw [loops_from_zero, ← List.map_take, List.take_range, Nat.min_eq_left hn, List.map_map]
  rfl

/-! ## The scaling of the strides in `int64_t` -/

theorem int64_of_in (x : Int) (h : in_int64 x) : int64 x = x := by
  unfold in_int64 at h
  unfold int64
  omega

theorem int64_zero : int64 0 = 0 := by
  decide

theorem scale_strides_int64_length (n : Nat) (b : Int) (xs : List Int) (h : xs.length = n) :
    scale_strides_int64 n b xs = xs.map (fun s => int64 (s * b)) := by
  unfold scale_strides_int64
  rw [← h, List.take_length, List.drop_length, List.append_nil]

theorem scale_strides_keeps_length (n : Nat) (b : Int) (xs : List Int) :
    (scale_strides n b xs).length = xs.length := by
  unfold scale_strides
  rw [List.length_append, List.length_map, List.length_take, List.length_drop]
  omega

/-- A call of `compile` with the scaling in `int64_t` that returns `SUCCESS` goes with a call
of `compile` that returns `SUCCESS`, and its stride vectors are those of `compile` reduced to
the range of `int64_t`. -/
theorem compile_int64_success (obj obj' : ContractionLoops)
    (h : compile_int64 obj = some (err_t.SUCCESS, obj')) :
    ∃ obj0, compile obj = some (err_t.SUCCESS, obj0)
      ∧ obj'.m_loop_strides_left = obj0.m_loop_strides_left.map int64
      ∧ obj'.m_loop_strides_right = obj0.m_loop_strides_right.map int64
      ∧ obj'.m_loop_strides_out_aux = obj0.m_loop_strides_out_aux.map int64
      ∧ obj'.m_loop_strides_out = obj0.m_loop_strides_out.map int64 := by
  unfold compile_int64 at h
  by_cases h0 : (set_cpx_outer_c obj).m_cpx_outer_c = true
      ∧ (set_cpx_outer_c obj).m_dim_ids_c.length = 0
  · simp only [h0, and_self, if_true] at h
    cases h
  · simp only [h0, if_false] at h
    cases hinv : cpx_size_invalid (set_cpx_outer_c obj) with
    | none => simp [hinv] at h
    | some b =>
      cases b with
      | true => simp [hinv] at h
      | false =>
        cases hd : derive_cpx_strides (set_cpx_outer_c obj) with
        | none => simp [hinv, hd] at h
        | some o1 =>
          cases hf : compile_add_dims (loop_dims o1 (loop_dim_ids_c o1))
              (clear_loops o1).m_num_loops (num_dim_cbm o1)
              (⟨0, 0, 0, false⟩, clear_loops o1) with
          | none => simp [hinv, hd, hf] at h
          | some st =>
            simp only [hinv, hd, hf, Option.bind_eq_bind, Option.some_bind,
              Bool.false_eq_true, if_false, Option.some.injEq] at h
            have hc := compile_of_stages obj o1 st h0 hinv hd hf
            rw [compile_iter_spaces_eq] at h hc
            simp only [Prod.mk.injEq, true_and] at h
            have hlen := compiled_lengths obj _ hc
            obtain ⟨_, _, h2, h3, h4, h5⟩ := hlen
            rw [threading_eq] at h2 h3 h4 h5
            have e2 : (set_packing_loops (add_dummy_loop st.2)).m_loop_strides_left.length
                = (set_packing_loops (add_dummy_loop st.2)).m_num_loops := by
              have := h2
              simp only [scale_loop_strides] at this
              rw [scale_strides_keeps_length] at this
              exact this
            have e3 : (set_packing_loops (add_dummy_loop st.2)).m_loop_strides_right.length
                = (set_packing_loops (add_dummy_loop st.2)).m_num_loops := by
              have := h3
              simp only [scale_loop_strides] at this
              rw [scale_strides_keeps_length] at this
              exact this
            have e4 : (set_packing_loops (add_dummy_loop st.2)).m_loop_strides_out_aux.length
                = (set_packing_loops (add_dummy_loop st.2)).m_num_loops := by
              have := h4
              simp only [scale_loop_strides] at this
              rw [scale_strides_keeps_length] at this
              exact this
            have e5 : (set_packing_loops (add_dummy_loop st.2)).m_loop_strides_out.length
                = (set_packing_loops (add_dummy_loop st.2)).m_num_loops := by
              have := h5
              simp only [scale_loop_strides] at this
              rw [scale_strides_keeps_length] at this
              exact this
            refine ⟨_, hc, ?_, ?_, ?_, ?_⟩
            · rw [← h, threading_eq, threading_eq]
              simp only [scale_loop_strides, scale_loop_strides_int64]
              rw [scale_strides_int64_length _ _ _ e2, scale_strides_length _ _ _ e2,
                List.map_map]
              rfl
            · rw [← h, threading_eq, threading_eq]
              simp only [scale_loop_strides, scale_loop_strides_int64]
              rw [scale_strides_int64_length _ _ _ e3, scale_strides_length _ _ _ e3,
                List.map_map]
              rfl
            · rw [← h, threading_eq, threading_eq]
              simp only [scale_loop_strides, scale_loop_strides_int64]
              rw [scale_strides_int64_length _ _ _ e4, scale_strides_length _ _ _ e4,
                List.map_map]
              rfl
            · rw [← h, threading_eq, threading_eq]
              simp only [scale_loop_strides, scale_loop_strides_int64]
              rw [scale_strides_int64_length _ _ _ e5, scale_strides_length _ _ _ e5,
                List.map_map]
              rfl

/-! ## Claims -/

/-- C1: for a configuration without packing and with non-complex kernel kinds whose type map
agrees with the C, M, N, K lists, with positive sizes, K dimensions of output stride 0 and
output strides under which distinct index tuples address distinct output elements, `compile`
succeeds and `contract` with the main kernel `out += left * right` and no-op first/last-touch
leaves every output element equal to its initial value plus the sum over all K index tuples of
`left * right`; every other address keeps its value. -/
theorem contract_madd_correct {R : Type} [Ring R] (obj : ContractionLoops)
    (left right : Int → R) (pack : PackingKernels (Int → R)) (pl pr pa po : Int)
    (out : Int → R)
    (hT : obj.m_num_tasks_targeted = 1) (hp : obj.m_packing = none) (hc : non_complex obj)
    (ha : types_agree obj) (hs : sizes_positive obj) (hk0 : k_stride_out_zero obj)
    (hinj : out_strides_injective obj) :
    ∃ obj', compile obj = some (err_t.SUCCESS, obj')
      ∧ (∀ i ∈ output_tuples obj,
          contract obj' (madd_kernels left right) pack pl pr pa po out (po + out_offset obj i)
            = out (po + out_offset obj i) + k_sum obj left right pl pr i)
      ∧ (∀ (a : Int), (∀ i ∈ output_tuples obj, a ≠ po + out_offset obj i) →
          contract obj' (madd_kernels left right) pack pl pr pa po out a = out a) := by
  rw [elementwise_of_madd]
  exact contract_elementwise obj left right (fun _ v => v) (fun v => v) pack pl pr pa po out hT
    hp hc ha hs hk0 hinj

set_option maxRecDepth 100000 in
/-- C1, witness: the matrix multiplication of the test, ids `[2,0] x [1,2] -> [1,0]`, sizes
`{0:2, 1:3, 2:4}`, meets every hypothesis. -/
theorem contract_madd_correct_witness :
    (matmul_example.m_num_tasks_targeted = 1 ∧ matmul_example.m_packing = none
      ∧ non_complex matmul_example ∧ types_agree matmul_example
      ∧ sizes_positive matmul_example ∧ k_stride_out_zero matmul_example
      ∧ out_strides_injective matmul_example)
    ∧ ∃ obj', compile matmul_example = some (err_t.SUCCESS, obj')
      ∧ (∀ i ∈ output_tuples matmul_example,
          contract obj' (madd_kernels (fun a => a) (fun a => 2 * a)) idle_packing 1000 2000 0
              3000 (fun _ => (7 : Int)) (3000 + out_offset matmul_example i)
            = (fun _ => (7 : Int)) (3000 + out_offset matmul_example i)
              + k_sum matmul_example (fun a => a) (fun a => 2 * a) 1000 2000 i)
      ∧ (∀ (a : Int), (∀ i ∈ output_tuples matmul_example,
            a ≠ 3000 + out_offset matmul_example i) →
          contract obj' (madd_kernels (fun a => a) (fun a => 2 * a)) idle_packing 1000 2000 0
            3000 (fun _ => (7 : Int)) a = (fun _ => (7 : Int)) a) :=
  ⟨by decide,
   contract_madd_correct matmul_example (fun a => a) (fun a => 2 * a) idle_packing 1000 2000 0
    3000 (fun _ => (7 : Int)) rfl rfl (by decide) (by decide) (by decide) (by decide)
    (by decide)⟩

/-- C2: on every compiled nest and for every task, the main-kernel calls of
`contract_iter( task, 0, left, right, aux, out )` are, in order, one call per index tuple of
the product of the task's ranges listed in lexicographic order (loop 0 slowest), with the
pointers `left + sum i_l * stride_left[l]`, `right + sum i_l * stride_right[l]` and
`out + sum i_l * stride_out[l]`; the listing of the tuples is strictly increasing in the
lexicographic order and contains exactly the tuples with every index inside its range. -/
theorem contract_iter_main_calls (obj obj' : ContractionLoops)
    (h : compile obj = some (err_t.SUCCESS, obj')) (i_id_task : Nat) (pl pr pa po : Int) :
    (call_trace obj' i_id_task 0 pl pr pa po).filterMap main_args
        = (box (task_ranges obj' i_id_task)).map (fun t =>
            (pl + dot t obj'.m_loop_strides_left, pr + dot t obj'.m_loop_strides_right,
             po + dot t obj'.m_loop_strides_out))
    ∧ (box (task_ranges obj' i_id_task)).Pairwise (List.Lex (fun (a b : Int) => a < b))
    ∧ (∀ (t : List Int), t ∈ box (task_ranges obj' i_id_task)
        ↔ List.Forall₂ (fun (it : Int) (r : Int × Int) => r.1 ≤ it ∧ it < r.1 + r.2) t
            (task_ranges obj' i_id_task)) := by
  obtain ⟨hpos, _, hsl, hsr, _, hso⟩ := compiled_lengths obj obj' h
  refine ⟨?_, box_pairwise_lex _, mem_box _⟩
  rw [call_trace_eq_nest_trace obj' i_id_task 0 hpos, nest_trace_main_args,
    loops_from_ranges, loops_from_stride_left obj' i_id_task hsl,
    loops_from_stride_right obj' i_id_task hsr, loops_from_stride_out obj' i_id_task hso]

set_option maxRecDepth 100000 in
/-- C2, witness: the compiled matrix multiplication of the test. -/
theorem contract_iter_main_calls_witness :
    compile matmul_example = some (err_t.SUCCESS, compiled matmul_example)
    ∧ (call_trace (compiled matmul_example) 0 0 1000 2000 0 3000).filterMap main_args
        = (box (task_ranges (compiled matmul_example) 0)).map (fun t =>
            (1000 + dot t (compiled matmul_example).m_loop_strides_left,
             2000 + dot t (compiled matmul_example).m_loop_strides_right,
             3000 + dot t (compiled matmul_example).m_loop_strides_out)) :=
  ⟨by decide, (contract_iter_main_calls matmul_example (compiled matmul_example) (by decide) 0
    1000 2000 0 3000).1⟩

/-- C3: for a configuration with at least one K dimension (typed K and of output stride 0)
compiled without packing, whose output strides map distinct index tuples of the non-K loops to
distinct output offsets, for a task that covers the full range of every loop: the output
offsets visited by the nest are the offsets of the index tuples of the non-K loops, pairwise
distinct; the first-touch calls of `contract_iter` are, in order, one call on each of these
offsets, and so are the last-touch calls. Hence each of these offsets is passed to exactly one
first-touch and to exactly one last-touch call, also when a K dimension has size 0 and no main
kernel runs; every output pointer of a main-kernel call is one of these offsets, and no other
pointer is passed to a touch call. -/
theorem touch_once_per_output (obj obj' : ContractionLoops) (i_id_task : Nat)
    (pl pr pa po : Int) (hp : obj.m_packing = none) (ha : types_agree obj)
    (hk : obj.m_dim_ids_k ≠ []) (h : compile obj = some (err_t.SUCCESS, obj'))
    (hfull : task_ranges obj' i_id_task = obj'.m_loop_sizes.map (fun s => (0, s)))
    (hk0 : k_stride_out_zero obj) (hinj : out_strides_injective obj) :
    (call_trace obj' i_id_task 0 pl pr pa po).filterMap first_touch_out
        = (output_tuples obj).map (fun i => po + out_offset obj i)
    ∧ (call_trace obj' i_id_task 0 pl pr pa po).filterMap last_touch_out
        = (output_tuples obj).map (fun i => po + out_offset obj i)
    ∧ ((output_tuples obj).map (fun i => po + out_offset obj i)).Nodup
    ∧ (∀ i ∈ output_tuples obj,
        ((call_trace obj' i_id_task 0 pl pr pa po).filterMap first_touch_out).count
            (po + out_offset obj i) = 1
        ∧ ((call_trace obj' i_id_task 0 pl pr pa po).filterMap last_touch_out).count
            (po + out_offset obj i) = 1)
    ∧ (∀ (o : Int),
        (∃ l r, kernel_call.main l r o ∈ call_trace obj' i_id_task 0 pl pr pa po) →
        o ∈ (output_tuples obj).map (fun i => po + out_offset obj i))
    ∧ (∀ (o : Int), o ∉ (output_tuples obj).map (fun i => po + out_offset obj i) →
        ((call_trace obj' i_id_task 0 pl pr pa po).filterMap first_touch_out).count o = 0
        ∧ ((call_trace obj' i_id_task 0 pl pr pa po).filterMap last_touch_out).count o = 0) := by
  have hne := num_loops_of_ne_zero_of_k obj hk
  obtain ⟨htake, _⟩ := full_task_ranges_split obj obj' hp h hne i_id_task hfull
  have hnd : ((output_tuples obj).map (fun i => po + out_offset obj i)).Nodup := by
    apply List.Nodup.map_on _ (box_nodup _)
    intro i hi j hj hij
    exact hinj i hi j hj (by linarith)
  have hft : (call_trace obj' i_id_task 0 pl pr pa po).filterMap first_touch_out
      = (output_tuples obj).map (fun i => po + out_offset obj i) := by
    rw [call_trace_visits obj obj' hp ha h hne hk0, htake]
    unfold visit_calls
    rw [touch_blocks_first_touch]
    rfl
  have hlt : (call_trace obj' i_id_task 0 pl pr pa po).filterMap last_touch_out
      = (output_tuples obj).map (fun i => po + out_offset obj i) := by
    rw [call_trace_visits obj obj' hp ha h hne hk0, htake]
    unfold visit_calls
    rw [touch_blocks_last_touch]
    rfl
  refine ⟨hft, hlt, hnd, ?_, ?_, ?_⟩
  · intro i hi
    rw [hft, hlt]
    have hmem : po + out_offset obj i
        ∈ (output_tuples obj).map (fun i => po + out_offset obj i) :=
      List.mem_map.2 ⟨i, hi, rfl⟩
    exact ⟨List.count_eq_one_of_mem hnd hmem, List.count_eq_one_of_mem hnd hmem⟩
  · intro o ⟨l, r, hmem⟩
    rw [call_trace_visits obj obj' hp ha h hne hk0, htake] at hmem
    unfold visit_calls at hmem
    exact touch_blocks_main_mem _ _ _ _ l r o hmem
  · intro o ho
    rw [hft, hlt]
    exact ⟨List.count_eq_zero_of_not_mem ho, List.count_eq_zero_of_not_mem ho⟩

set_option maxRecDepth 100000 in
/-- C3, witness: the compiled matrix multiplication of the test and its single task: the six
output elements at the offsets 0, 8, 16, 4, 12 and 20 from the base pointer 3000 get one
first-touch and one last-touch call each. -/
theorem touch_once_per_output_witness :
    (matmul_example.m_packing = none ∧ types_agree matmul_example
      ∧ matmul_example.m_dim_ids_k ≠ []
      ∧ compile matmul_example = some (err_t.SUCCESS, compiled matmul_example)
      ∧ task_ranges (compiled matmul_example) 0
          = (compiled matmul_example).m_loop_sizes.map (fun s => (0, s))
      ∧ k_stride_out_zero matmul_example ∧ out_strides_injective matmul_example)
    ∧ (output_tuples matmul_example).map (fun i => 3000 + out_offset matmul_example i)
        = [3000, 3008, 3016, 3004, 3012, 3020]
    ∧ (call_trace (compiled matmul_example) 0 0 1000 2000 0 3000).filterMap first_touch_out
        = (output_tuples matmul_example).map (fun i => 3000 + out_offset matmul_example i)
    ∧ (call_trace (compiled matmul_example) 0 0 1000 2000 0 3000).filterMap last_touch_out
        = (output_tuples matmul_example).map (fun i => 3000 + out_offset matmul_example i) :=
  ⟨by decide, by decide,
   (touch_once_per_output matmul_example (compiled matmul_example) 0 1000 2000 0 3000
    rfl (by decide) (by decide) (by decide) (by decide) (by decide) (by decide)).1,
   (touch_once_per_output matmul_example (compiled matmul_example) 0 1000 2000 0 3000
    rfl (by decide) (by decide) (by decide) (by decide) (by decide) (by decide)).2.1⟩

/-- C4: on a nest compiled without packing that carries a `BEFORE_AFTER_ITER` marker (K
dimensions of output stride 0), for every task the calls of `contract_iter` are, for each
visit of the marked loop, one first-touch, then the main-kernel calls of all interior K
iterations, all with the output pointer of the first-touch, then one last-touch on the same
pointer; hence every main-kernel call lies inside the window opened by the first-touch and
closed by the last-touch of its own output pointer. -/
theorem before_after_window (obj obj' : ContractionLoops) (i_id_task : Nat)
    (pl pr pa po : Int) (hp : obj.m_packing = none) (ha : types_agree obj)
    (h : compile obj = some (err_t.SUCCESS, obj'))
    (hBA : touch_t.BEFORE_AFTER_ITER ∈ obj'.m_loop_first_last_touch)
    (hk0 : k_stride_out_zero obj) :
    call_trace obj' i_id_task 0 pl pr pa po
      = (box ((task_ranges obj' i_id_task).take (non_k_dims obj).length)).flatMap
          (visit_calls obj (box ((task_ranges obj' i_id_task).drop (non_k_dims obj).length))
            pl pr pa po)
    ∧ touch_window_ok none (call_trace obj' i_id_task 0 pl pr pa po) = true := by
  have hk := before_after_of_mem obj obj' hp ha h hBA
  have hne := num_loops_of_ne_zero_of_k obj hk
  have hb := call_trace_visits obj obj' hp ha h hne hk0 i_id_task pl pr pa po
  refine ⟨hb, ?_⟩
  rw [hb]
  unfold visit_calls
  exact touch_window_blocks _ _ _ _

set_option maxRecDepth 100000 in
/-- C4, witness: the compiled matrix multiplication of the test carries the marker. -/
theorem before_after_window_witness :
    (matmul_example.m_packing = none ∧ types_agree matmul_example
      ∧ compile matmul_example = some (err_t.SUCCESS, compiled matmul_example)
      ∧ touch_t.BEFORE_AFTER_ITER ∈ (compiled matmul_example).m_loop_first_last_touch
      ∧ k_stride_out_zero matmul_example)
    ∧ touch_window_ok none (call_trace (compiled matmul_example) 0 0 1000 2000 0 3000) = true :=
  ⟨by decide,
   (before_after_window matmul_example (compiled matmul_example) 0 1000 2000 0 3000 rfl
      (by decide) (by decide) (by decide) (by decide)).2⟩

/-- C5: for a configuration without packing and with non-complex kernel kinds whose type map
agrees with the C, M, N, K lists, with positive sizes, K dimensions of output stride 0 and
output strides under which distinct index tuples of the C, M, N dimensions address distinct
elements, `compile` succeeds and `contract` with a zeroing first-touch, the main kernel
`out += left * right` and the last-touch `out := max(out, 0)` leaves every output element
equal to `max(0, sum over all K index tuples of left * right)` in any linearly ordered ring;
every other address keeps its value. -/
theorem contract_zero_madd_relu_correct {R : Type} [LinearOrderedRing R]
    (obj : ContractionLoops) (left right : Int → R) (pack : PackingKernels (Int → R))
    (pl pr pa po : Int) (out : Int → R)
    (hT : obj.m_num_tasks_targeted = 1) (hp : obj.m_packing = none) (hc : non_complex obj)
    (ha : types_agree obj) (hs : sizes_positive obj) (hk0 : k_stride_out_zero obj)
    (hinj : out_strides_injective obj) :
    ∃ obj', compile obj = some (err_t.SUCCESS, obj')
      ∧ (∀ i ∈ output_tuples obj,
          contract obj' (zero_madd_relu_kernels left right) pack pl pr pa po out
              (po + out_offset obj i)
            = max 0 (k_sum obj left right pl pr i))
      ∧ (∀ (a : Int), (∀ i ∈ output_tuples obj, a ≠ po + out_offset obj i) →
          contract obj' (zero_madd_relu_kernels left right) pack pl pr pa po out a = out a) := by
  obtain ⟨obj', hcomp, h1, h2⟩ := contract_elementwise obj left right (fun _ _ => 0)
    (fun v => max v 0) pack pl pr pa po out hT hp hc ha hs hk0 hinj
  refine ⟨obj', hcomp, ?_, ?_⟩
  · intro i hi
    rw [elementwise_of_zero_madd_relu, h1 i hi, zero_add, max_comm]
  · intro a hna
    rw [elementwise_of_zero_madd_relu, h2 a hna]

set_option maxRecDepth 100000 in
/-- C5, witness: a batched contraction with one C, M, N and K dimension meets every
hypothesis. -/
theorem contract_zero_madd_relu_correct_witness :
    (batched_example.m_num_tasks_targeted = 1 ∧ batched_example.m_packing = none
      ∧ non_complex batched_example ∧ types_agree batched_example
      ∧ sizes_positive batched_example ∧ k_stride_out_zero batched_example
      ∧ out_strides_injective batched_example)
    ∧ ∃ obj', compile batched_example = some (err_t.SUCCESS, obj')
      ∧ (∀ i ∈ output_tuples batched_example,
          contract obj' (zero_madd_relu_kernels (fun a => a - 1010) (fun a => a)) idle_packing
              1000 2000 0 3000 (fun _ => (7 : Int)) (3000 + out_offset batched_example i)
            = max 0 (k_sum batched_example (fun a => a - 1010) (fun a => a) 1000 2000 i))
      ∧ (∀ (a : Int), (∀ i ∈ output_tuples batched_example,
            a ≠ 3000 + out_offset batched_example i) →
          contract obj' (zero_madd_relu_kernels (fun a => a - 1010) (fun a => a)) idle_packing
            1000 2000 0 3000 (fun _ => (7 : Int)) a = (fun _ => (7 : Int)) a) :=
  ⟨by decide,
   contract_zero_madd_relu_correct batched_example (fun a => a - 1010) (fun a => a) idle_packing
    1000 2000 0 3000 (fun _ => (7 : Int)) rfl rfl (by decide) (by decide) (by decide)
    (by decide) (by decide)⟩

/-- C6: for a configuration without packing and with non-complex kernel kinds whose type map
agrees with the C, M, N, K lists, with positive sizes, K dimensions of output stride 0,
injective output strides, and an auxiliary tensor that has the output's strides and no element
at the null address, `compile` succeeds and `contract` with a first-touch that copies the aux
element to the output element and the main kernel `out += left * right` leaves every output
element equal to its aux element plus the sum over all K index tuples of `left * right`,
whatever the initial content of the output. -/
theorem contract_copy_madd_correct {R : Type} [Ring R] (obj : ContractionLoops)
    (left right aux : Int → R) (pack : PackingKernels (Int → R)) (pl pr pa po : Int)
    (hT : obj.m_num_tasks_targeted = 1) (hp : obj.m_packing = none) (hc : non_complex obj)
    (ha : types_agree obj) (hs : sizes_positive obj) (hk0 : k_stride_out_zero obj)
    (hinj : out_strides_injective obj)
    (haux : obj.m_strides_out_aux = obj.m_strides_out)
    (hnn : ∀ i ∈ output_tuples obj, pa + out_offset obj i ≠ 0) :
    ∃ obj', compile obj = some (err_t.SUCCESS, obj')
      ∧ ∀ (out : Int → R), ∀ i ∈ output_tuples obj,
          contract obj' (copy_madd_kernels left right aux) pack pl pr pa po out
              (po + out_offset obj i)
            = aux (pa + out_offset obj i) + k_sum obj left right pl pr i := by
  obtain ⟨obj', hcomp⟩ := compile_succeeds_no_packing obj hp hc ha hs
  refine ⟨obj', hcomp, ?_⟩
  intro out i hi
  obtain ⟨obj2, hcomp2, h1, _⟩ := contract_elementwise obj left right (fun p _ => aux p)
    (fun v => v) pack pl pr pa po out hT hp hc ha hs hk0 hinj
  have e : obj2 = obj' := by
    have := hcomp.symm.trans hcomp2
    simp only [Option.some.injEq, Prod.mk.injEq, true_and] at this
    exact this.symm
  subst e
  have hadr : aux_address obj pa i = pa + out_offset obj i := by
    unfold aux_address out_offset
    rw [haux]
    exact aux_ptr_eq_add_dot _ (full_ranges_pos obj hs) _ pa i hi hnn
  rw [elementwise_of_copy_madd, h1 i hi, hadr]

set_option maxRecDepth 100000 in
/-- C6, witness: the matrix multiplication with a full-tensor bias of the test, ids
`[2,0] x [1,2] -> [1,0]`, sizes `{0:2, 1:3, 2:4}`, bias at address 4000. -/
theorem contract_copy_madd_correct_witness :
    (bias_example.m_num_tasks_targeted = 1 ∧ bias_example.m_packing = none
      ∧ non_complex bias_example ∧ types_agree bias_example ∧ sizes_positive bias_example
      ∧ k_stride_out_zero bias_example ∧ out_strides_injective bias_example
      ∧ bias_example.m_strides_out_aux = bias_example.m_strides_out
      ∧ ∀ i ∈ output_tuples bias_example, 4000 + out_offset bias_example i ≠ 0)
    ∧ ∃ obj', compile bias_example = some (err_t.SUCCESS, obj')
      ∧ ∀ (out : Int → Int), ∀ i ∈ output_tuples bias_example,
          contract obj' (copy_madd_kernels (fun a => a) (fun a => 2 * a) (fun a => 3 * a))
              idle_packing 1000 2000 4000 3000 out (3000 + out_offset bias_example i)
            = (fun a => 3 * a) (4000 + out_offset bias_example i)
              + k_sum bias_example (fun a => a) (fun a => 2 * a) 1000 2000 i :=
  ⟨by decide,
   contract_copy_madd_correct bias_example (fun a => a) (fun a => 2 * a) (fun a => 3 * a)
    idle_packing 1000 2000 4000 3000 rfl rfl (by decide) (by decide) (by decide) (by decide)
    (by decide) rfl (by decide)⟩

/-- C7: for a configuration without packing and with non-complex kernel kinds whose type map
agrees with the C, M, N, K lists, with positive sizes, K dimensions of output stride 0 and
injective output strides, `compile` succeeds and `contract` with a zeroing first-touch and the
main kernel `out += left * right` gives, for any two initial contents of the output, the same
final value of every output element, namely the sum over all K index tuples of
`left * right`. -/
theorem contract_zero_madd_no_leak {R : Type} [Ring R] (obj : ContractionLoops)
    (left right : Int → R) (pack : PackingKernels (Int → R)) (pl pr pa po : Int)
    (hT : obj.m_num_tasks_targeted = 1) (hp : obj.m_packing = none) (hc : non_complex obj)
    (ha : types_agree obj) (hs : sizes_positive obj) (hk0 : k_stride_out_zero obj)
    (hinj : out_strides_injective obj) :
    ∃ obj', compile obj = some (err_t.SUCCESS, obj')
      ∧ ∀ (out1 out2 : Int → R), ∀ i ∈ output_tuples obj,
          contract obj' (zero_madd_kernels left right) pack pl pr pa po out1
              (po + out_offset obj i)
            = contract obj' (zero_madd_kernels left right) pack pl pr pa po out2
              (po + out_offset obj i)
          ∧ contract obj' (zero_madd_kernels left right) pack pl pr pa po out1
              (po + out_offset obj i)
            = k_sum obj left right pl pr i := by
  obtain ⟨obj', hcomp⟩ := compile_succeeds_no_packing obj hp hc ha hs
  refine ⟨obj', hcomp, ?_⟩
  have key : ∀ (out : Int → R), ∀ i ∈ output_tuples obj,
      contract obj' (zero_madd_kernels left right) pack pl pr pa po out (po + out_offset obj i)
        = k_sum obj left right pl pr i := by
    intro out i hi
    obtain ⟨obj2, hcomp2, h1, _⟩ := contract_elementwise obj left right (fun _ _ => 0)
      (fun v => v) pack pl pr pa po out hT hp hc ha hs hk0 hinj
    have e : obj2 = obj' := by
      have := hcomp.symm.trans hcomp2
      simp only [Option.some.injEq, Prod.mk.injEq, true_and] at this
      exact this.symm
    subst e
    rw [elementwise_of_zero_madd, h1 i hi, zero_add]
  intro out1 out2 i hi
  exact ⟨(key out1 i hi).trans (key out2 i hi).symm, key out1 i hi⟩

set_option maxRecDepth 100000 in
/-- C7, witness: the matrix multiplication with zero first touch of the test. -/
theorem contract_zero_madd_no_leak_witness :
    (zero_example.m_num_tasks_targeted = 1 ∧ zero_example.m_packing = none
      ∧ non_complex zero_example ∧ types_agree zero_example ∧ sizes_positive zero_example
      ∧ k_stride_out_zero zero_example ∧ out_strides_injective zero_example)
    ∧ ∃ obj', compile zero_example = some (err_t.SUCCESS, obj')
      ∧ ∀ (out1 out2 : Int → Int), ∀ i ∈ output_tuples zero_example,
          contract obj' (zero_madd_kernels (fun a => a) (fun a => 2 * a)) idle_packing 1000 2000
              0 3000 out1 (3000 + out_offset zero_example i)
            = contract obj' (zero_madd_kernels (fun a => a) (fun a => 2 * a)) idle_packing 1000
              2000 0 3000 out2 (3000 + out_offset zero_example i)
          ∧ contract obj' (zero_madd_kernels (fun a => a) (fun a => 2 * a)) idle_packing 1000 2000
              0 3000 out1 (3000 + out_offset zero_example i)
            = k_sum zero_example (fun a => a) (fun a => 2 * a) 1000 2000 i :=
  ⟨by decide,
   contract_zero_madd_no_leak zero_example (fun a => a) (fun a => 2 * a) idle_packing 1000 2000 0
    3000 rfl rfl (by decide) (by decide) (by decide) (by decide) (by decide)⟩

set_option maxRecDepth 100000 in
/-- C8, counterexample: in the compiled matrix multiplication of the test the loops are
`M, N, K`; the innermost non-K loop is loop 1 and carries no marker, the
`BEFORE_AFTER_ITER` marker is on loop 2, the K loop. -/
theorem marker_not_on_innermost_non_k :
    compile matmul_example = some (err_t.SUCCESS, compiled matmul_example)
    ∧ matmul_example.m_dim_ids_k = [2]
    ∧ (compiled matmul_example).m_loop_dim_type = [dim_t.M, dim_t.N, dim_t.K]
    ∧ (compiled matmul_example).m_loop_first_last_touch.getD 1 touch_t.NONE = touch_t.NONE
    ∧ (compiled matmul_example).m_loop_first_last_touch.getD 2 touch_t.NONE
        = touch_t.BEFORE_AFTER_ITER := by
  decide

/-- C8, amended: if the configuration contains at least one K dimension and is compiled
without packing (type map agreeing with the id lists), the loops of the nest are the non-K
loops followed by the K loops, `compile` places the `BEFORE_AFTER_ITER` marker on the
outermost K loop, the loop directly inside the innermost non-K loop, and every other loop has
the marker `NONE`. -/
theorem before_after_on_first_k (obj obj' : ContractionLoops) (hp : obj.m_packing = none)
    (ha : types_agree obj) (hk : obj.m_dim_ids_k ≠ [])
    (h : compile obj = some (err_t.SUCCESS, obj')) :
    obj'.m_loop_first_last_touch
        = List.replicate (non_k_dims obj).length touch_t.NONE
          ++ touch_t.BEFORE_AFTER_ITER
            :: List.replicate (obj.m_dim_ids_k.length - 1) touch_t.NONE
    ∧ obj'.m_loop_dim_type
        = (non_k_dims obj).map (dim_type_of obj) ++ obj.m_dim_ids_k.map (dim_type_of obj)
    ∧ (∀ ty ∈ (non_k_dims obj).map (dim_type_of obj), ty ≠ dim_t.K)
    ∧ (∀ ty ∈ obj.m_dim_ids_k.map (dim_type_of obj), ty = dim_t.K) := by
  obtain ⟨_, hmk, hty, _⟩ := compile_success_fields obj obj' h
  have hne := num_loops_of_ne_zero_of_k obj hk
  rw [markers_no_packing obj hp ha, if_neg hk] at hmk
  rw [dummy_entry_of_ne _ _ hne, List.append_nil, nest_dims_eq_append obj hp,
    List.map_append] at hty
  refine ⟨hmk, hty, ?_, ?_⟩
  · intro ty hmem
    obtain ⟨d, hd, rfl⟩ := List.mem_map.1 hmem
    exact type_non_k_dims obj ha d hd
  · intro ty hmem
    obtain ⟨d, hd, rfl⟩ := List.mem_map.1 hmem
    exact type_k_dims obj ha d hd

set_option maxRecDepth 100000 in
/-- C8, amended, witness: the matrix multiplication of the test. -/
theorem before_after_on_first_k_witness :
    compile matmul_example = some (err_t.SUCCESS, compiled matmul_example)
    ∧ (compiled matmul_example).m_loop_first_last_touch
        = List.replicate (non_k_dims matmul_example).length touch_t.NONE
          ++ touch_t.BEFORE_AFTER_ITER
            :: List.replicate (matmul_example.m_dim_ids_k.length - 1) touch_t.NONE :=
  ⟨by decide, (before_after_on_first_k matmul_example (compiled matmul_example) rfl (by decide)
    (by decide) (by decide)).1⟩

/-- C9: if the configuration contains no K dimension, is compiled without packing (type map
agreeing with the id lists) and at least one loop remains in the nest, `compile` places the
`EVERY_ITER` marker on the innermost loop and `NONE` on every other loop, no loop of the nest
is a K loop, and for every task the calls of `contract_iter` are, for every index tuple of the
task in order, the first-touch, the main kernel and the last-touch on the same output
pointer. -/
theorem every_iter_on_innermost (obj obj' : ContractionLoops) (hp : obj.m_packing = none)
    (ha : types_agree obj) (hk : obj.m_dim_ids_k = []) (hne : num_loops_of obj ≠ 0)
    (h : compile obj = some (err_t.SUCCESS, obj')) :
    obj'.m_loop_first_last_touch
        = List.replicate (obj'.m_num_loops - 1) touch_t.NONE ++ [touch_t.EVERY_ITER]
    ∧ (∀ ty ∈ obj'.m_loop_dim_type, ty ≠ dim_t.K)
    ∧ ∀ (i_id_task : Nat) (pl pr pa po : Int),
        call_trace obj' i_id_task 0 pl pr pa po
          = (box (task_ranges obj' i_id_task)).flatMap (fun i =>
              [kernel_call.first_touch (aux_ptr pa i obj'.m_loop_strides_out_aux)
                 (po + dot i obj'.m_loop_strides_out),
               kernel_call.main (pl + dot i obj'.m_loop_strides_left)
                 (pr + dot i obj'.m_loop_strides_right) (po + dot i obj'.m_loop_strides_out),
               kernel_call.last_touch (aux_ptr pa i obj'.m_loop_strides_out_aux)
                 (po + dot i obj'.m_loop_strides_out)]) := by
  obtain ⟨hL, hmk, hty, _⟩ := compile_success_fields obj obj' h
  obtain ⟨hpos, hlmk, hlsl, hlsr, hlsa, hlso⟩ := compiled_lengths obj obj' h
  have hadd := num_loops_of_eq_add obj
  have hk0 : obj.m_dim_ids_k.length = 0 := by rw [hk]; rfl
  rw [if_neg hne] at hL
  rw [markers_no_packing obj hp ha, if_pos hk] at hmk
  have hmk' : obj'.m_loop_first_last_touch
      = List.replicate (obj'.m_num_loops - 1) touch_t.NONE ++ [touch_t.EVERY_ITER] := by
    rw [hmk, hL, hadd, hk0, Nat.add_zero]
  refine ⟨hmk', ?_, ?_⟩
  · intro ty hmem
    rw [hty, dummy_entry_of_ne _ _ hne, List.append_nil, nest_dims_eq_append obj hp, hk,
      List.append_nil] at hmem
    obtain ⟨d, hd, rfl⟩ := List.mem_map.1 hmem
    exact type_non_k_dims obj ha d hd
  · intro t pl pr pa po
    have htouch := loops_from_touch obj' t hlmk
    rw [hmk'] at htouch
    obtain ⟨A, d, hAd, hA, hd⟩ := split_every _ _ htouch
    rw [call_trace_eq_nest_trace obj' t 0 hpos, hAd, nest_trace_outer_every A d hA hd, ← hAd,
      loops_from_ranges, loops_from_stride_left obj' t hlsl,
      loops_from_stride_right obj' t hlsr, loops_from_stride_out_aux obj' t hlsa,
      loops_from_stride_out obj' t hlso]

set_option maxRecDepth 100000 in
/-- C9, witness: a contraction with one M and one N dimension and no K dimension. -/
theorem every_iter_on_innermost_witness :
    compile outer_example = some (err_t.SUCCESS, compiled outer_example)
    ∧ (compiled outer_example).m_loop_first_last_touch
        = List.replicate ((compiled outer_example).m_num_loops - 1) touch_t.NONE
          ++ [touch_t.EVERY_ITER] :=
  ⟨by decide, (every_iter_on_innermost outer_example (compiled outer_example) rfl (by decide)
    rfl (by decide) (by decide)).1⟩

set_option maxRecDepth 100000 in
/-- C10, the code at the failing input: for the complex contraction with packing dimensions
`[0, 2]` (type map agreeing with the id lists, packing dimensions a duplicate-free subset of
the ids) `compile` returns `SUCCESS` and leaves a nest of two loops, the M loop and the
complex C loop, none of which has a marker. -/
theorem cpx_packing_no_marker :
    compile cpx_packing_example = some (err_t.SUCCESS, compiled cpx_packing_example)
    ∧ types_agree cpx_packing_example
    ∧ [(0 : Int), 2].Nodup
    ∧ (∀ d ∈ [(0 : Int), 2], d ∈ cpx_packing_example.m_dim_ids_c
        ++ cpx_packing_example.m_dim_ids_m ++ cpx_packing_example.m_dim_ids_n
        ++ cpx_packing_example.m_dim_ids_k)
    ∧ (compiled cpx_packing_example).m_num_loops = 2
    ∧ (compiled cpx_packing_example).m_loop_dim_type = [dim_t.M, dim_t.C]
    ∧ (compiled cpx_packing_example).m_loop_first_last_touch = [touch_t.NONE, touch_t.NONE] := by
  decide

/-- C11: when the configuration yields no loop (`m_num_loops` is 0 before the dummy loop is
added: no dimension at all, or only the complex C dimension), a successful `compile` leaves a
nest of exactly one loop with size 1, kind `UNDEFINED_DIM`, all four strides 0 and marker
`EVERY_ITER`, with one task, and `contract_iter` on it makes exactly the calls
first-touch(aux, out), main(left, right, out), last-touch(aux, out) with the base pointers of
the caller. -/
theorem dummy_loop_nest (obj obj' : ContractionLoops) (hz : num_loops_of obj = 0)
    (h : compile obj = some (err_t.SUCCESS, obj')) :
    obj'.m_num_loops = 1
    ∧ obj'.m_loop_sizes = [1]
    ∧ obj'.m_loop_dim_type = [dim_t.UNDEFINED_DIM]
    ∧ obj'.m_loop_strides_left = [0]
    ∧ obj'.m_loop_strides_right = [0]
    ∧ obj'.m_loop_strides_out_aux = [0]
    ∧ obj'.m_loop_strides_out = [0]
    ∧ obj'.m_loop_first_last_touch = [touch_t.EVERY_ITER]
    ∧ obj'.m_num_tasks = 1
    ∧ ∀ (pl pr pa po : Int),
        call_trace obj' 0 0 pl pr pa po
          = [kernel_call.first_touch pa po, kernel_call.main pl pr po,
             kernel_call.last_touch pa po] := by
  obtain ⟨hL, hmk, hty, hsz, hsl, hsr, hsa, hso, hits, hnt, hlen⟩ :=
    compile_success_fields obj obj' h
  have hnil : nest_dims obj = [] := List.eq_nil_of_length_eq_zero (hlen.trans hz)
  have hd : ∀ {α : Type} (x : α), dummy_entry (num_loops_of obj) x = [x] := by
    intro α x
    unfold dummy_entry
    rw [if_pos hz]
  rw [hz, if_pos rfl] at hL
  rw [hnil, hd] at hmk hty hsz hsl hsr hsa hso
  simp only [List.map_nil, List.nil_append, marks, byte_strides] at hmk hty hsz hsl hsr hsa hso
  rw [hnil, hd, hz, if_pos rfl] at hits hnt
  simp only [List.map_nil, List.nil_append] at hits hnt
  obtain ⟨hf, hs, hn⟩ := iter_spaces_of_dummy obj hz
  refine ⟨hL, hsz, hty, hsl, hsr, hsa, hso, hmk, hnt.trans hn, ?_⟩
  intro pl pr pa po
  have hloops : loops_from obj' 0 0
      = [{ touch := touch_t.EVERY_ITER, first := 0, size := 1, stride_left := 0,
           stride_right := 0, stride_out_aux := 0, stride_out := 0 }] := by
    have hr1 : List.range 1 = [0] := rfl
    rw [loops_from_zero, hL, hr1]
    simp only [List.map_cons, List.map_nil, loop_at, IterationSpaces.firsts,
      IterationSpaces.sizes, hits, hf, hs, hmk, hsl, hsr, hsa, hso, List.getD_cons_zero]
  rw [call_trace_eq_nest_trace obj' 0 0 (by rw [hL]; exact Nat.one_pos), hloops,
    nest_trace_every _ rfl]
  have hfr : for_range 0 1 = [0] := rfl
  simp only [hfr, List.flatMap_cons, List.flatMap_nil, List.append_nil, zero_mul, add_zero]

set_option maxRecDepth 100000 in
/-- C11, witness: the complex contraction of scalars, whose only dimension is the complex
dimension. -/
theorem dummy_loop_nest_witness :
    (num_loops_of cpx_scalar_example = 0
      ∧ compile cpx_scalar_example = some (err_t.SUCCESS, compiled cpx_scalar_example))
    ∧ (compiled cpx_scalar_example).m_loop_first_last_touch = [touch_t.EVERY_ITER]
    ∧ call_trace (compiled cpx_scalar_example) 0 0 1000 2000 4000 3000
        = [kernel_call.first_touch 4000 3000, kernel_call.main 1000 2000 3000,
           kernel_call.last_touch 4000 3000] :=
  ⟨by decide,
   (dummy_loop_nest cpx_scalar_example (compiled cpx_scalar_example) (by decide)
      (by decide)).2.2.2.2.2.2.2.1,
   (dummy_loop_nest cpx_scalar_example (compiled cpx_scalar_example) (by decide)
      (by decide)).2.2.2.2.2.2.2.2.2 1000 2000 4000 3000⟩

/-- C12: `compile` returns `INVALID_CPX_DIM` if and only if complex mode is requested (one of
the three kernel kinds is a complex operation) and either there is no C dimension or the size
of the first C dimension, as recorded in the size map, is not 2. -/
theorem invalid_cpx_dim_iff (obj : ContractionLoops) :
    (∃ obj', compile obj = some (err_t.INVALID_CPX_DIM, obj'))
      ↔ (cpx_requested obj = true
          ∧ (obj.m_dim_ids_c = []
            ∨ ∃ (c0 : Int) (rest : List Int) (s : Int),
                obj.m_dim_ids_c = c0 :: rest ∧ obj.m_sizes.lookup c0 = some s ∧ s ≠ 2)) := by
  have hcpx : (set_cpx_outer_c obj).m_cpx_outer_c = cpx_requested obj := rfl
  constructor
  · rintro ⟨obj', h⟩
    by_cases h0 : (set_cpx_outer_c obj).m_cpx_outer_c = true ∧ obj.m_dim_ids_c.length = 0
    · exact ⟨hcpx ▸ h0.1, Or.inl (List.eq_nil_of_length_eq_zero h0.2)⟩
    · by_cases hinv : cpx_size_invalid (set_cpx_outer_c obj) = some true
      · obtain ⟨hc, s, hs, hne⟩ := (cpx_size_invalid_eq_true _).1 hinv
        refine ⟨hcpx ▸ hc, ?_⟩
        have hs' : obj.m_sizes.lookup (obj.m_dim_ids_c.getD 0 0) = some s := hs
        cases hC : obj.m_dim_ids_c with
        | nil => exact Or.inl rfl
        | cons c0 rest =>
          rw [hC] at hs'
          exact Or.inr ⟨c0, rest, s, rfl, hs', hne⟩
      · have := compile_code_of_valid obj _ h0 hinv h
        cases this
  · rintro ⟨hc, hor⟩
    have hc' : (set_cpx_outer_c obj).m_cpx_outer_c = true := hcpx.trans hc
    rcases hor with hnil | ⟨c0, rest, s, hC, hs, hne⟩
    · refine ⟨set_cpx_outer_c obj, ?_⟩
      unfold compile
      have : (set_cpx_outer_c obj).m_cpx_outer_c = true
          ∧ (set_cpx_outer_c obj).m_dim_ids_c.length = 0 :=
        ⟨hc', by show obj.m_dim_ids_c.length = 0; rw [hnil]; rfl⟩
      simp only [this, and_self, if_true]
    · refine ⟨set_cpx_outer_c obj, ?_⟩
      have h0 : ¬ ((set_cpx_outer_c obj).m_cpx_outer_c = true
          ∧ (set_cpx_outer_c obj).m_dim_ids_c.length = 0) := by
        rintro ⟨_, hl⟩
        have hl' : obj.m_dim_ids_c.length = 0 := hl
        rw [hC] at hl'
        cases hl'
      have hinv : cpx_size_invalid (set_cpx_outer_c obj) = some true := by
        rw [cpx_size_invalid_eq_true]
        refine ⟨hc', s, ?_, hne⟩
        show obj.m_sizes.lookup (obj.m_dim_ids_c.getD 0 0) = some s
        rw [hC]
        exact hs
      unfold compile
      simp only [h0, if_false, hinv, Option.bind_eq_bind, Option.some_bind, if_true]

set_option maxRecDepth 100000 in
/-- C13, the code at the failing input: for the complex contraction with packing dimensions
`[0, 2]` complex mode is requested and `compile` returns `SUCCESS`, the loop dimension ids it
reads are `[1, 0]`, so the first C dimension, id 0, is loop 1 of the nest (kind `C`, size 2,
byte strides of dimension 0), although its strides are recorded as complex strides as
well. -/
theorem cpx_packing_first_c_is_loop :
    cpx_requested cpx_packing_example = true
    ∧ compile cpx_packing_example = some (err_t.SUCCESS, compiled cpx_packing_example)
    ∧ cpx_packing_example.m_dim_ids_c = [0]
    ∧ nest_dims cpx_packing_example = [1, 0]
    ∧ (compiled cpx_packing_example).m_num_loops = 2
    ∧ (compiled cpx_packing_example).m_loop_dim_type = [dim_t.M, dim_t.C]
    ∧ (compiled cpx_packing_example).m_loop_sizes = [3, 2]
    ∧ (compiled cpx_packing_example).m_loop_strides_left = [8, 4]
    ∧ (compiled cpx_packing_example).m_loop_strides_out = [8, 4]
    ∧ (compiled cpx_packing_example).m_cpx_stride_in_left_bytes = 4
    ∧ (compiled cpx_packing_example).m_cpx_stride_out_bytes = 4 := by
  decide

/-- C14: for a non-complex configuration with pairwise distinct dimension ids across the C, M,
N and K lists and packing dimensions (if any) that are a duplicate-free subset of these ids,
after a successful `compile` the dimension ids of the loops are a permutation of all dimension
ids, every loop has the size of its dimension, and the product of the loop sizes equals the
product of the sizes of all dimensions. -/
theorem nest_complete (obj obj' : ContractionLoops) (hc : non_complex obj)
    (hnd : (all_dims obj).Nodup) (hpk : packing_dims_ok obj)
    (h : compile obj = some (err_t.SUCCESS, obj')) :
    (nest_dims obj).Perm (all_dims obj)
    ∧ obj'.m_loop_sizes
        = (nest_dims obj).map (dim_size_of obj) ++ dummy_entry (num_loops_of obj) 1
    ∧ (∀ d ∈ nest_dims obj, obj.m_sizes.lookup d = some (dim_size_of obj d))
    ∧ obj'.m_loop_sizes.prod = ((all_dims obj).map (dim_size_of obj)).prod := by
  obtain ⟨_, _, _, hsz, _⟩ := compile_success_fields obj obj' h
  obtain ⟨_, _, hall, _⟩ := compile_success_spec obj obj' h
  have hperm := nest_dims_perm obj hc hnd hpk
  refine ⟨hperm, hsz, ?_, ?_⟩
  · intro d hd
    have := (hall d hd).2
    unfold dim_size_of
    cases hs : obj.m_sizes.lookup d with
    | none => rw [hs] at this; cases this
    | some s => rfl
  · rw [hsz, List.prod_append, (hperm.map (dim_size_of obj)).prod_eq]
    unfold dummy_entry
    split <;> simp

set_option maxRecDepth 100000 in
/-- C14, witness: the matrix multiplication with a packed N dimension; its loops are the
dimensions `[0, 2, 1]` with the sizes `[2, 4, 3]`. -/
theorem nest_complete_witness :
    (non_complex packing_example ∧ (all_dims packing_example).Nodup
      ∧ packing_dims_ok packing_example
      ∧ compile packing_example = some (err_t.SUCCESS, compiled packing_example))
    ∧ nest_dims packing_example = [0, 2, 1]
    ∧ (compiled packing_example).m_loop_sizes = [2, 4, 3]
    ∧ (compiled packing_example).m_loop_sizes.prod
        = ((all_dims packing_example).map (dim_size_of packing_example)).prod :=
  ⟨by decide, by decide, by decide,
   (nest_complete packing_example (compiled packing_example) (by decide) (by decide)
      (by decide) (by decide)).2.2.2⟩

set_option maxRecDepth 100000 in
/-- C15, the code at the failing input: for the non-complex matrix multiplication with the
packed N dimension (type map agreeing with the id lists, packing dimensions a duplicate-free
subset of the ids) `compile` returns `SUCCESS`, the loops of the nest are `M, K, N`, and
`threading` hands the first `c + m + n = 2` loops to the partitioner as parallelizable: loop 1
of them is the K loop. After `threading( 4 )` the partitioner of the specification cuts both
loops: the tasks 0 and 1 have the same M index and the K indices 0 and 1. -/
theorem packing_k_loop_parallel :
    non_complex packing_example
    ∧ types_agree packing_example
    ∧ packing_dims_ok packing_example
    ∧ compile packing_example = some (err_t.SUCCESS, compiled packing_example)
    ∧ (compiled packing_example).m_loop_dim_type = [dim_t.M, dim_t.K, dim_t.N]
    ∧ (compiled packing_example).m_iter_spaces.m_num_parallel = 2
    ∧ (compiled packing_example).m_loop_dim_type.getD 1 dim_t.UNDEFINED_DIM = dim_t.K
    ∧ task_ranges ((compiled packing_example).threading 4).2 0 = [(0, 1), (0, 1), (0, 3)]
    ∧ task_ranges ((compiled packing_example).threading 4).2 1 = [(0, 1), (1, 1), (0, 3)] := by
  decide

/-- The stride vectors after `compile` with exact products: for the loop of dimension `d` the
byte stride is the size of the data type times the entry of `d` in the stride map, 0 when `d`
is missing from the map; the dummy loop has the strides 0. -/
theorem loop_byte_strides_exact (obj obj' : ContractionLoops)
    (h : compile obj = some (err_t.SUCCESS, obj')) :
    (nest_dims obj).length = num_loops_of obj
    ∧ obj'.m_loop_strides_left
        = (nest_dims obj).map (fun d =>
            obj.m_num_bytes_scalar_left * (obj.m_strides_left.lookup d).getD 0)
          ++ dummy_entry (num_loops_of obj) 0
    ∧ obj'.m_loop_strides_right
        = (nest_dims obj).map (fun d =>
            obj.m_num_bytes_scalar_right * (obj.m_strides_right.lookup d).getD 0)
          ++ dummy_entry (num_loops_of obj) 0
    ∧ obj'.m_loop_strides_out_aux
        = (nest_dims obj).map (fun d =>
            obj.m_num_bytes_scalar_out * (obj.m_strides_out_aux.lookup d).getD 0)
          ++ dummy_entry (num_loops_of obj) 0
    ∧ obj'.m_loop_strides_out
        = (nest_dims obj).map (fun d =>
            obj.m_num_bytes_scalar_out * (obj.m_strides_out.lookup d).getD 0)
          ++ dummy_entry (num_loops_of obj) 0 := by
  obtain ⟨_, _, _, _, hsl, hsr, hsa, hso, _, _, hlen⟩ := compile_success_fields obj obj' h
  have hfs : ∀ (m : List (Int × Int)) (b d : Int),
      find_stride m d * b = b * (m.lookup d).getD 0 := by
    intro m b d
    unfold find_stride
    cases m.lookup d <;> simp [mul_comm]
  refine ⟨hlen, ?_, ?_, ?_, ?_⟩
  · rw [hsl]; unfold byte_strides; simp only [hfs]
  · rw [hsr]; unfold byte_strides; simp only [hfs]
  · rw [hsa]; unfold byte_strides; simp only [hfs]
  · rw [hso]; unfold byte_strides; simp only [hfs]

theorem map_int64_strides (b : Int) (m : List (Int × Int)) (ds : List Int) (n : Nat) :
    (ds.map (fun d => b * (m.lookup d).getD 0) ++ dummy_entry n 0).map int64
      = ds.map (fun d => int64 (b * (m.lookup d).getD 0)) ++ dummy_entry n 0 := by
  rw [List.map_append, List.map_map]
  have hd : (dummy_entry n (0 : Int)).map int64 = dummy_entry n 0 := by
    unfold dummy_entry
    split
    · rw [List.map_cons, List.map_nil, int64_zero]
    · rfl
  rw [hd]
  rfl

theorem map_int64_of_in (b : Int) (m : List (Int × Int)) (ds : List Int)
    (h : ∀ d ∈ ds, in_int64 (b * (m.lookup d).getD 0)) :
    ds.map (fun d => int64 (b * (m.lookup d).getD 0))
      = ds.map (fun d => b * (m.lookup d).getD 0) := by
  apply List.map_congr_left
  intro d hd
  exact int64_of_in _ (h d hd)

set_option maxRecDepth 100000 in
/-- C16, counterexample: one M dimension with the stride `2^61` in the left tensor and 8-byte
scalars. `compile` with the scaling in `int64_t` returns `SUCCESS` and stores the left byte
stride 0, the product `8 * 2^61 = 2^64` reduced to the range of `int64_t`, and not
`bytes_left * s_left(d)`. -/
theorem loop_byte_strides_overflow :
    (compile_int64 wide_stride_example).map (fun r => r.1) = some err_t.SUCCESS
    ∧ nest_dims wide_stride_example = [0]
    ∧ wide_stride_example.m_num_bytes_scalar_left = 8
    ∧ wide_stride_example.m_strides_left.lookup 0 = some 2305843009213693952
    ∧ (compile_int64 wide_stride_example).map (fun r => r.2.m_loop_strides_left) = some [0]
    ∧ (nest_dims wide_stride_example).map (fun d =>
          wide_stride_example.m_num_bytes_scalar_left
            * (wide_stride_example.m_strides_left.lookup d).getD 0)
        = [18446744073709551616] := by
  decide

/-- C16, amended: after a successful `compile`, with the scaling of the strides done in
`int64_t` as in the source, the loops of the nest are the dimension ids that `compile` reads
from its loop order (plus the dummy loop when there is none), and for the loop of dimension
`d` the left byte stride is `bytes_left * s_left(d)` reduced to the range of `int64_t`, the
right byte stride `bytes_right * s_right(d)` and the out_aux and out byte strides
`bytes_out * s_aux(d)` and `bytes_out * s_out(d)`, reduced likewise, where `s_X(d)` is the
entry of `d` in the stride map of `X` and 0 when `d` is missing from the map; the dummy loop
has the strides 0. For a tensor whose products are representable as `int64_t` the byte
strides are the products themselves. -/
theorem loop_byte_strides (obj obj' : ContractionLoops)
    (h : compile_int64 obj = some (err_t.SUCCESS, obj')) :
    (nest_dims obj).length = num_loops_of obj
    ∧ obj'.m_loop_strides_left
        = (nest_dims obj).map (fun d =>
            int64 (obj.m_num_bytes_scalar_left * (obj.m_strides_left.lookup d).getD 0))
          ++ dummy_entry (num_loops_of obj) 0
    ∧ obj'.m_loop_strides_right
        = (nest_dims obj).map (fun d =>
            int64 (obj.m_num_bytes_scalar_right * (obj.m_strides_right.lookup d).getD 0))
          ++ dummy_entry (num_loops_of obj) 0
    ∧ obj'.m_loop_strides_out_aux
        = (nest_dims obj).map (fun d =>
            int64 (obj.m_num_bytes_scalar_out * (obj.m_strides_out_aux.lookup d).getD 0))
          ++ dummy_entry (num_loops_of obj) 0
    ∧ obj'.m_loop_strides_out
        = (nest_dims obj).map (fun d =>
            int64 (obj.m_num_bytes_scalar_out * (obj.m_strides_out.lookup d).getD 0))
          ++ dummy_entry (num_loops_of obj) 0
    ∧ ((∀ d ∈ nest_dims obj,
          in_int64 (obj.m_num_bytes_scalar_left * (obj.m_strides_left.lookup d).getD 0)) →
        obj'.m_loop_strides_left
          = (nest_dims obj).map (fun d =>
              obj.m_num_bytes_scalar_left * (obj.m_strides_left.lookup d).getD 0)
            ++ dummy_entry (num_loops_of obj) 0)
    ∧ ((∀ d ∈ nest_dims obj,
          in_int64 (obj.m_num_bytes_scalar_right * (obj.m_strides_right.lookup d).getD 0)) →
        obj'.m_loop_strides_right
          = (nest_dims obj).map (fun d =>
              obj.m_num_bytes_scalar_right * (obj.m_strides_right.lookup d).getD 0)
            ++ dummy_entry (num_loops_of obj) 0)
    ∧ ((∀ d ∈ nest_dims obj,
          in_int64 (obj.m_num_bytes_scalar_out * (obj.m_strides_out_aux.lookup d).getD 0)) →
        obj'.m_loop_strides_out_aux
          = (nest_dims obj).map (fun d =>
              obj.m_num_bytes_scalar_out * (obj.m_strides_out_aux.lookup d).getD 0)
            ++ dummy_entry (num_loops_of obj) 0)
    ∧ ((∀ d ∈ nest_dims obj,
          in_int64 (obj.m_num_bytes_scalar_out * (obj.m_strides_out.lookup d).getD 0)) →
        obj'.m_loop_strides_out
          = (nest_dims obj).map (fun d =>
              obj.m_num_bytes_scalar_out * (obj.m_strides_out.lookup d).getD 0)
            ++ dummy_entry (num_loops_of obj) 0) := by
  obtain ⟨obj0, hc, e1, e2, e3, e4⟩ := compile_int64_success obj obj' h
  obtain ⟨hlen, h1, h2, h3, h4⟩ := loop_byte_strides_exact obj obj0 hc
  rw [h1, map_int64_strides] at e1
  rw [h2, map_int64_strides] at e2
  rw [h3, map_int64_strides] at e3
  rw [h4, map_int64_strides] at e4
  refine ⟨hlen, e1, e2, e3, e4, ?_, ?_, ?_, ?_⟩
  · intro hin
    rw [e1, map_int64_of_in _ _ _ hin]
  · intro hin
    rw [e2, map_int64_of_in _ _ _ hin]
  · intro hin
    rw [e3, map_int64_of_in _ _ _ hin]
  · intro hin
    rw [e4, map_int64_of_in _ _ _ hin]

set_option maxRecDepth 100000 in
/-- C16, witness: the matrix multiplication of the test with four-byte scalars; dimension 1
is missing from the left tensor and dimension 0 from the right tensor. The products are
representable and the left byte strides are 4, 0 and 8. -/
theorem loop_byte_strides_witness :
    compile_int64 matmul_example = some (err_t.SUCCESS, compiled matmul_example)
    ∧ nest_dims matmul_example = [0, 1, 2]
    ∧ (compiled matmul_example).m_loop_strides_left = [4, 0, 8]
    ∧ (compiled matmul_example).m_loop_strides_left
        = (nest_dims matmul_example).map (fun d =>
            matmul_example.m_num_bytes_scalar_left
              * (matmul_example.m_strides_left.lookup d).getD 0)
          ++ dummy_entry (num_loops_of matmul_example) 0 :=
  ⟨by decide, by decide, by decide,
   (loop_byte_strides matmul_example (compiled matmul_example) (by decide)).2.2.2.2.2.1
     (by decide)⟩

/-- C17: `compile` is idempotent: when a call of `compile` returns the code `e` and leaves the
object `obj1`, a second call returns the same code `e` and leaves `obj1` as it is, so the
number of loops, the markers, kinds, sizes, the four byte-stride vectors, the complex strides,
the packing loop ids and the iteration spaces after the second call are those after the
first. -/
theorem compile_idempotent (obj obj1 : ContractionLoops) (e : err_t)
    (h : compile obj = some (e, obj1)) : compile obj1 = some (e, obj1) := by
  by_cases h0 : (set_cpx_outer_c obj).m_cpx_outer_c = true
      ∧ (set_cpx_outer_c obj).m_dim_ids_c.length = 0
  · have h1 : compile obj = some (err_t.INVALID_CPX_DIM, set_cpx_outer_c obj) := by
      unfold compile
      simp only [h0, and_self, if_true]
    rw [h1] at h
    simp only [Option.some.injEq, Prod.mk.injEq] at h
    obtain ⟨rfl, rfl⟩ := h
    have h0' : (set_cpx_outer_c (set_cpx_outer_c obj)).m_cpx_outer_c = true
        ∧ (set_cpx_outer_c (set_cpx_outer_c obj)).m_dim_ids_c.length = 0 := h0
    unfold compile
    simp only [h0', and_self, if_true]
    rfl
  · by_cases hinv : cpx_size_invalid (set_cpx_outer_c obj) = some true
    · have h1 : compile obj = some (err_t.INVALID_CPX_DIM, set_cpx_outer_c obj) := by
        unfold compile
        simp only [h0, if_false, hinv, Option.bind_eq_bind, Option.some_bind, if_true]
      rw [h1] at h
      simp only [Option.some.injEq, Prod.mk.injEq] at h
      obtain ⟨rfl, rfl⟩ := h
      have h0' : ¬ ((set_cpx_outer_c (set_cpx_outer_c obj)).m_cpx_outer_c = true
          ∧ (set_cpx_outer_c (set_cpx_outer_c obj)).m_dim_ids_c.length = 0) := h0
      have hinv' : cpx_size_invalid (set_cpx_outer_c (set_cpx_outer_c obj)) = some true := hinv
      unfold compile
      simp only [h0', if_false, hinv', Option.bind_eq_bind, Option.some_bind, if_true]
      rfl
    · have he := compile_code_of_valid obj _ h0 hinv h
      have he' : e = err_t.SUCCESS := he
      subst he'
      exact compile_twice_success obj obj1 h

set_option maxRecDepth 100000 in
/-- C17, witness: the matrix multiplication of the test, compiled twice. -/
theorem compile_idempotent_witness :
    compile matmul_example = some (err_t.SUCCESS, compiled matmul_example)
    ∧ compile (compiled matmul_example) = some (err_t.SUCCESS, compiled matmul_example) :=
  ⟨by decide,
   compile_idempotent matmul_example (compiled matmul_example) err_t.SUCCESS (by decide)⟩

/-- C18: on a nest compiled without packing (K dimensions typed K and of output stride 0), for
two tasks whose index tuples of the non-K loops are pairwise different and output strides that
map different non-K index tuples of the two tasks to different offsets, no output pointer that
`contract_iter` passes to the first-touch, main or last-touch kernel for the one task is
passed to a kernel for the other task. -/
theorem tasks_output_disjoint (obj obj' : ContractionLoops) (t t' : Nat) (pl pr pa po : Int)
    (hp : obj.m_packing = none) (ha : types_agree obj)
    (h : compile obj = some (err_t.SUCCESS, obj')) (hk0 : k_stride_out_zero obj)
    (hdisj : ∀ i ∈ box ((task_ranges obj' t).take (non_k_dims obj).length),
      ∀ j ∈ box ((task_ranges obj' t').take (non_k_dims obj).length), i ≠ j)
    (hinj : ∀ i ∈ box ((task_ranges obj' t).take (non_k_dims obj).length),
      ∀ j ∈ box ((task_ranges obj' t').take (non_k_dims obj).length),
        out_offset obj i = out_offset obj j → i = j) :
    ∀ c ∈ call_trace obj' t 0 pl pr pa po, ∀ c' ∈ call_trace obj' t' 0 pl pr pa po,
      out_ptr c ≠ out_ptr c' := by
  by_cases hne : num_loops_of obj = 0
  · have hnk : (non_k_dims obj).length = 0 := by
      have := num_loops_of_eq_add obj
      omega
    rw [hnk] at hdisj
    exact absurd rfl (hdisj [] (by simp [box]) [] (by simp [box]))
  · intro c hc c' hc' heq
    obtain ⟨i, hi, ei⟩ := out_ptr_of_mem_call_trace obj obj' hp ha h hne hk0 t pl pr pa po c hc
    obtain ⟨j, hj, ej⟩ :=
      out_ptr_of_mem_call_trace obj obj' hp ha h hne hk0 t' pl pr pa po c' hc'
    rw [ei, ej] at heq
    exact hdisj i hi j hj (hinj i hi j hj (by linarith))

set_option maxRecDepth 100000 in
/-- C18, witness: the matrix multiplication of the test with two targeted tasks; the
partitioner cuts the M loop, task 0 has the M index 0 and task 1 the M index 1. -/
theorem tasks_output_disjoint_witness :
    (two_tasks_example.m_packing = none ∧ types_agree two_tasks_example
      ∧ compile two_tasks_example = some (err_t.SUCCESS, compiled two_tasks_example)
      ∧ k_stride_out_zero two_tasks_example
      ∧ task_ranges (compiled two_tasks_example) 0 = [(0, 1), (0, 3), (0, 4)]
      ∧ task_ranges (compiled two_tasks_example) 1 = [(1, 1), (0, 3), (0, 4)])
    ∧ ∀ c ∈ call_trace (compiled two_tasks_example) 0 0 1000 2000 0 3000,
        ∀ c' ∈ call_trace (compiled two_tasks_example) 1 0 1000 2000 0 3000,
          out_ptr c ≠ out_ptr c' :=
  ⟨by decide,
   tasks_output_disjoint two_tasks_example (compiled two_tasks_example) 0 1 1000 2000 0 3000
    rfl (by decide) (by decide) (by decide) (by decide) (by decide)⟩

set_option maxRecDepth 1000000 in
/-- C26, the code at the failing input: for the contraction with the K dimensions 1 and 2 and
the packing dimensions `[0, 2]` (non-complex, type map agreeing with the id lists, packing
dimensions a duplicate-free subset of the ids, output stride of the M dimension 1) `compile`
returns `SUCCESS`, the loops of the nest are `K, M, K` with the packing dimensions innermost
and the markers `NONE, NONE, BEFORE_AFTER_ITER`, the one task covers the full range of every
loop, and `contract_iter_packing` calls the first-touch kernel twice and the last-touch kernel
twice on each of the two output elements, once per index of the outer K loop. -/
theorem packing_touch_per_outer_k :
    non_complex split_k_example
    ∧ types_agree split_k_example
    ∧ packing_dims_ok split_k_example
    ∧ out_strides_injective split_k_example
    ∧ compile split_k_example = some (err_t.SUCCESS, compiled split_k_example)
    ∧ nest_dims split_k_example = [1, 0, 2]
    ∧ (compiled split_k_example).m_loop_dim_type = [dim_t.K, dim_t.M, dim_t.K]
    ∧ (compiled split_k_example).m_loop_first_last_touch
        = [touch_t.NONE, touch_t.NONE, touch_t.BEFORE_AFTER_ITER]
    ∧ (compiled split_k_example).m_num_tasks = 1
    ∧ task_ranges (compiled split_k_example) 0 = [(0, 2), (0, 2), (0, 2)]
    ∧ (packing_call_trace (compiled split_k_example) 0 1000 2000 0 3000).filterMap
        first_touch_out = [3000, 3004, 3000, 3004]
    ∧ (packing_call_trace (compiled split_k_example) 0 1000 2000 0 3000).filterMap
        last_touch_out = [3000, 3004, 3000, 3004]
    ∧ ((packing_call_trace (compiled split_k_example) 0 1000 2000 0 3000).filterMap
        first_touch_out).count 3000 = 2 := by
  refine ⟨by decide, by decide, by decide, by decide, by decide, by decide, by decide,
    by decide, by decide, by decide, ?_, ?_, ?_⟩
  · rw [packing_call_trace_eq _ _ (by decide)]
    decide
  · rw [packing_call_trace_eq _ _ (by decide)]
    decide
  · rw [packing_call_trace_eq _ _ (by decide)]
    decide

set_option maxRecDepth 100000 in
/-- C27, counterexample: the matrix multiplication with the packed N dimension compiles to the
loops `M, K, N`; the nest contains a K loop and its innermost loop carries the marker
`EVERY_ITER`. -/
theorem every_iter_in_nest_with_k :
    compile packing_example = some (err_t.SUCCESS, compiled packing_example)
    ∧ types_agree packing_example
    ∧ (compiled packing_example).m_loop_dim_type = [dim_t.M, dim_t.K, dim_t.N]
    ∧ (compiled packing_example).m_loop_first_last_touch
        = [touch_t.NONE, touch_t.NONE, touch_t.EVERY_ITER]
    ∧ dim_t.K ∈ (compiled packing_example).m_loop_dim_type := by
  decide

/-- C27, amended: in a nest produced by `compile`, with or without packing dims, a loop that
carries the marker `EVERY_ITER` is the innermost loop of the nest and not a K loop, so that no
K loop lies at or inside it and every K loop of the nest encloses it; without a packing object
and with the type map agreeing with the id lists the nest then contains no K loop at all. -/
theorem every_iter_inside_k_loops (obj obj' : ContractionLoops)
    (h : compile obj = some (err_t.SUCCESS, obj'))
    (l : Nat) (hl : obj'.m_loop_first_last_touch[l]? = some touch_t.EVERY_ITER) :
    l + 1 = obj'.m_num_loops
    ∧ (∀ j, l ≤ j → obj'.m_loop_dim_type[j]? ≠ some dim_t.K)
    ∧ (obj.m_packing = none → types_agree obj →
        ∀ ty ∈ obj'.m_loop_dim_type, ty ≠ dim_t.K) := by
  obtain ⟨hN, hmk, hty, _⟩ := compile_success_fields obj obj' h
  have hv := compiled_vectors_sized obj obj' h
  by_cases hn : num_loops_of obj = 0
  · have hnest : nest_dims obj = [] := by
      unfold nest_dims
      rw [hn, List.take_zero]
    have hdt : obj'.m_loop_dim_type = [dim_t.UNDEFINED_DIM] := by
      rw [hty, hnest]
      unfold dummy_entry
      rw [if_pos hn]
      rfl
    have hlen := hv.1
    rw [hN, if_pos hn] at hlen
    have hl0 : l = 0 := by
      have hlt : l < obj'.m_loop_first_last_touch.length := by
        by_contra hge
        rw [List.getElem?_eq_none (by omega)] at hl
        cases hl
      omega
    rw [hdt, hN, if_pos hn]
    refine ⟨by omega, ?_, ?_⟩
    · intro j _ hk
      cases j with
      | zero => simp at hk
      | succ j => simp at hk
    · intro _ _ ty hmem
      rw [List.mem_singleton] at hmem
      rw [hmem]
      decide
  · rw [dummy_entry_of_ne _ _ hn, List.append_nil] at hmk hty
    rw [if_neg hn] at hN
    have hl1 := hl
    rw [hmk] at hl1
    obtain ⟨hs, _, _⟩ := marks_every_iter_last _ _ _ 0 0 false l hl1
    obtain ⟨⟨ty, hty1, hty2⟩, _⟩ := marks_every_iter_count _ _ _ 0 0 false l hl1
    have hcbm : num_dim_cbm (set_cpx_outer_c obj) = (non_k_dims obj).length := by
      simp only [num_dim_cbm, non_k_dims, List.length_append]
      rfl
    have hlast : l + 1 = obj'.m_num_loops := by
      rw [hN, num_loops_of_eq_add, ← hcbm]
      omega
    refine ⟨hlast, ?_, ?_⟩
    · intro j hj hk
      by_cases hjl : j = l
      · rw [hjl, hty, hty1] at hk
        exact hty2 (Option.some.inj hk)
      · rw [List.getElem?_eq_none (by rw [hv.2.1]; omega)] at hk
        cases hk
    · intro hp ha ty hmem
      rw [hty, nest_dims_eq_append obj hp, List.map_append] at hmem
      have hk : obj.m_dim_ids_k = [] := by
        by_contra hk
        have hm := markers_no_packing obj hp ha
        rw [dummy_entry_of_ne _ _ hn, List.append_nil, if_neg hk] at hm
        rw [hm] at hl1
        have hmem2 := List.getElem?_mem hl1
        simp at hmem2
      rw [hk, List.map_nil, List.append_nil] at hmem
      obtain ⟨d, hd, rfl⟩ := List.mem_map.1 hmem
      exact type_non_k_dims obj ha d hd

set_option maxRecDepth 100000 in
/-- C27, witness: in the matrix multiplication with the packed N dimension, loops `M, K, N`,
the loop marked `EVERY_ITER` is loop 2, the innermost loop, inside the K loop. -/
theorem every_iter_inside_k_loops_witness :
    (compile packing_example = some (err_t.SUCCESS, compiled packing_example)
      ∧ (compiled packing_example).m_loop_first_last_touch[2]? = some touch_t.EVERY_ITER)
    ∧ 2 + 1 = (compiled packing_example).m_num_loops
    ∧ (∀ j, 2 ≤ j → (compiled packing_example).m_loop_dim_type[j]? ≠ some dim_t.K) :=
  ⟨by decide,
   (every_iter_inside_k_loops packing_example (compiled packing_example) (by decide)
      2 (by decide)).1,
   (every_iter_inside_k_loops packing_example (compiled packing_example) (by decide)
      2 (by decide)).2.1⟩

/-- The loop order of `compile` on the configurations where the packing dimensions are a
duplicate-free subset of the dimensions that become loops: the loops of the nest are, in this
order, the C dimensions without the complex one, the M, the N and the K dimensions, each
group in the order given to `init`, when there is no packing object; with packing dimensions
the dimensions that are not packing dimensions keep this order and the packing dimensions
follow in the order of the packing object as the innermost loops. The types and sizes of the
loops are those of these dimensions. -/
theorem nest_order (obj obj' : ContractionLoops)
    (h : compile obj = some (err_t.SUCCESS, obj')) (hP : (packing_dims obj).Nodup)
    (hsub : ∀ d ∈ packing_dims obj, d ∈ non_k_dims obj ++ obj.m_dim_ids_k) :
    non_k_dims obj
        = (if cpx_requested obj = true then obj.m_dim_ids_c.drop 1 else obj.m_dim_ids_c)
          ++ obj.m_dim_ids_m ++ obj.m_dim_ids_n
    ∧ (obj.m_packing = none → nest_dims obj = non_k_dims obj ++ obj.m_dim_ids_k)
    ∧ nest_dims obj
        = (non_k_dims obj ++ obj.m_dim_ids_k).filter
            (fun d => !((packing_dims obj).contains d)) ++ packing_dims obj
    ∧ (nest_dims obj).length = num_loops_of obj
    ∧ obj'.m_loop_dim_type = (nest_dims obj).map (dim_type_of obj)
          ++ dummy_entry (num_loops_of obj) dim_t.UNDEFINED_DIM
    ∧ obj'.m_loop_sizes = (nest_dims obj).map (dim_size_of obj)
          ++ dummy_entry (num_loops_of obj) 1 := by
  obtain ⟨_, _, hty, hsz, _⟩ := compile_success_fields obj obj' h
  obtain ⟨_, hle, _⟩ := compile_success_spec obj obj' h
  refine ⟨rfl, fun hp => nest_dims_eq_append obj hp, nest_dims_packing_order obj hP hsub, ?_,
    hty, hsz⟩
  unfold nest_dims
  rw [List.length_take]
  omega

set_option maxRecDepth 100000 in
/-- C29, the code at the failing input: the complex contraction with `C = [0]`, `M = [1]`,
`K = [2]` and the packing dimensions `[0, 2]`, a duplicate-free list of dimension ids.
`compile` returns `SUCCESS`; the dimensions that are not packing dimensions, in the order C
(without the complex one), M, N, K, are `[1]`, and followed by the packing dimensions they
give the order `[1, 0, 2]`; the nest that `compile` leaves has the two loops of the dimensions
`[1, 0]`, of the kinds M and C: the packed K dimension 2 is not a loop of the nest. -/
theorem cpx_packing_nest_order :
    compile cpx_packing_example = some (err_t.SUCCESS, compiled cpx_packing_example)
    ∧ (packing_dims cpx_packing_example).Nodup
    ∧ (∀ d ∈ packing_dims cpx_packing_example, d ∈ all_dims cpx_packing_example)
    ∧ (non_k_dims cpx_packing_example ++ cpx_packing_example.m_dim_ids_k).filter
          (fun d => !((packing_dims cpx_packing_example).contains d))
        ++ packing_dims cpx_packing_example = [1, 0, 2]
    ∧ loop_dims (set_cpx_outer_c cpx_packing_example)
        (loop_dim_ids_c (set_cpx_outer_c cpx_packing_example)) = [1, 0, 2]
    ∧ (compiled cpx_packing_example).m_num_loops = 2
    ∧ nest_dims cpx_packing_example = [1, 0]
    ∧ (compiled cpx_packing_example).m_loop_dim_type = [dim_t.M, dim_t.C]
    ∧ (compiled cpx_packing_example).m_loop_sizes = [3, 2]
    ∧ dim_t.K ∉ (compiled cpx_packing_example).m_loop_dim_type := by
  decide

set_option maxRecDepth 1000000 in
/-- C35, the code at the failing input: the matrix multiplication with a packing object whose
left packing loop id is -1 and two targeted tasks compiles to two tasks; `contract`, called
with the left tensor at the address 1000 and a left pack kernel that returns the packed data
at the address 9000, gives the pack kernel the pointer 1000 in task 0 and the pointer 9000,
the result of the pack call of task 0, in task 1. -/
theorem pack_reads_packed_pointer :
    compile pack_all_example = some (err_t.SUCCESS, compiled pack_all_example)
    ∧ (compiled pack_all_example).m_packing.isSome = true
    ∧ (compiled pack_all_example).m_id_packing_loop_left = -1
    ∧ (compiled pack_all_example).m_num_tasks = 2
    ∧ contract (compiled pack_all_example) silent_kernels (recording_packing 9000)
        1000 2000 0 3000 [] = [1000, 9000] := by
  refine ⟨by decide, by decide, by decide, by decide, ?_⟩
  unfold contract
  simp only [contract_iter_packing_zero (compiled pack_all_example) silent_kernels
    (recording_packing 9000) (by decide)]
  decide

/-- C34: for a nest that `compile` builds in the plain order C, M, N, K (no packing
dimension), with at least one dimension and the type map agreeing with the id lists, and
packing loop ids that are the id of no loop, `contract_iter_packing` started at the outermost
loop with the K counter 0 is `contract_iter`: for all kernels, every state, every task and all
base pointers the two give the same state; in particular, with kernels that record their
calls, the same sequence of first-touch, main and last-touch calls with the same pointers. -/
theorem contract_iter_packing_plain (obj obj' : ContractionLoops)
    (h : compile obj = some (err_t.SUCCESS, obj')) (ha : types_agree obj)
    (hp : packing_dims obj = []) (hdim : num_loops_of obj ≠ 0)
    (hids : ∀ l : Nat, l < obj'.m_num_loops →
      obj'.m_id_packing_loop_left ≠ (l : Int) ∧ obj'.m_id_packing_loop_right ≠ (l : Int)) :
    (∀ (σ : Type) (kern : Kernels σ) (pack : PackingKernels σ) (t : Nat)
        (pl pr pa po : Int) (s : σ),
        contract_iter_packing obj' kern pack t 0 0 pl pr pa po s
          = contract_iter obj' kern t 0 pl pr pa po s)
    ∧ (∀ (pack : PackingKernels (List kernel_call)) (t : Nat) (pl pr pa po : Int),
        contract_iter_packing obj' trace_kernels pack t 0 0 pl pr pa po []
          = call_trace obj' t 0 pl pr pa po) := by
  have hmain : ∀ (σ : Type) (kern : Kernels σ) (pack : PackingKernels σ) (t : Nat)
      (pl pr pa po : Int) (s : σ),
      contract_iter_packing obj' kern pack t 0 0 pl pr pa po s
        = contract_iter obj' kern t 0 pl pr pa po s := by
    intro σ kern pack t pl pr pa po s
    obtain ⟨hpos, _⟩ := compiled_lengths obj obj' h
    obtain ⟨_, hmk, hty, _⟩ := compile_success_fields obj obj' h
    have hm := markers_plain obj hp ha
    rw [← hmk] at hm
    rw [dummy_entry_of_ne _ _ hdim, List.append_nil, nest_dims_plain obj hp,
      List.map_append] at hty
    rw [contract_iter_packing_zero obj' kern pack hpos,
      contract_iter_eq_nest_run obj' kern t (obj'.m_num_loops - 1) 0 (by omega),
      ← packing_loops_from_map]
    apply packing_nest_run_eq_nest_run
    · intro d hd
      exact hids d.1 (packing_loops_from_mem obj' t d hd).1
    · by_cases hk : obj.m_dim_ids_k = []
      · right
        refine ⟨rfl, ?_, ?_⟩
        · rw [compile_success_sum_k obj obj' h]
          rw [sum_k_marks_non_k _ _ _ 0 0 false 0 obj.m_loop_sum_k_sizes]
          · rw [if_pos]
            have hm2 := markers_plain obj hp ha
            rw [dummy_entry_of_ne _ _ hdim, List.append_nil, if_pos hk] at hm2
            rw [List.map_map]
            have : (Prod.fst ∘ fun d => (dim_type_of obj d, dim_size_of obj d))
                = dim_type_of obj := rfl
            rw [this, hm2]
            simp
          · intro p hpm
            obtain ⟨d, hd, rfl⟩ := List.mem_map.1 hpm
            rw [nest_dims_plain obj hp, hk, List.append_nil] at hd
            exact type_non_k_dims obj ha d hd
        · intro d hd
          rw [(packing_loops_from_mem obj' t d hd).2.1, hty, hk, List.map_nil, List.append_nil]
          apply getD_ne_of_forall _ _ _ _ (by decide)
          intro ty hmem
          obtain ⟨x, hx, rfl⟩ := List.mem_map.1 hmem
          exact type_non_k_dims obj ha x hx
      · left
        intro d hd
        rw [(packing_loops_from_mem obj' t d hd).2.2, hm, if_neg hk]
        apply getD_ne_of_forall _ _ _ _ (by decide)
        intro y hy
        simp only [List.mem_append, List.mem_replicate, List.mem_cons] at hy
        rcases hy with ⟨_, rfl⟩ | rfl | ⟨_, rfl⟩ <;> decide
  refine ⟨hmain, ?_⟩
  intro pack t pl pr pa po
  exact hmain _ trace_kernels pack t pl pr pa po []

set_option maxRecDepth 1000000 in
/-- C34, witness: the matrix multiplication of the tests, compiled without packing object: the
packing loop ids are both 3, the number of loops. -/
theorem contract_iter_packing_plain_witness :
    (compile matmul_example = some (err_t.SUCCESS, compiled matmul_example)
      ∧ types_agree matmul_example ∧ packing_dims matmul_example = []
      ∧ num_loops_of matmul_example ≠ 0
      ∧ (compiled matmul_example).m_num_loops = 3
      ∧ (compiled matmul_example).m_id_packing_loop_left = 3
      ∧ (compiled matmul_example).m_id_packing_loop_right = 3)
    ∧ (∀ (pack : PackingKernels (List kernel_call)) (t : Nat) (pl pr pa po : Int),
        contract_iter_packing (compiled matmul_example) trace_kernels pack t 0 0 pl pr pa po []
          = call_trace (compiled matmul_example) t 0 pl pr pa po) :=
  ⟨by decide,
   (contract_iter_packing_plain matmul_example (compiled matmul_example) (by decide)
      (by decide) (by decide) (by decide)
      (by
        intro l hl
        have h3 : (compiled matmul_example).m_num_loops = 3 := by decide
        have hL : (compiled matmul_example).m_id_packing_loop_left = 3 := by decide
        have hR : (compiled matmul_example).m_id_packing_loop_right = 3 := by decide
        rw [h3] at hl
        rw [hL, hR]
        omega)).2⟩

/-- C37: `contract_iter` terminates on every compiled nest with a call depth equal to the number
of loops. For an object that `compile` returned with `SUCCESS`, every task, all kernels,
pointers and states: started at a loop `i` of the nest with a call stack of at least
`m_num_loops - i` frames, the run of `contract_iter` with a bounded stack ends and gives the
state of `contract_iter` (from the outermost loop: `m_num_loops` frames are enough); and with
less frames, `i + fuel < m_num_loops`, and non-empty ranges of the task in the loops that get
a frame, the run ends without a frame for the next call, so the depth is exactly the number
of loops. -/
theorem contract_iter_terminates (obj obj' : ContractionLoops)
    (h : compile obj = some (err_t.SUCCESS, obj')) :
    (∀ (σ : Type) (kern : Kernels σ) (t fuel i : Nat) (pl pr pa po : Int) (s : σ),
        i < obj'.m_num_loops → obj'.m_num_loops - i ≤ fuel →
        contract_iter_checked obj' kern t fuel i pl pr pa po s
          = Except.ok (contract_iter obj' kern t i pl pr pa po s))
    ∧ (∀ (σ : Type) (kern : Kernels σ) (t fuel i : Nat) (pl pr pa po : Int) (s : σ),
        i + fuel < obj'.m_num_loops →
        (∀ l, i ≤ l → l < i + fuel → 0 < (obj'.m_iter_spaces.sizes t).getD l 0) →
        contract_iter_checked obj' kern t fuel i pl pr pa po s
          = Except.error iter_error.out_of_fuel) := by
  have hv := compiled_vectors_sized obj obj' h
  refine ⟨?_, ?_⟩
  · intro σ kern t fuel i pl pr pa po s hi hf
    exact contract_iter_checked_ok obj' kern t hv fuel i hi hf pl pr pa po s
  · intro σ kern t fuel i pl pr pa po s hi hr
    exact contract_iter_checked_out_of_fuel obj' kern t hv fuel i hi hr pl pr pa po s

set_option maxRecDepth 1000000 in
/-- C37, witness: the matrix multiplication of the tests has three loops; with three frames
the run of task 0 from the outermost loop gives the calls of `contract_iter`, with two frames
it ends without a frame for the call of the innermost loop. -/
theorem contract_iter_terminates_witness :
    compile matmul_example = some (err_t.SUCCESS, compiled matmul_example)
    ∧ (compiled matmul_example).m_num_loops = 3
    ∧ (∀ (pl pr pa po : Int),
        contract_iter_checked (compiled matmul_example) trace_kernels 0 3 0 pl pr pa po []
          = Except.ok (call_trace (compiled matmul_example) 0 0 pl pr pa po))
    ∧ (∀ (pl pr pa po : Int),
        contract_iter_checked (compiled matmul_example) trace_kernels 0 2 0 pl pr pa po []
          = Except.error iter_error.out_of_fuel) :=
  ⟨by decide, by decide,
   fun pl pr pa po =>
    (contract_iter_terminates matmul_example (compiled matmul_example) (by decide)).1
      _ trace_kernels 0 3 0 pl pr pa po []
      (by
        have h3 : (compiled matmul_example).m_num_loops = 3 := by decide
        omega)
      (by
        have h3 : (compiled matmul_example).m_num_loops = 3 := by decide
        omega),
   fun pl pr pa po =>
    (contract_iter_terminates matmul_example (compiled matmul_example) (by decide)).2
      _ trace_kernels 0 2 0 pl pr pa po []
      (by
        have h3 : (compiled matmul_example).m_num_loops = 3 := by decide
        omega)
      (by
        intro l _ hl
        have hl2 : l < 2 := by omega
        interval_cases l <;> decide)⟩

/-- C39, counterexample: with the M ids `[0, 0]`, a dimension id given twice, and the packing
dimensions `[0]` there are two loops, the list of loop dimension ids of `compile` has the one
entry `[0]`, and `compile` reads `l_loop_dims[1]` past the end of the list, which is
undefined. -/
theorem repeated_dim_reads_past_end :
    num_loops_of repeated_dim_example = 2
    ∧ loop_dims (set_cpx_outer_c repeated_dim_example)
        (loop_dim_ids_c (set_cpx_outer_c repeated_dim_example)) = [0]
    ∧ (loop_dims (set_cpx_outer_c repeated_dim_example)
        (loop_dim_ids_c (set_cpx_outer_c repeated_dim_example)))[1]? = none
    ∧ compile repeated_dim_example = none := by
  decide

/-- C39, amended: the per-loop accesses of `compile`, `contract_iter` and
`contract_iter_packing` are in bounds when the ids of the loop dimensions are pairwise
distinct. With pairwise distinct ids of the loop dimensions and any packing object (also one
whose list of packing dimensions has duplicates or foreign ids) the list of loop dimension
ids of `compile` has at least as many entries as there are loops, so every read
`l_loop_dims[l_di]` with `l_di < m_num_loops` finds an entry; after a successful `compile`
there is at least one loop and the seven per-loop vectors (marker, kind, size and the four
strides) have exactly `m_num_loops` entries; and the runs of `contract_iter` and
`contract_iter_packing` with checked vector accesses, started at a loop of the nest, never
read past the end of a vector, whatever the depth of the stack, and with a frame per loop
they end with the state of the unchecked methods. -/
theorem per_loop_accesses_in_bounds (obj : ContractionLoops)
    (hnd : (non_k_dims obj ++ obj.m_dim_ids_k).Nodup) :
    num_loops_of obj
      ≤ (loop_dims (set_cpx_outer_c obj) (loop_dim_ids_c (set_cpx_outer_c obj))).length
    ∧ (∀ l_di : Nat, l_di < num_loops_of obj →
        ∃ d, (loop_dims (set_cpx_outer_c obj) (loop_dim_ids_c (set_cpx_outer_c obj)))[l_di]?
          = some d)
    ∧ (∀ obj', compile obj = some (err_t.SUCCESS, obj') →
        1 ≤ obj'.m_num_loops
        ∧ vectors_sized obj'
        ∧ (∀ (σ : Type) (kern : Kernels σ) (t fuel i : Nat) (pl pr pa po : Int) (s : σ),
            i < obj'.m_num_loops →
            contract_iter_checked obj' kern t fuel i pl pr pa po s
              ≠ Except.error iter_error.out_of_bounds)
        ∧ (∀ (σ : Type) (kern : Kernels σ) (pack : PackingKernels σ) (t fuel i : Nat)
            (k pl pr pa po : Int) (s : σ), i < obj'.m_num_loops →
            contract_iter_packing_checked obj' kern pack t fuel i k pl pr pa po s
              ≠ Except.error iter_error.out_of_bounds)
        ∧ (∀ (σ : Type) (kern : Kernels σ) (t fuel : Nat) (pl pr pa po : Int) (s : σ),
            obj'.m_num_loops ≤ fuel →
            contract_iter_checked obj' kern t fuel 0 pl pr pa po s
              = Except.ok (contract_iter obj' kern t 0 pl pr pa po s))
        ∧ (∀ (σ : Type) (kern : Kernels σ) (pack : PackingKernels σ) (t fuel : Nat)
            (pl pr pa po : Int) (s : σ), obj'.m_num_loops ≤ fuel →
            contract_iter_packing_checked obj' kern pack t fuel 0 0 pl pr pa po s
              = Except.ok (contract_iter_packing obj' kern pack t 0 0 pl pr pa po s))) := by
  have hlen := loop_dims_length obj hnd
  refine ⟨hlen, ?_, ?_⟩
  · intro l_di hl
    exact ⟨_, List.getElem?_eq_getElem (by omega)⟩
  · intro obj' h
    have hv := compiled_vectors_sized obj obj' h
    obtain ⟨hpos, _⟩ := compiled_lengths obj obj' h
    refine ⟨hpos, hv, ?_, ?_, ?_, ?_⟩
    · intro σ kern t fuel i pl pr pa po s hi
      exact contract_iter_checked_in_bounds obj' kern t hv fuel i hi pl pr pa po s
    · intro σ kern pack t fuel i k pl pr pa po s hi
      exact contract_iter_packing_checked_in_bounds obj' kern pack t hv fuel i hi k pl pr pa po s
    · intro σ kern t fuel pl pr pa po s hf
      exact contract_iter_checked_ok obj' kern t hv fuel 0 hpos (by omega) pl pr pa po s
    · intro σ kern pack t fuel pl pr pa po s hf
      exact contract_iter_packing_checked_ok obj' kern pack t hv fuel 0 hpos (by omega) 0 pl pr
        pa po s

set_option maxRecDepth 1000000 in
/-- C39, witness: the contraction with two K dimensions and the packing dimensions `[0, 2]`:
three loops, the list of loop dimension ids is `[1, 0, 2]`, and the seven per-loop vectors of
the compiled object have three entries. -/
theorem per_loop_accesses_in_bounds_witness :
    (non_k_dims split_k_example ++ split_k_example.m_dim_ids_k).Nodup
    ∧ num_loops_of split_k_example = 3
    ∧ loop_dims (set_cpx_outer_c split_k_example)
        (loop_dim_ids_c (set_cpx_outer_c split_k_example)) = [1, 0, 2]
    ∧ compile split_k_example = some (err_t.SUCCESS, compiled split_k_example)
    ∧ 1 ≤ (compiled split_k_example).m_num_loops
    ∧ vectors_sized (compiled split_k_example) :=
  ⟨by decide, by decide, by decide, by decide,
   ((per_loop_accesses_in_bounds split_k_example (by decide)).2.2
      (compiled split_k_example) (by decide)).1,
   ((per_loop_accesses_in_bounds split_k_example (by decide)).2.2
      (compiled split_k_example) (by decide)).2.1⟩

/-- C33: in `contract_iter_packing` on a nest that `compile` built with at least one dimension
and a loop marked `EVERY_ITER`, for a task whose K loops run over their full range from 0:
the marked loop is the innermost loop and not a K loop, so every K loop encloses it; the calls
are, for every index tuple of the loops in the order of execution, the main kernel, before it
the first-touch kernel when the counter handed down, the sum of the K indices of the tuple,
is 0, and after it the last-touch kernel when this sum is the stored sum of the K sizes minus
1. For the index tuples of the task the sum is 0 exactly when every K index is 0 and it is the
stored sum exactly when every K index is the last of its range, size minus 1; and among the
iterations of one tuple of the non-K loops, taken in the order of execution, the first is the
only one with the first-touch call and the last is the only one with the last-touch call, so
the first touch comes before and the last touch after every main-kernel call of the tuple. -/
theorem packing_every_iter_touch_once (obj obj' : ContractionLoops)
    (h : compile obj = some (err_t.SUCCESS, obj')) (hdim : num_loops_of obj ≠ 0)
    (l : Nat) (hl : obj'.m_loop_first_last_touch[l]? = some touch_t.EVERY_ITER) (t : Nat)
    (hk : ∀ (j : Nat), obj'.m_loop_dim_type[j]? = some dim_t.K →
      ∃ (s : Int), obj'.m_loop_sizes[j]? = some s
        ∧ (task_ranges obj' t)[j]? = some ((0 : Int), s)) :
    (l + 1 = obj'.m_num_loops ∧ obj'.m_loop_dim_type[l]? ≠ some dim_t.K)
    ∧ (∀ (pl pr pa po : Int),
        packing_call_trace obj' t pl pr pa po
          = (box (task_ranges obj' t)).flatMap (fun i =>
              (if (k_indices obj'.m_loop_dim_type i).sum = 0 then
                [kernel_call.first_touch (aux_ptr pa i obj'.m_loop_strides_out_aux)
                  (po + dot i obj'.m_loop_strides_out)] else [])
              ++ [kernel_call.main (pl + dot i obj'.m_loop_strides_left)
                  (pr + dot i obj'.m_loop_strides_right) (po + dot i obj'.m_loop_strides_out)]
              ++ (if obj'.m_loop_sum_k_sizes = (k_indices obj'.m_loop_dim_type i).sum then
                [kernel_call.last_touch (aux_ptr pa i obj'.m_loop_strides_out_aux)
                  (po + dot i obj'.m_loop_strides_out)] else [])))
    ∧ obj'.m_loop_sum_k_sizes
        = (k_indices obj'.m_loop_dim_type (range_lasts (task_ranges obj' t))).sum
    ∧ (∀ (j : Nat), obj'.m_loop_dim_type[j]? = some dim_t.K →
        ∃ (s : Int), obj'.m_loop_sizes[j]? = some s
          ∧ (range_lasts (task_ranges obj' t))[j]? = some (s - 1))
    ∧ (∀ i ∈ box (task_ranges obj' t),
        ((k_indices obj'.m_loop_dim_type i).sum = 0
          ↔ ∀ x ∈ k_indices obj'.m_loop_dim_type i, x = 0)
        ∧ (obj'.m_loop_sum_k_sizes = (k_indices obj'.m_loop_dim_type i).sum
          ↔ k_indices obj'.m_loop_dim_type i
              = k_indices obj'.m_loop_dim_type (range_lasts (task_ranges obj' t)))
        ∧ (∃ z B, (box (task_ranges obj' t)).filter (fun j =>
              decide (non_k_indices obj'.m_loop_dim_type j
                = non_k_indices obj'.m_loop_dim_type i)) = z :: B
            ∧ (k_indices obj'.m_loop_dim_type z).sum = 0
            ∧ ∀ j ∈ B, (k_indices obj'.m_loop_dim_type j).sum ≠ 0)
        ∧ (∃ A w, (box (task_ranges obj' t)).filter (fun j =>
              decide (non_k_indices obj'.m_loop_dim_type j
                = non_k_indices obj'.m_loop_dim_type i)) = A ++ [w]
            ∧ obj'.m_loop_sum_k_sizes = (k_indices obj'.m_loop_dim_type w).sum
            ∧ ∀ j ∈ A, obj'.m_loop_sum_k_sizes ≠ (k_indices obj'.m_loop_dim_type j).sum)) := by
  obtain ⟨hn, hmk, hty, hsz, _, _, _, _, _, _, hlen⟩ := compile_success_fields obj obj' h
  rw [dummy_entry_of_ne _ _ hdim, List.append_nil] at hmk hty hsz
  rw [if_neg hdim] at hn
  have hv := compiled_vectors_sized obj obj' h
  have hl1 := hl
  rw [hmk] at hl1
  obtain ⟨hs, _, hnone⟩ := marks_every_iter_last _ _ _ 0 0 false l hl1
  obtain ⟨⟨ty, hty1, hty2⟩, _⟩ := marks_every_iter_count _ _ _ 0 0 false l hl1
  have hcbm : num_dim_cbm (set_cpx_outer_c obj) = (non_k_dims obj).length := by
    simp only [num_dim_cbm, non_k_dims, List.length_append]
    rfl
  have hlast : l + 1 = obj'.m_num_loops := by
    rw [hn, num_loops_of_eq_add, ← hcbm]
    omega
  have hnk : obj'.m_loop_dim_type[l]? ≠ some dim_t.K := by
    rw [hty, hty1]
    intro hc
    exact hty2 (Option.some.inj hc)
  have h0 : ∀ (j : Nat), obj'.m_loop_dim_type[j]? = some dim_t.K →
      ∀ (r : Int × Int), (task_ranges obj' t)[j]? = some r → r.1 = 0 := by
    intro j hj r hr
    obtain ⟨s, _, hs2⟩ := hk j hj
    rw [hs2] at hr
    rw [← Option.some.inj hr]
  have hlens : obj'.m_loop_dim_type.length = (task_ranges obj' t).length := by
    rw [task_ranges_length]
    exact hv.2.1
  have hsum : obj'.m_loop_sum_k_sizes
      = (k_indices obj'.m_loop_dim_type (range_lasts (task_ranges obj' t))).sum := by
    rw [compile_success_sum_k obj obj' h,
      sum_k_marks_every_last _ _ _ 0 0 false 0 _ l
        (by
          rw [List.map_map]
          exact hl1)
        (by
          rw [List.length_map, hlen, ← hn]
          exact hlast),
      k_indices_lasts_sum obj'.m_loop_dim_type obj'.m_loop_sizes (task_ranges obj' t)
        (by rw [hv.2.1, hv.2.2.1]) hlens.symm hk, hty, hsz, List.zip_map', zero_add]
  have hzero := k_indices_firsts_zero obj'.m_loop_dim_type (task_ranges obj' t) h0
  refine ⟨⟨hlast, hnk⟩, ?_, hsum, ?_, ?_⟩
  · intro pl pr pa po
    exact packing_call_trace_every obj' t l hv hlast
      (by
        intro j hj
        rw [hmk]
        exact hnone j hj)
      hl hnk h0 pl pr pa po
  · intro j hj
    obtain ⟨s, hs1, hs2⟩ := hk j hj
    refine ⟨s, hs1, ?_⟩
    unfold range_lasts
    rw [List.getElem?_map, hs2]
    simp
  · intro i hi
    obtain ⟨hle1, hle2⟩ := k_indices_between (task_ranges obj' t) obj'.m_loop_dim_type i hi
    refine ⟨⟨?_, ?_⟩, ?_, ?_, ?_⟩
    · intro hsz0
      exact all_zero_of_forall2_le _ _ hle1 hzero hsz0
    · intro hall
      exact List.sum_eq_zero hall
    · rw [hsum]
      exact sum_eq_iff_of_forall2_le _ _ hle2
    · exact box_filter_first _ _ i hlens hi hzero
    · rw [hsum]
      exact box_filter_last _ _ i hlens hi

set_option maxRecDepth 1000000 in
/-- C33, witness: the matrix multiplication with the packed N dimension, loops `M, K, N` of
sizes 2, 4 and 3; the innermost loop is marked `EVERY_ITER`, the one task runs the K loop
over `[0, 4)`, and the stored sum of the K sizes minus 1 is 3. -/
theorem packing_every_iter_touch_once_witness :
    (compile packing_example = some (err_t.SUCCESS, compiled packing_example)
      ∧ num_loops_of packing_example ≠ 0
      ∧ (compiled packing_example).m_loop_first_last_touch[2]? = some touch_t.EVERY_ITER
      ∧ (compiled packing_example).m_loop_dim_type = [dim_t.M, dim_t.K, dim_t.N]
      ∧ (compiled packing_example).m_loop_sizes = [2, 4, 3]
      ∧ task_ranges (compiled packing_example) 0 = [(0, 2), (0, 4), (0, 3)])
    ∧ (2 + 1 = (compiled packing_example).m_num_loops
      ∧ (compiled packing_example).m_loop_dim_type[2]? ≠ some dim_t.K)
    ∧ (compiled packing_example).m_loop_sum_k_sizes
        = (k_indices (compiled packing_example).m_loop_dim_type
            (range_lasts (task_ranges (compiled packing_example) 0))).sum :=
  have hw := packing_every_iter_touch_once packing_example (compiled packing_example)
    (by decide) (by decide) 2 (by decide) 0
    (by
      intro j hj
      have htys : (compiled packing_example).m_loop_dim_type
          = [dim_t.M, dim_t.K, dim_t.N] := by decide
      rw [htys] at hj
      match j, hj with
      | 0, hj => simp at hj
      | 1, _ => exact ⟨4, by decide, by decide⟩
      | 2, hj => simp at hj
      | n + 3, hj => simp at hj)
  ⟨by decide, hw.1, hw.2.2.1⟩

end ContractionLoops

namespace MemoryManager

/-! ## Sizes rounded to the cache line -/

theorem aligned_size_eq (a s : Int) (ha : 0 < a) (hs : 0 ≤ s) :
    aligned_size a s = if s % a = 0 then s else a * (s / a) + a := by
  have ht : s.tmod a = s % a := Int.tmod_eq_emod hs (le_of_lt ha)
  unfold aligned_size
  rw [ht]
  by_cases h : s % a = 0
  · simp [h]
  · simp only [h, ne_eq, not_false_eq_true, if_true, if_false]
    have := Int.emod_add_ediv s a
    linarith

theorem aligned_size_dvd (a s : Int) (ha : 0 < a) (hs : 0 ≤ s) : a ∣ aligned_size a s := by
  rw [aligned_size_eq a s ha hs]
  by_cases h : s % a = 0
  · rw [if_pos h]
    exact Int.dvd_of_emod_eq_zero h
  · rw [if_neg h]
    exact ⟨s / a + 1, by ring⟩

theorem le_aligned_size (a s : Int) (ha : 0 < a) (hs : 0 ≤ s) : s ≤ aligned_size a s := by
  rw [aligned_size_eq a s ha hs]
  by_cases h : s % a = 0
  · rw [if_pos h]
  · rw [if_neg h]
    have h1 := Int.emod_add_ediv s a
    have h2 := Int.emod_lt_of_pos s ha
    linarith

theorem aligned_size_le_of_dvd (a s m : Int) (ha : 0 < a) (hs : 0 ≤ s) (hm : a ∣ m)
    (hsm : s ≤ m) : aligned_size a s ≤ m := by
  rw [aligned_size_eq a s ha hs]
  by_cases h : s % a = 0
  · rw [if_pos h]
    exact hsm
  · rw [if_neg h]
    obtain ⟨q, rfl⟩ := hm
    have h1 := Int.emod_add_ediv s a
    have h2 : 0 < s % a := lt_of_le_of_ne (Int.emod_nonneg s (ne_of_gt ha)) (Ne.symm h)
    have h3 : a * (s / a) < a * q := by linarith
    have h4 : s / a < q := lt_of_mul_lt_mul_left h3 (le_of_lt ha)
    have h5 : a * (s / a + 1) ≤ a * q := mul_le_mul_of_nonneg_left (by omega) (le_of_lt ha)
    linarith

theorem aligned_size_of_dvd (a s : Int) (ha : 0 < a) (hs : 0 ≤ s) (h : a ∣ s) :
    aligned_size a s = s := by
  rw [aligned_size_eq a s ha hs, if_pos (Int.emod_eq_zero_of_dvd h)]

/-! ## The effect of a reservation -/

theorem front_of_lengths (ids offs : List Int) (h : ids.length = offs.length) :
    start_offset ids offs = some (front_offset offs) := by
  unfold front_offset start_offset
  cases ids with
  | nil =>
    have : offs = [] := List.eq_nil_of_length_eq_zero h.symm
    subst this
    rfl
  | cons i ids =>
    cases offs with
    | nil => cases h
    | cons o offs => rfl

/-- The result of `reserve_memory` on an object with a non-zero alignment and id and offset
lists of equal length. -/
theorem reserve_memory_spec (mm : MemoryManager) (s : Int) (hal : mm.m_alignement_line ≠ 0)
    (hlen : lengths_agree mm) :
    ∃ (id : Int) (mm' : MemoryManager), reserve_memory mm s = some (id, mm')
      ∧ mm'.m_alignement_line = mm.m_alignement_line
      ∧ mm'.m_layer_id = mm.m_layer_id
      ∧ mm'.m_req_mem = max mm.m_req_mem (current_mem mm')
      ∧ (mm.m_layer_id.tmod 2 = 0 →
          id = mm.m_last_id + 1
          ∧ mm'.m_allocated_id_left = id :: mm.m_allocated_id_left
          ∧ mm'.m_allocated_offset_left
              = (front_offset mm.m_allocated_offset_left + aligned_size mm.m_alignement_line s)
                :: mm.m_allocated_offset_left
          ∧ mm'.m_allocated_id_right = mm.m_allocated_id_right
          ∧ mm'.m_allocated_offset_right = mm.m_allocated_offset_right)
      ∧ (mm.m_layer_id.tmod 2 ≠ 0 →
          id = -(mm.m_last_id + 1)
          ∧ mm'.m_allocated_id_right = id :: mm.m_allocated_id_right
          ∧ mm'.m_allocated_offset_right
              = (front_offset mm.m_allocated_offset_right - aligned_size mm.m_alignement_line s)
                :: mm.m_allocated_offset_right
          ∧ mm'.m_allocated_id_left = mm.m_allocated_id_left
          ∧ mm'.m_allocated_offset_left = mm.m_allocated_offset_left) := by
  have hmax : ∀ (c r : Int), (if c > r then c else r) = max r c := by
    intro c r
    by_cases h : c > r
    · rw [if_pos h, max_eq_right (le_of_lt h)]
    · rw [if_neg h, max_eq_left (not_lt.1 h)]
  unfold reserve_memory
  rw [if_neg hal]
  dsimp only
  by_cases hpar : mm.m_layer_id.tmod 2 = 0
  · rw [if_pos hpar, front_of_lengths _ _ hlen.1]
    simp only [Option.map_some']
    split
    · refine ⟨_, _, rfl, rfl, rfl, ?_, fun _ => ⟨rfl, rfl, rfl, rfl, rfl⟩,
        fun h => absurd hpar h⟩
      rename_i hgt
      simp only [current_mem]
      exact (max_eq_right (le_of_lt hgt)).symm
    · refine ⟨_, _, rfl, rfl, rfl, ?_, fun _ => ⟨rfl, rfl, rfl, rfl, rfl⟩,
        fun h => absurd hpar h⟩
      rename_i hgt
      simp only [current_mem]
      exact (max_eq_left (not_lt.1 hgt)).symm
  · rw [if_neg hpar, front_of_lengths _ _ hlen.2]
    simp only [Option.map_some']
    split
    · refine ⟨_, _, rfl, rfl, rfl, ?_, fun h => absurd h hpar,
        fun _ => ⟨rfl, rfl, rfl, rfl, rfl⟩⟩
      rename_i hgt
      simp only [current_mem]
      exact (max_eq_right (le_of_lt hgt)).symm
    · refine ⟨_, _, rfl, rfl, rfl, ?_, fun h => absurd h hpar,
        fun _ => ⟨rfl, rfl, rfl, rfl, rfl⟩⟩
      rename_i hgt
      simp only [current_mem]
      exact (max_eq_left (not_lt.1 hgt)).symm

/-! ## The invariant of the allocation lists -/

theorem front_offset_nonneg (l : List Int) (h : ∀ x ∈ l, 0 ≤ x) : 0 ≤ front_offset l := by
  unfold front_offset
  cases l with
  | nil => exact le_refl _
  | cons x l => exact h x (List.mem_cons_self _ _)

theorem front_offset_nonpos (l : List Int) (h : ∀ x ∈ l, x ≤ 0) : front_offset l ≤ 0 := by
  unfold front_offset
  cases l with
  | nil => exact le_refl _
  | cons x l => exact h x (List.mem_cons_self _ _)

theorem le_front_offset (l : List Int) (hp : l.Pairwise (fun x y => y ≤ x)) :
    ∀ y ∈ l, y ≤ front_offset l := by
  unfold front_offset
  cases l with
  | nil => intro y hy; cases hy
  | cons x l =>
    intro y hy
    rcases List.mem_cons.1 hy with rfl | hy
    · exact le_refl _
    · exact (List.pairwise_cons.1 hp).1 y hy

theorem front_offset_le (l : List Int) (hp : l.Pairwise (fun x y => x ≤ y)) :
    ∀ y ∈ l, front_offset l ≤ y := by
  unfold front_offset
  cases l with
  | nil => intro y hy; cases hy
  | cons x l =>
    intro y hy
    rcases List.mem_cons.1 hy with rfl | hy
    · exact le_refl _
    · exact (List.pairwise_cons.1 hp).1 y hy

theorem front_offset_eraseIdx_le (l : List Int) (p : Nat)
    (hp : l.Pairwise (fun x y => y ≤ x)) (h0 : ∀ x ∈ l, 0 ≤ x) :
    front_offset (l.eraseIdx p) ≤ front_offset l := by
  cases hl : l.eraseIdx p with
  | nil => exact front_offset_nonneg l h0
  | cons x r =>
    have hx : x ∈ l := (List.eraseIdx_sublist l p).subset (by rw [hl]; exact List.mem_cons_self _ _)
    exact le_front_offset l hp x hx

theorem le_front_offset_eraseIdx (l : List Int) (p : Nat)
    (hp : l.Pairwise (fun x y => x ≤ y)) (h0 : ∀ x ∈ l, x ≤ 0) :
    front_offset l ≤ front_offset (l.eraseIdx p) := by
  cases hl : l.eraseIdx p with
  | nil => exact front_offset_nonpos l h0
  | cons x r =>
    have hx : x ∈ l := (List.eraseIdx_sublist l p).subset (by rw [hl]; exact List.mem_cons_self _ _)
    exact front_offset_le l hp x hx

theorem erase_reservation_spec (ids offs : List Int) (id : Int) (r : List Int × List Int)
    (h : erase_reservation ids offs id = some r) :
    ∃ p, p < ids.length ∧ p < offs.length ∧ ids.indexOf id = p ∧ r.1 = ids.eraseIdx p
      ∧ r.2 = offs.eraseIdx p := by
  unfold erase_reservation at h
  by_cases hc : ids.indexOf id < ids.length ∧ ids.indexOf id < offs.length
  · rw [if_pos hc] at h
    simp only [Option.some.injEq] at h
    exact ⟨_, hc.1, hc.2, rfl, by rw [← h], by rw [← h]⟩
  · rw [if_neg hc] at h
    cases h

/-- A reservation of a non-negative size keeps the invariant of the lists. -/
theorem lists_ok_reserve (mm mm' : MemoryManager) (s id : Int) (hs : 0 ≤ s)
    (hok : lists_ok mm) (h : reserve_memory mm s = some (id, mm')) : lists_ok mm' := by
  obtain ⟨hal, hlen, hpl, hl0, hpr, hr0⟩ := hok
  obtain ⟨id2, mm2, h2, e1, _, _, heven, hodd⟩ :=
    reserve_memory_spec mm s (ne_of_gt hal) hlen
  rw [h] at h2
  simp only [Option.some.injEq, Prod.mk.injEq] at h2
  obtain ⟨rfl, rfl⟩ := h2
  have hr : 0 ≤ aligned_size mm.m_alignement_line s :=
    le_trans hs (le_aligned_size _ _ hal hs)
  by_cases hpar : mm.m_layer_id.tmod 2 = 0
  · obtain ⟨_, hi, ho, hir, hor⟩ := heven hpar
    refine ⟨by rw [e1]; exact hal, ⟨?_, ?_⟩, ?_, ?_, by rw [hor]; exact hpr,
      by rw [hor]; exact hr0⟩
    · rw [hi, ho, List.length_cons, List.length_cons, hlen.1]
    · rw [hir, hor]; exact hlen.2
    · rw [ho, List.pairwise_cons]
      refine ⟨?_, hpl⟩
      intro y hy
      have := le_front_offset _ hpl y hy
      linarith
    · rw [ho]
      intro x hx
      rcases List.mem_cons.1 hx with rfl | hx
      · have := front_offset_nonneg _ hl0
        linarith
      · exact hl0 x hx
  · obtain ⟨_, hi, ho, hil, hol⟩ := hodd hpar
    refine ⟨by rw [e1]; exact hal, ⟨?_, ?_⟩, by rw [hol]; exact hpl,
      by rw [hol]; exact hl0, ?_, ?_⟩
    · rw [hil, hol]; exact hlen.1
    · rw [hi, ho, List.length_cons, List.length_cons, hlen.2]
    · rw [ho, List.pairwise_cons]
      refine ⟨?_, hpr⟩
      intro y hy
      have := front_offset_le _ hpr y hy
      linarith
    · rw [ho]
      intro x hx
      rcases List.mem_cons.1 hx with rfl | hx
      · have := front_offset_nonpos _ hr0
        linarith
      · exact hr0 x hx

/-- The removal of a reservation keeps the invariant of the lists, does not raise the memory
in use and keeps the required memory. -/
theorem lists_ok_remove (mm mm' : MemoryManager) (id : Int) (hok : lists_ok mm)
    (h : remove_reservation mm id = some mm') :
    lists_ok mm' ∧ current_mem mm' ≤ current_mem mm ∧ mm'.m_req_mem = mm.m_req_mem := by
  obtain ⟨hal, hlen, hpl, hl0, hpr, hr0⟩ := hok
  unfold remove_reservation at h
  by_cases hid : id ≥ 0
  · rw [if_pos hid] at h
    cases he : erase_reservation mm.m_allocated_id_left mm.m_allocated_offset_left id with
    | none => rw [he] at h; cases h
    | some r =>
      rw [he] at h
      simp only [Option.map_some', Option.some.injEq] at h
      obtain ⟨p, hp1, hp2, _, e1, e2⟩ := erase_reservation_spec _ _ _ _ he
      subst h
      refine ⟨⟨hal, ⟨?_, hlen.2⟩, ?_, ?_, hpr, hr0⟩, ?_, rfl⟩
      · show r.1.length = r.2.length
        rw [e1, e2, List.length_eraseIdx, List.length_eraseIdx, if_pos hp1, if_pos hp2, hlen.1]
      · show r.2.Pairwise _
        rw [e2]
        exact hpl.sublist (List.eraseIdx_sublist _ _)
      · show ∀ x ∈ r.2, 0 ≤ x
        rw [e2]
        intro x hx
        exact hl0 x ((List.eraseIdx_sublist _ _).subset hx)
      · show front_offset r.2 - front_offset mm.m_allocated_offset_right
          ≤ front_offset mm.m_allocated_offset_left - front_offset mm.m_allocated_offset_right
        rw [e2]
        have := front_offset_eraseIdx_le _ p hpl hl0
        linarith
  · rw [if_neg hid] at h
    cases he : erase_reservation mm.m_allocated_id_right mm.m_allocated_offset_right id with
    | none => rw [he] at h; cases h
    | some r =>
      rw [he] at h
      simp only [Option.map_some', Option.some.injEq] at h
      obtain ⟨p, hp1, hp2, _, e1, e2⟩ := erase_reservation_spec _ _ _ _ he
      subst h
      refine ⟨⟨hal, ⟨hlen.1, ?_⟩, hpl, hl0, ?_, ?_⟩, ?_, rfl⟩
      · show r.1.length = r.2.length
        rw [e1, e2, List.length_eraseIdx, List.length_eraseIdx, if_pos hp1, if_pos hp2, hlen.2]
      · show r.2.Pairwise _
        rw [e2]
        exact hpr.sublist (List.eraseIdx_sublist _ _)
      · show ∀ x ∈ r.2, x ≤ 0
        rw [e2]
        intro x hx
        exact hr0 x ((List.eraseIdx_sublist _ _).subset hx)
      · show front_offset mm.m_allocated_offset_left - front_offset r.2
          ≤ front_offset mm.m_allocated_offset_left - front_offset mm.m_allocated_offset_right
        rw [e2]
        have := le_front_offset_eraseIdx _ p hpr hr0
        linarith

/-! ## The required memory along a sequence of calls -/

theorem run_ops_head (ops : List mem_op) (mm : MemoryManager) (states : List MemoryManager)
    (h : run_ops mm ops = some states) : ∃ rest, states = mm :: rest := by
  cases ops with
  | nil =>
    simp only [run_ops, Option.some.injEq] at h
    exact ⟨[], h.symm⟩
  | cons op ops =>
    unfold run_ops at h
    cases h1 : apply_op mm op with
    | none => rw [h1] at h; cases h
    | some mm1 =>
      rw [h1] at h
      dsimp only at h
      cases h2 : run_ops mm1 ops with
      | none => rw [h2] at h; cases h
      | some rest =>
        rw [h2] at h
        simp only [Option.some.injEq] at h
        exact ⟨rest, h.symm⟩

/-- One call keeps the invariant of the lists; the required memory does not fall, stays at
least the memory in use, and when it changes it is the memory in use after the call. -/
theorem apply_op_spec (mm mm1 : MemoryManager) (op : mem_op) (hok : lists_ok mm)
    (hs : size_nonneg op) (hreq : current_mem mm ≤ mm.m_req_mem)
    (h : apply_op mm op = some mm1) :
    lists_ok mm1 ∧ current_mem mm1 ≤ mm1.m_req_mem ∧ mm.m_req_mem ≤ mm1.m_req_mem
    ∧ (mm1.m_req_mem = mm.m_req_mem ∨ mm1.m_req_mem = current_mem mm1) := by
  cases op with
  | reserve s =>
    simp only [apply_op] at h
    cases hr : reserve_memory mm s with
    | none => rw [hr] at h; cases h
    | some r =>
      rw [hr] at h
      simp only [Option.map_some', Option.some.injEq] at h
      obtain ⟨id, mm'⟩ := r
      have h' : mm' = mm1 := h
      subst h'
      have hok' := lists_ok_reserve mm mm' s id hs hok hr
      obtain ⟨id2, mm2, h2, _, _, hmax, _, _⟩ :=
        reserve_memory_spec mm s (ne_of_gt hok.1) hok.2.1
      rw [hr] at h2
      simp only [Option.some.injEq, Prod.mk.injEq] at h2
      obtain ⟨rfl, rfl⟩ := h2
      refine ⟨hok', ?_, ?_, ?_⟩
      · rw [hmax]; exact le_max_right _ _
      · rw [hmax]; exact le_max_left _ _
      · rw [hmax]
        rcases le_total (current_mem mm') mm.m_req_mem with hle | hle
        · exact Or.inl (max_eq_left hle)
        · exact Or.inr (max_eq_right hle)
  | remove id =>
    simp only [apply_op] at h
    obtain ⟨hok', hcur, hr⟩ := lists_ok_remove mm mm1 id hok h
    exact ⟨hok', by rw [hr]; exact le_trans hcur hreq, by rw [hr], Or.inl hr⟩
  | increase =>
    simp only [apply_op, Option.some.injEq] at h
    subst h
    exact ⟨hok, hreq, le_refl _, Or.inl rfl⟩
  | decrease =>
    simp only [apply_op, Option.some.injEq] at h
    subst h
    exact ⟨hok, hreq, le_refl _, Or.inl rfl⟩

theorem run_ops_invariant (ops : List mem_op) :
    ∀ (mm : MemoryManager) (states : List MemoryManager),
      lists_ok mm → sizes_nonneg ops → current_mem mm ≤ mm.m_req_mem →
      run_ops mm ops = some states →
      ∃ last, states.getLast? = some last
        ∧ (∀ s ∈ states, lists_ok s)
        ∧ (∀ s ∈ states, current_mem s ≤ last.m_req_mem)
        ∧ mm.m_req_mem ≤ last.m_req_mem
        ∧ (last.m_req_mem = mm.m_req_mem ∨ ∃ s ∈ states, current_mem s = last.m_req_mem) := by
  induction ops with
  | nil =>
    intro mm states hok _ hreq h
    simp only [run_ops, Option.some.injEq] at h
    subst h
    refine ⟨mm, rfl, ?_, ?_, le_refl _, Or.inl rfl⟩
    · intro s hs
      rw [List.mem_singleton] at hs
      subst hs
      exact hok
    · intro s hs
      rw [List.mem_singleton] at hs
      subst hs
      exact hreq
  | cons op ops ih =>
    intro mm states hok hsz hreq h
    unfold run_ops at h
    cases h1 : apply_op mm op with
    | none => rw [h1] at h; cases h
    | some mm1 =>
      rw [h1] at h
      dsimp only at h
      cases h2 : run_ops mm1 ops with
      | none => rw [h2] at h; cases h
      | some rest =>
        rw [h2] at h
        simp only [Option.some.injEq] at h
        subst h
        obtain ⟨hok1, hreq1, hmono, hch⟩ :=
          apply_op_spec mm mm1 op hok (hsz op (List.mem_cons_self _ _)) hreq h1
        obtain ⟨last, hlast, hall, hle, hm1, hor⟩ := ih mm1 rest hok1
          (fun o ho => hsz o (List.mem_cons_of_mem _ ho)) hreq1 h2
        obtain ⟨rest', hrest⟩ := run_ops_head ops mm1 rest h2
        refine ⟨last, ?_, ?_, ?_, le_trans hmono hm1, ?_⟩
        · rw [hrest] at hlast ⊢
          rw [List.getLast?_cons_cons]
          exact hlast
        · intro s hs
          rcases List.mem_cons.1 hs with rfl | hs
          · exact hok
          · exact hall s hs
        · intro s hs
          rcases List.mem_cons.1 hs with rfl | hs
          · exact le_trans hreq (le_trans hmono hm1)
          · exact hle s hs
        · rcases hor with hor | ⟨s, hs, hcs⟩
          · rcases hch with hch | hch
            · exact Or.inl (hor.trans hch)
            · refine Or.inr ⟨mm1, ?_, ?_⟩
              · rw [hrest]
                exact List.mem_cons_of_mem _ (List.mem_cons_self _ _)
              · rw [hor, hch]
          · exact Or.inr ⟨s, List.mem_cons_of_mem _ hs, hcs⟩

/-- On lists of equal length the removal of a live id is defined. -/
theorem remove_reservation_isSome (mm : MemoryManager) (i_id : Int) (hlen : lengths_agree mm)
    (hlive : live mm i_id) : (remove_reservation mm i_id).isSome = true := by
  unfold live at hlive
  unfold remove_reservation erase_reservation
  by_cases hid : i_id ≥ 0
  · rw [if_pos hid] at hlive ⊢
    have hp := List.indexOf_lt_length.2 hlive
    have hp2 : List.indexOf i_id mm.m_allocated_id_left < mm.m_allocated_offset_left.length := by
      rw [← hlen.1]; exact hp
    rw [if_pos ⟨hp, hp2⟩]
    rfl
  · rw [if_neg hid] at hlive ⊢
    have hp := List.indexOf_lt_length.2 hlive
    have hp2 : List.indexOf i_id mm.m_allocated_id_right < mm.m_allocated_offset_right.length := by
      rw [← hlen.2]; exact hp
    rw [if_pos ⟨hp, hp2⟩]
    rfl

/-- On lists of equal length and with a non-zero alignment every reservation is defined. -/
theorem reserve_memory_isSome (mm : MemoryManager) (i_size : Int)
    (hal : mm.m_alignement_line ≠ 0) (hlen : lengths_agree mm) :
    (reserve_memory mm i_size).isSome = true := by
  obtain ⟨id, mm', h, _⟩ := reserve_memory_spec mm i_size hal hlen
  rw [h]
  rfl

/-! ## The object after a reservation -/

/-- The object after `reserve_memory` on an even layer. -/
theorem reserve_memory_even (mm : MemoryManager) (s : Int) (hal : mm.m_alignement_line ≠ 0)
    (hlen : lengths_agree mm) (hpar : mm.m_layer_id.tmod 2 = 0) :
    reserve_memory mm s = some (mm.m_last_id + 1,
      { mm with
        m_last_id := mm.m_last_id + 1
        m_tensor_offset := mm.m_tensor_offset ++ [front_offset mm.m_allocated_offset_left]
        m_allocated_id_left := (mm.m_last_id + 1) :: mm.m_allocated_id_left
        m_allocated_offset_left :=
          (front_offset mm.m_allocated_offset_left + aligned_size mm.m_alignement_line s)
            :: mm.m_allocated_offset_left
        m_req_mem := max mm.m_req_mem
          (front_offset mm.m_allocated_offset_left + aligned_size mm.m_alignement_line s
            - front_offset mm.m_allocated_offset_right) }) := by
  unfold reserve_memory
  rw [if_neg hal]
  dsimp only
  rw [if_pos hpar, front_of_lengths _ _ hlen.1]
  simp only [Option.map_some']
  split
  · rename_i hgt
    simp only [front_offset, List.headD_cons] at hgt ⊢
    rw [max_eq_right (le_of_lt hgt)]
  · rename_i hgt
    simp only [front_offset, List.headD_cons] at hgt ⊢
    rw [max_eq_left (not_lt.1 hgt)]

/-- The object after `reserve_memory` on an odd layer. -/
theorem reserve_memory_odd (mm : MemoryManager) (s : Int) (hal : mm.m_alignement_line ≠ 0)
    (hlen : lengths_agree mm) (hpar : mm.m_layer_id.tmod 2 ≠ 0) :
    reserve_memory mm s = some (-(mm.m_last_id + 1),
      { mm with
        m_last_id := mm.m_last_id + 1
        m_tensor_offset := mm.m_tensor_offset
          ++ [front_offset mm.m_allocated_offset_right - aligned_size mm.m_alignement_line s]
        m_allocated_id_right := (-(mm.m_last_id + 1)) :: mm.m_allocated_id_right
        m_allocated_offset_right :=
          (front_offset mm.m_allocated_offset_right - aligned_size mm.m_alignement_line s)
            :: mm.m_allocated_offset_right
        m_req_mem := max mm.m_req_mem
          (front_offset mm.m_allocated_offset_left
            - (front_offset mm.m_allocated_offset_right
              - aligned_size mm.m_alignement_line s)) }) := by
  unfold reserve_memory
  rw [if_neg hal]
  dsimp only
  rw [if_neg hpar, front_of_lengths _ _ hlen.2]
  simp only [Option.map_some']
  split
  · rename_i hgt
    simp only [front_offset, List.headD_cons] at hgt ⊢
    rw [max_eq_right (le_of_lt hgt)]
  · rename_i hgt
    simp only [front_offset, List.headD_cons] at hgt ⊢
    rw [max_eq_left (not_lt.1 hgt)]

/-! ## Invariants along a sequence of calls -/

/-- A property kept by every defined call with a non-negative size holds in all states reached
from a state in which it holds. -/
theorem run_ops_preserves (P : MemoryManager → Prop)
    (hstep : ∀ (mm : MemoryManager) (op : mem_op) (mm1 : MemoryManager),
      P mm → size_nonneg op → apply_op mm op = some mm1 → P mm1)
    (ops : List mem_op) :
    ∀ (mm : MemoryManager) (states : List MemoryManager), P mm → sizes_nonneg ops →
      run_ops mm ops = some states → ∀ s ∈ states, P s := by
  induction ops with
  | nil =>
    intro mm states hP _ h s hs
    simp only [run_ops, Option.some.injEq] at h
    subst h
    rw [List.mem_singleton] at hs
    subst hs
    exact hP
  | cons op ops ih =>
    intro mm states hP hsz h s hs
    unfold run_ops at h
    cases h1 : apply_op mm op with
    | none => rw [h1] at h; cases h
    | some mm1 =>
      rw [h1] at h
      dsimp only at h
      cases h2 : run_ops mm1 ops with
      | none => rw [h2] at h; cases h
      | some rest =>
        rw [h2] at h
        simp only [Option.some.injEq] at h
        subst h
        rcases List.mem_cons.1 hs with rfl | hs
        · exact hP
        · exact ih mm1 rest (hstep _ op mm1 hP (hsz op (List.mem_cons_self _ _)) h1)
            (fun o ho => hsz o (List.mem_cons_of_mem _ ho)) h2 s hs

theorem final_state_mem (mm mm' : MemoryManager) (ops : List mem_op)
    (h : final_state mm ops = some mm') :
    ∃ states, run_ops mm ops = some states ∧ mm' ∈ states := by
  unfold final_state at h
  cases hr : run_ops mm ops with
  | none => rw [hr] at h; cases h
  | some states =>
    rw [hr] at h
    exact ⟨states, rfl, List.mem_of_getLast?_eq_some h⟩

/-- The object after a call that is a reservation, by the parity of the layer. -/
theorem reserve_memory_cases (mm mm' : MemoryManager) (s id : Int) (hal : mm.m_alignement_line ≠ 0)
    (hlen : lengths_agree mm) (h : reserve_memory mm s = some (id, mm')) :
    (mm.m_layer_id.tmod 2 = 0 ∧ id = mm.m_last_id + 1 ∧ mm' =
        { mm with
          m_last_id := mm.m_last_id + 1
          m_tensor_offset := mm.m_tensor_offset ++ [front_offset mm.m_allocated_offset_left]
          m_allocated_id_left := (mm.m_last_id + 1) :: mm.m_allocated_id_left
          m_allocated_offset_left :=
            (front_offset mm.m_allocated_offset_left + aligned_size mm.m_alignement_line s)
              :: mm.m_allocated_offset_left
          m_req_mem := max mm.m_req_mem
            (front_offset mm.m_allocated_offset_left + aligned_size mm.m_alignement_line s
              - front_offset mm.m_allocated_offset_right) })
    ∨ (mm.m_layer_id.tmod 2 ≠ 0 ∧ id = -(mm.m_last_id + 1) ∧ mm' =
        { mm with
          m_last_id := mm.m_last_id + 1
          m_tensor_offset := mm.m_tensor_offset
            ++ [front_offset mm.m_allocated_offset_right - aligned_size mm.m_alignement_line s]
          m_allocated_id_right := (-(mm.m_last_id + 1)) :: mm.m_allocated_id_right
          m_allocated_offset_right :=
            (front_offset mm.m_allocated_offset_right - aligned_size mm.m_alignement_line s)
              :: mm.m_allocated_offset_right
          m_req_mem := max mm.m_req_mem
            (front_offset mm.m_allocated_offset_left
              - (front_offset mm.m_allocated_offset_right
                - aligned_size mm.m_alignement_line s)) }) := by
  by_cases hpar : mm.m_layer_id.tmod 2 = 0
  · rw [reserve_memory_even mm s hal hlen hpar] at h
    simp only [Option.some.injEq, Prod.mk.injEq] at h
    exact Or.inl ⟨hpar, h.1.symm, h.2.symm⟩
  · rw [reserve_memory_odd mm s hal hlen hpar] at h
    simp only [Option.some.injEq, Prod.mk.injEq] at h
    exact Or.inr ⟨hpar, h.1.symm, h.2.symm⟩

/-- The object after the removal of a reservation. -/
theorem remove_reservation_cases (mm mm' : MemoryManager) (id : Int)
    (h : remove_reservation mm id = some mm') :
    (id ≥ 0 ∧ ∃ p, p < mm.m_allocated_id_left.length ∧ p < mm.m_allocated_offset_left.length
        ∧ mm.m_allocated_id_left.indexOf id = p
        ∧ mm' = { mm with
            m_allocated_id_left := mm.m_allocated_id_left.eraseIdx p
            m_allocated_offset_left := mm.m_allocated_offset_left.eraseIdx p })
    ∨ (¬ id ≥ 0 ∧ ∃ p, p < mm.m_allocated_id_right.length
        ∧ p < mm.m_allocated_offset_right.length
        ∧ mm.m_allocated_id_right.indexOf id = p
        ∧ mm' = { mm with
            m_allocated_id_right := mm.m_allocated_id_right.eraseIdx p
            m_allocated_offset_right := mm.m_allocated_offset_right.eraseIdx p }) := by
  unfold remove_reservation at h
  by_cases hid : id ≥ 0
  · rw [if_pos hid] at h
    cases he : erase_reservation mm.m_allocated_id_left mm.m_allocated_offset_left id with
    | none => rw [he] at h; cases h
    | some r =>
      rw [he] at h
      simp only [Option.map_some', Option.some.injEq] at h
      obtain ⟨p, hp1, hp2, hp, e1, e2⟩ := erase_reservation_spec _ _ _ _ he
      exact Or.inl ⟨hid, p, hp1, hp2, hp, by rw [← h, e1, e2]⟩
  · rw [if_neg hid] at h
    cases he : erase_reservation mm.m_allocated_id_right mm.m_allocated_offset_right id with
    | none => rw [he] at h; cases h
    | some r =>
      rw [he] at h
      simp only [Option.map_some', Option.some.injEq] at h
      obtain ⟨p, hp1, hp2, hp, e1, e2⟩ := erase_reservation_spec _ _ _ _ he
      exact Or.inr ⟨hid, p, hp1, hp2, hp, by rw [← h, e1, e2]⟩

theorem front_offset_dvd (a : Int) (l : List Int) (h : ∀ x ∈ l, a ∣ x) : a ∣ front_offset l := by
  unfold front_offset
  cases l with
  | nil => exact dvd_zero a
  | cons x l => exact h x (List.mem_cons_self _ _)

theorem dvd_max (a x y : Int) (hx : a ∣ x) (hy : a ∣ y) : a ∣ max x y := by
  rcases le_total x y with h | h
  · rw [max_eq_right h]; exact hy
  · rw [max_eq_left h]; exact hx

/-- Every defined call with a non-negative size keeps the invariants of the lists, of the ids
and of the alignment of the offsets. -/
theorem apply_op_invariants (mm : MemoryManager) (op : mem_op) (mm1 : MemoryManager)
    (hP : lists_ok mm ∧ ids_ok mm ∧ offsets_aligned mm) (hs : size_nonneg op)
    (h : apply_op mm op = some mm1) :
    lists_ok mm1 ∧ ids_ok mm1 ∧ offsets_aligned mm1 := by
  obtain ⟨hok, hids, hdvd⟩ := hP
  cases op with
  | reserve s =>
    simp only [apply_op] at h
    cases hr : reserve_memory mm s with
    | none => rw [hr] at h; cases h
    | some r =>
      rw [hr] at h
      simp only [Option.map_some', Option.some.injEq] at h
      obtain ⟨id, mm'⟩ := r
      have h' : mm' = mm1 := h
      subst h'
      have hs' : 0 ≤ s := hs
      have hok' := lists_ok_reserve mm mm' s id hs' hok hr
      refine ⟨hok', ?_, ?_⟩
      · obtain ⟨h0, hlen, hpl, hl, hpr, hrr⟩ := hids
        rcases reserve_memory_cases mm mm' s id (ne_of_gt hok.1) hok.2.1 hr with
          ⟨_, _, e⟩ | ⟨_, _, e⟩
        · subst e
          refine ⟨by show 0 ≤ mm.m_last_id + 1; omega, ?_, ?_, ?_, hpr, ?_⟩
          · show ((mm.m_tensor_offset ++ [_]).length : Int) = mm.m_last_id + 1
            rw [List.length_append, List.length_singleton]
            push_cast
            rw [hlen]
          · show List.Pairwise _ ((mm.m_last_id + 1) :: mm.m_allocated_id_left)
            rw [List.pairwise_cons]
            exact ⟨fun y hy => by have := (hl y hy).2; omega, hpl⟩
          · show ∀ x ∈ (mm.m_last_id + 1) :: mm.m_allocated_id_left, 0 < x ∧ x ≤ mm.m_last_id + 1
            intro x hx
            rcases List.mem_cons.1 hx with rfl | hx
            · omega
            · have := hl x hx
              omega
          · show ∀ x ∈ mm.m_allocated_id_right, -(mm.m_last_id + 1) ≤ x ∧ x < 0
            intro x hx
            have := hrr x hx
            omega
        · subst e
          refine ⟨by show 0 ≤ mm.m_last_id + 1; omega, ?_, hpl, ?_, ?_, ?_⟩
          · show ((mm.m_tensor_offset ++ [_]).length : Int) = mm.m_last_id + 1
            rw [List.length_append, List.length_singleton]
            push_cast
            rw [hlen]
          · show ∀ x ∈ mm.m_allocated_id_left, 0 < x ∧ x ≤ mm.m_last_id + 1
            intro x hx
            have := hl x hx
            omega
          · show List.Pairwise _ ((-(mm.m_last_id + 1)) :: mm.m_allocated_id_right)
            rw [List.pairwise_cons]
            exact ⟨fun y hy => by have := (hrr y hy).1; omega, hpr⟩
          · show ∀ x ∈ (-(mm.m_last_id + 1)) :: mm.m_allocated_id_right,
              -(mm.m_last_id + 1) ≤ x ∧ x < 0
            intro x hx
            rcases List.mem_cons.1 hx with rfl | hx
            · omega
            · have := hrr x hx
              omega
      · obtain ⟨ht, hl, hrr, hq⟩ := hdvd
        have hfl := front_offset_dvd _ _ hl
        have hfr := front_offset_dvd _ _ hrr
        have hsz := aligned_size_dvd mm.m_alignement_line s hok.1 hs'
        rcases reserve_memory_cases mm mm' s id (ne_of_gt hok.1) hok.2.1 hr with
          ⟨_, _, e⟩ | ⟨_, _, e⟩
        · subst e
          refine ⟨?_, ?_, hrr, ?_⟩
          · show ∀ x ∈ mm.m_tensor_offset ++ [_], mm.m_alignement_line ∣ x
            intro x hx
            rcases List.mem_append.1 hx with hx | hx
            · exact ht x hx
            · rw [List.mem_singleton] at hx
              subst hx
              exact hfl
          · show ∀ x ∈ _ :: mm.m_allocated_offset_left, mm.m_alignement_line ∣ x
            intro x hx
            rcases List.mem_cons.1 hx with rfl | hx
            · exact dvd_add hfl hsz
            · exact hl x hx
          · exact dvd_max _ _ _ hq (dvd_sub (dvd_add hfl hsz) hfr)
        · subst e
          refine ⟨?_, hl, ?_, ?_⟩
          · show ∀ x ∈ mm.m_tensor_offset ++ [_], mm.m_alignement_line ∣ x
            intro x hx
            rcases List.mem_append.1 hx with hx | hx
            · exact ht x hx
            · rw [List.mem_singleton] at hx
              subst hx
              exact dvd_sub hfr hsz
          · show ∀ x ∈ _ :: mm.m_allocated_offset_right, mm.m_alignement_line ∣ x
            intro x hx
            rcases List.mem_cons.1 hx with rfl | hx
            · exact dvd_sub hfr hsz
            · exact hrr x hx
          · exact dvd_max _ _ _ hq (dvd_sub hfl (dvd_sub hfr hsz))
  | remove id =>
    simp only [apply_op] at h
    obtain ⟨hok', _, _⟩ := lists_ok_remove mm mm1 id hok h
    obtain ⟨h0, hlen, hpl, hl, hpr, hrr⟩ := hids
    obtain ⟨ht, hdl, hdr, hq⟩ := hdvd
    refine ⟨hok', ?_, ?_⟩
    · rcases remove_reservation_cases mm mm1 id h with ⟨_, p, _, _, _, e⟩ | ⟨_, p, _, _, _, e⟩
      · subst e
        exact ⟨h0, hlen, hpl.sublist (List.eraseIdx_sublist _ _),
          fun x hx => hl x ((List.eraseIdx_sublist _ _).subset hx), hpr, hrr⟩
      · subst e
        exact ⟨h0, hlen, hpl, hl, hpr.sublist (List.eraseIdx_sublist _ _),
          fun x hx => hrr x ((List.eraseIdx_sublist _ _).subset hx)⟩
    · rcases remove_reservation_cases mm mm1 id h with ⟨_, p, _, _, _, e⟩ | ⟨_, p, _, _, _, e⟩
      · subst e
        exact ⟨ht, fun x hx => hdl x ((List.eraseIdx_sublist _ _).subset hx), hdr, hq⟩
      · subst e
        exact ⟨ht, hdl, fun x hx => hdr x ((List.eraseIdx_sublist _ _).subset hx), hq⟩
  | increase =>
    simp only [apply_op, Option.some.injEq] at h
    subst h
    exact ⟨hok, hids, hdvd⟩
  | decrease =>
    simp only [apply_op, Option.some.injEq] at h
    subst h
    exact ⟨hok, hids, hdvd⟩

/-- A fresh memory manager with a positive alignment satisfies the invariants. -/
theorem invariants_of_fresh (mm : MemoryManager) (hf : is_fresh mm)
    (hal : 0 < mm.m_alignement_line) : lists_ok mm ∧ ids_ok mm ∧ offsets_aligned mm := by
  obtain ⟨⟨h1, h2, h3, h4⟩, ht, hid, hreq⟩ := hf
  refine ⟨⟨hal, ⟨?_, ?_⟩, ?_, ?_, ?_, ?_⟩, ⟨?_, ?_, ?_, ?_, ?_, ?_⟩, ⟨?_, ?_, ?_, ?_⟩⟩
  · rw [h1, h2]
  · rw [h3, h4]
  · rw [h2]; exact List.Pairwise.nil
  · rw [h2]; intro x hx; cases hx
  · rw [h4]; exact List.Pairwise.nil
  · rw [h4]; intro x hx; cases hx
  · rw [hid]
  · rw [ht, hid]; rfl
  · rw [h1]; exact List.Pairwise.nil
  · rw [h1]; intro x hx; cases hx
  · rw [h3]; exact List.Pairwise.nil
  · rw [h3]; intro x hx; cases hx
  · rw [ht]; intro x hx; cases hx
  · rw [h2]; intro x hx; cases hx
  · rw [h4]; intro x hx; cases hx
  · rw [hreq]; exact dvd_zero _

/-- Every object reached from a fresh memory manager satisfies the invariants. -/
theorem invariants_of_reached (mm0 mm : MemoryManager) (ops : List mem_op)
    (h : reached_by mm0 ops mm) : lists_ok mm ∧ ids_ok mm ∧ offsets_aligned mm := by
  obtain ⟨hf, hal, hsz, hfin⟩ := h
  obtain ⟨states, hrun, hmem⟩ := final_state_mem mm0 mm ops hfin
  exact run_ops_preserves (fun s => lists_ok s ∧ ids_ok s ∧ offsets_aligned s)
    apply_op_invariants ops mm0 states (invariants_of_fresh mm0 hf hal) hsz hrun mm hmem

/-! ## Removal and resolution of reservations -/

/-- The loop of `remove_reservation` on lists of equal length for an id of the list: the entry
of the first occurrence of the id and the offset at the same position are erased. -/
theorem erase_reservation_split (id : Int) (ids : List Int) :
    ∀ (offs : List Int), ids.length = offs.length → id ∈ ids →
      ∃ (l1 l2 o1 : List Int) (o : Int) (o2 : List Int),
        ids = l1 ++ id :: l2 ∧ id ∉ l1 ∧ offs = o1 ++ o :: o2 ∧ o1.length = l1.length
        ∧ erase_reservation ids offs id = some (l1 ++ l2, o1 ++ o2) := by
  induction ids with
  | nil => intro offs _ hmem; cases hmem
  | cons x xs ih =>
    intro offs hlen hmem
    cases offs with
    | nil => cases hlen
    | cons y ys =>
      by_cases hx : x = id
      · subst hx
        refine ⟨[], xs, [], y, ys, rfl, by simp, rfl, rfl, ?_⟩
        unfold erase_reservation
        simp
      · have hmem' : id ∈ xs := by
          rcases List.mem_cons.1 hmem with h | h
          · exact absurd h.symm hx
          · exact h
        have hlen' : xs.length = ys.length := by
          simpa using hlen
        obtain ⟨l1, l2, o1, o, o2, e1, hn, e2, hl, he⟩ := ih ys hlen' hmem'
        refine ⟨x :: l1, l2, y :: o1, o, o2, by rw [e1]; rfl, ?_, by rw [e2]; rfl,
          by simp [hl], ?_⟩
        · intro hc
          rcases List.mem_cons.1 hc with h | h
          · exact hx h.symm
          · exact hn h
        · unfold erase_reservation at he ⊢
          have hidx : List.indexOf id (x :: xs) = List.indexOf id xs + 1 :=
            List.indexOf_cons_ne _ hx
          rw [hidx]
          by_cases hc : List.indexOf id xs < xs.length ∧ List.indexOf id xs < ys.length
          · rw [if_pos hc] at he
            have hc' : List.indexOf id xs + 1 < (x :: xs).length
                ∧ List.indexOf id xs + 1 < (y :: ys).length := by
              simp only [List.length_cons]
              omega
            rw [if_pos hc']
            simp only [Option.some.injEq, Prod.mk.injEq] at he
            simp only [List.eraseIdx_cons_succ, he.1, he.2, List.cons_append]
          · rw [if_neg hc] at he
            cases he

theorem vector_at_of_lt (l : List Int) (k : Int) (h0 : 0 ≤ k) (hk : k < l.length) :
    ∃ x, vector_at l k = some x ∧ x ∈ l := by
  unfold vector_at
  rw [if_pos h0]
  have hlt : k.toNat < l.length := by omega
  exact ⟨l[k.toNat], List.getElem?_eq_getElem hlt, List.getElem_mem hlt⟩

theorem vector_at_append_length (l : List Int) (x : Int) (suffix : List Int) (k : Int)
    (hk : k = l.length) : vector_at (l ++ [x] ++ suffix) k = some x := by
  unfold vector_at
  have h0 : 0 ≤ k := by omega
  rw [if_pos h0]
  have : k.toNat = l.length := by omega
  rw [this, List.append_assoc, List.getElem?_append_right (le_refl _)]
  simp

/-- Every defined call keeps the recorded block offsets as a prefix and does not lower the
required memory. -/
theorem apply_op_grows (T : List Int) (R : Int) (mm : MemoryManager) (op : mem_op)
    (mm1 : MemoryManager)
    (hP : lists_ok mm ∧ (∃ suffix, mm.m_tensor_offset = T ++ suffix) ∧ R ≤ mm.m_req_mem)
    (hs : size_nonneg op) (h : apply_op mm op = some mm1) :
    lists_ok mm1 ∧ (∃ suffix, mm1.m_tensor_offset = T ++ suffix) ∧ R ≤ mm1.m_req_mem := by
  obtain ⟨hok, ⟨suffix, hsuf⟩, hR⟩ := hP
  cases op with
  | reserve s =>
    simp only [apply_op] at h
    cases hr : reserve_memory mm s with
    | none => rw [hr] at h; cases h
    | some r =>
      rw [hr] at h
      simp only [Option.map_some', Option.some.injEq] at h
      obtain ⟨id, mm'⟩ := r
      have h' : mm' = mm1 := h
      subst h'
      have hok' := lists_ok_reserve mm mm' s id hs hok hr
      refine ⟨hok', ?_, ?_⟩
      · rcases reserve_memory_cases mm mm' s id (ne_of_gt hok.1) hok.2.1 hr with
          ⟨_, _, e⟩ | ⟨_, _, e⟩
        · subst e
          refine ⟨suffix ++ [front_offset mm.m_allocated_offset_left], ?_⟩
          show mm.m_tensor_offset ++ [_] = T ++ (suffix ++ [_])
          rw [hsuf, List.append_assoc]
        · subst e
          refine ⟨suffix ++ [front_offset mm.m_allocated_offset_right
            - aligned_size mm.m_alignement_line s], ?_⟩
          show mm.m_tensor_offset ++ [_] = T ++ (suffix ++ [_])
          rw [hsuf, List.append_assoc]
      · rcases reserve_memory_cases mm mm' s id (ne_of_gt hok.1) hok.2.1 hr with
          ⟨_, _, e⟩ | ⟨_, _, e⟩
        · subst e
          exact le_trans hR (le_max_left _ _)
        · subst e
          exact le_trans hR (le_max_left _ _)
  | remove id =>
    simp only [apply_op] at h
    obtain ⟨hok', _, hreq⟩ := lists_ok_remove mm mm1 id hok h
    refine ⟨hok', ?_, by rw [hreq]; exact hR⟩
    rcases remove_reservation_cases mm mm1 id h with ⟨_, p, _, _, _, e⟩ | ⟨_, p, _, _, _, e⟩
    · subst e; exact ⟨suffix, hsuf⟩
    · subst e; exact ⟨suffix, hsuf⟩
  | increase =>
    simp only [apply_op, Option.some.injEq] at h
    subst h
    exact ⟨hok, ⟨suffix, hsuf⟩, hR⟩
  | decrease =>
    simp only [apply_op, Option.some.injEq] at h
    subst h
    exact ⟨hok, ⟨suffix, hsuf⟩, hR⟩

/-! ## A reservation seen from a later state -/

/-- A reservation on an object with the invariants, seen from a later state: the later object
has the invariants, its required memory is not lower, the recorded start of the block is the
entry of the id in the recorded block offsets, and the block lies between 0 and the required
memory (left) or between minus the required memory and 0 (right). -/
theorem reservation_later (mm mm1 st : MemoryManager) (s id : Int) (ops2 : List mem_op)
    (hinv : lists_ok mm ∧ ids_ok mm ∧ offsets_aligned mm) (hs : 0 ≤ s)
    (hres : reserve_memory mm s = some (id, mm1)) (hsz2 : sizes_nonneg ops2)
    (h2 : final_state mm1 ops2 = some st) :
    ∃ start, mm1.m_tensor_offset.getLast? = some start
      ∧ (lists_ok st ∧ ids_ok st ∧ offsets_aligned st)
      ∧ start ∈ st.m_tensor_offset
      ∧ (0 < id ∨ id < 0)
      ∧ (0 < id → vector_at st.m_tensor_offset (id - 1) = some start ∧ 0 ≤ start
          ∧ start + aligned_size mm.m_alignement_line s ≤ st.m_req_mem)
      ∧ (id < 0 → vector_at st.m_tensor_offset (-id - 1) = some start
          ∧ 0 ≤ st.m_req_mem + start
          ∧ start + aligned_size mm.m_alignement_line s ≤ 0) := by
  obtain ⟨hok, hids, hdvd⟩ := hinv
  have hal : mm.m_alignement_line ≠ 0 := ne_of_gt hok.1
  have hap : apply_op mm (mem_op.reserve s) = some mm1 := by
    simp only [apply_op, hres, Option.map_some']
  have hinv1 := apply_op_invariants mm (mem_op.reserve s) mm1 ⟨hok, hids, hdvd⟩ hs hap
  obtain ⟨states, hrun, hmem⟩ := final_state_mem mm1 st ops2 h2
  have hinvst := run_ops_preserves (fun x => lists_ok x ∧ ids_ok x ∧ offsets_aligned x)
    apply_op_invariants ops2 mm1 states hinv1 hsz2 hrun st hmem
  have hgrow := run_ops_preserves
    (fun x => lists_ok x ∧ (∃ suffix, x.m_tensor_offset = mm1.m_tensor_offset ++ suffix)
      ∧ mm1.m_req_mem ≤ x.m_req_mem)
    (apply_op_grows mm1.m_tensor_offset mm1.m_req_mem) ops2 mm1 states
    ⟨hinv1.1, ⟨[], (List.append_nil _).symm⟩, le_refl _⟩ hsz2 hrun st hmem
  obtain ⟨_, ⟨suffix, hsuf⟩, hreq⟩ := hgrow
  have hlen : (mm.m_tensor_offset.length : Int) = mm.m_last_id := hids.2.1
  have h0 : 0 ≤ mm.m_last_id := hids.1
  have hfl : 0 ≤ front_offset mm.m_allocated_offset_left := by
    unfold front_offset
    cases hl : mm.m_allocated_offset_left with
    | nil => exact le_refl _
    | cons y ys => exact hok.2.2.2.1 y (by rw [hl]; exact List.mem_cons_self _ _)
  have hfr : front_offset mm.m_allocated_offset_right ≤ 0 := by
    unfold front_offset
    cases hl : mm.m_allocated_offset_right with
    | nil => exact le_refl _
    | cons y ys => exact hok.2.2.2.2.2 y (by rw [hl]; exact List.mem_cons_self _ _)
  rcases reserve_memory_cases mm mm1 s id hal hok.2.1 hres with ⟨_, hid, hmm⟩ | ⟨_, hid, hmm⟩
  · have ht : mm1.m_tensor_offset
        = mm.m_tensor_offset ++ [front_offset mm.m_allocated_offset_left] := by rw [hmm]
    have hr : mm1.m_req_mem = max mm.m_req_mem
        (front_offset mm.m_allocated_offset_left + aligned_size mm.m_alignement_line s
          - front_offset mm.m_allocated_offset_right) := by rw [hmm]
    refine ⟨front_offset mm.m_allocated_offset_left, ?_, hinvst, ?_, Or.inl (by omega), ?_,
      fun hneg => absurd hneg (by omega)⟩
    · rw [ht]; simp
    · rw [hsuf, ht]; simp
    · intro _
      refine ⟨?_, hfl, ?_⟩
      · rw [hsuf, ht]
        exact vector_at_append_length _ _ _ _ (by omega)
      · have := le_max_right mm.m_req_mem
          (front_offset mm.m_allocated_offset_left + aligned_size mm.m_alignement_line s
            - front_offset mm.m_allocated_offset_right)
        omega
  · have ht : mm1.m_tensor_offset
        = mm.m_tensor_offset ++ [front_offset mm.m_allocated_offset_right
            - aligned_size mm.m_alignement_line s] := by rw [hmm]
    have hr : mm1.m_req_mem = max mm.m_req_mem
        (front_offset mm.m_allocated_offset_left
          - (front_offset mm.m_allocated_offset_right
              - aligned_size mm.m_alignement_line s)) := by rw [hmm]
    refine ⟨front_offset mm.m_allocated_offset_right - aligned_size mm.m_alignement_line s,
      ?_, hinvst, ?_, Or.inr (by omega), fun hpos => absurd hpos (by omega), ?_⟩
    · rw [ht]; simp
    · rw [hsuf, ht]; simp
    · intro _
      refine ⟨?_, ?_, by omega⟩
      · rw [hsuf, ht]
        exact vector_at_append_length _ _ _ _ (by omega)
      · have := le_max_right mm.m_req_mem
          (front_offset mm.m_allocated_offset_left
            - (front_offset mm.m_allocated_offset_right
                - aligned_size mm.m_alignement_line s))
        omega

/-- With a positive required memory and a positive page alignment the aligned pointer after
`alloc_all_memory` is a multiple of the page alignment, and the other members that
`get_mem_ptr` reads are unchanged. -/
theorem alloc_all_memory_aligned (mm : MemoryManager) (l_data : Nat)
    (_hp : 0 < mm.m_alignement_page) (hreq : 0 < mm.m_req_mem) :
    mm.m_alignement_page ∣ (alloc_all_memory mm l_data).m_aligned_memory_ptr
      ∧ (alloc_all_memory mm l_data).m_tensor_offset = mm.m_tensor_offset
      ∧ (alloc_all_memory mm l_data).m_req_mem = mm.m_req_mem := by
  unfold alloc_all_memory
  rw [if_pos hreq]
  refine ⟨?_, rfl, rfl⟩
  dsimp only
  by_cases h : (l_data : Int) % mm.m_alignement_page = 0
  · rw [if_neg (not_not.2 h)]
    exact Int.dvd_of_emod_eq_zero h
  · rw [if_pos h]
    have hd : mm.m_alignement_page ∣ (l_data : Int) - (l_data : Int) % mm.m_alignement_page :=
      Int.dvd_sub_of_emod_eq rfl
    have he : (l_data : Int) + (mm.m_alignement_page - (l_data : Int) % mm.m_alignement_page)
        = ((l_data : Int) - (l_data : Int) % mm.m_alignement_page) + mm.m_alignement_page := by
      ring
    rw [he]
    exact dvd_add hd (dvd_refl _)

/-! ## The id counter along a sequence of calls -/

theorem final_state_nil (mm : MemoryManager) : final_state mm [] = some mm := rfl

theorem run_ops_ne_nil (mm : MemoryManager) (ops : List mem_op) (states : List MemoryManager)
    (h : run_ops mm ops = some states) : states ≠ [] := by
  cases ops with
  | nil =>
    simp only [run_ops, Option.some.injEq] at h
    rw [← h]
    simp
  | cons op ops =>
    rw [run_ops] at h
    split at h
    · split at h
      · simp only [Option.some.injEq] at h
        rw [← h]
        simp
      · cases h
    · cases h

theorem final_state_cons (mm : MemoryManager) (op : mem_op) (ops : List mem_op) :
    final_state mm (op :: ops) = (apply_op mm op).bind (fun mm1 => final_state mm1 ops) := by
  unfold final_state
  rw [run_ops]
  cases h1 : apply_op mm op with
  | none => rfl
  | some mm1 =>
    simp only [Option.some_bind]
    cases h2 : run_ops mm1 ops with
    | none => rfl
    | some states =>
      simp only [Option.some_bind]
      cases states with
      | nil => exact absurd rfl (run_ops_ne_nil mm1 ops [] h2)
      | cons x xs => simp [List.getLast?_cons_cons]

/-- The invariant of the counters, which needs no condition on the sizes: the alignment is not
0, the id and offset lists of each side have the same length, and the id counter is
non-negative and counts the recorded block offsets. -/
theorem apply_op_counters (mm : MemoryManager) (op : mem_op) (mm1 : MemoryManager)
    (hP : mm.m_alignement_line ≠ 0 ∧ lengths_agree mm ∧ 0 ≤ mm.m_last_id
      ∧ (mm.m_tensor_offset.length : Int) = mm.m_last_id)
    (h : apply_op mm op = some mm1) :
    (mm1.m_alignement_line ≠ 0 ∧ lengths_agree mm1 ∧ 0 ≤ mm1.m_last_id
      ∧ (mm1.m_tensor_offset.length : Int) = mm1.m_last_id)
    ∧ mm1.m_last_id = mm.m_last_id + (num_reserves [op] : Int)
    ∧ mm1.m_aligned_memory_ptr = mm.m_aligned_memory_ptr := by
  obtain ⟨hal, hlen, h0, hl⟩ := hP
  cases op with
  | reserve s =>
    simp only [apply_op] at h
    cases hr : reserve_memory mm s with
    | none => rw [hr] at h; cases h
    | some r =>
      obtain ⟨id, m⟩ := r
      rw [hr] at h
      simp only [Option.map_some', Option.some.injEq] at h
      subst h
      rcases reserve_memory_cases mm m s id hal hlen hr with ⟨_, _, hm⟩ | ⟨_, _, hm⟩
      · rw [hm]
        refine ⟨⟨hal, ⟨?_, hlen.2⟩, ?_, ?_⟩, ?_, rfl⟩
        · simp only [List.length_cons]; rw [hlen.1]
        · show 0 ≤ mm.m_last_id + 1
          omega
        · show ((mm.m_tensor_offset ++ [_]).length : Int) = mm.m_last_id + 1
          rw [List.length_append]
          simp only [List.length_singleton, Nat.cast_add, Nat.cast_one]
          omega
        · show mm.m_last_id + 1 = mm.m_last_id + _
          simp [num_reserves]
      · rw [hm]
        refine ⟨⟨hal, ⟨hlen.1, ?_⟩, ?_, ?_⟩, ?_, rfl⟩
        · simp only [List.length_cons]; rw [hlen.2]
        · show 0 ≤ mm.m_last_id + 1
          omega
        · show ((mm.m_tensor_offset ++ [_]).length : Int) = mm.m_last_id + 1
          rw [List.length_append]
          simp only [List.length_singleton, Nat.cast_add, Nat.cast_one]
          omega
        · show mm.m_last_id + 1 = mm.m_last_id + _
          simp [num_reserves]
  | remove id =>
    simp only [apply_op] at h
    rcases remove_reservation_cases mm mm1 id h with
      ⟨_, p, hp1, hp2, _, hm⟩ | ⟨_, p, hp1, hp2, _, hm⟩
    · rw [hm]
      refine ⟨⟨hal, ⟨?_, hlen.2⟩, h0, hl⟩, by simp [num_reserves], rfl⟩
      show (mm.m_allocated_id_left.eraseIdx p).length
        = (mm.m_allocated_offset_left.eraseIdx p).length
      rw [List.length_eraseIdx, List.length_eraseIdx, if_pos hp1, if_pos hp2, hlen.1]
    · rw [hm]
      refine ⟨⟨hal, ⟨hlen.1, ?_⟩, h0, hl⟩, by simp [num_reserves], rfl⟩
      show (mm.m_allocated_id_right.eraseIdx p).length
        = (mm.m_allocated_offset_right.eraseIdx p).length
      rw [List.length_eraseIdx, List.length_eraseIdx, if_pos hp1, if_pos hp2, hlen.2]
  | increase =>
    simp only [apply_op, Option.some.injEq] at h
    subst h
    exact ⟨⟨hal, hlen, h0, hl⟩, by simp [num_reserves, increase_layer], rfl⟩
  | decrease =>
    simp only [apply_op, Option.some.injEq] at h
    subst h
    exact ⟨⟨hal, hlen, h0, hl⟩, by simp [num_reserves, decrease_layer], rfl⟩

theorem num_reserves_cons (op : mem_op) (ops : List mem_op) :
    num_reserves (op :: ops) = num_reserves [op] + num_reserves ops := by
  cases op <;> simp [num_reserves]; omega

/-- Along every defined sequence of calls the invariant of the counters is kept and the id
counter grows by the number of reservations. -/
theorem final_state_counters (ops : List mem_op) :
    ∀ (mm mm1 : MemoryManager),
      (mm.m_alignement_line ≠ 0 ∧ lengths_agree mm ∧ 0 ≤ mm.m_last_id
        ∧ (mm.m_tensor_offset.length : Int) = mm.m_last_id) →
      final_state mm ops = some mm1 →
      (mm1.m_alignement_line ≠ 0 ∧ lengths_agree mm1 ∧ 0 ≤ mm1.m_last_id
        ∧ (mm1.m_tensor_offset.length : Int) = mm1.m_last_id)
      ∧ mm1.m_last_id = mm.m_last_id + (num_reserves ops : Int)
      ∧ mm1.m_aligned_memory_ptr = mm.m_aligned_memory_ptr := by
  induction ops with
  | nil =>
    intro mm mm1 hP h
    rw [final_state_nil, Option.some.injEq] at h
    subst h
    exact ⟨hP, by simp [num_reserves], rfl⟩
  | cons op ops ih =>
    intro mm mm1 hP h
    rw [final_state_cons] at h
    cases h1 : apply_op mm op with
    | none => rw [h1] at h; cases h
    | some m =>
      rw [h1, Option.some_bind] at h
      obtain ⟨hP1, hc1, hb1⟩ := apply_op_counters mm op m hP h1
      obtain ⟨hP2, hc2, hb2⟩ := ih m mm1 hP1 h
      refine ⟨hP2, ?_, by rw [hb2, hb1]⟩
      rw [hc2, hc1]
      have := num_reserves_cons op ops
      omega

theorem counters_of_fresh (mm : MemoryManager) (hf : is_fresh mm)
    (hal : mm.m_alignement_line ≠ 0) :
    mm.m_alignement_line ≠ 0 ∧ lengths_agree mm ∧ 0 ≤ mm.m_last_id
      ∧ (mm.m_tensor_offset.length : Int) = mm.m_last_id := by
  obtain ⟨⟨h1, h2, h3, h4⟩, ht, hid, _⟩ := hf
  refine ⟨hal, ⟨by rw [h1, h2], by rw [h3, h4]⟩, by omega, ?_⟩
  rw [ht, hid]
  rfl

/-! ## Live reservations and their offsets -/

theorem final_state_append (ops1 : List mem_op) :
    ∀ (mm : MemoryManager) (ops2 : List mem_op),
      final_state mm (ops1 ++ ops2)
        = (final_state mm ops1).bind (fun m => final_state m ops2) := by
  induction ops1 with
  | nil => intro mm ops2; rw [List.nil_append, final_state_nil, Option.some_bind]
  | cons op ops ih =>
    intro mm ops2
    rw [List.cons_append, final_state_cons, final_state_cons]
    cases apply_op mm op with
    | none => rfl
    | some m => simp only [Option.some_bind]; exact ih m ops2

theorem sizes_nonneg_append (ops1 ops2 : List mem_op) (h1 : sizes_nonneg ops1)
    (h2 : sizes_nonneg ops2) : sizes_nonneg (ops1 ++ ops2) := by
  intro op hop
  rcases List.mem_append.1 hop with h | h
  · exact h1 op h
  · exact h2 op h

theorem sizes_nonneg_cons (op : mem_op) (ops : List mem_op) (h1 : size_nonneg op)
    (h2 : sizes_nonneg ops) : sizes_nonneg (op :: ops) := by
  intro o ho
  rcases List.mem_cons.1 ho with h | h
  · rw [h]; exact h1
  · exact h2 o h

/-- The invariants hold on every object reached from an object with the invariants. -/
theorem invariants_along (mm st : MemoryManager) (ops : List mem_op)
    (hinv : lists_ok mm ∧ ids_ok mm ∧ offsets_aligned mm) (hsz : sizes_nonneg ops)
    (h : final_state mm ops = some st) : lists_ok st ∧ ids_ok st ∧ offsets_aligned st := by
  obtain ⟨states, hrun, hmem⟩ := final_state_mem mm st ops h
  exact run_ops_preserves (fun s => lists_ok s ∧ ids_ok s ∧ offsets_aligned s)
    apply_op_invariants ops mm states hinv hsz hrun st hmem

/-- The required memory does not decrease along a sequence of calls. -/
theorem req_mem_along (mm st : MemoryManager) (ops : List mem_op) (hok : lists_ok mm)
    (hsz : sizes_nonneg ops) (h : final_state mm ops = some st) :
    mm.m_req_mem ≤ st.m_req_mem := by
  obtain ⟨states, hrun, hmem⟩ := final_state_mem mm st ops h
  exact (run_ops_preserves
    (fun x => lists_ok x ∧ (∃ suffix, x.m_tensor_offset = mm.m_tensor_offset ++ suffix)
      ∧ mm.m_req_mem ≤ x.m_req_mem)
    (apply_op_grows mm.m_tensor_offset mm.m_req_mem) ops mm states
    ⟨hok, ⟨[], (List.append_nil _).symm⟩, le_refl _⟩ hsz hrun st hmem).2.2

/-- The removal of an id from the lists of one side keeps every other entry of the id list
with its offset. -/
theorem erase_reservation_keeps (ids offs : List Int) (id ida e : Int)
    (hlen : ids.length = offs.length) (hnd : ids.Nodup) (r : List Int × List Int)
    (he : erase_reservation ids offs id = some r) :
    (∀ x ∈ r.1, x ∈ ids)
    ∧ ((ida, e) ∈ ids.zip offs → ida ∈ r.1 → (ida, e) ∈ r.1.zip r.2) := by
  have hmem : id ∈ ids := by
    unfold erase_reservation at he
    by_cases hc : ids.indexOf id < ids.length ∧ ids.indexOf id < offs.length
    · exact List.indexOf_lt_length.1 hc.1
    · simp only [hc, if_false] at he
      cases he
  obtain ⟨l1, l2, o1, o, o2, e1, hn1, e2, hl, he2⟩ :=
    erase_reservation_split id ids offs hlen hmem
  rw [he2, Option.some.injEq] at he
  subst he
  refine ⟨?_, ?_⟩
  · intro x hx
    rw [e1]
    rcases List.mem_append.1 hx with h | h
    · exact List.mem_append_left _ h
    · exact List.mem_append_right _ (List.mem_cons_of_mem _ h)
  · intro hp hlive
    rw [e1, e2, List.zip_append hl.symm, List.zip_cons_cons] at hp
    show (ida, e) ∈ (l1 ++ l2).zip (o1 ++ o2)
    rw [List.zip_append hl.symm]
    rcases List.mem_append.1 hp with h | h
    · exact List.mem_append_left _ h
    · rcases List.mem_cons.1 h with h | h
      · exfalso
        simp only [Prod.mk.injEq] at h
        rw [e1] at hnd
        have hnd2 := (List.nodup_append.1 hnd).2.1
        have hn2 : id ∉ l2 := (List.nodup_cons.1 hnd2).1
        rw [h.1] at hlive
        rcases List.mem_append.1 hlive with h3 | h3
        · exact hn1 h3
        · exact hn2 h3
      · exact List.mem_append_right _ h

theorem ids_nodup (mm : MemoryManager) (h : ids_ok mm) :
    mm.m_allocated_id_left.Nodup ∧ mm.m_allocated_id_right.Nodup :=
  ⟨h.2.2.1.imp (fun hlt => ne_of_gt hlt), h.2.2.2.2.1.imp (fun hlt => ne_of_lt hlt)⟩

/-- A defined call keeps an id within the range of the id counter, does not make an id of
that range live, and keeps the offset a live id is recorded with. -/
theorem apply_op_recorded (ida e : Int) (x : MemoryManager) (op : mem_op) (x1 : MemoryManager)
    (hinv : lists_ok x ∧ ids_ok x ∧ offsets_aligned x)
    (hb : ida ≤ x.m_last_id ∧ -x.m_last_id ≤ ida) (h : apply_op x op = some x1) :
    (ida ≤ x1.m_last_id ∧ -x1.m_last_id ≤ ida)
    ∧ (live x1 ida → live x ida)
    ∧ (recorded x ida e → live x1 ida → recorded x1 ida e) := by
  obtain ⟨hok, hids, _⟩ := hinv
  have hal : x.m_alignement_line ≠ 0 := ne_of_gt hok.1
  have hlen := hok.2.1
  cases op with
  | reserve s =>
    simp only [apply_op] at h
    cases hr : reserve_memory x s with
    | none => rw [hr] at h; cases h
    | some r =>
      obtain ⟨id, m⟩ := r
      rw [hr] at h
      simp only [Option.map_some', Option.some.injEq] at h
      subst h
      rcases reserve_memory_cases x m s id hal hlen hr with ⟨_, _, hm⟩ | ⟨_, _, hm⟩
      · rw [hm]
        refine ⟨⟨by show ida ≤ x.m_last_id + 1; omega,
          by show -(x.m_last_id + 1) ≤ ida; omega⟩, ?_, ?_⟩
        · unfold live
          by_cases hge : ida ≥ 0
          · simp only [hge, if_true]
            intro hm2
            rcases List.mem_cons.1 hm2 with h1 | h1
            · omega
            · exact h1
          · simp only [hge, if_false]
            exact fun h1 => h1
        · unfold recorded
          by_cases hge : ida ≥ 0
          · simp only [hge, if_true]
            intro hp _
            rw [List.zip_cons_cons]
            exact List.mem_cons_of_mem _ hp
          · simp only [hge, if_false]
            exact fun hp _ => hp
      · rw [hm]
        refine ⟨⟨by show ida ≤ x.m_last_id + 1; omega,
          by show -(x.m_last_id + 1) ≤ ida; omega⟩, ?_, ?_⟩
        · unfold live
          by_cases hge : ida ≥ 0
          · simp only [hge, if_true]
            exact fun h1 => h1
          · simp only [hge, if_false]
            intro hm2
            rcases List.mem_cons.1 hm2 with h1 | h1
            · omega
            · exact h1
        · unfold recorded
          by_cases hge : ida ≥ 0
          · simp only [hge, if_true]
            exact fun hp _ => hp
          · simp only [hge, if_false]
            intro hp _
            rw [List.zip_cons_cons]
            exact List.mem_cons_of_mem _ hp
  | remove id =>
    simp only [apply_op] at h
    obtain ⟨hndl, hndr⟩ := ids_nodup x hids
    unfold remove_reservation at h
    by_cases hid : id ≥ 0
    · rw [if_pos hid] at h
      cases he : erase_reservation x.m_allocated_id_left x.m_allocated_offset_left id with
      | none => rw [he] at h; cases h
      | some r =>
        rw [he] at h
        simp only [Option.map_some', Option.some.injEq] at h
        subst h
        obtain ⟨hsub, hkeep⟩ := erase_reservation_keeps _ _ id ida e hlen.1 hndl r he
        refine ⟨hb, ?_, ?_⟩
        · unfold live
          by_cases hge : ida ≥ 0
          · simp only [hge, if_true]
            exact fun h1 => hsub ida h1
          · simp only [hge, if_false]
            exact fun h1 => h1
        · unfold recorded live
          by_cases hge : ida ≥ 0
          · simp only [hge, if_true]
            exact hkeep
          · simp only [hge, if_false]
            exact fun hp _ => hp
    · rw [if_neg hid] at h
      cases he : erase_reservation x.m_allocated_id_right x.m_allocated_offset_right id with
      | none => rw [he] at h; cases h
      | some r =>
        rw [he] at h
        simp only [Option.map_some', Option.some.injEq] at h
        subst h
        obtain ⟨hsub, hkeep⟩ := erase_reservation_keeps _ _ id ida e hlen.2 hndr r he
        refine ⟨hb, ?_, ?_⟩
        · unfold live
          by_cases hge : ida ≥ 0
          · simp only [hge, if_true]
            exact fun h1 => h1
          · simp only [hge, if_false]
            exact fun h1 => hsub ida h1
        · unfold recorded live
          by_cases hge : ida ≥ 0
          · simp only [hge, if_true]
            exact fun hp _ => hp
          · simp only [hge, if_false]
            exact hkeep
  | increase =>
    simp only [apply_op, Option.some.injEq] at h
    subst h
    exact ⟨hb, fun h1 => h1, fun hp _ => hp⟩
  | decrease =>
    simp only [apply_op, Option.some.injEq] at h
    subst h
    exact ⟨hb, fun h1 => h1, fun hp _ => hp⟩

/-- Along a sequence of calls an id within the range of the id counter that is live at the
end was live at the start and is recorded at the end with the offset it was recorded with at
the start. -/
theorem recorded_along (ida e : Int) (mm st : MemoryManager) (ops : List mem_op)
    (hinv : lists_ok mm ∧ ids_ok mm ∧ offsets_aligned mm)
    (hb : ida ≤ mm.m_last_id ∧ -mm.m_last_id ≤ ida) (hsz : sizes_nonneg ops)
    (h : final_state mm ops = some st) :
    (ida ≤ st.m_last_id ∧ -st.m_last_id ≤ ida)
    ∧ (live st ida → live mm ida)
    ∧ (recorded mm ida e → live st ida → recorded st ida e) := by
  obtain ⟨states, hrun, hmem⟩ := final_state_mem mm st ops h
  have hP := run_ops_preserves
    (fun x => (lists_ok x ∧ ids_ok x ∧ offsets_aligned x)
      ∧ (ida ≤ x.m_last_id ∧ -x.m_last_id ≤ ida)
      ∧ (live x ida → live mm ida)
      ∧ (recorded mm ida e → live x ida → recorded x ida e))
    (by
      intro x op x1 ⟨hi, hbx, hlx, hrx⟩ hs hap
      obtain ⟨hb1, hl1, hr1⟩ := apply_op_recorded ida e x op x1 hi hbx hap
      exact ⟨apply_op_invariants x op x1 hi hs hap, hb1, fun hl => hlx (hl1 hl),
        fun hr hl => hr1 (hrx hr (hl1 hl)) hl⟩)
    ops mm states ⟨hinv, hb, fun hl => hl, fun hr _ => hr⟩ hsz hrun st hmem
  exact hP.2

/-- The offset a live id is recorded with lies behind the front offset of its side: it is at
most the left front offset for a left id and at least the right front offset for a right
id. -/
theorem recorded_front (mm : MemoryManager) (hok : lists_ok mm) (ida e : Int)
    (h : recorded mm ida e) :
    (ida ≥ 0 → e ≤ front_offset mm.m_allocated_offset_left)
    ∧ (¬ ida ≥ 0 → front_offset mm.m_allocated_offset_right ≤ e) := by
  unfold recorded at h
  obtain ⟨_, _, hpl, _, hpr, _⟩ := hok
  refine ⟨?_, ?_⟩
  · intro hge
    rw [if_pos hge] at h
    have hmem : e ∈ mm.m_allocated_offset_left := (List.of_mem_zip h).2
    unfold front_offset
    cases hl : mm.m_allocated_offset_left with
    | nil => rw [hl] at hmem; cases hmem
    | cons y ys =>
      rw [hl] at hmem hpl
      rcases List.mem_cons.1 hmem with h1 | h1
      · rw [h1]; exact le_refl _
      · exact (List.pairwise_cons.1 hpl).1 e h1
  · intro hge
    rw [if_neg hge] at h
    have hmem : e ∈ mm.m_allocated_offset_right := (List.of_mem_zip h).2
    unfold front_offset
    cases hl : mm.m_allocated_offset_right with
    | nil => rw [hl] at hmem; cases hmem
    | cons y ys =>
      rw [hl] at hmem hpr
      rcases List.mem_cons.1 hmem with h1 | h1
      · rw [h1]; exact le_refl _
      · exact (List.pairwise_cons.1 hpr).1 e h1

/-- The data of a reservation: the recorded start of the block is the last recorded block
offset, the id is within the range of the id counter and is recorded with the end of the block
(left) or its start (right), and the required memory covers the block against the front of the
other side. -/
theorem reserve_memory_recorded (mm mm1 : MemoryManager) (s id : Int)
    (hok : lists_ok mm) (hid : 0 ≤ mm.m_last_id) (hres : reserve_memory mm s = some (id, mm1)) :
    ∃ (start e : Int), mm1.m_tensor_offset.getLast? = some start
      ∧ recorded mm1 id e
      ∧ (id ≤ mm1.m_last_id ∧ -mm1.m_last_id ≤ id)
      ∧ ((0 < id ∧ e = start + aligned_size mm.m_alignement_line s
            ∧ start = front_offset mm.m_allocated_offset_left
            ∧ e - front_offset mm.m_allocated_offset_right ≤ mm1.m_req_mem)
          ∨ (id < 0 ∧ e = start
            ∧ start + aligned_size mm.m_alignement_line s
                = front_offset mm.m_allocated_offset_right
            ∧ front_offset mm.m_allocated_offset_left - start ≤ mm1.m_req_mem)) := by
  have hal : mm.m_alignement_line ≠ 0 := ne_of_gt hok.1
  rcases reserve_memory_cases mm mm1 s id hal hok.2.1 hres with ⟨_, hi, hm⟩ | ⟨_, hi, hm⟩
  · refine ⟨front_offset mm.m_allocated_offset_left,
      front_offset mm.m_allocated_offset_left + aligned_size mm.m_alignement_line s,
      ?_, ?_, ?_, Or.inl ⟨by omega, rfl, rfl, ?_⟩⟩
    · rw [hm]; simp
    · rw [hm]
      unfold recorded
      rw [if_pos (by omega), hi]
      show _ ∈ List.zip (_ :: _) (_ :: _)
      rw [List.zip_cons_cons]
      exact List.mem_cons_self _ _
    · rw [hm, hi]
      show mm.m_last_id + 1 ≤ mm.m_last_id + 1 ∧ -(mm.m_last_id + 1) ≤ mm.m_last_id + 1
      omega
    · rw [hm]
      exact le_max_right _ _
  · refine ⟨front_offset mm.m_allocated_offset_right - aligned_size mm.m_alignement_line s,
      front_offset mm.m_allocated_offset_right - aligned_size mm.m_alignement_line s,
      ?_, ?_, ?_, Or.inr ⟨by omega, rfl, by ring, ?_⟩⟩
    · rw [hm]; simp
    · rw [hm]
      unfold recorded
      rw [if_neg (by omega), hi]
      show _ ∈ List.zip (_ :: _) (_ :: _)
      rw [List.zip_cons_cons]
      exact List.mem_cons_self _ _
    · rw [hm, hi]
      show -(mm.m_last_id + 1) ≤ mm.m_last_id + 1 ∧ -(mm.m_last_id + 1) ≤ -(mm.m_last_id + 1)
      omega
    · rw [hm]
      exact le_max_right _ _

/-! ## The memory manager with the arithmetic of `int64_t` -/

theorem aligned_size_int64_eq (a s : Int) (h1 : in_int64 (a - s.tmod a))
    (h2 : in_int64 (aligned_size a s)) : aligned_size_int64 a s = aligned_size a s := by
  unfold aligned_size_int64
  unfold aligned_size at h2 ⊢
  by_cases h : s.tmod a ≠ 0
  · rw [if_pos h] at h2
    rw [if_pos h, if_pos h, ContractionLoops.int64_of_in _ h1,
      ContractionLoops.int64_of_in _ h2]
  · rw [if_neg h, if_neg h]

/-- For a non-negative size and a positive alignment the rounding in `int64_t` is exact when
the rounded size is representable. -/
theorem aligned_size_int64_of_nonneg (a s : Int) (ha : 0 < a) (hs : 0 ≤ s)
    (h2 : in_int64 (aligned_size a s)) : aligned_size_int64 a s = aligned_size a s := by
  by_cases h : s.tmod a ≠ 0
  · apply aligned_size_int64_eq a s _ h2
    have ht : s.tmod a = s % a := Int.tmod_eq_emod hs (le_of_lt ha)
    have h0 := Int.emod_nonneg s (ne_of_gt ha)
    have h1 := Int.emod_lt_of_pos s ha
    have h3 : aligned_size a s = s + (a - s.tmod a) := by
      unfold aligned_size
      rw [if_pos h]
    rw [h3] at h2
    unfold in_int64 at h2 ⊢
    rw [ht] at h2 ⊢
    omega
  · unfold aligned_size_int64 aligned_size
    rw [if_neg h, if_neg h]

/-- The front offsets after `reserve_memory` with the arithmetic of `int64_t`, on an object
with a non-zero alignment and id and offset lists of equal length. -/
theorem reserve_memory_int64_fronts (mm : MemoryManager) (s : Int)
    (hal : mm.m_alignement_line ≠ 0) (hlen : lengths_agree mm) :
    ∃ (id : Int) (mm' : MemoryManager), reserve_memory_int64 mm s = some (id, mm')
      ∧ (mm.m_layer_id.tmod 2 = 0 →
          front_offset mm'.m_allocated_offset_left
            = int64 (front_offset mm.m_allocated_offset_left
                + aligned_size_int64 mm.m_alignement_line s)
          ∧ mm'.m_allocated_offset_right = mm.m_allocated_offset_right)
      ∧ (mm.m_layer_id.tmod 2 ≠ 0 →
          front_offset mm'.m_allocated_offset_right
            = int64 (front_offset mm.m_allocated_offset_right
                - aligned_size_int64 mm.m_alignement_line s)
          ∧ mm'.m_allocated_offset_left = mm.m_allocated_offset_left) := by
  unfold reserve_memory_int64
  rw [if_neg hal]
  dsimp only
  by_cases hpar : mm.m_layer_id.tmod 2 = 0
  · rw [if_pos hpar, front_of_lengths _ _ hlen.1]
    simp only [Option.map_some']
    split
    · exact ⟨_, _, rfl, fun _ => ⟨rfl, rfl⟩, fun h => absurd hpar h⟩
    · exact ⟨_, _, rfl, fun _ => ⟨rfl, rfl⟩, fun h => absurd hpar h⟩
  · rw [if_neg hpar, front_of_lengths _ _ hlen.2]
    simp only [Option.map_some']
    split
    · exact ⟨_, _, rfl, fun h => absurd h hpar, fun _ => ⟨rfl, rfl⟩⟩
    · exact ⟨_, _, rfl, fun h => absurd h hpar, fun _ => ⟨rfl, rfl⟩⟩

/-- A sum reduced to `int64_t` does not depend on whether its second summand was reduced. -/
theorem int64_add_int64 (x y : Int) : int64 (x + int64 y) = int64 (x + y) := by
  unfold int64
  omega

/-- A difference reduced to `int64_t` does not depend on whether its subtrahend was
reduced. -/
theorem int64_sub_int64 (x y : Int) : int64 (x - int64 y) = int64 (x - y) := by
  unfold int64
  omega

/-- An offset moved up by the size rounded in `int64_t` is, reduced to `int64_t`, the offset
moved up by the exactly rounded size. -/
theorem int64_add_aligned_size (x a s : Int) :
    int64 (x + aligned_size_int64 a s) = int64 (x + aligned_size a s) := by
  unfold aligned_size_int64 aligned_size
  by_cases h : s.tmod a ≠ 0
  · rw [if_pos h, if_pos h, int64_add_int64, ← add_assoc, int64_add_int64, add_assoc]
  · rw [if_neg h, if_neg h]

/-- An offset moved down by the size rounded in `int64_t` is, reduced to `int64_t`, the
offset moved down by the exactly rounded size. -/
theorem int64_sub_aligned_size (x a s : Int) :
    int64 (x - aligned_size_int64 a s) = int64 (x - aligned_size a s) := by
  unfold aligned_size_int64 aligned_size
  by_cases h : s.tmod a ≠ 0
  · rw [if_pos h, if_pos h, int64_sub_int64, sub_add_eq_sub_sub, int64_sub_int64,
      ← sub_add_eq_sub_sub]
  · rw [if_neg h, if_neg h]

/-- A call of `reserve_memory` without overflow gives with the arithmetic of `int64_t` what it
gives with exact integers. -/
theorem reserve_memory_int64_eq (mm : MemoryManager) (s : Int) (h : reserve_exact mm s) :
    reserve_memory_int64 mm s = reserve_memory mm s := by
  obtain ⟨h1, h5, h6⟩ := h
  unfold reserve_memory_int64 reserve_memory
  by_cases hal : mm.m_alignement_line = 0
  · rw [if_pos hal, if_pos hal]
  · rw [if_neg hal, if_neg hal]
    dsimp only
    rw [ContractionLoops.int64_of_in _ h1]
    by_cases hpar : mm.m_layer_id.tmod 2 = 0
    · rw [if_pos hpar, if_pos hpar]
      cases hst : start_offset mm.m_allocated_id_left mm.m_allocated_offset_left with
      | none => simp only [Option.map_none']
      | some o =>
        obtain ⟨ha, hb⟩ := h5 hpar o hst
        simp only [Option.map_some', front_offset, List.headD_cons]
        rw [int64_add_aligned_size, ContractionLoops.int64_of_in _ ha]
        have hb2 := ContractionLoops.int64_of_in _ hb
        unfold front_offset at hb2
        rw [hb2]
    · rw [if_neg hpar, if_neg hpar]
      cases hst : start_offset mm.m_allocated_id_right mm.m_allocated_offset_right with
      | none => simp only [Option.map_none']
      | some o =>
        obtain ⟨h2, h7⟩ := h6 hpar
        obtain ⟨ha, hb⟩ := h7 o hst
        simp only [Option.map_some', front_offset, List.headD_cons]
        rw [int64_sub_aligned_size, ContractionLoops.int64_of_in _ ha,
          ContractionLoops.int64_of_in _ h2]
        have hb2 := ContractionLoops.int64_of_in _ hb
        unfold front_offset at hb2
        rw [hb2]

theorem apply_op_int64_eq (mm : MemoryManager) (op : mem_op) (h : op_exact mm op) :
    apply_op_int64 mm op = apply_op mm op := by
  cases op with
  | reserve s =>
    show (mm.reserve_memory_int64 s).map (fun r => r.2)
      = (mm.reserve_memory s).map (fun r => r.2)
    rw [reserve_memory_int64_eq mm s h]
  | remove i => rfl
  | increase =>
    unfold apply_op_int64 apply_op increase_layer_int64 increase_layer
    rw [ContractionLoops.int64_of_in _ h]
  | decrease =>
    unfold apply_op_int64 apply_op decrease_layer_int64 decrease_layer
    rw [ContractionLoops.int64_of_in _ h]

theorem ops_exact_cons (mm : MemoryManager) (op : mem_op) (ops : List mem_op)
    (h : ops_exact mm (op :: ops)) :
    op_exact mm op ∧ ∀ mm1, apply_op_int64 mm op = some mm1 → ops_exact mm1 ops := by
  unfold ops_exact at h
  refine ⟨h (mm, op) (by simp [steps_int64]), ?_⟩
  intro mm1 h1 p hp
  apply h p
  rw [steps_int64, h1]
  exact List.mem_cons_of_mem _ hp

/-- A run without overflow reaches with the arithmetic of `int64_t` the object it reaches with
exact integers. -/
theorem final_state_int64_eq (ops : List mem_op) :
    ∀ (mm : MemoryManager), ops_exact mm ops →
      final_state_int64 mm ops = final_state mm ops := by
  induction ops with
  | nil => intro mm _; rfl
  | cons op ops ih =>
    intro mm h
    obtain ⟨h1, h2⟩ := ops_exact_cons mm op ops h
    rw [final_state_int64, final_state_cons, ← apply_op_int64_eq mm op h1]
    cases ha : apply_op_int64 mm op with
    | none => rfl
    | some mm1 =>
      rw [Option.some_bind, Option.some_bind]
      exact ih mm1 (h2 mm1 ha)

theorem ops_exact_append (ops1 : List mem_op) :
    ∀ (mm : MemoryManager) (ops2 : List mem_op), ops_exact mm (ops1 ++ ops2) →
      ops_exact mm ops1
      ∧ ∀ m, final_state_int64 mm ops1 = some m → ops_exact m ops2 := by
  induction ops1 with
  | nil =>
    intro mm ops2 h
    refine ⟨?_, ?_⟩
    · intro p hp
      cases hp
    · intro m hm
      rw [final_state_int64] at hm
      cases hm
      exact h
  | cons op ops1 ih =>
    intro mm ops2 h
    rw [List.cons_append] at h
    obtain ⟨h1, h2⟩ := ops_exact_cons mm op (ops1 ++ ops2) h
    refine ⟨?_, ?_⟩
    · intro p hp
      rw [steps_int64] at hp
      rcases List.mem_cons.1 hp with rfl | hp
      · exact h1
      · cases ha : apply_op_int64 mm op with
        | none => rw [ha] at hp; cases hp
        | some mm1 =>
          rw [ha] at hp
          exact (ih mm1 ops2 (h2 mm1 ha)).1 p hp
    · intro m hm
      rw [final_state_int64] at hm
      cases ha : apply_op_int64 mm op with
      | none => rw [ha] at hm; cases hm
      | some mm1 =>
        rw [ha, Option.some_bind] at hm
        exact (ih mm1 ops2 (h2 mm1 ha)).2 m hm

/-! ## Claims on the memory manager -/

/-- The rounding of `reserve_memory` with exact integers: for every size `s >= 0` and
cache-line alignment `a > 0` (id and offset lists of equal length) the call reserves the
smallest multiple of `a` that is at least `s`, which is `s` itself when `a` divides `s`: on an
even layer the left front offset rises by that amount and the right offsets are unchanged, on
an odd layer the right front offset falls by that amount and the left offsets are
unchanged. -/
theorem reserve_rounds_up_exact (mm : MemoryManager) (s : Int) (hs : 0 ≤ s)
    (hal : 0 < mm.m_alignement_line) (hlen : lengths_agree mm) :
    ∃ (id : Int) (mm' : MemoryManager) (r : Int), reserve_memory mm s = some (id, mm')
      ∧ mm.m_alignement_line ∣ r ∧ s ≤ r
      ∧ (∀ (m : Int), mm.m_alignement_line ∣ m → s ≤ m → r ≤ m)
      ∧ (mm.m_alignement_line ∣ s → r = s)
      ∧ (mm.m_layer_id.tmod 2 = 0 →
          front_offset mm'.m_allocated_offset_left = front_offset mm.m_allocated_offset_left + r
          ∧ mm'.m_allocated_offset_right = mm.m_allocated_offset_right)
      ∧ (mm.m_layer_id.tmod 2 ≠ 0 →
          front_offset mm'.m_allocated_offset_right
            = front_offset mm.m_allocated_offset_right - r
          ∧ mm'.m_allocated_offset_left = mm.m_allocated_offset_left) := by
  obtain ⟨id, mm', h, _, _, _, heven, hodd⟩ := reserve_memory_spec mm s (ne_of_gt hal) hlen
  refine ⟨id, mm', aligned_size mm.m_alignement_line s, h, aligned_size_dvd _ _ hal hs,
    le_aligned_size _ _ hal hs, fun m hm hsm => aligned_size_le_of_dvd _ _ m hal hs hm hsm,
    aligned_size_of_dvd _ _ hal hs, ?_, ?_⟩
  · intro hpar
    obtain ⟨_, _, ho, _, hor⟩ := heven hpar
    exact ⟨by rw [ho]; rfl, hor⟩
  · intro hpar
    obtain ⟨_, _, ho, _, hol⟩ := hodd hpar
    exact ⟨by rw [ho]; rfl, hol⟩

set_option maxRecDepth 100000 in
/-- C20, counterexample: on a memory manager without reservations, with cache lines of 64
bytes, a reservation of `2^63 - 1` bytes. The smallest multiple of 64 that is at least the
size is `2^63`, which is not representable as `int64_t`; `reserve_memory` rounds the size in
`int64_t` to `-2^63` and moves the left front offset from 0 to `-2^63`, down and not up by
the smallest multiple. -/
theorem reserve_rounds_up_overflow :
    ((0 : Int) ≤ 9223372036854775807 ∧ 0 < example_manager.m_alignement_line
      ∧ lengths_agree example_manager)
    ∧ example_manager.m_alignement_line = 64
    ∧ aligned_size 64 9223372036854775807 = 9223372036854775808
    ∧ ¬ in_int64 (front_offset example_manager.m_allocated_offset_left
          + aligned_size 64 9223372036854775807)
    ∧ aligned_size_int64 64 9223372036854775807 = -9223372036854775808
    ∧ example_manager.m_layer_id.tmod 2 = 0
    ∧ front_offset example_manager.m_allocated_offset_left = 0
    ∧ (reserve_memory_int64 example_manager 9223372036854775807).map (fun r => r.1) = some 1
    ∧ (reserve_memory_int64 example_manager 9223372036854775807).map
        (fun r => front_offset r.2.m_allocated_offset_left) = some (-9223372036854775808) := by
  decide

/-- C20, amended: for every size `s >= 0` and cache-line alignment `a > 0` (id and offset
lists of equal length) such that the front offset of the layer moved by the smallest multiple
of `a` that is at least `s` is representable as `int64_t`, `reserve_memory`, with the
arithmetic of `int64_t`, reserves the smallest multiple of `a` that is at least `s`, which is
`s` itself when `a` divides `s`: on an even layer the left front offset rises by that amount
and the right offsets are unchanged, on an odd layer the right front offset falls by that
amount and the left offsets are unchanged. -/
theorem reserve_rounds_up (mm : MemoryManager) (s : Int) (hs : 0 ≤ s)
    (hal : 0 < mm.m_alignement_line) (hlen : lengths_agree mm)
    (hfl : mm.m_layer_id.tmod 2 = 0 →
      in_int64 (front_offset mm.m_allocated_offset_left + aligned_size mm.m_alignement_line s))
    (hfr : mm.m_layer_id.tmod 2 ≠ 0 →
      in_int64
        (front_offset mm.m_allocated_offset_right - aligned_size mm.m_alignement_line s)) :
    ∃ (id : Int) (mm' : MemoryManager) (r : Int), reserve_memory_int64 mm s = some (id, mm')
      ∧ mm.m_alignement_line ∣ r ∧ s ≤ r
      ∧ (∀ (m : Int), mm.m_alignement_line ∣ m → s ≤ m → r ≤ m)
      ∧ (mm.m_alignement_line ∣ s → r = s)
      ∧ (mm.m_layer_id.tmod 2 = 0 →
          front_offset mm'.m_allocated_offset_left = front_offset mm.m_allocated_offset_left + r
          ∧ mm'.m_allocated_offset_right = mm.m_allocated_offset_right)
      ∧ (mm.m_layer_id.tmod 2 ≠ 0 →
          front_offset mm'.m_allocated_offset_right
            = front_offset mm.m_allocated_offset_right - r
          ∧ mm'.m_allocated_offset_left = mm.m_allocated_offset_left) := by
  obtain ⟨id, mm', h, heven, hodd⟩ := reserve_memory_int64_fronts mm s (ne_of_gt hal) hlen
  rw [int64_add_aligned_size] at heven
  rw [int64_sub_aligned_size] at hodd
  refine ⟨id, mm', aligned_size mm.m_alignement_line s, h, aligned_size_dvd _ _ hal hs,
    le_aligned_size _ _ hal hs, fun m hm hsm => aligned_size_le_of_dvd _ _ m hal hs hm hsm,
    aligned_size_of_dvd _ _ hal hs, ?_, ?_⟩
  · intro hpar
    obtain ⟨ho, hor⟩ := heven hpar
    rw [ContractionLoops.int64_of_in _ (hfl hpar)] at ho
    exact ⟨ho, hor⟩
  · intro hpar
    obtain ⟨ho, hol⟩ := hodd hpar
    rw [ContractionLoops.int64_of_in _ (hfr hpar)] at ho
    exact ⟨ho, hol⟩

set_option maxRecDepth 100000 in
/-- C20, witness: a reservation of 100 bytes on cache lines of 64 bytes moves the left front
offset from 0 to 128. -/
theorem reserve_rounds_up_witness :
    ((0 : Int) ≤ 100 ∧ 0 < example_manager.m_alignement_line ∧ lengths_agree example_manager
      ∧ in_int64 (front_offset example_manager.m_allocated_offset_left
          + aligned_size example_manager.m_alignement_line 100))
    ∧ (example_manager.reserve_memory_int64 100).map
        (fun r => front_offset r.2.m_allocated_offset_left) = some 128
    ∧ ∃ (id : Int) (mm' : MemoryManager) (r : Int),
      reserve_memory_int64 example_manager 100 = some (id, mm')
      ∧ example_manager.m_alignement_line ∣ r ∧ 100 ≤ r
      ∧ (∀ (m : Int), example_manager.m_alignement_line ∣ m → 100 ≤ m → r ≤ m)
      ∧ (example_manager.m_alignement_line ∣ 100 → r = 100)
      ∧ (example_manager.m_layer_id.tmod 2 = 0 →
          front_offset mm'.m_allocated_offset_left
            = front_offset example_manager.m_allocated_offset_left + r
          ∧ mm'.m_allocated_offset_right = example_manager.m_allocated_offset_right)
      ∧ (example_manager.m_layer_id.tmod 2 ≠ 0 →
          front_offset mm'.m_allocated_offset_right
            = front_offset example_manager.m_allocated_offset_right - r
          ∧ mm'.m_allocated_offset_left = example_manager.m_allocated_offset_left) :=
  ⟨by decide, by decide,
   reserve_rounds_up example_manager 100 (by decide) (by decide) (by decide)
    (fun _ => by decide) (fun h => absurd (by decide) h)⟩

/-- C22: on id and offset lists of equal length `remove_reservation` of a live id is defined
and removes exactly the first entry of the id from the id list of its side (left for
`i_id >= 0`, right otherwise) and the offset at the same position from the offset list of that
side; the entries before and after keep their values and order, and every other member (the
lists of the other side, the recorded block offsets, the id counter, the layer counter, the
required memory) is unchanged. -/
theorem remove_reservation_frame (mm : MemoryManager) (i_id : Int) (hlen : lengths_agree mm)
    (hlive : live mm i_id) :
    ∃ (l1 l2 o1 : List Int) (o : Int) (o2 : List Int), i_id ∉ l1 ∧ o1.length = l1.length
      ∧ (i_id ≥ 0 →
          mm.m_allocated_id_left = l1 ++ i_id :: l2
          ∧ mm.m_allocated_offset_left = o1 ++ o :: o2
          ∧ remove_reservation mm i_id = some { mm with
              m_allocated_id_left := l1 ++ l2
              m_allocated_offset_left := o1 ++ o2 })
      ∧ (i_id < 0 →
          mm.m_allocated_id_right = l1 ++ i_id :: l2
          ∧ mm.m_allocated_offset_right = o1 ++ o :: o2
          ∧ remove_reservation mm i_id = some { mm with
              m_allocated_id_right := l1 ++ l2
              m_allocated_offset_right := o1 ++ o2 }) := by
  unfold live at hlive
  by_cases hid : i_id ≥ 0
  · rw [if_pos hid] at hlive
    obtain ⟨l1, l2, o1, o, o2, e1, hn, e2, hl, he⟩ :=
      erase_reservation_split i_id _ _ hlen.1 hlive
    refine ⟨l1, l2, o1, o, o2, hn, hl, fun _ => ⟨e1, e2, ?_⟩, fun hneg => absurd hid (by omega)⟩
    unfold remove_reservation
    rw [if_pos hid, he]
    rfl
  · rw [if_neg hid] at hlive
    obtain ⟨l1, l2, o1, o, o2, e1, hn, e2, hl, he⟩ :=
      erase_reservation_split i_id _ _ hlen.2 hlive
    refine ⟨l1, l2, o1, o, o2, hn, hl, fun hpos => absurd hpos hid, fun _ => ⟨e1, e2, ?_⟩⟩
    unfold remove_reservation
    rw [if_neg hid, he]
    rfl

set_option maxRecDepth 100000 in
/-- C22, witness: the removal of the live id 1, the second entry of the left lists `[2, 1]`
and `[192, 128]`. -/
theorem remove_reservation_frame_witness :
    (lengths_agree example_mid ∧ live example_mid 1)
    ∧ example_mid.m_allocated_id_left = [2, 1]
    ∧ example_mid.m_allocated_offset_left = [192, 128]
    ∧ (example_mid.remove_reservation 1).map
        (fun r => (r.m_allocated_id_left, r.m_allocated_offset_left)) = some ([2], [192])
    ∧ ∃ (l1 l2 o1 : List Int) (o : Int) (o2 : List Int), (1 : Int) ∉ l1
      ∧ o1.length = l1.length
      ∧ ((1 : Int) ≥ 0 →
          example_mid.m_allocated_id_left = l1 ++ 1 :: l2
          ∧ example_mid.m_allocated_offset_left = o1 ++ o :: o2
          ∧ remove_reservation example_mid 1 = some { example_mid with
              m_allocated_id_left := l1 ++ l2
              m_allocated_offset_left := o1 ++ o2 }) :=
  ⟨by decide, by decide, by decide, by decide,
   (remove_reservation_frame example_mid 1 (by decide) (by decide)).imp
    (fun _ h1 => h1.imp (fun _ h2 => h2.imp (fun _ h3 => h3.imp (fun _ h4 => h4.imp
      (fun _ h5 => ⟨h5.1, h5.2.1, h5.2.2.1⟩)))))⟩

/-- C23: the id returned by a reservation of non-negative size on an object reached from a
fresh memory manager resolves, on every object reached by later calls with non-negative sizes,
to the aligned base plus an offset that is a multiple of the cache-line alignment, for a
positive and for a negative id. Hence the resolved address is a multiple of the cache-line
alignment when the aligned base is; and after `alloc_all_memory` with a positive required
memory and a positive page alignment that is a multiple of the cache-line alignment, the
aligned base is a multiple of the page alignment and the resolved address a multiple of the
cache-line alignment. -/
theorem resolved_offset_aligned (mm0 : MemoryManager) (ops1 : List mem_op)
    (mm mm1 st : MemoryManager) (s id : Int) (ops2 : List mem_op) (l_data : Nat)
    (h1 : reached_by mm0 ops1 mm) (hs : 0 ≤ s) (hres : reserve_memory mm s = some (id, mm1))
    (hsz2 : sizes_nonneg ops2) (h2 : final_state mm1 ops2 = some st) :
    ∃ off, get_mem_ptr st id = some (st.m_aligned_memory_ptr + off)
      ∧ st.m_alignement_line ∣ off
      ∧ (st.m_alignement_line ∣ st.m_aligned_memory_ptr →
          st.m_alignement_line ∣ st.m_aligned_memory_ptr + off)
      ∧ (0 < st.m_req_mem → 0 < st.m_alignement_page →
          st.m_alignement_line ∣ st.m_alignement_page →
          get_mem_ptr (alloc_all_memory st l_data) id
              = some ((alloc_all_memory st l_data).m_aligned_memory_ptr + off)
            ∧ st.m_alignement_page ∣ (alloc_all_memory st l_data).m_aligned_memory_ptr
            ∧ st.m_alignement_line ∣ (alloc_all_memory st l_data).m_aligned_memory_ptr + off)
    := by
  obtain ⟨start, _, ⟨_, _, hdvd⟩, hmem, hsign, hpos, hneg⟩ :=
    reservation_later mm mm1 st s id ops2 (invariants_of_reached mm0 mm ops1 h1) hs hres hsz2 h2
  have hst : st.m_alignement_line ∣ start := hdvd.1 start hmem
  have hrq : st.m_alignement_line ∣ st.m_req_mem := hdvd.2.2.2
  by_cases hid : id ≥ 0
  · have hv := (hpos (by omega)).1
    refine ⟨start, ?_, hst, fun hb => dvd_add hb hst, ?_⟩
    · unfold get_mem_ptr
      rw [if_pos hid, hv]
      rfl
    · intro hreq hp hlp
      obtain ⟨ha, ht, _⟩ := alloc_all_memory_aligned st l_data hp hreq
      refine ⟨?_, ha, dvd_add (dvd_trans hlp ha) hst⟩
      unfold get_mem_ptr
      rw [if_pos hid, ht, hv]
      rfl
  · have hv := (hneg (by omega)).1
    refine ⟨st.m_req_mem + start, ?_, dvd_add hrq hst,
      fun hb => dvd_add hb (dvd_add hrq hst), ?_⟩
    · unfold get_mem_ptr
      rw [if_neg hid, hv]
      simp only [Option.map_some', add_assoc]
    · intro hreq hp hlp
      obtain ⟨ha, ht, hr⟩ := alloc_all_memory_aligned st l_data hp hreq
      refine ⟨?_, ha, dvd_add (dvd_trans hlp ha) (dvd_add hrq hst)⟩
      unfold get_mem_ptr
      rw [if_neg hid, ht, hr, hv]
      simp only [Option.map_some', add_assoc]

set_option maxRecDepth 100000 in
/-- C23, witness: the id -4 of the reservation of 10 bytes on `example_mid`, resolved after
three later calls and the allocation at the address 1000: the aligned base is 4096 and the
address 4096 + 320 - 128. -/
theorem resolved_offset_aligned_witness :
    (reached_by example_manager (example_ops.take 4) example_mid ∧ (0 : Int) ≤ 10
      ∧ reserve_memory example_mid 10 = some (example_reserved.1, example_reserved.2)
      ∧ sizes_nonneg example_later_ops
      ∧ final_state example_reserved.2 example_later_ops = some example_later)
    ∧ example_reserved.1 = -4
    ∧ get_mem_ptr (alloc_all_memory example_later 1000) example_reserved.1 = some 4288
    ∧ ∃ off, get_mem_ptr example_later example_reserved.1
          = some (example_later.m_aligned_memory_ptr + off)
      ∧ example_later.m_alignement_line ∣ off :=
  ⟨by decide, by decide, by decide,
   (resolved_offset_aligned example_manager (example_ops.take 4) example_mid example_reserved.2
      example_later 10 example_reserved.1 example_later_ops 1000 (by decide) (by decide)
      (by decide) (by decide) (by decide)).imp (fun _ h => ⟨h.1, h.2.1⟩)⟩

/-- The blocks of the reservations with exact integers: the id returned by a reservation of
non-negative size on an object reached from a fresh memory manager resolves, on every object
reached by later calls with non-negative sizes, for a positive id to the aligned base plus its
recorded start offset and for a negative id to the aligned base plus the required memory plus
its recorded start offset, which is negative or 0; in both cases the resolved offset is at
least 0 and the resolved offset plus the rounded size is at most the required memory at that
time. -/
theorem resolved_block_in_arena_exact (mm0 : MemoryManager) (ops1 : List mem_op)
    (mm mm1 st : MemoryManager) (s id : Int) (ops2 : List mem_op)
    (h1 : reached_by mm0 ops1 mm) (hs : 0 ≤ s) (hres : reserve_memory mm s = some (id, mm1))
    (hsz2 : sizes_nonneg ops2) (h2 : final_state mm1 ops2 = some st) :
    ∃ start, mm1.m_tensor_offset.getLast? = some start
      ∧ (0 < id ∨ id < 0)
      ∧ (0 < id →
          get_mem_ptr st id = some (st.m_aligned_memory_ptr + start)
          ∧ 0 ≤ start
          ∧ start + aligned_size mm.m_alignement_line s ≤ st.m_req_mem)
      ∧ (id < 0 →
          get_mem_ptr st id = some (st.m_aligned_memory_ptr + st.m_req_mem + start)
          ∧ start ≤ 0
          ∧ 0 ≤ st.m_req_mem + start
          ∧ st.m_req_mem + start + aligned_size mm.m_alignement_line s ≤ st.m_req_mem) := by
  have hinv := invariants_of_reached mm0 mm ops1 h1
  obtain ⟨start, hlast, _, _, hsign, hpos, hneg⟩ :=
    reservation_later mm mm1 st s id ops2 hinv hs hres hsz2 h2
  have hsz : 0 ≤ aligned_size mm.m_alignement_line s := by
    rw [aligned_size_eq _ _ hinv.1.1 hs]
    split
    · exact hs
    · have := Int.mul_nonneg (le_of_lt hinv.1.1) (Int.ediv_nonneg hs (le_of_lt hinv.1.1))
      have := hinv.1.1
      omega
  refine ⟨start, hlast, hsign, ?_, ?_⟩
  · intro hp
    obtain ⟨hv, h0, hle⟩ := hpos hp
    refine ⟨?_, h0, hle⟩
    unfold get_mem_ptr
    rw [if_pos (by omega), hv]
    rfl
  · intro hn
    obtain ⟨hv, h0, hle⟩ := hneg hn
    refine ⟨?_, by omega, h0, by omega⟩
    unfold get_mem_ptr
    rw [if_neg (by omega), hv]
    rfl

set_option maxRecDepth 100000 in
/-- C24, counterexample: on a fresh memory manager with cache lines of 64 bytes, a reservation
of `2^63 - 1` bytes on layer 0. `reserve_memory` returns the id 1 and records the start offset
0; the rounded size overflows to `-2^63`, the memory in use is computed as `-2^63` and the
required memory stays 0. `get_mem_ptr` resolves the id to the aligned base plus 0, and the
block of `2^63 - 1` bytes from there does not end inside the required memory. -/
theorem resolved_block_overflow :
    (is_fresh example_manager ∧ 0 < example_manager.m_alignement_line
      ∧ (0 : Int) ≤ 9223372036854775807)
    ∧ (reserve_memory_int64 example_manager 9223372036854775807).map (fun r => r.1) = some 1
    ∧ (reserve_memory_int64 example_manager 9223372036854775807).map
        (fun r => r.2.m_tensor_offset) = some [0]
    ∧ (reserve_memory_int64 example_manager 9223372036854775807).map
        (fun r => r.2.m_req_mem) = some 0
    ∧ (reserve_memory_int64 example_manager 9223372036854775807).bind
        (fun r => (get_mem_ptr r.2 r.1).map (fun p => p - r.2.m_aligned_memory_ptr)) = some 0
    ∧ ¬ ((0 : Int) + 9223372036854775807 ≤ 0)
    ∧ ¬ ((0 : Int) + aligned_size example_manager.m_alignement_line 9223372036854775807 ≤ 0) := by
  decide

/-- C24, amended: take a run of calls on a fresh memory manager, with the arithmetic of
`int64_t`, in which the id counter, the layer id, the new front offsets and the memory in use
stay representable as `int64_t`. The id returned by a reservation of non-negative
size of the run resolves, on every object reached by the later calls with non-negative sizes,
for a positive id to the aligned base plus its recorded start offset and for a negative id to
the aligned base plus the required memory plus its recorded start offset, which is negative or
0; in both cases the block is inside the arena: the resolved offset is at least 0 and the
resolved offset plus the rounded size is at most the required memory at that time. -/
theorem resolved_block_in_arena (mm0 : MemoryManager) (ops1 : List mem_op)
    (mm mm1 st : MemoryManager) (s id : Int) (ops2 : List mem_op)
    (hf : is_fresh mm0) (hal : 0 < mm0.m_alignement_line) (hsz1 : sizes_nonneg ops1)
    (h1 : final_state_int64 mm0 ops1 = some mm) (hs : 0 ≤ s)
    (hres : reserve_memory_int64 mm s = some (id, mm1))
    (hsz2 : sizes_nonneg ops2) (h2 : final_state_int64 mm1 ops2 = some st)
    (hex : ops_exact mm0 (ops1 ++ mem_op.reserve s :: ops2)) :
    ∃ start, mm1.m_tensor_offset.getLast? = some start
      ∧ (0 < id ∨ id < 0)
      ∧ (0 < id →
          get_mem_ptr st id = some (st.m_aligned_memory_ptr + start)
          ∧ 0 ≤ start
          ∧ start + aligned_size mm.m_alignement_line s ≤ st.m_req_mem)
      ∧ (id < 0 →
          get_mem_ptr st id = some (st.m_aligned_memory_ptr + st.m_req_mem + start)
          ∧ start ≤ 0
          ∧ 0 ≤ st.m_req_mem + start
          ∧ st.m_req_mem + start + aligned_size mm.m_alignement_line s ≤ st.m_req_mem) := by
  obtain ⟨hex1, hrest⟩ := ops_exact_append ops1 mm0 (mem_op.reserve s :: ops2) hex
  obtain ⟨hexr, hex2⟩ := ops_exact_cons mm (mem_op.reserve s) ops2 (hrest mm h1)
  have hap : apply_op_int64 mm (mem_op.reserve s) = some mm1 := by
    show (mm.reserve_memory_int64 s).map (fun r => r.2) = some mm1
    rw [hres]
    rfl
  rw [final_state_int64_eq ops1 mm0 hex1] at h1
  rw [final_state_int64_eq ops2 mm1 (hex2 mm1 hap)] at h2
  rw [reserve_memory_int64_eq mm s hexr] at hres
  exact resolved_block_in_arena_exact mm0 ops1 mm mm1 st s id ops2 ⟨hf, hal, hsz1, h1⟩ hs hres
    hsz2 h2

set_option maxRecDepth 100000 in
/-- C24, witness: the block of the id -4, of 64 bytes, starts at -128 and resolves in the
later object, whose required memory is 320, to the offset 192. -/
theorem resolved_block_in_arena_witness :
    (is_fresh example_manager ∧ 0 < example_manager.m_alignement_line
      ∧ sizes_nonneg (example_ops.take 4)
      ∧ final_state_int64 example_manager (example_ops.take 4) = some example_mid
      ∧ (0 : Int) ≤ 10
      ∧ reserve_memory_int64 example_mid 10 = some (example_reserved.1, example_reserved.2)
      ∧ sizes_nonneg example_later_ops
      ∧ final_state_int64 example_reserved.2 example_later_ops = some example_later
      ∧ ops_exact example_manager
          (example_ops.take 4 ++ mem_op.reserve 10 :: example_later_ops))
    ∧ example_later.m_req_mem = 320
    ∧ get_mem_ptr example_later example_reserved.1 = some 192
    ∧ ∃ start, example_reserved.2.m_tensor_offset.getLast? = some start
      ∧ (example_reserved.1 < 0 →
          get_mem_ptr example_later example_reserved.1
            = some (example_later.m_aligned_memory_ptr + example_later.m_req_mem + start)
          ∧ start ≤ 0
          ∧ 0 ≤ example_later.m_req_mem + start
          ∧ example_later.m_req_mem + start + aligned_size example_mid.m_alignement_line 10
              ≤ example_later.m_req_mem) :=
  ⟨by decide, by decide, by decide,
   (resolved_block_in_arena example_manager (example_ops.take 4) example_mid example_reserved.2
      example_later 10 example_reserved.1 example_later_ops (by decide) (by decide)
      (by decide) (by decide) (by decide) (by decide) (by decide) (by decide)
      (by decide)).imp (fun _ h => ⟨h.1, h.2.2.2⟩)⟩

/-- C36: on an object with an alignment other than 0, id and offset lists of equal length and
a non-negative id counter, `reserve_memory` of any size on any layer followed by
`remove_reservation` of the returned id is defined and leaves the four allocation lists as
they were before the reservation; the object after the two calls differs from the object
before only in the id counter, which is one higher, in the recorded block offsets, which have
one more entry, and in the required memory, which is not lower. -/
theorem reserve_then_remove (mm : MemoryManager) (s : Int) (hal : mm.m_alignement_line ≠ 0)
    (hlen : lengths_agree mm) (hid : 0 ≤ mm.m_last_id) :
    ∃ (id : Int) (mm1 mm2 : MemoryManager), reserve_memory mm s = some (id, mm1)
      ∧ remove_reservation mm1 id = some mm2
      ∧ mm2.m_allocated_id_left = mm.m_allocated_id_left
      ∧ mm2.m_allocated_offset_left = mm.m_allocated_offset_left
      ∧ mm2.m_allocated_id_right = mm.m_allocated_id_right
      ∧ mm2.m_allocated_offset_right = mm.m_allocated_offset_right
      ∧ mm2 = { mm with
          m_last_id := mm.m_last_id + 1
          m_tensor_offset := mm1.m_tensor_offset
          m_req_mem := mm1.m_req_mem }
      ∧ mm1.m_tensor_offset.length = mm.m_tensor_offset.length + 1
      ∧ mm.m_req_mem ≤ mm1.m_req_mem := by
  by_cases hpar : mm.m_layer_id.tmod 2 = 0
  · refine ⟨_, _,
      { mm with
        m_last_id := mm.m_last_id + 1
        m_tensor_offset := mm.m_tensor_offset ++ [front_offset mm.m_allocated_offset_left]
        m_req_mem := max mm.m_req_mem
          (front_offset mm.m_allocated_offset_left + aligned_size mm.m_alignement_line s
            - front_offset mm.m_allocated_offset_right) },
      reserve_memory_even mm s hal hlen hpar, ?_, rfl, rfl, rfl, rfl, rfl, ?_,
      le_max_left _ _⟩
    · unfold remove_reservation erase_reservation
      have hpos : mm.m_last_id + 1 ≥ 0 := by omega
      simp only [hpos, if_true, List.indexOf_cons_self, List.length_cons, Nat.zero_lt_succ,
        and_self, List.eraseIdx_cons_zero, Option.map_some']
    · simp
  · refine ⟨_, _,
      { mm with
        m_last_id := mm.m_last_id + 1
        m_tensor_offset := mm.m_tensor_offset
          ++ [front_offset mm.m_allocated_offset_right - aligned_size mm.m_alignement_line s]
        m_req_mem := max mm.m_req_mem
          (front_offset mm.m_allocated_offset_left
            - (front_offset mm.m_allocated_offset_right
                - aligned_size mm.m_alignement_line s)) },
      reserve_memory_odd mm s hal hlen hpar, ?_, rfl, rfl, rfl, rfl, rfl, ?_,
      le_max_left _ _⟩
    · unfold remove_reservation erase_reservation
      have hneg : ¬ (-(mm.m_last_id + 1) ≥ 0) := by omega
      simp only [hneg, if_false, if_true, List.indexOf_cons_self, List.length_cons, Nat.zero_lt_succ,
        and_self, List.eraseIdx_cons_zero, Option.map_some']
    · simp

set_option maxRecDepth 100000 in
/-- C36, witness: a reservation of 10 bytes on `example_mid`, on layer 1, and the removal of
the returned id -4 leave the right lists `[-3]` and `[-64]` and the left lists `[2, 1]` and
`[192, 128]`. -/
theorem reserve_then_remove_witness :
    (example_mid.m_alignement_line ≠ 0 ∧ lengths_agree example_mid
      ∧ 0 ≤ example_mid.m_last_id)
    ∧ example_mid.m_allocated_id_right = [-3]
    ∧ ((example_mid.reserve_memory 10).bind (fun r => r.2.remove_reservation r.1)).map
        (fun m => (m.m_allocated_id_left, m.m_allocated_offset_left, m.m_allocated_id_right,
          m.m_allocated_offset_right)) = some ([2, 1], [192, 128], [-3], [-64])
    ∧ ∃ (id : Int) (mm1 mm2 : MemoryManager), reserve_memory example_mid 10 = some (id, mm1)
      ∧ remove_reservation mm1 id = some mm2
      ∧ mm2.m_allocated_id_left = example_mid.m_allocated_id_left
      ∧ mm2.m_allocated_offset_left = example_mid.m_allocated_offset_left
      ∧ mm2.m_allocated_id_right = example_mid.m_allocated_id_right
      ∧ mm2.m_allocated_offset_right = example_mid.m_allocated_offset_right :=
  ⟨by decide, by decide, by decide,
   (reserve_then_remove example_mid 10 (by decide) (by decide) (by decide)).imp
    (fun _ h1 => h1.imp (fun _ h2 => h2.imp (fun _ h3 =>
      ⟨h3.1, h3.2.1, h3.2.2.1, h3.2.2.2.1, h3.2.2.2.2.1, h3.2.2.2.2.2.1⟩)))⟩

/-- C31: for every address `l_data` of the allocated array and every positive page alignment
`A`, `alloc_all_memory` with a positive required memory stores `l_data` as the memory pointer
and sets the aligned pointer to the smallest multiple of `A` that is at least `l_data`: it is
a multiple of `A`, lies in `[l_data, l_data + A)`, is at most every multiple of `A` that is at
least `l_data`, and the range of the required memory from the aligned pointer ends inside the
array of `m_req_mem + A` bytes; the other members are unchanged. With a required memory of 0
(or less) the object is unchanged: nothing is allocated. -/
theorem alloc_all_memory_base (mm : MemoryManager) (l_data : Nat)
    (hA : 0 < mm.m_alignement_page) :
    (0 < mm.m_req_mem →
      (alloc_all_memory mm l_data).m_memory_ptr = l_data
      ∧ mm.m_alignement_page ∣ (alloc_all_memory mm l_data).m_aligned_memory_ptr
      ∧ (l_data : Int) ≤ (alloc_all_memory mm l_data).m_aligned_memory_ptr
      ∧ (alloc_all_memory mm l_data).m_aligned_memory_ptr < l_data + mm.m_alignement_page
      ∧ (∀ m : Int, mm.m_alignement_page ∣ m → (l_data : Int) ≤ m →
          (alloc_all_memory mm l_data).m_aligned_memory_ptr ≤ m)
      ∧ (alloc_all_memory mm l_data).m_aligned_memory_ptr + mm.m_req_mem
          ≤ l_data + (mm.m_req_mem + mm.m_alignement_page)
      ∧ alloc_all_memory mm l_data = { mm with
          m_memory_ptr := l_data
          m_aligned_memory_ptr := (alloc_all_memory mm l_data).m_aligned_memory_ptr })
    ∧ (mm.m_req_mem ≤ 0 → alloc_all_memory mm l_data = mm) := by
  refine ⟨?_, ?_⟩
  · intro hreq
    have hmod0 : 0 ≤ (l_data : Int) % mm.m_alignement_page :=
      Int.emod_nonneg _ (ne_of_gt hA)
    have hmodlt : (l_data : Int) % mm.m_alignement_page < mm.m_alignement_page :=
      Int.emod_lt_of_pos _ hA
    have hbase : (alloc_all_memory mm l_data).m_aligned_memory_ptr
        = if (l_data : Int) % mm.m_alignement_page ≠ 0 then
            (l_data : Int) + (mm.m_alignement_page - (l_data : Int) % mm.m_alignement_page)
          else l_data := by
      unfold alloc_all_memory
      rw [if_pos hreq]
    have hdvd := (alloc_all_memory_aligned mm l_data hA hreq).1
    have hge : (l_data : Int) ≤ (alloc_all_memory mm l_data).m_aligned_memory_ptr := by
      rw [hbase]
      split <;> omega
    have hlt : (alloc_all_memory mm l_data).m_aligned_memory_ptr
        < l_data + mm.m_alignement_page := by
      rw [hbase]
      split
      · rename_i hne
        omega
      · omega
    refine ⟨?_, hdvd, hge, hlt, ?_, by omega, ?_⟩
    · unfold alloc_all_memory
      rw [if_pos hreq]
    · intro m hm hbm
      obtain ⟨q, hq⟩ := hm
      obtain ⟨p, hp⟩ := hdvd
      rw [hp] at hlt ⊢
      rw [hq] at hbm ⊢
      have h1 : mm.m_alignement_page * (p - 1) < mm.m_alignement_page * q := by
        have : mm.m_alignement_page * (p - 1)
            = mm.m_alignement_page * p - mm.m_alignement_page := by ring
        rw [this]
        omega
      have h2 : p - 1 < q := lt_of_mul_lt_mul_left h1 (le_of_lt hA)
      exact Int.mul_le_mul_of_nonneg_left (by omega) (le_of_lt hA)
    · unfold alloc_all_memory
      rw [if_pos hreq]
  · intro hreq
    unfold alloc_all_memory
    rw [if_neg (by omega)]

set_option maxRecDepth 100000 in
/-- C31, witness: with pages of 4096 bytes and a required memory of 320 bytes the array at the
address 1000 gives the aligned pointer 4096, and an array at the address 8192 the aligned
pointer 8192. -/
theorem alloc_all_memory_base_witness :
    (0 : Int) < example_later.m_alignement_page
    ∧ (alloc_all_memory example_later 1000).m_aligned_memory_ptr = 4096
    ∧ (alloc_all_memory example_later 8192).m_aligned_memory_ptr = 8192
    ∧ (0 < example_later.m_req_mem →
        (alloc_all_memory example_later 1000).m_memory_ptr = ((1000 : Nat) : Int)
        ∧ example_later.m_alignement_page
            ∣ (alloc_all_memory example_later 1000).m_aligned_memory_ptr
        ∧ (((1000 : Nat) : Int)) ≤ (alloc_all_memory example_later 1000).m_aligned_memory_ptr
        ∧ (alloc_all_memory example_later 1000).m_aligned_memory_ptr
            < ((1000 : Nat) : Int) + example_later.m_alignement_page) :=
  ⟨by decide, by decide, by decide,
   fun h => ⟨((alloc_all_memory_base example_later 1000 (by decide)).1 h).1,
     ((alloc_all_memory_base example_later 1000 (by decide)).1 h).2.1,
     ((alloc_all_memory_base example_later 1000 (by decide)).1 h).2.2.1,
     ((alloc_all_memory_base example_later 1000 (by decide)).1 h).2.2.2.1⟩⟩

/-- C38: on an object reached from a fresh memory manager (alignment other than 0) by calls
of which `n - 1` are reservations, `reserve_memory` is defined and returns `n` on an even
layer and `-n` on an odd layer; the id is not 0 and has the absolute value `n`, and the
recorded block offsets then have `n` entries. On every object reached by later calls, removals
included, the recorded block offsets have one entry per reservation made so far, `get_mem_ptr`
of the id is defined, its index `|id| - 1` being in bounds, and the id of a further
reservation has another absolute value. -/
theorem reserve_ids (mm0 : MemoryManager) (ops : List mem_op) (mm : MemoryManager) (s : Int)
    (hf : is_fresh mm0) (hal : mm0.m_alignement_line ≠ 0)
    (h : final_state mm0 ops = some mm) :
    ∃ (id : Int) (mm1 : MemoryManager), reserve_memory mm s = some (id, mm1)
      ∧ (mm.m_layer_id.tmod 2 = 0 → id = (num_reserves ops : Int) + 1)
      ∧ (mm.m_layer_id.tmod 2 ≠ 0 → id = -((num_reserves ops : Int) + 1))
      ∧ id ≠ 0
      ∧ id.natAbs = num_reserves ops + 1
      ∧ mm1.m_tensor_offset.length = num_reserves ops + 1
      ∧ ∀ (ops2 : List mem_op) (st : MemoryManager), final_state mm1 ops2 = some st →
          st.m_tensor_offset.length = num_reserves ops + 1 + num_reserves ops2
          ∧ id.natAbs - 1 < st.m_tensor_offset.length
          ∧ (∃ p, get_mem_ptr st id = some p)
          ∧ ∀ (s2 id2 : Int) (st2 : MemoryManager),
              reserve_memory st s2 = some (id2, st2) →
              id2.natAbs = num_reserves ops + 1 + num_reserves ops2 + 1
              ∧ id2.natAbs ≠ id.natAbs := by
  obtain ⟨hP, hc, _⟩ := final_state_counters ops mm0 mm (counters_of_fresh mm0 hf hal) h
  have hid0 : mm0.m_last_id = 0 := hf.2.2.1
  rw [hid0, Int.zero_add] at hc
  obtain ⟨halm, hlen, _, hl⟩ := hP
  have hsome : ∃ (id : Int) (mm1 : MemoryManager), reserve_memory mm s = some (id, mm1) := by
    by_cases hpar : mm.m_layer_id.tmod 2 = 0
    · exact ⟨_, _, reserve_memory_even mm s halm hlen hpar⟩
    · exact ⟨_, _, reserve_memory_odd mm s halm hlen hpar⟩
  obtain ⟨id, mm1, hres⟩ := hsome
  have hap : apply_op mm (mem_op.reserve s) = some mm1 := by
    simp only [apply_op, hres, Option.map_some']
  obtain ⟨hP1, hc1, _⟩ := apply_op_counters mm (mem_op.reserve s) mm1
    ⟨halm, hlen, by omega, hl⟩ hap
  have hn1 : mm1.m_last_id = (num_reserves ops : Int) + 1 := by
    rw [hc1, hc]
    simp [num_reserves]
  have hidv : (mm.m_layer_id.tmod 2 = 0 ∧ id = (num_reserves ops : Int) + 1)
      ∨ (mm.m_layer_id.tmod 2 ≠ 0 ∧ id = -((num_reserves ops : Int) + 1)) := by
    rcases reserve_memory_cases mm mm1 s id halm hlen hres with ⟨hp, hi, _⟩ | ⟨hp, hi, _⟩
    · exact Or.inl ⟨hp, by rw [hi, hc]⟩
    · exact Or.inr ⟨hp, by rw [hi, hc]⟩
  have habs : id.natAbs = num_reserves ops + 1 := by
    rcases hidv with ⟨_, hi⟩ | ⟨_, hi⟩ <;> omega
  refine ⟨id, mm1, hres, ?_, ?_, by omega, habs, ?_, ?_⟩
  · intro hp
    rcases hidv with ⟨_, hi⟩ | ⟨hn, _⟩
    · exact hi
    · exact absurd hp hn
  · intro hp
    rcases hidv with ⟨he, _⟩ | ⟨_, hi⟩
    · exact absurd he hp
    · exact hi
  · have := hP1.2.2.2
    omega
  · intro ops2 st h2
    obtain ⟨hP2, hc2, _⟩ := final_state_counters ops2 mm1 st hP1 h2
    have hlen2 : st.m_tensor_offset.length = num_reserves ops + 1 + num_reserves ops2 := by
      have := hP2.2.2.2
      omega
    refine ⟨hlen2, by omega, ?_, ?_⟩
    · unfold get_mem_ptr
      by_cases hge : id ≥ 0
      · rw [if_pos hge]
        obtain ⟨x, hx, _⟩ := vector_at_of_lt st.m_tensor_offset (id - 1) (by omega) (by omega)
        rw [hx]
        exact ⟨_, rfl⟩
      · rw [if_neg hge]
        obtain ⟨x, hx, _⟩ := vector_at_of_lt st.m_tensor_offset (-id - 1) (by omega) (by omega)
        rw [hx]
        exact ⟨_, rfl⟩
    · intro s2 id2 st2 hres2
      have h2abs : id2.natAbs = num_reserves ops + 1 + num_reserves ops2 + 1 := by
        rcases reserve_memory_cases st st2 s2 id2 hP2.1 hP2.2.1 hres2 with
          ⟨_, hi, _⟩ | ⟨_, hi, _⟩ <;> omega
      exact ⟨h2abs, by omega⟩

set_option maxRecDepth 100000 in
/-- C38, witness: on `example_mid`, reached by three reservations and one layer change, the
fourth reservation, on layer 1, returns the id -4. -/
theorem reserve_ids_witness :
    (is_fresh example_manager ∧ example_manager.m_alignement_line ≠ 0
      ∧ final_state example_manager (example_ops.take 4) = some example_mid)
    ∧ num_reserves (example_ops.take 4) = 3
    ∧ (example_mid.reserve_memory 10).map (fun r => r.1) = some (-4)
    ∧ ∃ (id : Int) (mm1 : MemoryManager), reserve_memory example_mid 10 = some (id, mm1)
      ∧ (example_mid.m_layer_id.tmod 2 ≠ 0
          → id = -((num_reserves (example_ops.take 4) : Int) + 1))
      ∧ id ≠ 0 :=
  ⟨by decide, by decide, by decide,
   (reserve_ids example_manager (example_ops.take 4) example_mid 10 (by decide) (by decide)
      (by decide)).imp (fun _ h1 => h1.imp (fun _ h2 => ⟨h2.1, h2.2.2.1, h2.2.2.2.1⟩))⟩

end MemoryManager

namespace BinaryContractionTpp

variable {δ ε β : Type}

/-! ## Lowering of the dimensions to loops -/

theorem lower_loops_spec (x : Collaborators δ ε β) (bc : BinaryContractionTpp δ β)
    (ids : List Int) :
    ∀ (types : List (Int × dim_t)) (loops : List (binary.iter_property ε))
      (types1 : List (Int × dim_t)), lower_loops x bc types ids = some (loops, types1) →
      loops.map (fun l => (l.stride_left, l.stride_right, l.stride_out_aux, l.stride_out))
        = ids.map (fun d => (map_find_default (l_strides_left x bc) d 0,
            map_find_default (l_strides_right x bc) d 0,
            map_find_default (l_strides_out_aux x bc) d 0,
            map_find_default (l_strides_out x bc) d 0)) := by
  induction ids with
  | nil =>
    intro types loops types1 h
    simp only [lower_loops, Option.some.injEq, Prod.mk.injEq] at h
    rw [← h.1]
    rfl
  | cons d ds ih =>
    intro types loops types1 h
    simp only [lower_loops] at h
    cases hl : lower_loop x bc types d with
    | none => rw [hl] at h; cases h
    | some l =>
      rw [hl] at h
      cases hr : lower_loops x bc (dim_types_read x types d) ds with
      | none => rw [hr] at h; cases h
      | some r =>
        obtain ⟨ls, t2⟩ := r
        rw [hr] at h
        simp only [Option.some.injEq, Prod.mk.injEq] at h
        rw [← h.1, List.map_cons, List.map_cons, ih _ _ _ hr]
        unfold lower_loop at hl
        cases hsz : bc.m_dim_sizes_inner.lookup d with
        | none => rw [hsz] at hl; cases hl
        | some sz =>
          rw [hsz] at hl
          simp only [Option.map_some', Option.some.injEq] at hl
          rw [← hl]

/-- The map of `strides` has no entry for an id that is not in the id list. -/
theorem strides_lookup_none (ids : List Int) (sizes : List (Int × Int)) (d : Int)
    (h : d ∉ ids) : (strides ids sizes).lookup d = none := by
  induction ids with
  | nil => rfl
  | cons a as ih =>
    have hne : d ≠ a := fun e => h (e ▸ List.mem_cons_self _ _)
    have hns : d ∉ as := fun m => h (List.mem_cons_of_mem _ m)
    unfold strides
    rw [List.lookup_cons]
    have hb : (d == a) = false := by simpa using hne
    rw [hb]
    exact ih hns

/-! ## Claims on the TPP binary contraction -/

/-- C25: when the base compile does not return SUCCESS, `BinaryContractionTpp::compile`
returns its code and leaves the object as the base compile left it, whatever the other
collaborators are: the backend is neither initialised nor compiled. When the base compile
returns SUCCESS and the lowering is defined, `compile` returns the code of the compile of the
backend, which was initialised with the optimized loops. It returns SUCCESS only when the base
compile and the compile of the backend both return SUCCESS. -/
theorem compile_error_propagation (x : Collaborators δ ε β) (bc : BinaryContractionTpp δ β) :
    ((x.compile_base bc).1 ≠ err_t.SUCCESS →
        compile x bc = some (x.compile_base bc)
        ∧ ∀ x1 : Collaborators δ ε β, x1.compile_base = x.compile_base →
            compile x1 bc = compile x bc)
    ∧ ((x.compile_base bc).1 = err_t.SUCCESS →
        ∀ (loops : List (binary.iter_property ε)) (types : List (Int × dim_t)),
          lowered x (x.compile_base bc).2 = some (loops, types) →
          ∃ bc1, compile x bc
              = some ((x.backend_compile (backend_input x (x.compile_base bc).2 loops)).1, bc1)
            ∧ bc1.m_backend
              = (x.backend_compile (backend_input x (x.compile_base bc).2 loops)).2)
    ∧ (∀ bc1, compile x bc = some (err_t.SUCCESS, bc1) →
        (x.compile_base bc).1 = err_t.SUCCESS
        ∧ ∃ (loops : List (binary.iter_property ε)) (types : List (Int × dim_t)),
            lowered x (x.compile_base bc).2 = some (loops, types)
            ∧ (x.backend_compile (backend_input x (x.compile_base bc).2 loops)).1
                = err_t.SUCCESS) := by
  refine ⟨?_, ?_, ?_⟩
  · intro hb
    refine ⟨?_, ?_⟩
    · unfold compile
      simp only [if_pos hb]
    · intro x1 hx
      unfold compile
      rw [hx]
      simp only [if_pos hb]
  · intro hb loops types hl
    unfold compile
    simp only [hb, ne_eq, not_true_eq_false, if_false, hl, Option.map_some']
    unfold compile_backend
    by_cases hc : (x.backend_compile (backend_input x (x.compile_base bc).2 loops)).1
        = err_t.SUCCESS
    · simp only [hc, ne_eq, not_true_eq_false, if_false]
      exact ⟨_, rfl, rfl⟩
    · simp only [ne_eq, hc, not_false_eq_true, if_true]
      exact ⟨_, rfl, rfl⟩
  · intro bc1 h
    by_cases hb : (x.compile_base bc).1 = err_t.SUCCESS
    · refine ⟨hb, ?_⟩
      unfold compile at h
      simp only [hb, ne_eq, not_true_eq_false, if_false] at h
      cases hl : lowered x (x.compile_base bc).2 with
      | none => rw [hl] at h; cases h
      | some r =>
        obtain ⟨loops, types⟩ := r
        rw [hl] at h
        refine ⟨loops, types, rfl, ?_⟩
        simp only [Option.map_some', Option.some.injEq] at h
        unfold compile_backend at h
        by_cases hc : (x.backend_compile (backend_input x (x.compile_base bc).2 loops)).1
            = err_t.SUCCESS
        · exact hc
        · simp only [ne_eq, hc, not_false_eq_true, if_true, Prod.mk.injEq] at h
          exact h.1.elim
    · exfalso
      unfold compile at h
      simp only [ne_eq, hb, not_false_eq_true, if_true, Option.some.injEq] at h
      exact hb (by rw [h])

/-- C25, witness: the contraction with a repeated output id returns the code INVALID_DIM of
the base compile and keeps its empty backend; the contraction of the test returns SUCCESS and
its backend holds the three loops. -/
theorem compile_error_propagation_witness :
    (compile example_collaborators invalid_contraction).map (fun r => (r.1, r.2.m_backend))
      = some (err_t.INVALID_DIM, [])
    ∧ (compile example_collaborators bias_contraction).map
        (fun r => (r.1, r.2.m_backend.length)) = some (err_t.SUCCESS, 3)
    ∧ ((example_collaborators.compile_base invalid_contraction).1 ≠ err_t.SUCCESS →
        compile example_collaborators invalid_contraction
          = some (example_collaborators.compile_base invalid_contraction)
        ∧ ∀ x1 : Collaborators Unit Unit (List (binary.iter_property Unit)),
            x1.compile_base = example_collaborators.compile_base →
            compile x1 invalid_contraction
              = compile example_collaborators invalid_contraction) :=
  ⟨by decide, by decide,
   (compile_error_propagation example_collaborators invalid_contraction).1⟩

/-- C30: the loops that `BinaryContractionTpp::compile` lowers have, dimension by dimension
of the C, M, N and K ids, the entries of the four stride maps as strides, 0 for a missing
entry. Without outer sizes for the auxiliary tensor the map of the aux strides is the map of
the output strides, so every loop has its output stride as aux stride; with outer sizes it is
the map that `strides` derives from them over the dimension ids of the output. When `strides`
gives a map whose keys are among the ids it is given, a loop has stride 0 for the left tensor,
the right tensor, the output and the auxiliary tensor when its dimension is not among the ids
of that tensor, the ids of the output counting for the auxiliary tensor. -/
theorem lowered_strides (x : Collaborators δ ε β) (bc : BinaryContractionTpp δ β)
    (loops : List (binary.iter_property ε)) (types : List (Int × dim_t))
    (h : lowered x bc = some (loops, types)) :
    loops.map (fun l => (l.stride_left, l.stride_right, l.stride_out_aux, l.stride_out))
      = (l_all_dim_ids bc).map (fun d => (map_find_default (l_strides_left x bc) d 0,
          map_find_default (l_strides_right x bc) d 0,
          map_find_default (l_strides_out_aux x bc) d 0,
          map_find_default (l_strides_out x bc) d 0))
    ∧ (bc.m_dim_sizes_outer_out_aux = none →
        l_strides_out_aux x bc = l_strides_out x bc
        ∧ ∀ l ∈ loops, l.stride_out_aux = l.stride_out)
    ∧ (∀ l_sizes, bc.m_dim_sizes_outer_out_aux = some l_sizes →
        l_strides_out_aux x bc = x.strides bc.m_dim_ids_out l_sizes
        ∧ loops.map (fun l => l.stride_out_aux)
          = (l_all_dim_ids bc).map (fun d =>
              map_find_default (x.strides bc.m_dim_ids_out l_sizes) d 0))
    ∧ ((∀ (ids : List Int) (sizes : List (Int × Int)) (d : Int), d ∉ ids →
          (x.strides ids sizes).lookup d = none) →
        ∀ (i : Nat) (l : binary.iter_property ε) (d : Int), loops[i]? = some l →
          (l_all_dim_ids bc)[i]? = some d →
          (d ∉ bc.m_dim_ids_left → l.stride_left = 0)
          ∧ (d ∉ bc.m_dim_ids_right → l.stride_right = 0)
          ∧ (d ∉ bc.m_dim_ids_out → l.stride_out = 0 ∧ l.stride_out_aux = 0)) := by
  have hmap := lower_loops_spec x bc (l_all_dim_ids bc) bc.m_dim_types loops types h
  have hnone : bc.m_dim_sizes_outer_out_aux = none →
      l_strides_out_aux x bc = l_strides_out x bc := by
    intro hn
    unfold l_strides_out_aux
    rw [hn]
  have hsome : ∀ l_sizes, bc.m_dim_sizes_outer_out_aux = some l_sizes →
      l_strides_out_aux x bc = x.strides bc.m_dim_ids_out l_sizes := by
    intro l_sizes hs
    unfold l_strides_out_aux
    rw [hs]
  have hget : ∀ (i : Nat) (l : binary.iter_property ε) (d : Int), loops[i]? = some l →
      (l_all_dim_ids bc)[i]? = some d →
      (l.stride_left, l.stride_right, l.stride_out_aux, l.stride_out)
        = (map_find_default (l_strides_left x bc) d 0,
          map_find_default (l_strides_right x bc) d 0,
          map_find_default (l_strides_out_aux x bc) d 0,
          map_find_default (l_strides_out x bc) d 0) := by
    intro i l d hl hd
    have h1 := congrArg (fun (m : List (Int × Int × Int × Int)) => m[i]?) hmap
    simp only [List.getElem?_map, hl, hd, Option.map_some', Option.some.injEq] at h1
    exact h1
  refine ⟨hmap, ?_, ?_, ?_⟩
  · intro hn
    refine ⟨hnone hn, ?_⟩
    intro l hl
    obtain ⟨i, hi⟩ := List.getElem?_of_mem hl
    have hlen : loops.length = (l_all_dim_ids bc).length := by
      have := congrArg List.length hmap
      simpa using this
    have hlt : i < loops.length := by
      by_contra hge
      rw [List.getElem?_eq_none (by omega)] at hi
      cases hi
    have hd : (l_all_dim_ids bc)[i]? = some ((l_all_dim_ids bc)[i]) :=
      List.getElem?_eq_getElem (by omega)
    have := hget i l _ hi hd
    simp only [Prod.mk.injEq] at this
    rw [this.2.2.1, this.2.2.2, hnone hn]
  · intro l_sizes hs
    refine ⟨hsome l_sizes hs, ?_⟩
    have h1 := congrArg (List.map (fun (p : Int × Int × Int × Int) => p.2.2.1)) hmap
    simp only [List.map_map] at h1
    rw [← hsome l_sizes hs]
    exact h1
  · intro hkeys i l d hl hd
    have := hget i l d hl hd
    simp only [Prod.mk.injEq] at this
    obtain ⟨e1, e2, e3, e4⟩ := this
    refine ⟨?_, ?_, ?_⟩
    · intro hn
      rw [e1]
      unfold map_find_default l_strides_left
      rw [hkeys _ _ _ hn]
      rfl
    · intro hn
      rw [e2]
      unfold map_find_default l_strides_right
      rw [hkeys _ _ _ hn]
      rfl
    · intro hn
      refine ⟨?_, ?_⟩
      · rw [e4]
        unfold map_find_default l_strides_out
        rw [hkeys _ _ _ hn]
        rfl
      · rw [e3]
        unfold map_find_default l_strides_out_aux
        cases bc.m_dim_sizes_outer_out_aux with
        | none =>
          simp only
          unfold l_strides_out
          rw [hkeys _ _ _ hn]
          rfl
        | some l_sizes =>
          simp only
          rw [hkeys _ _ _ hn]
          rfl

/-- C30, witness: the matrix product with a full-tensor bias of the test, lowered to the loops
m, n, k with the strides (left, right, aux, out) = (1, 0, 1, 1), (0, 4, 2, 2), (2, 1, 0, 0);
with the outer size 1 of m in the auxiliary tensor the aux strides are 1, 1, 0. -/
theorem lowered_strides_witness :
    (lowered example_collaborators bias_contraction).map (fun r => r.1.map
        (fun l => (l.stride_left, l.stride_right, l.stride_out_aux, l.stride_out)))
      = some [(1, 0, 1, 1), (0, 4, 2, 2), (2, 1, 0, 0)]
    ∧ (lowered example_collaborators aux_sizes_contraction).map (fun r => r.1.map
        (fun l => (l.stride_left, l.stride_right, l.stride_out_aux, l.stride_out)))
      = some [(1, 0, 1, 1), (0, 4, 1, 2), (2, 1, 0, 0)]
    ∧ (bias_contraction.m_dim_sizes_outer_out_aux = none →
        l_strides_out_aux example_collaborators bias_contraction
          = l_strides_out example_collaborators bias_contraction
        ∧ ∀ l ∈ ((lowered example_collaborators bias_contraction).getD ([], [])).1,
            l.stride_out_aux = l.stride_out)
    ∧ (∀ (i : Nat) (l : binary.iter_property Unit) (d : Int),
        ((lowered example_collaborators bias_contraction).getD ([], [])).1[i]? = some l →
        (l_all_dim_ids bias_contraction)[i]? = some d →
        (d ∉ bias_contraction.m_dim_ids_left → l.stride_left = 0)
        ∧ (d ∉ bias_contraction.m_dim_ids_right → l.stride_right = 0)
        ∧ (d ∉ bias_contraction.m_dim_ids_out → l.stride_out = 0 ∧ l.stride_out_aux = 0)) :=
  ⟨by decide, by decide,
   (lowered_strides example_collaborators bias_contraction
      ((lowered example_collaborators bias_contraction).getD ([], [])).1
      ((lowered example_collaborators bias_contraction).getD ([], [])).2 (by decide)).2.1,
   (lowered_strides example_collaborators bias_contraction
      ((lowered example_collaborators bias_contraction).getD ([], [])).1
      ((lowered example_collaborators bias_contraction).getD ([], [])).2 (by decide)).2.2.2
      (fun ids sizes d hd => strides_lookup_none ids sizes d hd)⟩

end BinaryContractionTpp

end backend

end einsum_ir
